import Mathlib

/-! Timestamp-ordered deduplication core (`core/src/main/c/share/dedup.cpp`).

A shallow embedding of the C++ routines of `dedup.cpp` and theorems about them.

Conventions of the embedding.

* `uint64_t` timestamps and row identifiers are natural numbers; `int64_t` results are integers.
  Array positions are natural numbers (a negative position is never dereferenced by the code);
  inclusive upper bounds (`src_hi_incl`, `index_hi_incl`) are integers so that an empty range
  `lo .. lo - 1` is expressible also for `lo = 0`.
* The single-stream routines read and write caller-owned `index_t` buffers that may alias
  (`index_src == index_dest` is allowed by the code).  Memory is therefore a family of
  arrays `Mem := Nat → Nat → index_t`: a pointer to the start of a buffer is its block number,
  an element pointer `&buf[k]` is the pair of the block number and the offset `k`.
* The two merge-dedup routines write `dest` strictly sequentially (`*dest = ...; dest++`) and the
  destination must not alias an input, so their output is the list of the entries written so far.
* `while` loops whose exit depends on data carry a fuel argument; running out of fuel yields
  `none`, and every top-level function supplies its own fuel.  Counted `for` loops and scans that
  are bounded by a range recurse on the number of remaining positions.
-/

namespace Dedup

/-- The index entry `index_t` of `util.h`: a packed pair of a timestamp and a row identifier. -/
structure index_t where
  ts : Nat
  i : Nat
deriving DecidableEq, Inhabited

/-- Memory of `index_t` buffers: block number, then offset inside the block. -/
abbrev Mem := Nat → Nat → index_t

/-- The store `buf[k] = v` for the buffer in block `p`. -/
def Mem.write (m : Mem) (p k : Nat) (v : index_t) : Mem :=
  fun q j => if q = p ∧ j = k then v else m q j

/-- The block copy `__MEMCPY(&dst[doff], &src[soff], n * sizeof(index_t))` (also `__MEMMOVE`):
every source element is read from the memory before the copy. -/
def Mem.memcpy (m : Mem) (dst doff src soff n : Nat) : Mem :=
  fun q j => if q = dst ∧ doff ≤ j ∧ j < doff + n then m src (soff + (j - doff)) else m q j

/-- The entries `buf[lo], ..., buf[lo + n - 1]` of the buffer in block `p`. -/
def Mem.slice (m : Mem) (p lo n : Nat) : List index_t :=
  (List.range n).map (fun k => m p (lo + k))

/-- The value `pos | (1ull << 63)`: a persisted row position tagged with bit 63. -/
def tag63 (pos : Nat) : Nat := pos ||| 2 ^ 63

/-! ## `dedup_sorted_timestamp_index` (no keys) -/

/-- The loop `for (int64_t i = 1; i < count; i++)` of `dedup_sorted_timestamp_index`;
`n` is the number of remaining iterations `count - i`.  The result is the memory and
`some copyTo` at loop exit, or `none` when the loop body executes `return -1`. -/
def dedup_sorted_timestamp_index_loop (index_in index_out : Nat) :
    Nat → Nat → Mem → Nat → Nat → Mem × Option Nat
  | 0, _, mem, copyTo, _ => (mem, some copyTo)
  | n + 1, i, mem, copyTo, lastTimestamp =>
    if (mem index_in i).ts > lastTimestamp then
      let mem1 := mem.write index_out copyTo (mem index_in (i - 1))
      dedup_sorted_timestamp_index_loop index_in index_out n (i + 1) mem1 (copyTo + 1)
        (mem1 index_in i).ts
    else if (mem index_in i).ts < lastTimestamp then
      (mem, none)
    else
      dedup_sorted_timestamp_index_loop index_in index_out n (i + 1) mem copyTo lastTimestamp

/-- The function `dedup_sorted_timestamp_index(index_in, count, index_out)`: the returned value
and the memory after the call. -/
def dedup_sorted_timestamp_index (mem : Mem) (index_in : Nat) (count : Int) (index_out : Nat) :
    Int × Mem :=
  if count > 0 then
    match dedup_sorted_timestamp_index_loop index_in index_out (count.toNat - 1) 1 mem 0
        (mem index_in 0).ts with
    | (mem1, none) => (-1, mem1)
    | (mem1, some copyTo) =>
      ((copyTo : Int) + 1, mem1.write index_out copyTo (mem1 index_in (count.toNat - 1)))
  else (0, mem)

/-! ## `merge_sort_slice` and `merge_sort` -/

/-- The loop `while (i1 < src1_len && i2 < src2_len)` of `merge_sort_slice`.  `src1` is
`&mem[s1b][s1o]`, `src2` is `&mem[s2b][s2o]`, and `dest` is the offset of the write cursor in
block `db`.  The comparison `src1[i1] > src2[i2].ts` compares the timestamp fields. -/
def merge_sort_slice_loop (diff_l : Nat → Nat → Int) (s1b s1o s2b s2o db src1_len src2_len : Nat) :
    Nat → Mem → Nat → Nat → Nat → Option (Mem × Nat × Nat × Nat)
  | 0, mem, i1, i2, dest =>
    if i1 < src1_len ∧ i2 < src2_len then none else some (mem, i1, i2, dest)
  | fuel + 1, mem, i1, i2, dest =>
    if i1 < src1_len ∧ i2 < src2_len then
      if (mem s1b (s1o + i1)).ts > (mem s2b (s2o + i2)).ts then
        merge_sort_slice_loop diff_l s1b s1o s2b s2o db src1_len src2_len fuel
          (mem.write db dest (mem s2b (s2o + i2))) i1 (i2 + 1) (dest + 1)
      else if (mem s1b (s1o + i1)).ts < (mem s2b (s2o + i2)).ts then
        merge_sort_slice_loop diff_l s1b s1o s2b s2o db src1_len src2_len fuel
          (mem.write db dest (mem s1b (s1o + i1))) (i1 + 1) i2 (dest + 1)
      else if diff_l (mem s1b (s1o + i1)).i (mem s2b (s2o + i2)).i > 0 then
        merge_sort_slice_loop diff_l s1b s1o s2b s2o db src1_len src2_len fuel
          (mem.write db dest (mem s2b (s2o + i2))) i1 (i2 + 1) (dest + 1)
      else
        merge_sort_slice_loop diff_l s1b s1o s2b s2o db src1_len src2_len fuel
          (mem.write db dest (mem s1b (s1o + i1))) (i1 + 1) i2 (dest + 1)
    else some (mem, i1, i2, dest)

/-- The function `merge_sort_slice(src1, src2, dest, src1_len, src2_len, end, diff_l)`; the
argument `end` is only used by the assertions and is left out. -/
def merge_sort_slice (diff_l : Nat → Nat → Int) (mem : Mem)
    (s1b s1o s2b s2o db doff src1_len src2_len : Nat) : Option Mem :=
  match merge_sort_slice_loop diff_l s1b s1o s2b s2o db src1_len src2_len
      (src1_len + src2_len) mem 0 0 doff with
  | none => none
  | some (mem1, i1, i2, dest) =>
    if i1 < src1_len then
      some (mem1.memcpy db dest s1b (s1o + i1) (src1_len - i1))
    else
      some (mem1.memcpy db dest s2b (s2o + i2) (src2_len - i2))

/-- The loop `for (int64_t i = start; i < end; i += twice_slice)` of `merge_sort`: one pass that
merges adjacent runs of length `slice_len` of block `source` into block `dest`. -/
def merge_sort_pass (diff_l : Nat → Nat → Int) (source dest end_ slice_len : Nat) :
    Nat → Mem → Nat → Option Mem
  | 0, mem, i => if i < end_ then none else some mem
  | fuel + 1, mem, i =>
    if i < end_ then
      match merge_sort_slice diff_l mem source i source (i + slice_len) dest i
          (min slice_len (end_ - i))
          (max (0 : Int) (min (slice_len : Int) ((end_ : Int) - ((i : Int) + slice_len)))).toNat with
      | none => none
      | some mem1 => merge_sort_pass diff_l source dest end_ slice_len fuel mem1 (i + 2 * slice_len)
    else some mem

/-- The `do { ... } while (slice_len < len)` loop of `merge_sort`; `cycle % 2` selects the
destination, first `index_dest2`, then `index_dest1`.  The result is the memory and the block
of the buffer that holds the sorted range. -/
def merge_sort_loop (diff_l : Nat → Nat → Int) (index_dest1 index_dest2 start end_ : Nat) :
    Nat → Mem → Nat → Nat → Nat → Option (Mem × Nat)
  | 0, _, _, _, _ => none
  | fuel + 1, mem, source, slice_len, cycle =>
    let dest := if cycle % 2 = 0 then index_dest2 else index_dest1
    match merge_sort_pass diff_l source dest end_ slice_len (end_ - start) mem start with
    | none => none
    | some mem1 =>
      if 2 * slice_len < end_ - start then
        merge_sort_loop diff_l index_dest1 index_dest2 start end_ fuel mem1 dest (2 * slice_len)
          (cycle + 1)
      else some (mem1, dest)

/-- The function `merge_sort(index_src, index_dest1, index_dest2, start, end, diff_l)`. -/
def merge_sort (diff_l : Nat → Nat → Int) (mem : Mem)
    (index_src index_dest1 index_dest2 start end_ : Nat) : Option (Mem × Nat) :=
  merge_sort_loop diff_l index_dest1 index_dest2 start end_ (end_ - start + 1) mem index_src 1 0

/-! ## `dedup_sorted_timestamp_index_with_keys` -/

/-- The loop `for (int64_t i = 1; i < count; i++)` that finds the duplicate range; `n` is the
number of remaining iterations.  The result is `(dup_start, dup_end, ts_index)` at loop exit, or
`none` when the loop body executes `return -1`. -/
def dup_range_loop (mem : Mem) (index_src : Nat) :
    Nat → Nat → Int → Nat → Nat → Option (Int × Nat × Nat)
  | 0, _, dup_start, dup_end, ts_index => some (dup_start, dup_end, ts_index)
  | n + 1, i, dup_start, dup_end, ts_index =>
    if (mem index_src i).ts > (mem index_src ts_index).ts then
      if i > ts_index + 1 then
        dup_range_loop mem index_src n (i + 1)
          (if dup_start > -1 then dup_start else (ts_index : Int)) i i
      else
        dup_range_loop mem index_src n (i + 1) dup_start dup_end i
    else if (mem index_src i).ts < (mem index_src ts_index).ts then none
    else dup_range_loop mem index_src n (i + 1) dup_start dup_end ts_index

/-- The linear pass `for (int64_t i = dup_start + 1; i < dup_end; i++)` over the sorted range;
`n` is the number of remaining iterations.  The result is the memory and `some (copy_to, last)`
at loop exit, or `none` when the loop body executes `return -1`. -/
def dedup_pass_loop (diff_l : Nat → Nat → Int) (merge_result index_dest : Nat) :
    Nat → Nat → Mem → Nat → Nat → Mem × Option (Nat × Nat)
  | 0, _, mem, copy_to, last => (mem, some (copy_to, last))
  | n + 1, i, mem, copy_to, last =>
    let l := (mem merge_result last).i
    let r := (mem merge_result i).i
    if (mem merge_result i).ts > (mem merge_result last).ts ∨ diff_l l r ≠ 0 then
      dedup_pass_loop diff_l merge_result index_dest n (i + 1)
        (mem.write index_dest copy_to (mem merge_result (i - 1))) (copy_to + 1) i
    else if (mem merge_result i).ts ≠ (mem merge_result last).ts then (mem, none)
    else dedup_pass_loop diff_l merge_result index_dest n (i + 1) mem copy_to last

/-- The second half of `dedup_sorted_timestamp_index_with_keys`, from the call of `merge_sort`
to the final `return`, for the duplicate range `[dup_start, dup_end)` found by the first half. -/
def dedup_range_with_keys (diff_l : Nat → Nat → Int) (mem : Mem) (index_src count index_dest
    index_tmp dup_start dup_end : Nat) : Option (Int × Mem) :=
  match merge_sort diff_l mem index_src index_dest index_tmp dup_start dup_end with
  | none => none
  | some (mem1, merge_result) =>
    match dedup_pass_loop diff_l merge_result index_dest (dup_end - (dup_start + 1))
        (dup_start + 1) mem1 dup_start dup_start with
    | (mem2, none) => some (-1, mem2)
    | (mem2, some (copy_to, _)) =>
      let mem3 := mem2.write index_dest copy_to (mem2 merge_result (dup_end - 1))
      let mem4 :=
        if index_src ≠ index_dest then mem3.memcpy index_dest 0 index_src 0 dup_start else mem3
      let tail := count - dup_end
      some ((copy_to : Int) + 1 + tail,
        mem4.memcpy index_dest (copy_to + 1) index_src dup_end tail)

/-- The function
`dedup_sorted_timestamp_index_with_keys(index_src, count, index_dest, index_tmp, diff_l)`:
the returned value and the memory after the call (`none` only if a loop ran out of fuel). -/
def dedup_sorted_timestamp_index_with_keys (diff_l : Nat → Nat → Int) (mem : Mem)
    (index_src : Nat) (count : Int) (index_dest index_tmp : Nat) : Option (Int × Mem) :=
  if count < 2 then some (-2, mem)
  else
    match dup_range_loop mem index_src (count.toNat - 1) 1 (-1) 0 0 with
    | none => some (-1, mem)
    | some (dup_start, dup_end, ts_index) =>
      if (ts_index : Int) < count - 1 ∧
          (mem index_src ts_index).ts = (mem index_src (count.toNat - 1)).ts then
        dedup_range_with_keys diff_l mem index_src count.toNat index_dest index_tmp
          (if dup_start > -1 then dup_start else (ts_index : Int)).toNat count.toNat
      else if dup_start = -1 ∨ (dup_end : Int) - dup_start ≤ 0 then some (-2, mem)
      else
        dedup_range_with_keys diff_l mem index_src count.toNat index_dest index_tmp
          dup_start.toNat dup_end

/-! ## `branch_free_search` -/

/-- The loop `while (n > 1)` of `branch_free_search`; `base` is the offset `base - array`. -/
def branch_free_search_loop (compare : Nat → Nat → Int) (searchIndex : Nat)
    (array : Nat → index_t) : Nat → Nat → Nat → Option Nat
  | 0, base, n => if n > 1 then none else some base
  | fuel + 1, base, n =>
    if n > 1 then
      let half := n / 2
      let diff := compare searchIndex (array (base + half)).i
      branch_free_search_loop compare searchIndex array fuel
        (if diff > 0 then base + half else base) (n - half)
    else some base

/-- The function `branch_free_search(searchIndex, array, count, compare)`. -/
def branch_free_search (compare : Nat → Nat → Int) (searchIndex : Nat) (array : Nat → index_t)
    (count : Nat) : Option Int :=
  match branch_free_search_loop compare searchIndex array count 0 count with
  | none => none
  | some base =>
    if compare searchIndex (array base).i = 0 then some (base : Int)
    else if base + 1 < count ∧ compare searchIndex (array (base + 1)).i = 0 then
      some ((base : Int) + 1)
    else some (-1)

/-! ## `merge_dedup_long_index_int_keys` -/

/-- The scan `while (pos <= index_hi_incl && index[pos].ts == conflict_ts) pos++`, used for
`conflict_end_pos` (and for `index_pos` in the no-key merge); `n` is the number of positions
`pos .. index_hi_incl`. -/
def conflict_end_loop (index : Nat → index_t) (conflict_ts : Nat) : Nat → Nat → Nat
  | 0, pos => pos
  | n + 1, pos =>
    if (index pos).ts = conflict_ts then conflict_end_loop index conflict_ts n (pos + 1) else pos

/-- The loop `while (src_pos <= src_hi_incl && src[src_pos] == conflict_ts)` of the key-aware
conflict band; `n` is the number of positions `src_pos .. src_hi_incl`, `dest` the entries
written so far and `used_indexes` the bitmap of the band. -/
def conflict_src_loop (compare : Nat → Nat → Int) (src : Nat → Nat) (index : Nat → index_t)
    (index_pos binary_search_len conflict_ts : Nat) :
    Nat → Nat → List index_t → List Bool → Option (Nat × List index_t × List Bool)
  | 0, src_pos, dest, used_indexes => some (src_pos, dest, used_indexes)
  | n + 1, src_pos, dest, used_indexes =>
    if src src_pos = conflict_ts then
      match branch_free_search compare src_pos (fun k => index (index_pos + k))
          binary_search_len with
      | none => none
      | some matched_index =>
        if matched_index > -1 then
          conflict_src_loop compare src index index_pos binary_search_len conflict_ts n
            (src_pos + 1)
            (dest ++ [⟨conflict_ts, (index (index_pos + matched_index.toNat)).i⟩])
            (used_indexes.set matched_index.toNat true)
        else
          conflict_src_loop compare src index index_pos binary_search_len conflict_ts n
            (src_pos + 1) (dest ++ [⟨conflict_ts, tag63 src_pos⟩]) used_indexes
    else some (src_pos, dest, used_indexes)

/-- The loop `for (auto i_pos = index_pos; i_pos < conflict_end_pos; i_pos++)` that adds the
band entries with no match; `n` is the number of remaining iterations. -/
def conflict_unmatched_loop (index : Nat → index_t) (index_pos : Nat) (used_indexes : List Bool) :
    Nat → Nat → List index_t → List index_t
  | 0, _, dest => dest
  | n + 1, i_pos, dest =>
    if ¬ used_indexes.getD (i_pos - index_pos) false = true then
      conflict_unmatched_loop index index_pos used_indexes n (i_pos + 1) (dest ++ [index i_pos])
    else
      conflict_unmatched_loop index index_pos used_indexes n (i_pos + 1) dest

/-- The loop that drains the persisted side:
`for (; src_pos <= src_hi_incl; src_pos++, dest++) { dest[0].ts = src[src_pos]; ... }`;
`n` is the number of positions `src_pos .. src_hi_incl`. -/
def src_drain_loop (src : Nat → Nat) : Nat → Nat → List index_t → List index_t
  | 0, _, dest => dest
  | n + 1, src_pos, dest =>
    src_drain_loop src n (src_pos + 1) (dest ++ [⟨src src_pos, tag63 src_pos⟩])

/-- The loop `while (src_pos <= src_hi_incl && index_pos <= index_hi_incl)` of
`merge_dedup_long_index_int_keys`. -/
def merge_dedup_long_index_int_keys_loop (compare : Nat → Nat → Int) (src : Nat → Nat)
    (src_hi_incl : Int) (index : Nat → index_t) (index_hi_incl : Int) :
    Nat → Nat → Nat → List index_t → Option (Nat × Nat × List index_t)
  | 0, src_pos, index_pos, dest =>
    if (src_pos : Int) ≤ src_hi_incl ∧ (index_pos : Int) ≤ index_hi_incl then none
    else some (src_pos, index_pos, dest)
  | fuel + 1, src_pos, index_pos, dest =>
    if (src_pos : Int) ≤ src_hi_incl ∧ (index_pos : Int) ≤ index_hi_incl then
      if src src_pos < (index index_pos).ts then
        merge_dedup_long_index_int_keys_loop compare src src_hi_incl index index_hi_incl fuel
          (src_pos + 1) index_pos (dest ++ [⟨src src_pos, tag63 src_pos⟩])
      else if src src_pos > (index index_pos).ts then
        merge_dedup_long_index_int_keys_loop compare src src_hi_incl index index_hi_incl fuel
          src_pos (index_pos + 1) (dest ++ [index index_pos])
      else
        let conflict_ts := src src_pos
        let conflict_end_pos :=
          conflict_end_loop index conflict_ts (index_hi_incl + 1 - index_pos).toNat index_pos
        let binary_search_len := conflict_end_pos - index_pos
        match conflict_src_loop compare src index index_pos binary_search_len conflict_ts
            (src_hi_incl + 1 - src_pos).toNat src_pos dest
            (List.replicate binary_search_len false) with
        | none => none
        | some (src_pos1, dest1, used_indexes) =>
          merge_dedup_long_index_int_keys_loop compare src src_hi_incl index index_hi_incl fuel
            src_pos1 conflict_end_pos
            (conflict_unmatched_loop index index_pos used_indexes binary_search_len index_pos
              dest1)
    else some (src_pos, index_pos, dest)

/-- The function `merge_dedup_long_index_int_keys(src, src_lo, src_hi_incl, index, index_lo,
index_hi_incl, dest_index, compare)`: the returned value `dest - dest_index` and the entries
`dest_index[0 .. dest - dest_index)` that were written. -/
def merge_dedup_long_index_int_keys (compare : Nat → Nat → Int) (src : Nat → Nat)
    (src_lo : Nat) (src_hi_incl : Int) (index : Nat → index_t) (index_lo : Nat)
    (index_hi_incl : Int) : Option (Int × List index_t) :=
  match merge_dedup_long_index_int_keys_loop compare src src_hi_incl index index_hi_incl
      ((src_hi_incl + 1 - src_lo).toNat + (index_hi_incl + 1 - index_lo).toNat)
      src_lo index_lo [] with
  | none => none
  | some (src_pos, index_pos, dest) =>
    if (index_pos : Int) ≤ index_hi_incl then
      let dest1 := dest ++
        (List.range (index_hi_incl - index_pos + 1).toNat).map (fun k => index (index_pos + k))
      some ((dest1.length : Int), dest1)
    else
      let dest1 := src_drain_loop src (src_hi_incl + 1 - src_pos).toNat src_pos dest
      some ((dest1.length : Int), dest1)

/-! ## `Java_io_questdb_std_Vect_mergeDedupTimestampWithLongIndexAsc` (no keys) -/

/-- The loop `while (src_pos <= src_hi_incl && src[src_pos] == conflict_ts)` of the no-key
conflict band: every persisted row of the band is replaced by `index[index_pos - 1]`;
`n` is the number of positions `src_pos .. src_hi_incl`. -/
def replace_src_loop (src : Nat → Nat) (index : Nat → index_t) (index_pos conflict_ts : Nat) :
    Nat → Nat → List index_t → Nat × List index_t
  | 0, src_pos, dest => (src_pos, dest)
  | n + 1, src_pos, dest =>
    if src src_pos = conflict_ts then
      replace_src_loop src index index_pos conflict_ts n (src_pos + 1)
        (dest ++ [index (index_pos - 1)])
    else (src_pos, dest)

/-- The first loop `while (src_pos <= src_hi_incl && index_pos <= index_hi_inc)` of
`mergeDedupTimestampWithLongIndexAsc`. -/
def mergeDedupTimestampWithLongIndexAsc_loop (src : Nat → Nat) (src_hi_incl : Int)
    (index : Nat → index_t) (index_hi_inc : Int) :
    Nat → Nat → Nat → List index_t → Option (Nat × Nat × List index_t)
  | 0, src_pos, index_pos, dest =>
    if (src_pos : Int) ≤ src_hi_incl ∧ (index_pos : Int) ≤ index_hi_inc then none
    else some (src_pos, index_pos, dest)
  | fuel + 1, src_pos, index_pos, dest =>
    if (src_pos : Int) ≤ src_hi_incl ∧ (index_pos : Int) ≤ index_hi_inc then
      if src src_pos < (index index_pos).ts then
        mergeDedupTimestampWithLongIndexAsc_loop src src_hi_incl index index_hi_inc fuel
          (src_pos + 1) index_pos (dest ++ [⟨src src_pos, tag63 src_pos⟩])
      else if src src_pos > (index index_pos).ts then
        mergeDedupTimestampWithLongIndexAsc_loop src src_hi_incl index index_hi_inc fuel
          src_pos (index_pos + 1) (dest ++ [index index_pos])
      else
        let conflict_ts := src src_pos
        let index_pos1 :=
          conflict_end_loop index conflict_ts (index_hi_inc + 1 - index_pos).toNat index_pos
        let r := replace_src_loop src index index_pos1 conflict_ts
          (src_hi_incl + 1 - src_pos).toNat src_pos dest
        mergeDedupTimestampWithLongIndexAsc_loop src src_hi_incl index index_hi_inc fuel
          r.1 index_pos1 r.2
    else some (src_pos, index_pos, dest)

/-- The loop `while (index_pos <= index_hi_inc) { dest[0] = index[index_pos]; ... }` that
drains the O3 index; `n` is the number of positions `index_pos .. index_hi_inc`. -/
def index_drain_loop (index : Nat → index_t) : Nat → Nat → List index_t → Nat × List index_t
  | 0, index_pos, dest => (index_pos, dest)
  | n + 1, index_pos, dest =>
    index_drain_loop index n (index_pos + 1) (dest ++ [index index_pos])

/-- The JNI entry point `Java_io_questdb_std_Vect_mergeDedupTimestampWithLongIndexAsc(pSrc,
srcLo, srcHiInclusive, pIndex, indexLo, indexHiInclusive, pDestIndex)`: the returned value and
the entries written to `pDestIndex`. -/
def Java_io_questdb_std_Vect_mergeDedupTimestampWithLongIndexAsc (src : Nat → Nat)
    (srcLo : Nat) (srcHiInclusive : Int) (index : Nat → index_t) (indexLo : Nat)
    (indexHiInclusive : Int) : Option (Int × List index_t) :=
  match mergeDedupTimestampWithLongIndexAsc_loop src srcHiInclusive index indexHiInclusive
      ((srcHiInclusive + 1 - srcLo).toNat + (indexHiInclusive + 1 - indexLo).toNat)
      srcLo indexLo [] with
  | none => none
  | some (src_pos, index_pos, dest) =>
    let r := index_drain_loop index (indexHiInclusive + 1 - index_pos).toNat index_pos dest
    let dest2 := src_drain_loop src (srcHiInclusive + 1 - src_pos).toNat src_pos r.2
    some ((dest2.length : Int), dest2)

/-! ## Key columns and the comparators of the JNI entry points -/

/-- The aggregate `struct int256 { __int128 lo; __int128 hi; }`. -/
structure int256 where
  lo : Int
  hi : Int
deriving DecidableEq, Inhabited

/-- The operator `operator>(const int256 &a, const int256 &b)`. -/
def int256.gt (a b : int256) : Bool := decide (a.hi > b.hi) || decide (a.lo > b.lo)

/-- The operator `operator<(const int256 &a, const int256 &b)`. -/
def int256.lt (a b : int256) : Bool := decide (a.hi < b.hi) || decide (a.lo < b.lo)

/-- The built-in `>` of the signed integer types `int8_t`, ..., `__int128`. -/
def int_gt (a b : Int) : Bool := decide (a > b)

/-- The built-in `<` of the signed integer types `int8_t`, ..., `__int128`. -/
def int_lt (a b : Int) : Bool := decide (a < b)

/-- A raw buffer (a `void *`, or the array `char null_value[32]`), given by what the code reads
from it through a typed pointer: `ints w k` is `((T *) p)[k]` for the signed integer type `T`
of `w` bytes, and `wide k` is `((int256 *) p)[k]`. -/
structure raw_buffer where
  ints : Nat → Int → Int
  wide : Int → int256

/-- The descriptor `struct dedup_column` (the reserved fields are never read). -/
structure dedup_column where
  column_type : Int
  value_size_bytes : Int
  column_top : Int
  column_data : raw_buffer
  o3_data : raw_buffer
  null_value : raw_buffer

/-- The view `dedup_column_t<T>` of a descriptor: `get_column_data()`, `get_o3_data()` and
`get_null_value()` at the element type `T`, and the inherited `column_top`. -/
structure dedup_column_t (T : Type) where
  column_top : Int
  get_column_data : Int → T
  get_o3_data : Int → T
  get_null_value : T

/-- The cast `(dedup_column_t<T> *) col_key` for the signed integer type `T` of `w` bytes. -/
def dedup_column.as_int (col_key : dedup_column) (w : Nat) : dedup_column_t Int :=
  { column_top := col_key.column_top
    get_column_data := col_key.column_data.ints w
    get_o3_data := col_key.o3_data.ints w
    get_null_value := col_key.null_value.ints w 0 }

/-- The cast `(dedup_column_t<int256> *) col_key`. -/
def dedup_column.as_int256 (col_key : dedup_column) : dedup_column_t int256 :=
  { column_top := col_key.column_top
    get_column_data := col_key.column_data.wide
    get_o3_data := col_key.o3_data.wide
    get_null_value := col_key.null_value.wide 0 }

/-- The conversion of a `uint64_t` row identifier to the `int64_t` parameter of a comparator
lambda. -/
def toInt64 (x : Nat) : Int :=
  if x % 2 ^ 64 < 2 ^ 63 then (x % 2 ^ 64 : Nat) else (x % 2 ^ 64 : Nat) - 2 ^ 64

/-- The value `l & ~(1ull << 63)` for an `int64_t` `l`: the operand is converted to `uint64_t`
and bit 63 is cleared. -/
def clear63 (l : Int) : Int := (((l % 2 ^ 64).toNat &&& (2 ^ 64 - 1 - 2 ^ 63) : Nat) : Int)

/-- The generic lambda `compare_by_rowid` of
`Java_io_questdb_std_Vect_mergeDedupTimestampWithLongIndexIntKeys`, at an element type with
the operators `gt` (`>`) and `lt` (`<`); the two assertions are left out. -/
def compare_by_rowid_merge {T : Type} (gt lt : T → T → Bool) (column : dedup_column_t T)
    (col_index index_index : Int) : Int :=
  let l_val :=
    if col_index ≥ column.column_top then column.get_column_data col_index
    else column.get_null_value
  let r_val := column.get_o3_data index_index
  if gt l_val r_val then 1 else if lt l_val r_val then -1 else 0

/-- The generic lambda `compare_by_rowid` of `Java_io_questdb_std_Vect_dedupSortedTimestampIndex`,
at an element type with the operators `gt` (`>`) and `lt` (`<`). -/
def compare_by_rowid_sorted {T : Type} (gt lt : T → T → Bool) (column : dedup_column_t T)
    (l r : Int) : Int :=
  let l_val := if l > -1 then column.get_column_data l else column.get_o3_data (clear63 l)
  let r_val := if r > -1 then column.get_column_data r else column.get_o3_data (clear63 r)
  if gt l_val r_val then 1 else if lt l_val r_val then -1 else 0

/-! ### `Java_io_questdb_std_Vect_mergeDedupTimestampWithLongIndexIntKeys` -/

/-- The `switch (col_key->value_size_bytes)` of the branch `dedupKeyCount == 1`: the lambda
`compare_1`, ..., `compare_32` of the case that is taken, or `none` for `default`. -/
def merge_compare_mono (col_key : dedup_column) : Option (Int → Int → Int) :=
  if col_key.value_size_bytes = 1 then
    some (fun l r => compare_by_rowid_merge int_gt int_lt (col_key.as_int 1) l r)
  else if col_key.value_size_bytes = 2 then
    some (fun l r => compare_by_rowid_merge int_gt int_lt (col_key.as_int 2) l r)
  else if col_key.value_size_bytes = 4 then
    some (fun l r => compare_by_rowid_merge int_gt int_lt (col_key.as_int 4) l r)
  else if col_key.value_size_bytes = 8 then
    some (fun l r => compare_by_rowid_merge int_gt int_lt (col_key.as_int 8) l r)
  else if col_key.value_size_bytes = 16 then
    some (fun l r => compare_by_rowid_merge int_gt int_lt (col_key.as_int 16) l r)
  else if col_key.value_size_bytes = 32 then
    some (fun l r => compare_by_rowid_merge int256.gt int256.lt col_key.as_int256 l r)
  else none

/-- The `switch (col_key->value_size_bytes)` inside the loop of `compareIndexes`: the value
assigned to `diff`, or `none` for `default` (where the lambda returns 0). -/
def merge_column_diff (col_key : dedup_column) (l r : Int) : Option Int :=
  if col_key.value_size_bytes = 1 then
    some (compare_by_rowid_merge int_gt int_lt (col_key.as_int 1) l r)
  else if col_key.value_size_bytes = 2 then
    some (compare_by_rowid_merge int_gt int_lt (col_key.as_int 2) l r)
  else if col_key.value_size_bytes = 4 then
    some (compare_by_rowid_merge int_gt int_lt (col_key.as_int 4) l r)
  else if col_key.value_size_bytes = 8 then
    some (compare_by_rowid_merge int_gt int_lt (col_key.as_int 8) l r)
  else if col_key.value_size_bytes = 16 then
    some (compare_by_rowid_merge int_gt int_lt (col_key.as_int 16) l r)
  else if col_key.value_size_bytes = 32 then
    some (compare_by_rowid_merge int256.gt int256.lt col_key.as_int256 l r)
  else none

/-- The loop `for (int c = 0; c < dedupKeyCount; c++)` of the lambda `compareIndexes`; `n` is
the number of remaining iterations. -/
def compareIndexes_loop (src_keys : Nat → dedup_column) (l r : Int) : Nat → Nat → Int
  | 0, _ => 0
  | n + 1, c =>
    match merge_column_diff (src_keys c) l r with
    | none => 0
    | some diff => if diff ≠ 0 then diff else compareIndexes_loop src_keys l r n (c + 1)

/-- The lambda `compareIndexes` (multiple column dedup) of the merge entry point. -/
def compareIndexes (dedupKeyCount : Int) (src_keys : Nat → dedup_column) (l r : Int) : Int :=
  compareIndexes_loop src_keys l r dedupKeyCount.toNat 0

/-- The JNI entry point `Java_io_questdb_std_Vect_mergeDedupTimestampWithLongIndexIntKeys`:
the returned value and the entries written to `tempIndexAddr`.  The comparator lambdas take
`int64_t` arguments: the persisted position, and the row identifier converted by `toInt64`. -/
def Java_io_questdb_std_Vect_mergeDedupTimestampWithLongIndexIntKeys (src : Nat → Nat)
    (mergeDataLo : Nat) (mergeDataHi : Int) (index : Nat → index_t) (mergeOOOLo : Nat)
    (mergeOOOHi : Int) (dedupKeyCount : Int) (src_keys : Nat → dedup_column) :
    Option (Int × List index_t) :=
  if dedupKeyCount = 1 then
    match merge_compare_mono (src_keys 0) with
    | some compare_n =>
      merge_dedup_long_index_int_keys (fun l r => compare_n (l : Int) (toInt64 r)) src
        mergeDataLo mergeDataHi index mergeOOOLo mergeOOOHi
    | none => some (-1, [])
  else
    merge_dedup_long_index_int_keys
      (fun l r => compareIndexes dedupKeyCount src_keys (l : Int) (toInt64 r)) src
      mergeDataLo mergeDataHi index mergeOOOLo mergeOOOHi

/-! ### `Java_io_questdb_std_Vect_dedupSortedTimestampIndex` -/

/-- The `switch (col_key->value_size_bytes)` of the branch `dedupKeyCount == 1`: the lambda
`compare_1`, ..., `compare_32` of the case that is taken, or `none` for `default`. -/
def sorted_compare_mono (col_key : dedup_column) : Option (Int → Int → Int) :=
  if col_key.value_size_bytes = 1 then
    some (fun l r => compare_by_rowid_sorted int_gt int_lt (col_key.as_int 1) l r)
  else if col_key.value_size_bytes = 2 then
    some (fun l r => compare_by_rowid_sorted int_gt int_lt (col_key.as_int 2) l r)
  else if col_key.value_size_bytes = 4 then
    some (fun l r => compare_by_rowid_sorted int_gt int_lt (col_key.as_int 4) l r)
  else if col_key.value_size_bytes = 8 then
    some (fun l r => compare_by_rowid_sorted int_gt int_lt (col_key.as_int 8) l r)
  else if col_key.value_size_bytes = 16 then
    some (fun l r => compare_by_rowid_sorted int_gt int_lt (col_key.as_int 16) l r)
  else if col_key.value_size_bytes = 32 then
    some (fun l r => compare_by_rowid_sorted int256.gt int256.lt col_key.as_int256 l r)
  else none

/-- The `switch (col_key->value_size_bytes)` inside the loop of the lambda `diff_l`: the value
assigned to `diff`, or `none` for `default` (where the lambda returns 0). -/
def sorted_column_diff (col_key : dedup_column) (l r : Int) : Option Int :=
  if col_key.value_size_bytes = 1 then
    some (compare_by_rowid_sorted int_gt int_lt (col_key.as_int 1) l r)
  else if col_key.value_size_bytes = 2 then
    some (compare_by_rowid_sorted int_gt int_lt (col_key.as_int 2) l r)
  else if col_key.value_size_bytes = 4 then
    some (compare_by_rowid_sorted int_gt int_lt (col_key.as_int 4) l r)
  else if col_key.value_size_bytes = 8 then
    some (compare_by_rowid_sorted int_gt int_lt (col_key.as_int 8) l r)
  else if col_key.value_size_bytes = 16 then
    some (compare_by_rowid_sorted int_gt int_lt (col_key.as_int 16) l r)
  else if col_key.value_size_bytes = 32 then
    some (compare_by_rowid_sorted int256.gt int256.lt col_key.as_int256 l r)
  else none

/-- The loop `for (int c = 0; c < dedupKeyCount; c++)` of the lambda `diff_l`; `n` is the
number of remaining iterations. -/
def diff_l_loop (src_keys : Nat → dedup_column) (l r : Int) : Nat → Nat → Int
  | 0, _ => 0
  | n + 1, c =>
    match sorted_column_diff (src_keys c) l r with
    | none => 0
    | some diff => if diff ≠ 0 then diff else diff_l_loop src_keys l r n (c + 1)

/-- The lambda `diff_l` (multiple columns) of
`Java_io_questdb_std_Vect_dedupSortedTimestampIndex`. -/
def diff_l (dedupKeyCount : Int) (src_keys : Nat → dedup_column) (l r : Int) : Int :=
  diff_l_loop src_keys l r dedupKeyCount.toNat 0

/-- The JNI entry point `Java_io_questdb_std_Vect_dedupSortedTimestampIndex`: the returned
value and the memory after the call.  The comparator lambdas take `int64_t` arguments, the row
identifiers converted by `toInt64`. -/
def Java_io_questdb_std_Vect_dedupSortedTimestampIndex (mem : Mem) (pIndexIn : Nat)
    (count : Int) (pIndexOut pIndexTemp : Nat) (dedupKeyCount : Int)
    (src_keys : Nat → dedup_column) : Option (Int × Mem) :=
  if dedupKeyCount = 0 then
    some (dedup_sorted_timestamp_index mem pIndexIn count pIndexOut)
  else if dedupKeyCount = 1 then
    match sorted_compare_mono (src_keys 0) with
    | some compare_n =>
      dedup_sorted_timestamp_index_with_keys (fun l r => compare_n (toInt64 l) (toInt64 r)) mem
        pIndexIn count pIndexOut pIndexTemp
    | none => some (-1, mem)
  else
    dedup_sorted_timestamp_index_with_keys
      (fun l r => diff_l dedupKeyCount src_keys (toInt64 l) (toInt64 r)) mem
      pIndexIn count pIndexOut pIndexTemp

/-! ## Specification-level functions used in the statements -/

/-- The last entry of every maximal run of equal timestamps, in input order. -/
def lastOfRuns : List index_t → List index_t
  | [] => []
  | [a] => [a]
  | a :: b :: t => if a.ts = b.ts then lastOfRuns (b :: t) else a :: lastOfRuns (b :: t)

/-- Invariant of the loop that finds the duplicate range, before iteration `i`; `t k` is the
timestamp of entry `k`. -/
def DupInv (t : Nat → Nat) (i : Nat) (ds : Int) (de ti : Nat) : Prop :=
  ti < i ∧ (∀ k, ti ≤ k → k < i → t k = t ti) ∧
  ((ds = -1 ∧ de = 0 ∧ ∀ k, k < ti → t k < t (k + 1)) ∨
   (0 ≤ ds ∧ ds.toNat + 2 ≤ de ∧ de ≤ ti ∧ t ds.toNat = t (ds.toNat + 1) ∧
     (∀ k, k < ds.toNat → t k < t (k + 1)) ∧ (∀ k, de ≤ k + 1 → k < ti → t k < t (k + 1))))

/-- The range `[a, b)` covers every tie of the `N` timestamps `t 0, ..., t (N - 1)`: it starts
with a tie, and outside of it adjacent timestamps increase strictly. -/
def DupRange (t : Nat → Nat) (N a b : Nat) : Prop :=
  a + 2 ≤ b ∧ b ≤ N ∧ t a = t (a + 1) ∧ (∀ k, k < a → t k < t (k + 1)) ∧
  (∀ k, b ≤ k + 1 → k + 1 < N → t k < t (k + 1))

/-- The conflict band of the no-key merge as a function of the loop state: the body of the
`else` branch (`index_ts == src_ts`) of `mergeDedupTimestampWithLongIndexAsc`. -/
def band_no_key (src : Nat → Nat) (src_hi_incl : Int) (index : Nat → index_t)
    (index_hi_inc : Int) (src_pos index_pos : Nat) (dest : List index_t) :
    Option (Nat × Nat × List index_t) :=
  let index_pos1 :=
    conflict_end_loop index (src src_pos) (index_hi_inc + 1 - index_pos).toNat index_pos
  let r := replace_src_loop src index index_pos1 (src src_pos)
    (src_hi_incl + 1 - src_pos).toNat src_pos dest
  some (r.1, index_pos1, r.2)

/-- The conflict band of the key-aware merge as a function of the loop state: the body of the
`else` branch (`index_ts == src_ts`) of `merge_dedup_long_index_int_keys`. -/
def band_with_keys (compare : Nat → Nat → Int) (src : Nat → Nat) (src_hi_incl : Int)
    (index : Nat → index_t) (index_hi_incl : Int) (src_pos index_pos : Nat)
    (dest : List index_t) : Option (Nat × Nat × List index_t) :=
  let conflict_end_pos :=
    conflict_end_loop index (src src_pos) (index_hi_incl + 1 - index_pos).toNat index_pos
  match conflict_src_loop compare src index index_pos (conflict_end_pos - index_pos)
      (src src_pos) (src_hi_incl + 1 - src_pos).toNat src_pos dest
      (List.replicate (conflict_end_pos - index_pos) false) with
  | none => none
  | some (src_pos1, dest1, used_indexes) =>
    some (src_pos1, conflict_end_pos,
      conflict_unmatched_loop index index_pos used_indexes (conflict_end_pos - index_pos)
        index_pos dest1)

/-- The common shape of the main loops of the two merge functions, with the treatment of a
conflict band as a parameter. -/
def merge_skel (bandf : Nat → Nat → List index_t → Option (Nat × Nat × List index_t))
    (src : Nat → Nat) (src_hi_incl : Int) (index : Nat → index_t) (index_hi_incl : Int) :
    Nat → Nat → Nat → List index_t → Option (Nat × Nat × List index_t)
  | 0, src_pos, index_pos, dest =>
    if (src_pos : Int) ≤ src_hi_incl ∧ (index_pos : Int) ≤ index_hi_incl then none
    else some (src_pos, index_pos, dest)
  | fuel + 1, src_pos, index_pos, dest =>
    if (src_pos : Int) ≤ src_hi_incl ∧ (index_pos : Int) ≤ index_hi_incl then
      if src src_pos < (index index_pos).ts then
        merge_skel bandf src src_hi_incl index index_hi_incl fuel
          (src_pos + 1) index_pos (dest ++ [⟨src src_pos, tag63 src_pos⟩])
      else if src src_pos > (index index_pos).ts then
        merge_skel bandf src src_hi_incl index index_hi_incl fuel
          src_pos (index_pos + 1) (dest ++ [index index_pos])
      else
        match bandf src_pos index_pos dest with
        | none => none
        | some (src_pos1, index_pos1, dest1) =>
          merge_skel bandf src src_hi_incl index index_hi_incl fuel src_pos1 index_pos1 dest1
    else some (src_pos, index_pos, dest)

/-- The two cursors separate the timestamps: every consumed persisted row is strictly older
than every remaining index entry, and every consumed index entry is strictly older than every
remaining persisted row. -/
def Cross (src : Nat → Nat) (src_lo : Nat) (src_hi_incl : Int) (index : Nat → index_t)
    (index_lo : Nat) (index_hi_incl : Int) (sp ip : Nat) : Prop :=
  (∀ p k, src_lo ≤ p → p < sp → ip ≤ k → (k : Int) ≤ index_hi_incl → src p < (index k).ts) ∧
  (∀ k p, index_lo ≤ k → k < ip → sp ≤ p → (p : Int) ≤ src_hi_incl → (index k).ts < src p)

/-- The positions `[sp, sp1)` are exactly the persisted rows and `[ip, ip1)` exactly the index
entries of the conflict band that starts at the cursors `sp`, `ip`. -/
def BandRun (src : Nat → Nat) (src_hi_incl : Int) (index : Nat → index_t) (index_hi_incl : Int)
    (sp ip sp1 ip1 : Nat) : Prop :=
  sp < sp1 ∧ (sp1 : Int) ≤ src_hi_incl + 1 ∧ ip < ip1 ∧ (ip1 : Int) ≤ index_hi_incl + 1 ∧
  (∀ p, sp ≤ p → p < sp1 → src p = src sp) ∧ ((sp1 : Int) ≤ src_hi_incl → src sp1 ≠ src sp) ∧
  (∀ k, ip ≤ k → k < ip1 → (index k).ts = src sp) ∧
  ((ip1 : Int) ≤ index_hi_incl → (index ip1).ts ≠ src sp)

/-- The positions `lo, lo + 1, ..., hi` of an inclusive range (empty when `hi < lo`). -/
def rowsOf (lo : Nat) (hi : Int) : List Nat := List.range' lo (hi + 1 - lo).toNat

/-- The output entry that the no-key merge owes to the persisted row `p`: the last index entry
with the timestamp of `p` if there is one, and otherwise the row itself, tagged with bit 63. -/
def expectedRow (src : Nat → Nat) (idxL : List index_t) (p : Nat) : index_t :=
  match (idxL.filter (fun e => e.ts = src p)).getLast? with
  | some e => e
  | none => ⟨src p, tag63 p⟩

/-- The entries that the no-key merge has to produce: one entry for every persisted row, and
every index entry whose timestamp occurs at no persisted row. -/
def mergeExpected (src : Nat → Nat) (rows : List Nat) (idxL : List index_t) : List index_t :=
  rows.map (expectedRow src idxL) ++ idxL.filter (fun e => e.ts ∉ rows.map src)

/-- Invariant of the main loop of the no-key merge at the cursors `sp`, `ip`. -/
def NoKeyInv (src : Nat → Nat) (srcLo : Nat) (srcHi : Int) (index : Nat → index_t)
    (indexLo : Nat) (indexHi : Int) (sp ip : Nat) (dest : List index_t) : Prop :=
  dest.Perm ((List.range' srcLo (sp - srcLo)).map
      (expectedRow src ((rowsOf indexLo indexHi).map index)) ++
    ((List.range' indexLo (ip - indexLo)).map index).filter
      (fun e => e.ts ∉ (rowsOf srcLo srcHi).map src)) ∧
  dest.Pairwise (fun a b => a.ts ≤ b.ts) ∧
  ∀ e ∈ dest, (∀ p, sp ≤ p → (p : Int) ≤ srcHi → e.ts ≤ src p) ∧
    (∀ k, ip ≤ k → (k : Int) ≤ indexHi → e.ts ≤ (index k).ts)

/-- The array `xs[0], xs[1], ...` of timestamps (zero past the end of the list). -/
def tsArray (xs : List Nat) : Nat → Nat := fun k => xs.getD k 0

/-- The array `xs[0], xs[1], ...` of index entries (default entries past the end). -/
def indexArray (xs : List index_t) : Nat → index_t := fun k => xs.getD k default

/-- The conservation law as the specification states it: the returned length is
`|src| + |idx|` minus the number of persisted rows whose timestamp also occurs in `idx`. -/
def ConservationAsStated (src : Nat → Nat) (srcLo : Nat) (srcHi : Int) (index : Nat → index_t)
    (indexLo : Nat) (indexHi : Int) : Prop :=
  ∃ out, Java_io_questdb_std_Vect_mergeDedupTimestampWithLongIndexAsc src srcLo srcHi index
      indexLo indexHi = some ((out.length : Int), out) ∧
    (out.length : Int) = (rowsOf srcLo srcHi).length + (rowsOf indexLo indexHi).length -
      (rowsOf srcLo srcHi).countP
        (fun p => src p ∈ ((rowsOf indexLo indexHi).map index).map (fun e => e.ts))

/-- The memory whose block 0 holds the entries `xs` (default entries everywhere else). -/
def memOf (xs : List index_t) : Mem := fun b k => if b = 0 then xs.getD k default else default

/-- The signs of `c 0, ..., c (count - 1)` never increase: positive values come first, then
zeros, then negative values.  With `c j = compare target band[j]` this says that the band is
sorted by key as seen from `target`. -/
def SignSorted (c : Nat → Int) (count : Nat) : Prop :=
  ∀ j k, j ≤ k → k < count → (0 < c k → 0 < c j) ∧ (c j < 0 → c k < 0)

/-- The band offset that `branch_free_search` finds for the persisted row `p` in the band
`index[ip .. ip + len)`, if it finds one. -/
def matchOf (compare : Nat → Nat → Int) (index : Nat → index_t) (ip len p : Nat) : Option Nat :=
  match branch_free_search compare p (fun k => index (ip + k)) len with
  | some r => if r > -1 then some r.toNat else none
  | none => none

/-- The entry that the key-aware conflict band writes for the persisted row `p`. -/
def emitRow (compare : Nat → Nat → Int) (index : Nat → index_t) (ip len T p : Nat) : index_t :=
  match matchOf compare index ip len p with
  | some j => ⟨T, (index (ip + j)).i⟩
  | none => ⟨T, tag63 p⟩

/-- The entries that the key-aware conflict band writes for the persisted rows `[sp, sp1)` and
the index entries `[ip, ip1)`: one entry per row, then the index entries that no row matched. -/
def bandSegment (compare : Nat → Nat → Int) (src : Nat → Nat) (index : Nat → index_t)
    (sp sp1 ip ip1 : Nat) : List index_t :=
  (List.range' sp (sp1 - sp)).map (emitRow compare index ip (ip1 - ip) (src sp)) ++
  ((List.range' ip (ip1 - ip)).filter (fun k =>
    !(List.range' sp (sp1 - sp)).any
      (fun p => matchOf compare index ip (ip1 - ip) p == some (k - ip)))).map index

/-- Invariant of the main loop of the key-aware merge for one timestamp `T`: either no
consumed row or entry has timestamp `T` and nothing with timestamp `T` was written, or the
conflict band of `T` was met at the cursors `sp0`, `ip0` and what was written with timestamp
`T` is exactly the segment of that band. -/
def BandInv (compare : Nat → Nat → Int) (src : Nat → Nat) (srcLo : Nat) (srcHi : Int)
    (index : Nat → index_t) (indexLo : Nat) (indexHi : Int) (T sp ip : Nat)
    (dest : List index_t) : Prop :=
  ((∀ p, srcLo ≤ p → p < sp → src p ≠ T) ∧ (∀ k, indexLo ≤ k → k < ip → (index k).ts ≠ T) ∧
    dest.filter (fun e => e.ts = T) = []) ∨
  (∃ sp0 sp1 ip0 ip1, srcLo ≤ sp0 ∧ indexLo ≤ ip0 ∧ sp1 ≤ sp ∧ ip1 ≤ ip ∧ src sp0 = T ∧
    Cross src srcLo srcHi index indexLo indexHi sp0 ip0 ∧
    BandRun src srcHi index indexHi sp0 ip0 sp1 ip1 ∧
    dest.filter (fun e => e.ts = T) = bandSegment compare src index sp0 sp1 ip0 ip1)

/-- The comparator `compare p r` of a persisted row `p` with an O3 row identifier `r` is
induced by a total order on key values: it is positive, negative or zero as the key of `p` is
above, below or equal to the key of `r`. -/
def InducedBy {K : Type} [LinearOrder K] (compare : Nat → Nat → Int) (keyP keyO : Nat → K) :
    Prop :=
  ∀ p r, (0 < compare p r ↔ keyO r < keyP p) ∧ (compare p r < 0 ↔ keyP p < keyO r)

/-- The persisted rows with timestamp `T`, in row order. -/
def rowsAt (src : Nat → Nat) (srcLo : Nat) (srcHi : Int) (T : Nat) : List Nat :=
  (rowsOf srcLo srcHi).filter (fun p => src p = T)

/-- The O3 band of timestamp `T`: the index entries with timestamp `T`, in index order. -/
def bandAt (index : Nat → index_t) (indexLo : Nat) (indexHi : Int) (T : Nat) : List index_t :=
  ((rowsOf indexLo indexHi).map index).filter (fun e => e.ts = T)

/-- The output that the specification describes for a conflict band, for the matching `m` of
persisted rows to band offsets: one entry per persisted row (the matched band entry, or the
tagged row), then the band entries that no row is matched to, in band order. -/
def resolvedBand (m : Nat → Option Nat) (rowsT : List Nat) (bandT : List index_t) (T : Nat) :
    List index_t :=
  rowsT.map (fun p => match m p with
    | some j => bandT.getD j default
    | none => ⟨T, tag63 p⟩) ++
  ((List.range bandT.length).filter (fun j => ∀ p ∈ rowsT, m p ≠ some j)).map
    (fun j => bandT.getD j default)

/-- The claim that every output entry at `T` is the last occurrence of its key class: `e` is a
tagged persisted row with no later persisted row and no band entry of the same key, or a band
entry with no later band entry of the same key. -/
def LastWinsAt {K : Type} (keyP keyO : Nat → K) (rowsT : List Nat) (bandT : List index_t)
    (T : Nat) (e : index_t) : Prop :=
  (∃ p ∈ rowsT, e = ⟨T, tag63 p⟩ ∧ (∀ q ∈ rowsT, p < q → keyP q ≠ keyP p) ∧
    (∀ b ∈ bandT, keyO b.i ≠ keyP p)) ∨
  (∃ j, j < bandT.length ∧ e = bandT.getD j default ∧
    ∀ k, k < bandT.length → j < k →
      keyO (bandT.getD k default).i ≠ keyO (bandT.getD j default).i)

/-- Last-wins for the key-aware merge as the specification states it, at the timestamp `T`. -/
def LastWinsAsStated {K : Type} (compare : Nat → Nat → Int) (keyP keyO : Nat → K)
    (src : Nat → Nat) (srcLo : Nat) (srcHi : Int) (index : Nat → index_t) (indexLo : Nat)
    (indexHi : Int) (T : Nat) : Prop :=
  ∃ out, merge_dedup_long_index_int_keys compare src srcLo srcHi index indexLo indexHi =
      some ((out.length : Int), out) ∧
    ∀ e ∈ out, e.ts = T →
      LastWinsAt keyP keyO (rowsAt src srcLo srcHi T) (bandAt index indexLo indexHi T) T e

/-- The three-way comparison `l_val > r_val ? 1 : (l_val < r_val ? -1 : 0)` of two keys. -/
def cmp3 (a b : Int) : Int := if a > b then 1 else if a < b then -1 else 0

/-- The key column `xs[0], xs[1], ...` (zero past the end of the list). -/
def keyArray (xs : List Int) : Nat → Int := fun k => xs.getD k 0

/-- The choice of `merge_sort_slice` between the heads `a` of the left run and `b` of the
right run: `true` when the left entry is written first. -/
def entryLe (diff_l : Nat → Nat → Int) (a b : index_t) : Bool :=
  if a.ts > b.ts then false
  else if a.ts < b.ts then true
  else if diff_l a.i b.i > 0 then false
  else true

/-- One pass of the bottom-up merge sort on a list: adjacent runs of length `k` are merged;
the first argument bounds the number of pairs of runs. -/
def passL (le : index_t → index_t → Bool) (k : Nat) : Nat → List index_t → List index_t
  | 0, xs => xs
  | fuel + 1, xs =>
    if xs = [] then []
    else List.merge (xs.take k) ((xs.drop k).take k) le ++ passL le k fuel (xs.drop (2 * k))

/-- The passes of the bottom-up merge sort on a list, from run length `k` on. -/
def sortLoopL (le : index_t → index_t → Bool) : Nat → Nat → List index_t → List index_t
  | 0, _, xs => xs
  | fuel + 1, k, xs =>
    if 2 * k < xs.length then sortLoopL le fuel (2 * k) (passL le k xs.length xs)
    else passL le k xs.length xs

/-- The bottom-up merge sort of `merge_sort` on a list. -/
def mergeSortL (le : index_t → index_t → Bool) (xs : List index_t) : List index_t :=
  sortLoopL le (xs.length + 1) 1 xs

/-- The list `cur` consists of runs of length `k` (the last one may be shorter), and every run
is related by `R` to the part of `orig` at the same positions. -/
inductive Chunked (R : List index_t → List index_t → Prop) (k : Nat) :
    List index_t → List index_t → Prop
  | nil : Chunked R k [] []
  | cons (o c orest crest : List index_t) : c.length ≤ k → (crest ≠ [] → c.length = k) →
      c ≠ [] → R o c → o.length = c.length → Chunked R k orest crest →
      Chunked R k (o ++ orest) (c ++ crest)

/-- The sort key of an entry under the combined order of `merge_sort`: the timestamp first,
then the key of the row. -/
def sortKey {K : Type} (key : Nat → K) (e : index_t) : Lex (Nat × K) := toLex (e.ts, key e.i)

/-- The list `s` is the stable sort of `o` by the key `κ`: sorted, a permutation, and with the
entries of every key in their original order. -/
def StableSorted {L : Type} [LinearOrder L] (κ : index_t → L) (o s : List index_t) : Prop :=
  s.Pairwise (fun a b => κ a ≤ κ b) ∧ s.Perm o ∧
  ∀ v, s.filter (fun x => κ x = v) = o.filter (fun x => κ x = v)

/-- The linear pass of `dedup_sorted_timestamp_index_with_keys` on a list: `h` is the first
entry of the current run (`merge_result[last]`), `p` the entry before the next one
(`merge_result[i - 1]`); the last entry of every run is kept. -/
def lastOfKeyRuns (diff_l : Nat → Nat → Int) : index_t → index_t → List index_t → List index_t
  | _, p, [] => [p]
  | h, p, x :: rest =>
    if x.ts > h.ts ∨ diff_l h.i x.i ≠ 0 then p :: lastOfKeyRuns diff_l x x rest
    else lastOfKeyRuns diff_l h x rest

/-- The survivors of the linear pass over a sorted range. -/
def keyRuns (diff_l : Nat → Nat → Int) : List index_t → List index_t
  | [] => []
  | h :: t => lastOfKeyRuns diff_l h h t

/-- Invariant of the main loop of a merge for the order of the output: what was written is in
ascending timestamp order and is not newer than any remaining persisted row or index entry. -/
def SortedInv (src : Nat → Nat) (srcHi : Int) (index : Nat → index_t) (indexHi : Int)
    (sp ip : Nat) (dest : List index_t) : Prop :=
  dest.Pairwise (fun a b => a.ts ≤ b.ts) ∧
  ∀ e ∈ dest, (∀ p, sp ≤ p → (p : Int) ≤ srcHi → e.ts ≤ src p) ∧
    (∀ k, ip ≤ k → (k : Int) ≤ indexHi → e.ts ≤ (index k).ts)

/-- Invariant of the main loop of the key-aware merge for a timestamp `T` that occurs at no
persisted row: the entries of timestamp `T` written so far are the consumed index entries of
timestamp `T`, in index order. -/
def SoloInv (index : Nat → index_t) (indexLo T ip : Nat) (dest : List index_t) : Prop :=
  dest.filter (fun e => e.ts = T) =
    ((List.range' indexLo (ip - indexLo)).map index).filter (fun e => e.ts = T)

/-- The order claim for the O3 band as the specification states it: any two index entries
that share a timestamp, have different keys and both occur in the output occur there in
their index order (an occurrence of the earlier one precedes an occurrence of the later
one). -/
def O3OrderAsStated {K : Type} (compare : Nat → Nat → Int) (keyO : Nat → K)
    (src : Nat → Nat) (srcLo : Nat) (srcHi : Int) (index : Nat → index_t) (indexLo : Nat)
    (indexHi : Int) : Prop :=
  ∃ out, merge_dedup_long_index_int_keys compare src srcLo srcHi index indexLo indexHi =
      some ((out.length : Int), out) ∧
    ∀ T j k, j < k → k < (bandAt index indexLo indexHi T).length →
      keyO ((bandAt index indexLo indexHi T).getD j default).i ≠
        keyO ((bandAt index indexLo indexHi T).getD k default).i →
      (bandAt index indexLo indexHi T).getD j default ∈ out →
      (bandAt index indexLo indexHi T).getD k default ∈ out →
      [(bandAt index indexLo indexHi T).getD j default,
        (bandAt index indexLo indexHi T).getD k default].Sublist out

/-- The ordered three-way comparison `l_val > r_val ? 1 : (l_val < r_val ? -1 : 0)` at an
element type with the operators `gt` and `lt`. -/
def threeWay {T : Type} (gt lt : T → T → Bool) (l_val r_val : T) : Int :=
  if gt l_val r_val then 1 else if lt l_val r_val then -1 else 0

/-- A key column of integer values of `w` bytes for the examples: its `column_top`, the values
of `column_data` and of `o3_data` (zero past the end of the lists) and the null sentinel. -/
def intColumn (w column_top : Int) (column_data o3_data : List Int) (null_value : Int) :
    dedup_column :=
  { column_type := 0
    value_size_bytes := w
    column_top := column_top
    column_data := ⟨fun _ k => column_data.getD k.toNat 0, fun _ => default⟩
    o3_data := ⟨fun _ k => o3_data.getD k.toNat 0, fun _ => default⟩
    null_value := ⟨fun _ _ => null_value, fun _ => default⟩ }

/-- A key column of 32-byte values for the examples, with `column_top = 0`: the values of
`column_data` and of `o3_data` (zero past the end of the lists). -/
def wideColumn (column_data o3_data : List int256) : dedup_column :=
  { column_type := 0
    value_size_bytes := 32
    column_top := 0
    column_data := ⟨fun _ _ => 0, fun k => column_data.getD k.toNat ⟨0, 0⟩⟩
    o3_data := ⟨fun _ _ => 0, fun k => o3_data.getD k.toNat ⟨0, 0⟩⟩
    null_value := ⟨fun _ _ => 0, fun _ => ⟨0, 0⟩⟩ }

/-- The comparison of two 32-byte keys as the specification defines it: the lexicographic
order on `(hi, lo)`, as a three-way result. -/
def lex256 (a b : int256) : Int :=
  if a.hi > b.hi ∨ (a.hi = b.hi ∧ a.lo > b.lo) then 1
  else if a.hi < b.hi ∨ (a.hi = b.hi ∧ a.lo < b.lo) then -1
  else 0

/-- The widths of key values that the comparators support. -/
def SupportedWidth (w : Int) : Prop := w = 1 ∨ w = 2 ∨ w = 4 ∨ w = 8 ∨ w = 16 ∨ w = 32

/-- The lexicographic combination of per-column comparisons: the first one that is not zero,
and zero when all are zero. -/
def firstNonZero : List Int → Int
  | [] => 0
  | d :: ds => if d ≠ 0 then d else firstNonZero ds

/-- The comparison of the rows `l` and `r` on one key column by the mono-width comparator that
the merge entry point selects for the column (zero when the width is unsupported). -/
def merge_mono_value (col_key : dedup_column) (l r : Int) : Int :=
  match merge_compare_mono col_key with
  | some compare_n => compare_n l r
  | none => 0

/-- The comparison of the rows `l` and `r` on one key column by the mono-width comparator that
`dedupSortedTimestampIndex` selects for the column (zero when the width is unsupported). -/
def sorted_mono_value (col_key : dedup_column) (l r : Int) : Int :=
  match sorted_compare_mono col_key with
  | some compare_n => compare_n l r
  | none => 0

/-- The comparator `cmp` is a total preorder on row identifiers, given by its sign:
`cmp a b ≤ 0` (row `a` is not above row `b`) is transitive, and `cmp a b` is positive exactly
when `cmp b a` is negative (so any two rows are comparable). -/
def TotalPreorder (cmp : Nat → Nat → Int) : Prop :=
  (∀ a b, 0 < cmp a b ↔ cmp b a < 0) ∧ (∀ a b c, cmp a b ≤ 0 → cmp b c ≤ 0 → cmp a c ≤ 0)

/-- The list `s` is a stable sort of `o` by the relation `le`: sorted, a permutation, and the
entries equivalent to any given entry are in their original order. -/
def StableBy (le : index_t → index_t → Bool) (o s : List index_t) : Prop :=
  s.Pairwise (fun a b => le a b = true) ∧ s.Perm o ∧
  ∀ e, s.filter (fun x => le e x && le x e) = o.filter (fun x => le e x && le x e)

/-- The loop of `conflict_src_loop` with the access `used_indexes[matched_index] = true`
checked: the result is `none` as soon as `matched_index` is not a position of the bitmap. -/
def conflict_src_loop_checked (compare : Nat → Nat → Int) (src : Nat → Nat)
    (index : Nat → index_t) (index_pos binary_search_len conflict_ts : Nat) :
    Nat → Nat → List index_t → List Bool → Option (Nat × List index_t × List Bool)
  | 0, src_pos, dest, used_indexes => some (src_pos, dest, used_indexes)
  | n + 1, src_pos, dest, used_indexes =>
    if src src_pos = conflict_ts then
      match branch_free_search compare src_pos (fun k => index (index_pos + k))
          binary_search_len with
      | none => none
      | some matched_index =>
        if matched_index > -1 then
          if matched_index.toNat < used_indexes.length then
            conflict_src_loop_checked compare src index index_pos binary_search_len conflict_ts
              n (src_pos + 1)
              (dest ++ [⟨conflict_ts, (index (index_pos + matched_index.toNat)).i⟩])
              (used_indexes.set matched_index.toNat true)
          else none
        else
          conflict_src_loop_checked compare src index index_pos binary_search_len conflict_ts n
            (src_pos + 1) (dest ++ [⟨conflict_ts, tag63 src_pos⟩]) used_indexes
    else some (src_pos, dest, used_indexes)

/-- The loop of `conflict_unmatched_loop` with the access `used_indexes[i_pos - index_pos]`
checked: the result is `none` as soon as `i_pos - index_pos` is not a position of the
bitmap. -/
def conflict_unmatched_loop_checked (index : Nat → index_t) (index_pos : Nat)
    (used_indexes : List Bool) : Nat → Nat → List index_t → Option (List index_t)
  | 0, _, dest => some dest
  | n + 1, i_pos, dest =>
    if i_pos - index_pos < used_indexes.length then
      if ¬ used_indexes.getD (i_pos - index_pos) false = true then
        conflict_unmatched_loop_checked index index_pos used_indexes n (i_pos + 1)
          (dest ++ [index i_pos])
      else
        conflict_unmatched_loop_checked index index_pos used_indexes n (i_pos + 1) dest
    else none

/-- The conflict band of `band_with_keys` with every access to the bitmap checked against the
length given by `used_indexes.assign(binary_search_len, false)`. -/
def band_with_keys_checked (compare : Nat → Nat → Int) (src : Nat → Nat) (src_hi_incl : Int)
    (index : Nat → index_t) (index_hi_incl : Int) (src_pos index_pos : Nat)
    (dest : List index_t) : Option (Nat × Nat × List index_t) :=
  let conflict_end_pos :=
    conflict_end_loop index (src src_pos) (index_hi_incl + 1 - index_pos).toNat index_pos
  match conflict_src_loop_checked compare src index index_pos (conflict_end_pos - index_pos)
      (src src_pos) (src_hi_incl + 1 - src_pos).toNat src_pos dest
      (List.replicate (conflict_end_pos - index_pos) false) with
  | none => none
  | some (src_pos1, dest1, used_indexes) =>
    match conflict_unmatched_loop_checked index index_pos used_indexes
        (conflict_end_pos - index_pos) index_pos dest1 with
    | none => none
    | some dest2 => some (src_pos1, conflict_end_pos, dest2)

/-- The function `merge_dedup_long_index_int_keys` with every access to the bitmap
`used_indexes` checked: it is `none` if some access falls outside the bitmap, and otherwise
the returned value and the written entries. -/
def merge_dedup_long_index_int_keys_checked (compare : Nat → Nat → Int) (src : Nat → Nat)
    (src_lo : Nat) (src_hi_incl : Int) (index : Nat → index_t) (index_lo : Nat)
    (index_hi_incl : Int) : Option (Int × List index_t) :=
  match merge_skel (band_with_keys_checked compare src src_hi_incl index index_hi_incl) src
      src_hi_incl index index_hi_incl
      ((src_hi_incl + 1 - src_lo).toNat + (index_hi_incl + 1 - index_lo).toNat)
      src_lo index_lo [] with
  | none => none
  | some (src_pos, index_pos, dest) =>
    if (index_pos : Int) ≤ index_hi_incl then
      let dest1 := dest ++
        (List.range (index_hi_incl - index_pos + 1).toNat).map (fun k => index (index_pos + k))
      some ((dest1.length : Int), dest1)
    else
      let dest1 := src_drain_loop src (src_hi_incl + 1 - src_pos).toNat src_pos dest
      some ((dest1.length : Int), dest1)

/-! # Theorems -/

/-! ## Memory lemmas -/

theorem Mem.write_eq (m : Mem) (p k : Nat) (v : index_t) : (m.write p k v) p k = v := by
  simp [Mem.write]

theorem Mem.write_ne (m : Mem) (p k : Nat) (v : index_t) (q j : Nat) (h : q ≠ p ∨ j ≠ k) :
    (m.write p k v) q j = m q j := by
  unfold Mem.write
  rw [if_neg]
  rintro ⟨h1, h2⟩
  rcases h with h | h
  · exact h h1
  · exact h h2

theorem Mem.length_slice (m : Mem) (p lo n : Nat) : (m.slice p lo n).length = n := by
  simp [Mem.slice]

theorem Mem.slice_zero (m : Mem) (p lo : Nat) : m.slice p lo 0 = [] := by
  simp [Mem.slice]

theorem Mem.slice_succ (m : Mem) (p lo n : Nat) :
    m.slice p lo (n + 1) = m p lo :: m.slice p (lo + 1) n := by
  simp only [Mem.slice, List.range_succ_eq_map, List.map_cons, List.map_map, Nat.add_zero]
  congr 1
  apply List.map_congr_left
  intro k _
  simp only [Function.comp]
  congr 1
  omega

theorem Mem.slice_snoc (m : Mem) (p lo n : Nat) :
    m.slice p lo (n + 1) = m.slice p lo n ++ [m p (lo + n)] := by
  simp [Mem.slice, List.range_succ]

theorem Mem.slice_congr (m m' : Mem) (p p' lo lo' n : Nat)
    (h : ∀ k, k < n → m p (lo + k) = m' p' (lo' + k)) : m.slice p lo n = m'.slice p' lo' n := by
  unfold Mem.slice
  apply List.ext_getElem
  · simp
  · intro k h1 h2
    simp only [List.length_map, List.length_range] at h1
    simp [h k h1]

theorem Mem.slice_add (m : Mem) (p lo a b : Nat) :
    m.slice p lo (a + b) = m.slice p lo a ++ m.slice p (lo + a) b := by
  induction b with
  | zero => simp [Mem.slice_zero]
  | succ b ih =>
    rw [← Nat.add_assoc, Mem.slice_snoc, ih, Mem.slice_snoc, List.append_assoc, Nat.add_assoc]

theorem Mem.getElem_slice (m : Mem) (p lo n k : Nat) (h : k < (m.slice p lo n).length) :
    (m.slice p lo n)[k] = m p (lo + k) := by
  simp [Mem.slice]

theorem dedup_sorted_timestamp_index_loop_spec (index_in index_out : Nat) :
    ∀ (n i : Nat) (mem : Mem) (copyTo : Nat), 1 ≤ i → copyTo < i →
      (∀ k, i - 1 ≤ k → k + 1 < i + n → (mem index_in k).ts ≤ (mem index_in (k + 1)).ts) →
      ∃ (mem' : Mem) (w : List index_t),
        dedup_sorted_timestamp_index_loop index_in index_out n i mem copyTo
          (mem index_in (i - 1)).ts = (mem', some (copyTo + w.length)) ∧
        lastOfRuns (mem.slice index_in (i - 1) (n + 1)) = w ++ [mem index_in (i + n - 1)] ∧
        mem'.slice index_out copyTo w.length = w ∧
        copyTo + w.length < i + n ∧
        (∀ q j, (q ≠ index_out ∨ j < copyTo ∨ copyTo + w.length ≤ j) → mem' q j = mem q j) := by
  intro n
  induction n with
  | zero =>
    intro i mem copyTo hi hc _
    refine ⟨mem, [], ?_, ?_, ?_, ?_, ?_⟩
    · simp [dedup_sorted_timestamp_index_loop]
    · simp [Mem.slice_succ, Mem.slice_zero, lastOfRuns]
    · simp [Mem.slice_zero]
    · simpa using hc
    · intro q j _; rfl
  | succ n ih =>
    intro i mem copyTo hi hc hs
    have hstep : (mem index_in (i - 1)).ts ≤ (mem index_in i).ts := by
      have := hs (i - 1) (Nat.le_refl _) (by omega)
      rwa [Nat.sub_add_cancel hi] at this
    have hsl : mem.slice index_in (i - 1) (n + 1 + 1) =
        mem index_in (i - 1) :: mem index_in i :: mem.slice index_in (i + 1) n := by
      rw [Mem.slice_succ, Mem.slice_succ, Nat.sub_add_cancel hi]
    unfold dedup_sorted_timestamp_index_loop
    by_cases hgt : (mem index_in i).ts > (mem index_in (i - 1)).ts
    · rw [if_pos hgt]
      simp only []
      have hkeep : ∀ k, i - 1 ≤ k →
          (mem.write index_out copyTo (mem index_in (i - 1))) index_in k = mem index_in k := by
        intro k hk
        by_cases hkc : index_in = index_out ∧ k = copyTo
        · obtain ⟨h1, h2⟩ := hkc
          have : k = i - 1 := by omega
          subst h1
          rw [h2, Mem.write_eq]
          rw [← h2, this]
        · apply Mem.write_ne
          by_contra hcon
          push_neg at hcon
          exact hkc hcon
      obtain ⟨mem', w, h1, h2, h3, h4, h5⟩ :=
        ih (i + 1) (mem.write index_out copyTo (mem index_in (i - 1))) (copyTo + 1) (by omega)
          (by omega) (by
            intro k hk1 hk2
            rw [hkeep k (by omega), hkeep (k + 1) (by omega)]
            exact hs k (by omega) (by omega))
      simp only [Nat.add_sub_cancel] at h1 h2
      refine ⟨mem', mem index_in (i - 1) :: w, ?_, ?_, ?_, ?_, ?_⟩
      · have e : copyTo + 1 + w.length = copyTo + (w.length + 1) := by omega
        rw [h1, e]; rfl
      · rw [hsl]
        have e1 : i + 1 + n - 1 = i + n := by omega
        have e2 : i + (n + 1) - 1 = i + n := by omega
        rw [e1] at h2
        rw [e2]
        have hne : ¬ (mem index_in (i - 1)).ts = (mem index_in i).ts := by omega
        rw [lastOfRuns, if_neg hne]
        rw [Mem.slice_succ] at h2
        rw [hkeep i (by omega)] at h2
        have hsl2 : (mem.write index_out copyTo (mem index_in (i - 1))).slice index_in (i + 1) n =
            mem.slice index_in (i + 1) n := by
          apply Mem.slice_congr
          intro k _
          exact hkeep _ (by omega)
        rw [hsl2] at h2
        rw [h2, hkeep (i + n) (by omega)]
        simp only [List.cons_append]
      · simp only [List.length_cons]
        rw [Mem.slice_succ, h3]
        congr 1
        rw [h5 index_out copyTo (Or.inr (Or.inl (by omega))), Mem.write_eq]
      · simp only [List.length_cons]; omega
      · intro q j hq
        simp only [List.length_cons] at hq
        rw [h5 q j (by omega)]
        apply Mem.write_ne
        omega
    · rw [if_neg hgt, if_neg (by omega)]
      have heq : (mem index_in (i - 1)).ts = (mem index_in i).ts := by omega
      obtain ⟨mem', w, h1, h2, h3, h4, h5⟩ :=
        ih (i + 1) mem copyTo (by omega) (by omega) (by
            intro k hk1 hk2
            exact hs k (by omega) (by omega))
      simp only [Nat.add_sub_cancel] at h1 h2
      refine ⟨mem', w, ?_, ?_, h3, by omega, h5⟩
      · rw [heq, h1]
      · have e1 : i + 1 + n - 1 = i + n := by omega
        have e2 : i + (n + 1) - 1 = i + n := by omega
        rw [e1] at h2
        rw [hsl, lastOfRuns, if_pos heq, ← Mem.slice_succ, h2, e2]


/-! ## Runs of equal timestamps -/

theorem splitBy_loop_acc (r : index_t → index_t → Bool) (l : List index_t) (a : index_t)
    (g : List index_t) (gs : List (List index_t)) :
    List.splitBy.loop r l a g gs = gs.reverse ++ List.splitBy.loop r l a g [] := by
  induction l generalizing a g gs with
  | nil => simp [List.splitBy.loop]
  | cons b l ih =>
    simp only [List.splitBy.loop]
    split
    · rw [ih]
    · rw [ih, ih b [] [(a :: g).reverse]]
      simp

theorem lastOfRuns_loop (l : List index_t) (a : index_t) (g : List index_t) :
    (List.splitBy.loop (fun x y => x.ts == y.ts) l a g []).filterMap List.getLast? =
      lastOfRuns (a :: l) := by
  induction l generalizing a g with
  | nil => simp [List.splitBy.loop, lastOfRuns]
  | cons b l ih =>
    simp only [List.splitBy.loop]
    by_cases h : a.ts = b.ts
    · have hb : (a.ts == b.ts) = true := by simpa using h
      rw [hb]
      simp only []
      rw [ih, lastOfRuns, if_pos h]
    · have hb : (a.ts == b.ts) = false := by simpa using h
      rw [hb]
      simp only []
      rw [splitBy_loop_acc, List.filterMap_append, ih, lastOfRuns, if_neg h]
      simp

theorem lastOfRuns_eq_splitBy (xs : List index_t) :
    lastOfRuns xs = (xs.splitBy (fun x y => x.ts == y.ts)).filterMap List.getLast? := by
  cases xs with
  | nil => rfl
  | cons a l => rw [List.splitBy, lastOfRuns_loop]

theorem length_lastOfRuns_eq_splitBy (xs : List index_t) :
    (lastOfRuns xs).length = (xs.splitBy (fun x y => x.ts == y.ts)).length := by
  rw [lastOfRuns_eq_splitBy]
  have h : ∀ (L : List (List index_t)), [] ∉ L → (L.filterMap List.getLast?).length = L.length := by
    intro L
    induction L with
    | nil => simp
    | cons m L ih =>
      intro hm
      cases m with
      | nil => simp at hm
      | cons x m =>
        have : (x :: m).getLast? = some ((x :: m).getLast (by simp)) := List.getLast?_eq_getLast _ _
        rw [List.filterMap_cons, this]
        simp only [List.length_cons]
        rw [ih]
        intro h'
        exact hm (List.mem_cons_of_mem _ h')
  exact h _ (List.nil_not_mem_splitBy _ _)

theorem Mem.slice_pairwise (m : Mem) (p lo n : Nat) (R : index_t → index_t → Prop)
    (h : (m.slice p lo n).Pairwise R) (j k : Nat) (hjk : j < k) (hk : k < n) :
    R (m p (lo + j)) (m p (lo + k)) := by
  rw [List.pairwise_iff_getElem] at h
  have := h j k (by rw [Mem.length_slice]; omega) (by rw [Mem.length_slice]; omega) hjk
  rwa [Mem.getElem_slice, Mem.getElem_slice] at this

theorem adjacent_of_decrease (t : Nat → Nat) (n : Nat)
    (h : ∃ j k : Nat, j < k ∧ k < n ∧ t k < t j) : ∃ a, a + 1 < n ∧ t (a + 1) < t a := by
  by_contra hcon
  push_neg at hcon
  obtain ⟨j, k, hjk, hk, hlt⟩ := h
  have hmono : ∀ d, j + d < n → t j ≤ t (j + d) := by
    intro d
    induction d with
    | zero => intro _; exact Nat.le_refl _
    | succ d ih =>
      intro hd
      exact Nat.le_trans (ih (by omega)) (hcon (j + d) (by omega))
  have := hmono (k - j) (by omega)
  rw [Nat.add_sub_cancel' (Nat.le_of_lt hjk)] at this
  omega

theorem write_keep (mem : Mem) (index_in index_out copyTo i k : Nat) (hc : copyTo < i)
    (hk : i - 1 ≤ k) :
    (mem.write index_out copyTo (mem index_in (i - 1))) index_in k = mem index_in k := by
  by_cases hkc : index_in = index_out ∧ k = copyTo
  · obtain ⟨h1, h2⟩ := hkc
    have : k = i - 1 := by omega
    subst h1
    rw [h2, Mem.write_eq]
    rw [← h2, this]
  · apply Mem.write_ne
    by_contra hcon
    push_neg at hcon
    exact hkc hcon

theorem dedup_sorted_timestamp_index_loop_unsorted (index_in index_out : Nat) :
    ∀ (n i : Nat) (mem : Mem) (copyTo : Nat), 1 ≤ i → copyTo < i →
      (∃ k, i - 1 ≤ k ∧ k + 1 < i + n ∧ (mem index_in (k + 1)).ts < (mem index_in k).ts) →
      (dedup_sorted_timestamp_index_loop index_in index_out n i mem copyTo
          (mem index_in (i - 1)).ts).2 = none := by
  intro n
  induction n with
  | zero =>
    intro i mem copyTo hi hc h
    obtain ⟨k, h1, h2, _⟩ := h
    omega
  | succ n ih =>
    intro i mem copyTo hi hc h
    obtain ⟨k, h1, h2, h3⟩ := h
    unfold dedup_sorted_timestamp_index_loop
    by_cases hgt : (mem index_in i).ts > (mem index_in (i - 1)).ts
    · rw [if_pos hgt]
      simp only []
      have hk : k ≠ i - 1 := by
        intro hk
        rw [hk, Nat.sub_add_cancel hi] at h3
        omega
      have := ih (i + 1) (mem.write index_out copyTo (mem index_in (i - 1))) (copyTo + 1)
        (by omega) (by omega)
        ⟨k, by omega, by omega, by
          rw [write_keep mem index_in index_out copyTo i (k + 1) hc (by omega),
            write_keep mem index_in index_out copyTo i k hc (by omega)]
          exact h3⟩
      simpa using this
    · rw [if_neg hgt]
      by_cases hlt : (mem index_in i).ts < (mem index_in (i - 1)).ts
      · rw [if_pos hlt]
      · rw [if_neg hlt]
        have heq : (mem index_in (i - 1)).ts = (mem index_in i).ts := by omega
        have hk : k ≠ i - 1 := by
          intro hk
          rw [hk, Nat.sub_add_cancel hi] at h3
          omega
        have := ih (i + 1) mem copyTo (by omega) (by omega) ⟨k, by omega, by omega, h3⟩
        simp only [Nat.add_sub_cancel] at this
        rw [heq]
        exact this

theorem dup_range_loop_unsorted (mem : Mem) (index_src : Nat) :
    ∀ (n i : Nat) (dup_start : Int) (dup_end ts_index : Nat), 1 ≤ i →
      (mem index_src ts_index).ts = (mem index_src (i - 1)).ts →
      (∃ k, i - 1 ≤ k ∧ k + 1 < i + n ∧ (mem index_src (k + 1)).ts < (mem index_src k).ts) →
      dup_range_loop mem index_src n i dup_start dup_end ts_index = none := by
  intro n
  induction n with
  | zero =>
    intro i ds de ti hi _ h
    obtain ⟨k, h1, h2, _⟩ := h
    omega
  | succ n ih =>
    intro i ds de ti hi hti h
    obtain ⟨k, h1, h2, h3⟩ := h
    unfold dup_range_loop
    by_cases hgt : (mem index_src i).ts > (mem index_src ti).ts
    · rw [if_pos hgt]
      have hk : k ≠ i - 1 := by
        intro hk
        rw [hk, Nat.sub_add_cancel hi] at h3
        omega
      split
      · exact ih (i + 1) _ _ _ (by omega) (by simp) ⟨k, by omega, by omega, h3⟩
      · exact ih (i + 1) _ _ _ (by omega) (by simp) ⟨k, by omega, by omega, h3⟩
    · rw [if_neg hgt]
      by_cases hlt : (mem index_src i).ts < (mem index_src ti).ts
      · rw [if_pos hlt]
      · rw [if_neg hlt]
        have hk : k ≠ i - 1 := by
          intro hk
          rw [hk, Nat.sub_add_cancel hi] at h3
          omega
        exact ih (i + 1) _ _ _ (by omega) (by simp; omega) ⟨k, by omega, by omega, h3⟩

/-- Claim C2 (no-key single-stream dedup keeps the last entry of every run).  For every
timestamp-non-decreasing input `index_in[0 .. count)` (any `count`, also zero or negative, and
also when `index_out` is the input buffer), `dedup_sorted_timestamp_index` returns the number
of maximal runs of equal timestamps, and the first that many entries of `index_out` are the
last entries of these runs, in input order. -/
theorem dedup_sorted_timestamp_index_keeps_last_of_runs (mem : Mem) (index_in index_out : Nat)
    (count : Int)
    (hsorted : (mem.slice index_in 0 count.toNat).Pairwise (fun a b => a.ts ≤ b.ts)) :
    (dedup_sorted_timestamp_index mem index_in count index_out).1 =
        (((mem.slice index_in 0 count.toNat).splitBy (fun a b => a.ts == b.ts)).length : Int) ∧
      (dedup_sorted_timestamp_index mem index_in count index_out).2.slice index_out 0
          ((mem.slice index_in 0 count.toNat).splitBy (fun a b => a.ts == b.ts)).length =
        ((mem.slice index_in 0 count.toNat).splitBy (fun a b => a.ts == b.ts)).filterMap
          List.getLast? := by
  rw [← length_lastOfRuns_eq_splitBy, ← lastOfRuns_eq_splitBy]
  unfold dedup_sorted_timestamp_index
  by_cases hc : count > 0
  · rw [if_pos hc]
    obtain ⟨n, hn⟩ : ∃ n, count.toNat = n + 1 := ⟨count.toNat - 1, by omega⟩
    rw [hn] at hsorted ⊢
    obtain ⟨mem', w, h1, h2, h3, h4, h5⟩ :=
      dedup_sorted_timestamp_index_loop_spec index_in index_out n 1 mem 0 (Nat.le_refl _)
        (by omega) (by
          intro k _ hk
          have := Mem.slice_pairwise mem index_in 0 (n + 1) _ hsorted k (k + 1) (by omega)
            (by omega)
          simpa using this)
    simp only [Nat.add_sub_cancel, Nat.sub_self, Nat.zero_add, Nat.add_sub_cancel_left] at h1 h2 h3 h4 h5
    simp only [Nat.add_sub_cancel]
    rw [h1]
    simp only []
    rw [h2]
    constructor
    · simp
    · rw [List.length_append, List.length_singleton, Mem.slice_snoc]
      congr 1
      · refine Eq.trans ?_ h3
        apply Mem.slice_congr
        intro k hk
        apply Mem.write_ne
        omega
      · rw [Nat.zero_add, Mem.write_eq, h5 index_in n (by omega)]
  · rw [if_neg hc]
    have : count.toNat = 0 := by omega
    rw [this]
    simp [Mem.slice_zero, lastOfRuns]

theorem dup_range_loop_sorted (mem : Mem) (index_src : Nat) :
    ∀ (n i : Nat) (ds : Int) (de ti : Nat),
      DupInv (fun k => (mem index_src k).ts) i ds de ti →
      (∀ k, k + 1 < i + n → (mem index_src k).ts ≤ (mem index_src (k + 1)).ts) →
      ∃ ds' de' ti', dup_range_loop mem index_src n i ds de ti = some (ds', de', ti') ∧
        DupInv (fun k => (mem index_src k).ts) (i + n) ds' de' ti' := by
  intro n
  induction n with
  | zero =>
    intro i ds de ti hinv _
    exact ⟨ds, de, ti, rfl, hinv⟩
  | succ n ih =>
    intro i ds de ti hinv hs
    obtain ⟨h1, h2, h3⟩ := hinv
    have hi : 1 ≤ i := by omega
    have hprev : (mem index_src (i - 1)).ts = (mem index_src ti).ts := h2 (i - 1) (by omega) (by omega)
    have hstep : (mem index_src ti).ts ≤ (mem index_src i).ts := by
      have := hs (i - 1) (by omega)
      rw [Nat.sub_add_cancel hi, hprev] at this
      exact this
    have e : i + (n + 1) = i + 1 + n := by omega
    rw [e]
    unfold dup_range_loop
    by_cases hgt : (mem index_src i).ts > (mem index_src ti).ts
    · rw [if_pos hgt]
      by_cases hrun : i > ti + 1
      · rw [if_pos hrun]
        apply ih
        · refine ⟨by omega, ?_, Or.inr ?_⟩
          · intro k hk1 hk2
            have : k = i := by omega
            rw [this]
          · rcases h3 with ⟨hd, hde, hinc⟩ | ⟨hd, hde, hdt, heq, hinc1, hinc2⟩
            · have e1 : (if ds > -1 then ds else (ti : Int)) = (ti : Int) := by
                rw [if_neg (by omega)]
              rw [e1]
              refine ⟨by omega, by simp; omega, Nat.le_refl _, ?_, ?_, ?_⟩
              · simp only [Int.toNat_ofNat]
                exact (h2 (ti + 1) (by omega) (by omega)).symm
              · simpa using hinc
              · intro k hk1 hk2
                have : k = i - 1 := by omega
                rw [this, Nat.sub_add_cancel hi]
                simp only
                rw [hprev]
                exact hgt
            · have e1 : (if ds > -1 then ds else (ti : Int)) = ds := by
                rw [if_pos (by omega)]
              rw [e1]
              refine ⟨hd, by omega, Nat.le_refl _, heq, hinc1, ?_⟩
              intro k hk1 hk2
              have : k = i - 1 := by omega
              rw [this, Nat.sub_add_cancel hi]
              simp only
              rw [hprev]
              exact hgt
        · intro k hk
          exact hs k (by omega)
      · rw [if_neg hrun]
        have hti : i = ti + 1 := by omega
        apply ih
        · refine ⟨by omega, ?_, ?_⟩
          · intro k hk1 hk2
            have : k = i := by omega
            rw [this]
          · rcases h3 with ⟨hd, hde, hinc⟩ | ⟨hd, hde, hdt, heq, hinc1, hinc2⟩
            · refine Or.inl ⟨hd, hde, ?_⟩
              intro k hk
              by_cases hk' : k < ti
              · exact hinc k hk'
              · have : k = ti := by omega
                rw [this, ← hti]
                exact hgt
            · refine Or.inr ⟨hd, hde, by omega, heq, hinc1, ?_⟩
              intro k hk1 hk2
              by_cases hk' : k < ti
              · exact hinc2 k hk1 hk'
              · have : k = ti := by omega
                rw [this, ← hti]
                exact hgt
        · intro k hk
          exact hs k (by omega)
    · rw [if_neg hgt, if_neg (by omega)]
      have heq : (mem index_src i).ts = (mem index_src ti).ts := by omega
      apply ih
      · refine ⟨by omega, ?_, h3⟩
        intro k hk1 hk2
        by_cases hk' : k < i
        · exact h2 k hk1 hk'
        · have : k = i := by omega
          rw [this]
          exact heq
      · intro k hk
        exact hs k (by omega)

theorem strict_mono_of_adjacent (t : Nat → Nat) (n : Nat) (h : ∀ k, k + 1 < n → t k < t (k + 1))
    (j k : Nat) (hjk : j < k) (hk : k < n) : t j < t k := by
  have hmono : ∀ d, j + d + 1 < n → t j < t (j + d + 1) := by
    intro d
    induction d with
    | zero => intro hd; exact h j hd
    | succ d ih =>
      intro hd
      exact Nat.lt_trans (ih (by omega)) (h (j + d + 1) (by omega))
  have := hmono (k - j - 1) (by omega)
  have e : j + (k - j - 1) + 1 = k := by omega
  rwa [e] at this

/-- On a timestamp-sorted input with at least two entries, the first half of
`dedup_sorted_timestamp_index_with_keys` either finds no tie and returns `-2`, or it finds a
duplicate range and continues with the second half. -/
theorem dedup_sorted_timestamp_index_with_keys_cases (diff_l : Nat → Nat → Int) (mem : Mem)
    (index_src : Nat) (count : Int) (index_dest index_tmp : Nat) (hcount : 2 ≤ count)
    (hs : ∀ k, k + 1 < count.toNat → (mem index_src k).ts ≤ (mem index_src (k + 1)).ts) :
    ((∀ k, k + 1 < count.toNat → (mem index_src k).ts < (mem index_src (k + 1)).ts) ∧
      dedup_sorted_timestamp_index_with_keys diff_l mem index_src count index_dest index_tmp =
        some (-2, mem)) ∨
    (∃ a b, DupRange (fun k => (mem index_src k).ts) count.toNat a b ∧
      dedup_sorted_timestamp_index_with_keys diff_l mem index_src count index_dest index_tmp =
        dedup_range_with_keys diff_l mem index_src count.toNat index_dest index_tmp a b) := by
  obtain ⟨N, hN⟩ : ∃ N, count.toNat = N + 2 := ⟨count.toNat - 2, by omega⟩
  have hc : count = (N : Int) + 2 := by omega
  obtain ⟨ds, de, ti, hloop, hinv⟩ := dup_range_loop_sorted mem index_src (N + 1) 1 (-1) 0 0
    ⟨by omega, by intro k h1 h2; have : k = 0 := by omega
                  rw [this], Or.inl ⟨rfl, rfl, by intro k hk; omega⟩⟩
    (by intro k hk; exact hs k (by omega))
  unfold dedup_sorted_timestamp_index_with_keys
  rw [if_neg (by omega), hN]
  simp only [Nat.add_sub_cancel, show N + 2 - 1 = N + 1 by omega]
  rw [hloop]
  simp only []
  obtain ⟨h1, h2, h3⟩ := hinv
  by_cases htie : ti < N + 1
  · have hcond : (ti : Int) < count - 1 ∧ (mem index_src ti).ts = (mem index_src (N + 1)).ts :=
      ⟨by omega, (h2 (N + 1) (by omega) (by omega)).symm⟩
    rw [if_pos hcond]
    right
    refine ⟨_, _, ?_, rfl⟩
    rcases h3 with ⟨hd, hde, hinc⟩ | ⟨hd, hde, hdt, heq, hinc1, hinc2⟩
    · rw [if_neg (by omega)]
      simp only [Int.toNat_ofNat]
      exact ⟨by omega, Nat.le_refl _, (h2 (ti + 1) (by omega) (by omega)).symm, hinc,
        by intro k hk1 hk2; omega⟩
    · rw [if_pos (by omega)]
      exact ⟨by omega, Nat.le_refl _, heq, hinc1, by intro k hk1 hk2; omega⟩
  · have hti : ti = N + 1 := by omega
    rw [if_neg (by intro hcon; omega)]
    rcases h3 with ⟨hd, hde, hinc⟩ | ⟨hd, hde, hdt, heq, hinc1, hinc2⟩
    · rw [if_pos (Or.inl hd)]
      left
      refine ⟨?_, rfl⟩
      intro k hk
      exact hinc k (by omega)
    · rw [if_neg (by intro hcon; omega)]
      right
      refine ⟨_, _, ⟨hde, by omega, heq, hinc1, ?_⟩, rfl⟩
      intro k hk1 hk2
      exact hinc2 k hk1 (by omega)

theorem merge_sort_slice_loop_isSome (diff_l : Nat → Nat → Int)
    (s1b s1o s2b s2o db src1_len src2_len : Nat) :
    ∀ (fuel : Nat) (mem : Mem) (i1 i2 dest : Nat),
      (src1_len - i1) + (src2_len - i2) ≤ fuel →
      ∃ r, merge_sort_slice_loop diff_l s1b s1o s2b s2o db src1_len src2_len fuel mem i1 i2
        dest = some r := by
  intro fuel
  induction fuel with
  | zero =>
    intro mem i1 i2 dest h
    unfold merge_sort_slice_loop
    rw [if_neg (by omega)]
    exact ⟨_, rfl⟩
  | succ fuel ih =>
    intro mem i1 i2 dest h
    unfold merge_sort_slice_loop
    split
    · rename_i hg
      split
      · exact ih _ _ _ _ (by omega)
      · split
        · exact ih _ _ _ _ (by omega)
        · split
          · exact ih _ _ _ _ (by omega)
          · exact ih _ _ _ _ (by omega)
    · exact ⟨_, rfl⟩

theorem merge_sort_slice_isSome (diff_l : Nat → Nat → Int) (mem : Mem)
    (s1b s1o s2b s2o db doff src1_len src2_len : Nat) :
    ∃ mem', merge_sort_slice diff_l mem s1b s1o s2b s2o db doff src1_len src2_len = some mem' := by
  unfold merge_sort_slice
  obtain ⟨⟨mem1, i1, i2, dest⟩, hr⟩ := merge_sort_slice_loop_isSome diff_l s1b s1o s2b s2o db
    src1_len src2_len (src1_len + src2_len) mem 0 0 doff (by omega)
  rw [hr]
  simp only []
  split
  · exact ⟨_, rfl⟩
  · exact ⟨_, rfl⟩

theorem merge_sort_pass_isSome (diff_l : Nat → Nat → Int) (source dest end_ slice_len : Nat)
    (hk : 1 ≤ slice_len) :
    ∀ (fuel : Nat) (mem : Mem) (i : Nat), end_ - i ≤ fuel →
      ∃ mem', merge_sort_pass diff_l source dest end_ slice_len fuel mem i = some mem' := by
  intro fuel
  induction fuel with
  | zero =>
    intro mem i h
    unfold merge_sort_pass
    rw [if_neg (by omega)]
    exact ⟨_, rfl⟩
  | succ fuel ih =>
    intro mem i h
    unfold merge_sort_pass
    split
    · obtain ⟨mem1, h1⟩ := merge_sort_slice_isSome diff_l mem source i source (i + slice_len)
        dest i (min slice_len (end_ - i))
        (max (0 : Int) (min (slice_len : Int) ((end_ : Int) - ((i : Int) + slice_len)))).toNat
      rw [h1]
      exact ih _ _ (by omega)
    · exact ⟨_, rfl⟩

theorem merge_sort_loop_isSome (diff_l : Nat → Nat → Int)
    (index_dest1 index_dest2 start end_ : Nat) :
    ∀ (fuel : Nat) (mem : Mem) (source slice_len cycle : Nat), 0 < fuel → 1 ≤ slice_len →
      end_ - start < fuel + slice_len →
      ∃ r, merge_sort_loop diff_l index_dest1 index_dest2 start end_ fuel mem source slice_len
        cycle = some r := by
  intro fuel
  induction fuel with
  | zero => intro mem source slice_len cycle h; omega
  | succ fuel ih =>
    intro mem source slice_len cycle _ hk hf
    unfold merge_sort_loop
    simp only []
    obtain ⟨mem1, h1⟩ := merge_sort_pass_isSome diff_l source
      (if cycle % 2 = 0 then index_dest2 else index_dest1) end_ slice_len hk (end_ - start) mem
      start (by omega)
    rw [h1]
    simp only []
    split
    · exact ih _ _ _ _ (by omega) (by omega) (by omega)
    · exact ⟨_, rfl⟩

theorem merge_sort_isSome (diff_l : Nat → Nat → Int) (mem : Mem)
    (index_src index_dest1 index_dest2 start end_ : Nat) :
    ∃ r, merge_sort diff_l mem index_src index_dest1 index_dest2 start end_ = some r := by
  unfold merge_sort
  exact merge_sort_loop_isSome diff_l index_dest1 index_dest2 start end_ _ mem index_src 1 0
    (by omega) (by omega) (by omega)

theorem dedup_range_with_keys_isSome (diff_l : Nat → Nat → Int) (mem : Mem)
    (index_src count index_dest index_tmp dup_start dup_end : Nat) :
    ∃ r, dedup_range_with_keys diff_l mem index_src count index_dest index_tmp dup_start
      dup_end = some r ∧ r.1 ≠ -2 := by
  unfold dedup_range_with_keys
  obtain ⟨⟨mem1, mr⟩, h1⟩ := merge_sort_isSome diff_l mem index_src index_dest index_tmp
    dup_start dup_end
  rw [h1]
  simp only []
  split
  · refine ⟨_, rfl, ?_⟩
    simp only []
    omega
  · refine ⟨_, rfl, ?_⟩
    simp only []
    omega

theorem Mem.slice_pairwise_iff (m : Mem) (p lo n : Nat) (R : index_t → index_t → Prop) :
    (m.slice p lo n).Pairwise R ↔ ∀ j k, j < k → k < n → R (m p (lo + j)) (m p (lo + k)) := by
  constructor
  · intro h j k hjk hk
    exact Mem.slice_pairwise m p lo n R h j k hjk hk
  · intro h
    rw [List.pairwise_iff_getElem]
    intro j k hj hk hjk
    rw [Mem.getElem_slice, Mem.getElem_slice]
    rw [Mem.length_slice] at hk
    exact h j k hjk hk

/-- Claim C5 (when the key-aware single-stream dedup answers `-2`).  For every
timestamp-non-decreasing input and every comparator `diff_l`,
`dedup_sorted_timestamp_index_with_keys` returns, and its value is `-2` (no dedup needed) if
and only if no two of the `count` input entries share a timestamp; for `count < 2` the right
hand side holds trivially. -/
theorem dedup_with_keys_no_dedup_needed_iff (diff_l : Nat → Nat → Int) (mem : Mem)
    (index_src : Nat) (count : Int) (index_dest index_tmp : Nat)
    (hsorted : (mem.slice index_src 0 count.toNat).Pairwise (fun a b => a.ts ≤ b.ts)) :
    ∃ r, dedup_sorted_timestamp_index_with_keys diff_l mem index_src count index_dest
        index_tmp = some r ∧
      (r.1 = -2 ↔ (mem.slice index_src 0 count.toNat).Pairwise (fun a b => a.ts ≠ b.ts)) := by
  by_cases hc : count < 2
  · refine ⟨(-2, mem), ?_, ?_⟩
    · unfold dedup_sorted_timestamp_index_with_keys
      rw [if_pos hc]
    · simp only [true_iff]
      rw [Mem.slice_pairwise_iff]
      intro j k hjk hk
      omega
  · rw [Mem.slice_pairwise_iff] at hsorted
    rcases dedup_sorted_timestamp_index_with_keys_cases diff_l mem index_src count index_dest
      index_tmp (by omega) (by
        intro k hk
        have := hsorted k (k + 1) (by omega) hk
        simpa using this) with ⟨hinc, hres⟩ | ⟨a, b, hr, hres⟩
    · refine ⟨(-2, mem), hres, ?_⟩
      simp only [true_iff]
      rw [Mem.slice_pairwise_iff]
      intro j k hjk hk
      have := strict_mono_of_adjacent (fun k => (mem index_src k).ts) count.toNat hinc j k hjk hk
      simp only [Nat.zero_add]
      simp only at this
      omega
    · obtain ⟨r, hr1, hr2⟩ := dedup_range_with_keys_isSome diff_l mem index_src count.toNat
        index_dest index_tmp a b
      refine ⟨r, by rw [hres, hr1], ?_⟩
      constructor
      · intro h; exact absurd h hr2
      · intro h
        rw [Mem.slice_pairwise_iff] at h
        obtain ⟨h1, h2, h3, _, _⟩ := hr
        have := h a (a + 1) (by omega) (by omega)
        simp only [Nat.zero_add] at this
        exact absurd h3 this

/-- Claim C6 (unsorted input is an error).  If some entry of `index_in[0 .. count)` has a
strictly smaller timestamp than an earlier entry, then `dedup_sorted_timestamp_index` returns
`-1`, and so does `dedup_sorted_timestamp_index_with_keys` for every comparator `diff_l`
(leaving the memory as it was). -/
theorem dedup_unsorted_returns_error (diff_l : Nat → Nat → Int) (mem : Mem)
    (index_in : Nat) (count : Int) (index_out index_tmp : Nat)
    (h : ∃ j k : Nat, j < k ∧ k < count.toNat ∧ (mem index_in k).ts < (mem index_in j).ts) :
    (dedup_sorted_timestamp_index mem index_in count index_out).1 = -1 ∧
      dedup_sorted_timestamp_index_with_keys diff_l mem index_in count index_out index_tmp =
        some (-1, mem) := by
  obtain ⟨a, ha1, ha2⟩ := adjacent_of_decrease (fun k => (mem index_in k).ts) count.toNat h
  obtain ⟨j, k, hjk, hk, _⟩ := h
  obtain ⟨N, hN⟩ : ∃ N, count.toNat = N + 2 := ⟨count.toNat - 2, by omega⟩
  constructor
  · unfold dedup_sorted_timestamp_index
    rw [if_pos (by omega), hN]
    have := dedup_sorted_timestamp_index_loop_unsorted index_in index_out (N + 1) 1 mem 0
      (Nat.le_refl _) (by omega) ⟨a, by omega, by omega, ha2⟩
    simp only [Nat.sub_self, show N + 2 - 1 = N + 1 by omega] at this ⊢
    generalize dedup_sorted_timestamp_index_loop index_in index_out (N + 1) 1 mem 0
      (mem index_in 0).ts = res at this
    obtain ⟨m1, o⟩ := res
    simp only at this
    subst this
    rfl
  · unfold dedup_sorted_timestamp_index_with_keys
    rw [if_neg (by omega), hN]
    have := dup_range_loop_unsorted mem index_in (N + 1) 1 (-1) 0 0 (Nat.le_refl _) rfl
      ⟨a, by omega, by omega, ha2⟩
    simp only [show N + 2 - 1 = N + 1 by omega]
    rw [this]

theorem mergeDedupTimestampWithLongIndexAsc_loop_eq (src : Nat → Nat) (src_hi_incl : Int)
    (index : Nat → index_t) (index_hi_inc : Int) :
    ∀ (fuel sp ip : Nat) (dest : List index_t),
      mergeDedupTimestampWithLongIndexAsc_loop src src_hi_incl index index_hi_inc fuel sp ip dest =
        merge_skel (band_no_key src src_hi_incl index index_hi_inc) src src_hi_incl index
          index_hi_inc fuel sp ip dest := by
  intro fuel
  induction fuel with
  | zero => intro sp ip dest; rfl
  | succ fuel ih =>
    intro sp ip dest
    unfold mergeDedupTimestampWithLongIndexAsc_loop merge_skel
    split
    · split
      · exact ih _ _ _
      · split
        · exact ih _ _ _
        · simp only [band_no_key]
          exact ih _ _ _
    · rfl

theorem merge_dedup_long_index_int_keys_loop_eq (compare : Nat → Nat → Int) (src : Nat → Nat)
    (src_hi_incl : Int) (index : Nat → index_t) (index_hi_incl : Int) :
    ∀ (fuel sp ip : Nat) (dest : List index_t),
      merge_dedup_long_index_int_keys_loop compare src src_hi_incl index index_hi_incl fuel sp ip
          dest =
        merge_skel (band_with_keys compare src src_hi_incl index index_hi_incl) src src_hi_incl
          index index_hi_incl fuel sp ip dest := by
  intro fuel
  induction fuel with
  | zero => intro sp ip dest; rfl
  | succ fuel ih =>
    intro sp ip dest
    unfold merge_dedup_long_index_int_keys_loop merge_skel
    split
    · split
      · exact ih _ _ _
      · split
        · exact ih _ _ _
        · simp only [band_with_keys]
          split
          · rfl
          · exact ih _ _ _
    · rfl

theorem conflict_end_loop_spec (index : Nat → index_t) (T : Nat) :
    ∀ (n pos : Nat), pos ≤ conflict_end_loop index T n pos ∧
      conflict_end_loop index T n pos ≤ pos + n ∧
      (∀ k, pos ≤ k → k < conflict_end_loop index T n pos → (index k).ts = T) ∧
      (conflict_end_loop index T n pos < pos + n →
        (index (conflict_end_loop index T n pos)).ts ≠ T) := by
  intro n
  induction n with
  | zero =>
    intro pos
    simp only [conflict_end_loop]
    exact ⟨Nat.le_refl _, Nat.le_refl _, by intro k h1 h2; omega, by intro h; omega⟩
  | succ n ih =>
    intro pos
    unfold conflict_end_loop
    by_cases h : (index pos).ts = T
    · rw [if_pos h]
      obtain ⟨h1, h2, h3, h4⟩ := ih (pos + 1)
      refine ⟨by omega, by omega, ?_, ?_⟩
      · intro k hk1 hk2
        by_cases hk : k = pos
        · rw [hk]; exact h
        · exact h3 k (by omega) hk2
      · intro hlt
        exact h4 (by omega)
    · rw [if_neg h]
      exact ⟨Nat.le_refl _, by omega, by intro k h1 h2; omega, fun _ => h⟩

theorem replace_src_loop_spec (src : Nat → Nat) (index : Nat → index_t) (ip1 T : Nat) :
    ∀ (n sp : Nat) (dest : List index_t),
      sp ≤ (replace_src_loop src index ip1 T n sp dest).1 ∧
      (replace_src_loop src index ip1 T n sp dest).1 ≤ sp + n ∧
      (∀ p, sp ≤ p → p < (replace_src_loop src index ip1 T n sp dest).1 → src p = T) ∧
      ((replace_src_loop src index ip1 T n sp dest).1 < sp + n →
        src (replace_src_loop src index ip1 T n sp dest).1 ≠ T) ∧
      (replace_src_loop src index ip1 T n sp dest).2 =
        dest ++ List.replicate ((replace_src_loop src index ip1 T n sp dest).1 - sp)
          (index (ip1 - 1)) := by
  intro n
  induction n with
  | zero =>
    intro sp dest
    simp only [replace_src_loop]
    exact ⟨Nat.le_refl _, Nat.le_refl _, by intro k h1 h2; omega, by intro h; omega, by simp⟩
  | succ n ih =>
    intro sp dest
    unfold replace_src_loop
    by_cases h : src sp = T
    · rw [if_pos h]
      obtain ⟨h1, h2, h3, h4, h5⟩ := ih (sp + 1) (dest ++ [index (ip1 - 1)])
      refine ⟨by omega, by omega, ?_, ?_, ?_⟩
      · intro k hk1 hk2
        by_cases hk : k = sp
        · rw [hk]; exact h
        · exact h3 k (by omega) hk2
      · intro hlt
        exact h4 (by omega)
      · rw [h5, List.append_assoc]
        congr 1
        have e : (replace_src_loop src index ip1 T n (sp + 1) (dest ++ [index (ip1 - 1)])).1 - sp
            = ((replace_src_loop src index ip1 T n (sp + 1) (dest ++ [index (ip1 - 1)])).1 -
              (sp + 1)) + 1 := by omega
        rw [e, List.replicate_succ]
        rfl
    · rw [if_neg h]
      exact ⟨Nat.le_refl _, by omega, by intro k h1 h2; omega, fun _ => h, by simp⟩

theorem cross_after_band (src : Nat → Nat) (src_lo : Nat) (src_hi_incl : Int)
    (index : Nat → index_t) (index_lo : Nat) (index_hi_incl : Int)
    (hsrc : ∀ p q, src_lo ≤ p → p ≤ q → (q : Int) ≤ src_hi_incl → src p ≤ src q)
    (hidx : ∀ j k, index_lo ≤ j → j ≤ k → (k : Int) ≤ index_hi_incl →
      (index j).ts ≤ (index k).ts)
    (sp ip sp1 ip1 : Nat) (hsp : src_lo ≤ sp) (hip : index_lo ≤ ip)
    (hc : Cross src src_lo src_hi_incl index index_lo index_hi_incl sp ip)
    (hT : src sp = (index ip).ts)
    (hb : BandRun src src_hi_incl index index_hi_incl sp ip sp1 ip1) :
    Cross src src_lo src_hi_incl index index_lo index_hi_incl sp1 ip1 := by
  obtain ⟨b1, b2, b3, b4, b5, b6, b7, b8⟩ := hb
  obtain ⟨c1, c2⟩ := hc
  constructor
  · intro p k hp1 hp2 hk1 hk2
    by_cases hp : p < sp
    · exact c1 p k hp1 hp (by omega) hk2
    · have h1 : src p = src sp := b5 p (by omega) hp2
      have h2 : (index ip1).ts ≠ src sp := b8 (by omega)
      have h3 : (index ip).ts ≤ (index ip1).ts := hidx ip ip1 hip (by omega) (by omega)
      have h4 : (index ip1).ts ≤ (index k).ts := hidx ip1 k (by omega) hk1 hk2
      omega
  · intro k p hk1 hk2 hp1 hp2
    by_cases hk : k < ip
    · exact c2 k p hk1 hk (by omega) hp2
    · have h1 : (index k).ts = src sp := b7 k (by omega) hk2
      have h2 : src sp1 ≠ src sp := b6 (by omega)
      have h3 : src sp ≤ src sp1 := hsrc sp sp1 hsp (by omega) (by omega)
      have h4 : src sp1 ≤ src p := hsrc sp1 p (by omega) hp1 hp2
      omega

theorem merge_skel_induct
    (bandf : Nat → Nat → List index_t → Option (Nat × Nat × List index_t))
    (src : Nat → Nat) (src_lo : Nat) (src_hi_incl : Int)
    (index : Nat → index_t) (index_lo : Nat) (index_hi_incl : Int)
    (hsrc : ∀ p q, src_lo ≤ p → p ≤ q → (q : Int) ≤ src_hi_incl → src p ≤ src q)
    (hidx : ∀ j k, index_lo ≤ j → j ≤ k → (k : Int) ≤ index_hi_incl →
      (index j).ts ≤ (index k).ts)
    (hband : ∀ (sp ip : Nat) (dest : List index_t), (sp : Int) ≤ src_hi_incl → (ip : Int) ≤ index_hi_incl →
      src sp = (index ip).ts → ∃ sp1 ip1 dest1, bandf sp ip dest = some (sp1, ip1, dest1) ∧
        BandRun src src_hi_incl index index_hi_incl sp ip sp1 ip1)
    (Q : Nat → Nat → List index_t → Prop)
    (hlt : ∀ (sp ip : Nat) (dest : List index_t), src_lo ≤ sp → index_lo ≤ ip → (sp : Int) ≤ src_hi_incl →
      (ip : Int) ≤ index_hi_incl →
      Cross src src_lo src_hi_incl index index_lo index_hi_incl sp ip →
      src sp < (index ip).ts → Q sp ip dest → Q (sp + 1) ip (dest ++ [⟨src sp, tag63 sp⟩]))
    (hgt : ∀ (sp ip : Nat) (dest : List index_t), src_lo ≤ sp → index_lo ≤ ip → (sp : Int) ≤ src_hi_incl →
      (ip : Int) ≤ index_hi_incl →
      Cross src src_lo src_hi_incl index index_lo index_hi_incl sp ip →
      (index ip).ts < src sp → Q sp ip dest → Q sp (ip + 1) (dest ++ [index ip]))
    (heq : ∀ (sp ip : Nat) (dest : List index_t) (sp1 ip1 : Nat) (dest1 : List index_t), src_lo ≤ sp → index_lo ≤ ip →
      (sp : Int) ≤ src_hi_incl → (ip : Int) ≤ index_hi_incl →
      Cross src src_lo src_hi_incl index index_lo index_hi_incl sp ip →
      src sp = (index ip).ts → bandf sp ip dest = some (sp1, ip1, dest1) →
      BandRun src src_hi_incl index index_hi_incl sp ip sp1 ip1 → Q sp ip dest →
      Q sp1 ip1 dest1) :
    ∀ (fuel sp ip : Nat) (dest : List index_t), src_lo ≤ sp → index_lo ≤ ip →
      (sp : Int) ≤ max (src_lo : Int) (src_hi_incl + 1) →
      (ip : Int) ≤ max (index_lo : Int) (index_hi_incl + 1) →
      (src_hi_incl + 1 - sp).toNat + (index_hi_incl + 1 - ip).toNat ≤ fuel →
      Cross src src_lo src_hi_incl index index_lo index_hi_incl sp ip → Q sp ip dest →
      ∃ sp' ip' dest', merge_skel bandf src src_hi_incl index index_hi_incl fuel sp ip dest =
          some (sp', ip', dest') ∧ Q sp' ip' dest' ∧
        Cross src src_lo src_hi_incl index index_lo index_hi_incl sp' ip' ∧
        src_lo ≤ sp' ∧ index_lo ≤ ip' ∧ (sp' : Int) ≤ max (src_lo : Int) (src_hi_incl + 1) ∧
        (ip' : Int) ≤ max (index_lo : Int) (index_hi_incl + 1) ∧
        ¬ ((sp' : Int) ≤ src_hi_incl ∧ (ip' : Int) ≤ index_hi_incl) := by
  intro fuel
  induction fuel with
  | zero =>
    intro sp ip dest h1 h2 h3 h4 hf hc hq
    have hg : ¬ ((sp : Int) ≤ src_hi_incl ∧ (ip : Int) ≤ index_hi_incl) := by
      intro hg; omega
    unfold merge_skel
    rw [if_neg hg]
    exact ⟨sp, ip, dest, rfl, hq, hc, h1, h2, h3, h4, hg⟩
  | succ fuel ih =>
    intro sp ip dest h1 h2 h3 h4 hf hc hq
    unfold merge_skel
    by_cases hg : (sp : Int) ≤ src_hi_incl ∧ (ip : Int) ≤ index_hi_incl
    · rw [if_pos hg]
      by_cases hl : src sp < (index ip).ts
      · rw [if_pos hl]
        apply ih _ _ _ (by omega) h2 (by omega) h4 (by omega) _
          (hlt sp ip dest h1 h2 hg.1 hg.2 hc hl hq)
        obtain ⟨c1, c2⟩ := hc
        constructor
        · intro p k hp1 hp2 hk1 hk2
          by_cases hp : p < sp
          · exact c1 p k hp1 hp hk1 hk2
          · have : p = sp := by omega
            rw [this]
            have := hidx ip k h2 hk1 hk2
            omega
        · intro k p hk1 hk2 hp1 hp2
          exact c2 k p hk1 hk2 (by omega) hp2
      · rw [if_neg hl]
        by_cases hgr : src sp > (index ip).ts
        · rw [if_pos hgr]
          apply ih _ _ _ h1 (by omega) h3 (by omega) (by omega) _
            (hgt sp ip dest h1 h2 hg.1 hg.2 hc hgr hq)
          obtain ⟨c1, c2⟩ := hc
          constructor
          · intro p k hp1 hp2 hk1 hk2
            exact c1 p k hp1 hp2 (by omega) hk2
          · intro k p hk1 hk2 hp1 hp2
            by_cases hk : k < ip
            · exact c2 k p hk1 hk hp1 hp2
            · have : k = ip := by omega
              rw [this]
              have := hsrc sp p h1 hp1 hp2
              omega
        · rw [if_neg hgr]
          have hT : src sp = (index ip).ts := by omega
          obtain ⟨sp1, ip1, dest1, hb1, hb2⟩ := hband sp ip dest hg.1 hg.2 hT
          rw [hb1]
          simp only []
          have hb2' := hb2
          obtain ⟨b1, b2, b3, b4, _⟩ := hb2'
          exact ih _ _ _ (by omega) (by omega) (by omega) (by omega) (by omega)
            (cross_after_band src src_lo src_hi_incl index index_lo index_hi_incl hsrc hidx
              sp ip sp1 ip1 h1 h2 hc hT hb2)
            (heq sp ip dest sp1 ip1 dest1 h1 h2 hg.1 hg.2 hc hT hb1 hb2 hq)
    · rw [if_neg hg]
      exact ⟨sp, ip, dest, rfl, hq, hc, h1, h2, h3, h4, hg⟩

theorem band_no_key_run (src : Nat → Nat) (src_hi_incl : Int) (index : Nat → index_t)
    (index_hi_inc : Int) (sp ip : Nat) (dest : List index_t) (h1 : (sp : Int) ≤ src_hi_incl)
    (h2 : (ip : Int) ≤ index_hi_inc) (hT : src sp = (index ip).ts) :
    ∃ sp1 ip1, band_no_key src src_hi_incl index index_hi_inc sp ip dest =
        some (sp1, ip1, dest ++ List.replicate (sp1 - sp) (index (ip1 - 1))) ∧
      BandRun src src_hi_incl index index_hi_inc sp ip sp1 ip1 := by
  obtain ⟨n, hn⟩ : ∃ n, (index_hi_inc + 1 - ip).toNat = n + 1 :=
    ⟨(index_hi_inc + 1 - ip).toNat - 1, by omega⟩
  obtain ⟨m, hm⟩ : ∃ m, (src_hi_incl + 1 - sp).toNat = m + 1 :=
    ⟨(src_hi_incl + 1 - sp).toNat - 1, by omega⟩
  obtain ⟨e1, e2, e3, e4⟩ := conflict_end_loop_spec index (src sp) (n + 1) ip
  obtain ⟨r1, r2, r3, r4, r5⟩ := replace_src_loop_spec src index
    (conflict_end_loop index (src sp) (n + 1) ip) (src sp) (m + 1) sp dest
  have e5 : ip < conflict_end_loop index (src sp) (n + 1) ip := by
    unfold conflict_end_loop
    rw [if_pos hT.symm]
    exact Nat.lt_of_lt_of_le (Nat.lt_succ_self _) (conflict_end_loop_spec index (src sp) n (ip + 1)).1
  have r6 : sp < (replace_src_loop src index (conflict_end_loop index (src sp) (n + 1) ip)
      (src sp) (m + 1) sp dest).1 := by
    unfold replace_src_loop
    rw [if_pos rfl]
    exact Nat.lt_of_lt_of_le (Nat.lt_succ_self _) (replace_src_loop_spec src index _ (src sp) m (sp + 1) _).1
  refine ⟨_, _, ?_, ⟨r6, by omega, e5, by omega, r3, ?_, e3, ?_⟩⟩
  · unfold band_no_key
    simp only [hn, hm]
    rw [r5]
  · intro h; exact r4 (by omega)
  · intro h; exact e4 (by omega)

theorem mem_rowsOf (lo : Nat) (hi : Int) (p : Nat) :
    p ∈ rowsOf lo hi ↔ lo ≤ p ∧ (p : Int) ≤ hi := by
  unfold rowsOf
  rw [List.mem_range'_1]
  omega

theorem range'_snoc (lo m : Nat) (h : lo ≤ m) :
    List.range' lo (m + 1 - lo) = List.range' lo (m - lo) ++ [m] := by
  have e : m + 1 - lo = (m - lo) + 1 := by omega
  rw [e, List.range'_1_concat]
  congr 2
  omega

theorem range'_split (lo n m : Nat) (h1 : lo ≤ m) (h2 : m ≤ lo + n) :
    List.range' lo n = List.range' lo (m - lo) ++ List.range' m (lo + n - m) := by
  have := List.range'_append_1 lo (m - lo) (lo + n - m)
  rw [show lo + (m - lo) = m by omega, show lo + n - m + (m - lo) = n by omega] at this
  exact this.symm

theorem expectedRow_tagged (src : Nat → Nat) (idxL : List index_t) (p : Nat)
    (h : ∀ e ∈ idxL, e.ts ≠ src p) : expectedRow src idxL p = ⟨src p, tag63 p⟩ := by
  unfold expectedRow
  have : idxL.filter (fun e => e.ts = src p) = [] := by
    rw [List.filter_eq_nil_iff]
    intro a ha
    simpa using h a ha
  rw [this]
  rfl

theorem expectedRow_band (src : Nat → Nat) (A B C : List index_t) (b : index_t) (p : Nat)
    (hA : ∀ e ∈ A, e.ts ≠ src p) (hB : ∀ e ∈ B, e.ts = src p) (hC : ∀ e ∈ C, e.ts ≠ src p)
    (hb : B.getLast? = some b) : expectedRow src (A ++ B ++ C) p = b := by
  unfold expectedRow
  have h1 : A.filter (fun e => e.ts = src p) = [] := by
    rw [List.filter_eq_nil_iff]
    intro a ha
    simpa using hA a ha
  have h2 : C.filter (fun e => e.ts = src p) = [] := by
    rw [List.filter_eq_nil_iff]
    intro a ha
    simpa using hC a ha
  have h3 : B.filter (fun e => e.ts = src p) = B := by
    rw [List.filter_eq_self]
    intro a ha
    simpa using hB a ha
  rw [List.filter_append, List.filter_append, h1, h2, h3, List.nil_append, List.append_nil, hb]

theorem noKeyInv_lt (src : Nat → Nat) (srcLo : Nat) (srcHi : Int) (index : Nat → index_t)
    (indexLo : Nat) (indexHi : Int)
    (hsrc : ∀ p q, srcLo ≤ p → p ≤ q → (q : Int) ≤ srcHi → src p ≤ src q)
    (hidx : ∀ j k, indexLo ≤ j → j ≤ k → (k : Int) ≤ indexHi → (index j).ts ≤ (index k).ts)
    (sp ip : Nat) (dest : List index_t) (h1 : srcLo ≤ sp) (h2 : indexLo ≤ ip)
    (_h3 : (sp : Int) ≤ srcHi) (_h4 : (ip : Int) ≤ indexHi)
    (hc : Cross src srcLo srcHi index indexLo indexHi sp ip) (hl : src sp < (index ip).ts)
    (hq : NoKeyInv src srcLo srcHi index indexLo indexHi sp ip dest) :
    NoKeyInv src srcLo srcHi index indexLo indexHi (sp + 1) ip
      (dest ++ [⟨src sp, tag63 sp⟩]) := by
  obtain ⟨q1, q2, q3⟩ := hq
  have hF : expectedRow src ((rowsOf indexLo indexHi).map index) sp = ⟨src sp, tag63 sp⟩ := by
    apply expectedRow_tagged
    intro e he
    rw [List.mem_map] at he
    obtain ⟨k, hk, rfl⟩ := he
    rw [mem_rowsOf] at hk
    by_cases hki : k < ip
    · have := hc.2 k sp hk.1 hki (Nat.le_refl _) _h3
      omega
    · have := hidx ip k h2 (by omega) hk.2
      omega
  refine ⟨?_, ?_, ?_⟩
  · rw [range'_snoc srcLo sp h1, List.map_append, List.map_singleton, hF]
    refine (q1.append_right _).trans ?_
    rw [List.append_assoc, List.append_assoc]
    exact List.Perm.append_left _ List.perm_append_comm
  · rw [List.pairwise_append]
    refine ⟨q2, List.pairwise_singleton _ _, ?_⟩
    intro a ha b hb
    rw [List.mem_singleton] at hb
    rw [hb]
    exact (q3 a ha).1 sp (Nat.le_refl _) _h3
  · intro e he
    rw [List.mem_append, List.mem_singleton] at he
    rcases he with he | he
    · exact ⟨fun p hp1 hp2 => (q3 e he).1 p (by omega) hp2, (q3 e he).2⟩
    · rw [he]
      constructor
      · intro p hp1 hp2
        exact hsrc sp p h1 (by omega) hp2
      · intro k hk1 hk2
        have := hidx ip k h2 hk1 hk2
        simp only
        omega

theorem noKeyInv_gt (src : Nat → Nat) (srcLo : Nat) (srcHi : Int) (index : Nat → index_t)
    (indexLo : Nat) (indexHi : Int)
    (hsrc : ∀ p q, srcLo ≤ p → p ≤ q → (q : Int) ≤ srcHi → src p ≤ src q)
    (hidx : ∀ j k, indexLo ≤ j → j ≤ k → (k : Int) ≤ indexHi → (index j).ts ≤ (index k).ts)
    (sp ip : Nat) (dest : List index_t) (h1 : srcLo ≤ sp) (h2 : indexLo ≤ ip)
    (_h3 : (sp : Int) ≤ srcHi) (h4 : (ip : Int) ≤ indexHi)
    (hc : Cross src srcLo srcHi index indexLo indexHi sp ip) (hl : (index ip).ts < src sp)
    (hq : NoKeyInv src srcLo srcHi index indexLo indexHi sp ip dest) :
    NoKeyInv src srcLo srcHi index indexLo indexHi sp (ip + 1) (dest ++ [index ip]) := by
  obtain ⟨q1, q2, q3⟩ := hq
  have hG : (index ip).ts ∉ (rowsOf srcLo srcHi).map src := by
    intro hmem
    rw [List.mem_map] at hmem
    obtain ⟨p, hp, hpe⟩ := hmem
    rw [mem_rowsOf] at hp
    by_cases hps : p < sp
    · have := hc.1 p ip hp.1 hps (Nat.le_refl _) h4
      omega
    · have := hsrc sp p h1 (by omega) hp.2
      omega
  refine ⟨?_, ?_, ?_⟩
  · rw [range'_snoc indexLo ip h2, List.map_append, List.map_singleton, List.filter_append,
      List.filter_singleton]
    have : decide ((index ip).ts ∉ (rowsOf srcLo srcHi).map src) = true := by simpa using hG
    rw [this]
    simp only [cond_true]
    rw [← List.append_assoc]
    exact q1.append_right _
  · rw [List.pairwise_append]
    refine ⟨q2, List.pairwise_singleton _ _, ?_⟩
    intro a ha b hb
    rw [List.mem_singleton] at hb
    rw [hb]
    exact (q3 a ha).2 ip (Nat.le_refl _) h4
  · intro e he
    rw [List.mem_append, List.mem_singleton] at he
    rcases he with he | he
    · exact ⟨(q3 e he).1, fun k hk1 hk2 => (q3 e he).2 k (by omega) hk2⟩
    · rw [he]
      constructor
      · intro p hp1 hp2
        have := hsrc sp p h1 hp1 hp2
        omega
      · intro k hk1 hk2
        exact hidx ip k h2 (by omega) hk2

theorem pairwise_map_range' (f : Nat → α) (R : α → α → Prop) :
    ∀ (n lo : Nat), ((List.range' lo n).map f).Pairwise R ↔
      ∀ p q, lo ≤ p → p < q → q < lo + n → R (f p) (f q) := by
  intro n
  induction n with
  | zero =>
    intro lo
    simp only [List.range'_zero, List.map_nil, List.Pairwise.nil, true_iff]
    intro p q h1 h2 h3
    omega
  | succ n ih =>
    intro lo
    rw [List.range'_succ, List.map_cons, List.pairwise_cons, ih]
    constructor
    · rintro ⟨h1, h2⟩ p q hp hpq hq
      by_cases hpl : p = lo
      · rw [hpl]
        apply h1
        rw [List.mem_map]
        exact ⟨q, by rw [List.mem_range'_1]; omega, rfl⟩
      · exact h2 p q (by omega) hpq (by omega)
    · intro h
      constructor
      · intro a ha
        rw [List.mem_map] at ha
        obtain ⟨q, hq, rfl⟩ := ha
        rw [List.mem_range'_1] at hq
        exact h lo q (Nat.le_refl _) (by omega) (by omega)
      · intro p q hp hpq hq
        exact h p q (by omega) hpq (by omega)

theorem sorted_rows_pointwise (f : Nat → Nat) (lo : Nat) (hi : Int)
    (h : ((rowsOf lo hi).map f).Pairwise (fun a b => a ≤ b)) :
    ∀ p q, lo ≤ p → p ≤ q → (q : Int) ≤ hi → f p ≤ f q := by
  unfold rowsOf at h
  rw [pairwise_map_range'] at h
  intro p q hp hpq hq
  by_cases hpq' : p = q
  · rw [hpq']
  · exact h p q hp (by omega) (by omega)

theorem noKeyInv_band (src : Nat → Nat) (srcLo : Nat) (srcHi : Int) (index : Nat → index_t)
    (indexLo : Nat) (indexHi : Int)
    (hsrc : ∀ p q, srcLo ≤ p → p ≤ q → (q : Int) ≤ srcHi → src p ≤ src q)
    (hidx : ∀ j k, indexLo ≤ j → j ≤ k → (k : Int) ≤ indexHi → (index j).ts ≤ (index k).ts)
    (sp ip : Nat) (dest : List index_t) (sp1 ip1 : Nat) (h1 : srcLo ≤ sp) (h2 : indexLo ≤ ip)
    (h3 : (sp : Int) ≤ srcHi) (_h4 : (ip : Int) ≤ indexHi)
    (hc : Cross src srcLo srcHi index indexLo indexHi sp ip) (hT : src sp = (index ip).ts)
    (hb : BandRun src srcHi index indexHi sp ip sp1 ip1)
    (hq : NoKeyInv src srcLo srcHi index indexLo indexHi sp ip dest) :
    NoKeyInv src srcLo srcHi index indexLo indexHi sp1 ip1
      (dest ++ List.replicate (sp1 - sp) (index (ip1 - 1))) := by
  obtain ⟨q1, q2, q3⟩ := hq
  have hc' := cross_after_band src srcLo srcHi index indexLo indexHi hsrc hidx sp ip sp1 ip1
    h1 h2 hc hT hb
  obtain ⟨b1, b2, b3, b4, b5, b6, b7, b8⟩ := hb
  have hlast : (index (ip1 - 1)).ts = src sp := b7 (ip1 - 1) (by omega) (by omega)
  -- the rows of the band all owe the last entry of the band
  have hF : ∀ p, sp ≤ p → p < sp1 →
      expectedRow src ((rowsOf indexLo indexHi).map index) p = index (ip1 - 1) := by
    intro p hp1 hp2
    have hsplit : (rowsOf indexLo indexHi).map index =
        (List.range' indexLo (ip - indexLo)).map index ++
          (List.range' ip (ip1 - ip)).map index ++
          (List.range' ip1 (indexLo + (indexHi + 1 - indexLo).toNat - ip1)).map index := by
      unfold rowsOf
      rw [range'_split indexLo (indexHi + 1 - indexLo).toNat ip1 (by omega) (by omega),
        range'_split indexLo (ip1 - indexLo) ip h2 (by omega), List.map_append, List.map_append,
        show indexLo + (ip1 - indexLo) - ip = ip1 - ip by omega]
    rw [hsplit]
    apply expectedRow_band
    · intro e he
      rw [List.mem_map] at he
      obtain ⟨k, hk, rfl⟩ := he
      rw [List.mem_range'_1] at hk
      have := hc.2 k sp hk.1 (by omega) (Nat.le_refl _) h3
      rw [b5 p hp1 hp2]
      omega
    · intro e he
      rw [List.mem_map] at he
      obtain ⟨k, hk, rfl⟩ := he
      rw [List.mem_range'_1] at hk
      rw [b5 p hp1 hp2]
      exact b7 k hk.1 (by omega)
    · intro e he
      rw [List.mem_map] at he
      obtain ⟨k, hk, rfl⟩ := he
      rw [List.mem_range'_1] at hk
      have := hc'.1 p k (by omega) hp2 hk.1 (by omega)
      omega
    · have e : ip1 - ip = (ip1 - 1 - ip) + 1 := by omega
      rw [e, List.range'_1_concat, List.map_append, List.map_singleton, List.getLast?_concat]
      congr 2
      omega
  refine ⟨?_, ?_, ?_⟩
  · have hrows : (List.range' srcLo (sp1 - srcLo)).map
          (expectedRow src ((rowsOf indexLo indexHi).map index)) =
        (List.range' srcLo (sp - srcLo)).map
          (expectedRow src ((rowsOf indexLo indexHi).map index)) ++
          List.replicate (sp1 - sp) (index (ip1 - 1)) := by
      rw [range'_split srcLo (sp1 - srcLo) sp h1 (by omega), List.map_append]
      congr 1
      rw [List.eq_replicate_iff]
      constructor
      · simp only [List.length_map, List.length_range']
        omega
      · intro e he
        rw [List.mem_map] at he
        obtain ⟨p, hp, rfl⟩ := he
        rw [List.mem_range'_1] at hp
        exact hF p hp.1 (by omega)
    have hidxs : ((List.range' indexLo (ip1 - indexLo)).map index).filter
          (fun e => e.ts ∉ (rowsOf srcLo srcHi).map src) =
        ((List.range' indexLo (ip - indexLo)).map index).filter
          (fun e => e.ts ∉ (rowsOf srcLo srcHi).map src) := by
      rw [range'_split indexLo (ip1 - indexLo) ip h2 (by omega), List.map_append,
        List.filter_append]
      have : ((List.range' ip (indexLo + (ip1 - indexLo) - ip)).map index).filter
          (fun e => e.ts ∉ (rowsOf srcLo srcHi).map src) = [] := by
        rw [List.filter_eq_nil_iff]
        intro e he
        rw [List.mem_map] at he
        obtain ⟨k, hk, rfl⟩ := he
        rw [List.mem_range'_1] at hk
        simp only [decide_not, Bool.not_eq_true', decide_eq_false_iff_not, not_not]
        rw [List.mem_map]
        exact ⟨sp, by rw [mem_rowsOf]; omega, (b7 k hk.1 (by omega)).symm⟩
      rw [this, List.append_nil]
    rw [hrows, hidxs]
    refine (q1.append_right _).trans ?_
    rw [List.append_assoc, List.append_assoc]
    exact List.Perm.append_left _ List.perm_append_comm
  · rw [List.pairwise_append]
    refine ⟨q2, ?_, ?_⟩
    · rw [List.pairwise_replicate]
      right
      exact Nat.le_refl _
    · intro a ha b hb
      rw [List.mem_replicate] at hb
      rw [hb.2, hlast]
      exact (q3 a ha).1 sp (Nat.le_refl _) h3
  · intro e he
    rw [List.mem_append, List.mem_replicate] at he
    rcases he with he | he
    · exact ⟨fun p hp1 hp2 => (q3 e he).1 p (by omega) hp2,
        fun k hk1 hk2 => (q3 e he).2 k (by omega) hk2⟩
    · rw [he.2, hlast]
      constructor
      · intro p hp1 hp2
        exact hsrc sp p h1 (by omega) hp2
      · intro k hk1 hk2
        rw [hT]
        exact hidx ip k h2 (by omega) hk2

theorem index_drain_loop_spec (index : Nat → index_t) :
    ∀ (n ip : Nat) (dest : List index_t),
      index_drain_loop index n ip dest = (ip + n, dest ++ (List.range' ip n).map index) := by
  intro n
  induction n with
  | zero => intro ip dest; simp [index_drain_loop]
  | succ n ih =>
    intro ip dest
    rw [index_drain_loop, ih, List.range'_succ]
    simp only [List.map_cons, List.append_assoc, List.singleton_append, Prod.mk.injEq, and_true]
    omega

theorem src_drain_loop_spec (src : Nat → Nat) :
    ∀ (n sp : Nat) (dest : List index_t),
      src_drain_loop src n sp dest =
        dest ++ (List.range' sp n).map (fun p => (⟨src p, tag63 p⟩ : index_t)) := by
  intro n
  induction n with
  | zero => intro sp dest; simp [src_drain_loop]
  | succ n ih =>
    intro sp dest
    rw [src_drain_loop, ih, List.range'_succ]
    simp only [List.map_cons, List.append_assoc, List.singleton_append]

theorem sorted_entries_pointwise (index : Nat → index_t) (lo : Nat) (hi : Int)
    (h : ((rowsOf lo hi).map index).Pairwise (fun a b => a.ts ≤ b.ts)) :
    ∀ j k, lo ≤ j → j ≤ k → (k : Int) ≤ hi → (index j).ts ≤ (index k).ts := by
  apply sorted_rows_pointwise (fun k => (index k).ts) lo hi
  rw [List.pairwise_map] at h ⊢
  exact h

theorem mergeAsc_run (src : Nat → Nat) (srcLo : Nat) (srcHi : Int) (index : Nat → index_t)
    (indexLo : Nat) (indexHi : Int)
    (hsrc : ((rowsOf srcLo srcHi).map src).Pairwise (fun a b => a ≤ b))
    (hidx : ((rowsOf indexLo indexHi).map index).Pairwise (fun a b => a.ts ≤ b.ts)) :
    ∃ out, Java_io_questdb_std_Vect_mergeDedupTimestampWithLongIndexAsc src srcLo srcHi index
        indexLo indexHi = some ((out.length : Int), out) ∧
      out.Pairwise (fun a b => a.ts ≤ b.ts) ∧
      out.Perm (mergeExpected src (rowsOf srcLo srcHi) ((rowsOf indexLo indexHi).map index)) := by
  have hsrc' := sorted_rows_pointwise src srcLo srcHi hsrc
  have hidx' := sorted_entries_pointwise index indexLo indexHi hidx
  obtain ⟨sp, ip, dest, hrun, ⟨q1, q2, q3⟩, hc, b1, b2, b3, b4, hg⟩ :=
    merge_skel_induct (band_no_key src srcHi index indexHi) src srcLo srcHi index indexLo indexHi
      hsrc' hidx'
      (by
        intro sp ip dest h1 h2 hT
        obtain ⟨sp1, ip1, hb, hr⟩ := band_no_key_run src srcHi index indexHi sp ip dest h1 h2 hT
        exact ⟨sp1, ip1, _, hb, hr⟩)
      (NoKeyInv src srcLo srcHi index indexLo indexHi)
      (noKeyInv_lt src srcLo srcHi index indexLo indexHi hsrc' hidx')
      (noKeyInv_gt src srcLo srcHi index indexLo indexHi hsrc' hidx')
      (by
        intro sp ip dest sp1 ip1 dest1 h1 h2 h3 h4 hc hT hb hr hq
        obtain ⟨sp1', ip1', hb', _⟩ := band_no_key_run src srcHi index indexHi sp ip dest h3 h4 hT
        rw [hb] at hb'
        simp only [Option.some.injEq, Prod.mk.injEq] at hb'
        obtain ⟨e1, e2, e3⟩ := hb'
        rw [e3, ← e1, ← e2]
        exact noKeyInv_band src srcLo srcHi index indexLo indexHi hsrc' hidx' sp ip dest sp1 ip1
          h1 h2 h3 h4 hc hT hr hq)
      ((srcHi + 1 - srcLo).toNat + (indexHi + 1 - indexLo).toNat) srcLo indexLo []
      (Nat.le_refl _) (Nat.le_refl _) (by omega) (by omega) (Nat.le_refl _)
      ⟨by intro p k h1 h2; omega, by intro k p h1 h2; omega⟩
      ⟨by simp, List.Pairwise.nil, by intro e he; simp at he⟩
  unfold Java_io_questdb_std_Vect_mergeDedupTimestampWithLongIndexAsc
  rw [mergeDedupTimestampWithLongIndexAsc_loop_eq, hrun]
  simp only []
  rw [index_drain_loop_spec, src_drain_loop_spec]
  simp only []
  refine ⟨_, rfl, ?_, ?_⟩
  · -- the output is sorted by timestamp
    rw [List.pairwise_append, List.pairwise_append]
    refine ⟨⟨q2, ?_, ?_⟩, ?_, ?_⟩
    · rw [pairwise_map_range']
      intro p q hp hpq hq
      exact hidx' p q (by omega) (by omega) (by omega)
    · intro a ha b hb
      rw [List.mem_map] at hb
      obtain ⟨k, hk, rfl⟩ := hb
      rw [List.mem_range'_1] at hk
      exact (q3 a ha).2 k hk.1 (by omega)
    · rw [pairwise_map_range']
      intro p q hp hpq hq
      exact hsrc' p q (by omega) (by omega) (by omega)
    · intro a ha b hb
      rw [List.mem_map] at hb
      obtain ⟨p, hp, rfl⟩ := hb
      rw [List.mem_range'_1] at hp
      rw [List.mem_append] at ha
      rcases ha with ha | ha
      · exact (q3 a ha).1 p hp.1 (by omega)
      · rw [List.mem_map] at ha
        obtain ⟨k, hk, rfl⟩ := ha
        rw [List.mem_range'_1] at hk
        exact absurd ⟨by omega, by omega⟩ hg
  · unfold mergeExpected
    have hrows : rowsOf srcLo srcHi =
        List.range' srcLo (sp - srcLo) ++ List.range' sp (srcHi + 1 - sp).toNat := by
      unfold rowsOf
      rw [range'_split srcLo (srcHi + 1 - srcLo).toNat sp b1 (by omega)]
      congr 2
      omega
    have hidxs : rowsOf indexLo indexHi =
        List.range' indexLo (ip - indexLo) ++ List.range' ip (indexHi + 1 - ip).toNat := by
      unfold rowsOf
      rw [range'_split indexLo (indexHi + 1 - indexLo).toNat ip b2 (by omega)]
      congr 2
      omega
    have hS : (List.range' sp (srcHi + 1 - sp).toNat).map
          (expectedRow src ((rowsOf indexLo indexHi).map index)) =
        (List.range' sp (srcHi + 1 - sp).toNat).map
          (fun p => (⟨src p, tag63 p⟩ : index_t)) := by
      apply List.map_congr_left
      intro p hp
      rw [List.mem_range'_1] at hp
      apply expectedRow_tagged
      intro e he
      rw [List.mem_map] at he
      obtain ⟨k, hk, rfl⟩ := he
      rw [mem_rowsOf] at hk
      have hkip : k < ip := by
        by_contra hcon
        exact hg ⟨by omega, by omega⟩
      have := hc.2 k p hk.1 hkip hp.1 (by omega)
      omega
    have hI : ((List.range' ip (indexHi + 1 - ip).toNat).map index).filter
          (fun e => e.ts ∉ (rowsOf srcLo srcHi).map src) =
        (List.range' ip (indexHi + 1 - ip).toNat).map index := by
      rw [List.filter_eq_self]
      intro e he
      rw [List.mem_map] at he
      obtain ⟨k, hk, rfl⟩ := he
      rw [List.mem_range'_1] at hk
      simp only [decide_not, Bool.not_eq_true', decide_eq_false_iff_not]
      intro hmem
      rw [List.mem_map] at hmem
      obtain ⟨p, hp, hpe⟩ := hmem
      rw [mem_rowsOf] at hp
      have hpsp : p < sp := by
        by_contra hcon
        exact hg ⟨by omega, by omega⟩
      have := hc.1 p k hp.1 hpsp hk.1 (by omega)
      omega
    have e1 : (rowsOf srcLo srcHi).map (expectedRow src ((rowsOf indexLo indexHi).map index)) =
        (List.range' srcLo (sp - srcLo)).map
            (expectedRow src ((rowsOf indexLo indexHi).map index)) ++
          (List.range' sp (srcHi + 1 - sp).toNat).map
            (fun p => (⟨src p, tag63 p⟩ : index_t)) := by
      conv_lhs => rw [hrows]
      rw [List.map_append, hS]
    have e2 : ((rowsOf indexLo indexHi).map index).filter
          (fun e => e.ts ∉ (rowsOf srcLo srcHi).map src) =
        ((List.range' indexLo (ip - indexLo)).map index).filter
            (fun e => e.ts ∉ (rowsOf srcLo srcHi).map src) ++
          (List.range' ip (indexHi + 1 - ip).toNat).map index := by
      conv_lhs => rw [hidxs]
      rw [List.map_append, List.filter_append, hI]
    rw [e1, e2]
    refine ((q1.append_right _).append_right _).trans ?_
    simp only [List.append_assoc]
    refine List.Perm.append_left _ ?_
    rw [← List.append_assoc]
    exact List.perm_append_comm

/-- Claim C3 (output of the no-key merge-dedup).  For timestamp-non-decreasing
`src[srcLo .. srcHi]` and `index[indexLo .. indexHi]`, `mergeDedupTimestampWithLongIndexAsc`
returns the number of entries written, the written entries are in ascending timestamp order,
and they are, up to the order of entries of equal timestamp, exactly `mergeExpected`: for
every persisted row the last index entry with its timestamp if there is one and the row
tagged with bit 63 otherwise, and every index entry whose timestamp occurs at no persisted
row. -/
theorem mergeDedupTimestampWithLongIndexAsc_output (src : Nat → Nat) (srcLo : Nat) (srcHi : Int)
    (index : Nat → index_t) (indexLo : Nat) (indexHi : Int)
    (hsrc : ((rowsOf srcLo srcHi).map src).Pairwise (fun a b => a ≤ b))
    (hidx : ((rowsOf indexLo indexHi).map index).Pairwise (fun a b => a.ts ≤ b.ts)) :
    ∃ out, Java_io_questdb_std_Vect_mergeDedupTimestampWithLongIndexAsc src srcLo srcHi index
        indexLo indexHi = some ((out.length : Int), out) ∧
      out.Pairwise (fun a b => a.ts ≤ b.ts) ∧
      out.Perm (mergeExpected src (rowsOf srcLo srcHi) ((rowsOf indexLo indexHi).map index)) :=
  mergeAsc_run src srcLo srcHi index indexLo indexHi hsrc hidx

theorem mergeDedupTimestampWithLongIndexAsc_output_witness :
    ((rowsOf 0 2).map (tsArray [10, 20, 30])).Pairwise (fun a b => a ≤ b) ∧
    ((rowsOf 0 1).map (indexArray [⟨15, 0⟩, ⟨25, 1⟩])).Pairwise (fun a b => a.ts ≤ b.ts) ∧
    (∃ out, Java_io_questdb_std_Vect_mergeDedupTimestampWithLongIndexAsc (tsArray [10, 20, 30])
        0 2 (indexArray [⟨15, 0⟩, ⟨25, 1⟩]) 0 1 = some ((out.length : Int), out) ∧
      out.Pairwise (fun a b => a.ts ≤ b.ts) ∧
      out.Perm (mergeExpected (tsArray [10, 20, 30]) (rowsOf 0 2)
        ((rowsOf 0 1).map (indexArray [⟨15, 0⟩, ⟨25, 1⟩])))) ∧
    Java_io_questdb_std_Vect_mergeDedupTimestampWithLongIndexAsc (tsArray [10, 20, 30])
        0 2 (indexArray [⟨15, 0⟩, ⟨25, 1⟩]) 0 1 =
      some (5, [⟨10, 0 + 2 ^ 63⟩, ⟨15, 0⟩, ⟨20, 1 + 2 ^ 63⟩, ⟨25, 1⟩, ⟨30, 2 + 2 ^ 63⟩]) ∧
    Java_io_questdb_std_Vect_mergeDedupTimestampWithLongIndexAsc (tsArray [10, 10])
        0 1 (indexArray [⟨10, 0⟩, ⟨10, 1⟩]) 0 1 = some (2, [⟨10, 1⟩, ⟨10, 1⟩]) :=
  ⟨by decide, by decide,
    mergeDedupTimestampWithLongIndexAsc_output (tsArray [10, 20, 30]) 0 2
      (indexArray [⟨15, 0⟩, ⟨25, 1⟩]) 0 1 (by decide) (by decide),
    by decide, by decide⟩

/-- Claim C9, amended (conservation for the no-key merge-dedup).  For timestamp-non-decreasing
`src` and `index`, the returned length is `|src| + |index|` minus the number of index entries
whose timestamp also occurs in `src`: every persisted row yields one output entry, and an
index entry is written for itself only when no persisted row has its timestamp. -/
theorem mergeDedupTimestampWithLongIndexAsc_conservation (src : Nat → Nat) (srcLo : Nat)
    (srcHi : Int) (index : Nat → index_t) (indexLo : Nat) (indexHi : Int)
    (hsrc : ((rowsOf srcLo srcHi).map src).Pairwise (fun a b => a ≤ b))
    (hidx : ((rowsOf indexLo indexHi).map index).Pairwise (fun a b => a.ts ≤ b.ts)) :
    ∃ out, Java_io_questdb_std_Vect_mergeDedupTimestampWithLongIndexAsc src srcLo srcHi index
        indexLo indexHi = some ((out.length : Int), out) ∧
      (out.length : Int) = (rowsOf srcLo srcHi).length + (rowsOf indexLo indexHi).length -
        ((rowsOf indexLo indexHi).map index).countP
          (fun e => e.ts ∈ (rowsOf srcLo srcHi).map src) := by
  obtain ⟨out, h1, _, h3⟩ := mergeAsc_run src srcLo srcHi index indexLo indexHi hsrc hidx
  refine ⟨out, h1, ?_⟩
  rw [h3.length_eq]
  unfold mergeExpected
  rw [List.length_append, List.length_map, ← List.countP_eq_length_filter]
  have := List.length_eq_countP_add_countP (fun e => decide (e.ts ∈ (rowsOf srcLo srcHi).map src))
    ((rowsOf indexLo indexHi).map index)
  rw [List.length_map] at this
  have e : List.countP (fun a => decide ¬(decide (a.ts ∈ (rowsOf srcLo srcHi).map src)) = true)
      ((rowsOf indexLo indexHi).map index) =
      List.countP (fun e => decide (e.ts ∉ (rowsOf srcLo srcHi).map src))
      ((rowsOf indexLo indexHi).map index) := by
    congr 1
    funext a
    simp
  rw [e] at this
  omega

theorem mergeDedupTimestampWithLongIndexAsc_conservation_witness :
    ((rowsOf 0 0).map (tsArray [10])).Pairwise (fun a b => a ≤ b) ∧
    ((rowsOf 0 1).map (indexArray [⟨10, 0⟩, ⟨10, 1⟩])).Pairwise (fun a b => a.ts ≤ b.ts) ∧
    ∃ out, Java_io_questdb_std_Vect_mergeDedupTimestampWithLongIndexAsc (tsArray [10]) 0 0
        (indexArray [⟨10, 0⟩, ⟨10, 1⟩]) 0 1 = some ((out.length : Int), out) ∧
      (out.length : Int) = (rowsOf 0 0).length + (rowsOf 0 1).length -
        ((rowsOf 0 1).map (indexArray [⟨10, 0⟩, ⟨10, 1⟩])).countP
          (fun e => e.ts ∈ (rowsOf 0 0).map (tsArray [10])) :=
  ⟨by decide, by decide,
    mergeDedupTimestampWithLongIndexAsc_conservation (tsArray [10]) 0 0
      (indexArray [⟨10, 0⟩, ⟨10, 1⟩]) 0 1 (by decide) (by decide)⟩

/-- Claim C9 as stated fails: for `src = [10]` and `index = [{10,0},{10,1}]` the merge returns
one entry, while `|src| + |index|` minus the number of persisted rows whose timestamp occurs
in `index` is `1 + 2 - 1 = 2`. -/
theorem conservation_as_stated_fails :
    ¬ ConservationAsStated (tsArray [10]) 0 0 (indexArray [⟨10, 0⟩, ⟨10, 1⟩]) 0 1 := by
  rintro ⟨out, h1, h2⟩
  have hrun : Java_io_questdb_std_Vect_mergeDedupTimestampWithLongIndexAsc (tsArray [10]) 0 0
      (indexArray [⟨10, 0⟩, ⟨10, 1⟩]) 0 1 = some (1, [⟨10, 1⟩]) := by decide
  rw [hrun] at h1
  simp only [Option.some.injEq, Prod.mk.injEq] at h1
  have hcount : ((rowsOf 0 0).length : Int) + (rowsOf 0 1).length -
      (rowsOf 0 0).countP (fun p => tsArray [10] p ∈
        ((rowsOf 0 1).map (indexArray [⟨10, 0⟩, ⟨10, 1⟩])).map (fun e => e.ts)) = 2 := by decide
  rw [hcount, ← h1.1] at h2
  exact absurd h2 (by decide)

theorem dedup_sorted_timestamp_index_keeps_last_of_runs_witness :
    ((memOf [⟨1, 0⟩, ⟨1, 1⟩, ⟨1, 2⟩, ⟨2, 3⟩, ⟨2, 4⟩]).slice 0 0 (5 : Int).toNat).Pairwise
      (fun a b => a.ts ≤ b.ts) ∧
    ((dedup_sorted_timestamp_index (memOf [⟨1, 0⟩, ⟨1, 1⟩, ⟨1, 2⟩, ⟨2, 3⟩, ⟨2, 4⟩]) 0 5 1).1 =
        ((((memOf [⟨1, 0⟩, ⟨1, 1⟩, ⟨1, 2⟩, ⟨2, 3⟩, ⟨2, 4⟩]).slice 0 0 (5 : Int).toNat).splitBy
          (fun a b => a.ts == b.ts)).length : Int) ∧
      (dedup_sorted_timestamp_index (memOf [⟨1, 0⟩, ⟨1, 1⟩, ⟨1, 2⟩, ⟨2, 3⟩, ⟨2, 4⟩]) 0 5
          1).2.slice 1 0
          (((memOf [⟨1, 0⟩, ⟨1, 1⟩, ⟨1, 2⟩, ⟨2, 3⟩, ⟨2, 4⟩]).slice 0 0 (5 : Int).toNat).splitBy
            (fun a b => a.ts == b.ts)).length =
        (((memOf [⟨1, 0⟩, ⟨1, 1⟩, ⟨1, 2⟩, ⟨2, 3⟩, ⟨2, 4⟩]).slice 0 0 (5 : Int).toNat).splitBy
          (fun a b => a.ts == b.ts)).filterMap List.getLast?) ∧
    (dedup_sorted_timestamp_index (memOf [⟨1, 0⟩, ⟨1, 1⟩, ⟨1, 2⟩, ⟨2, 3⟩, ⟨2, 4⟩]) 0 5 1).1 = 2 ∧
    (dedup_sorted_timestamp_index (memOf [⟨1, 0⟩, ⟨1, 1⟩, ⟨1, 2⟩, ⟨2, 3⟩, ⟨2, 4⟩]) 0 5
      1).2.slice 1 0 2 = [⟨1, 2⟩, ⟨2, 4⟩] ∧
    (dedup_sorted_timestamp_index (memOf []) 0 0 1).1 = 0 :=
  ⟨by decide,
    dedup_sorted_timestamp_index_keeps_last_of_runs
      (memOf [⟨1, 0⟩, ⟨1, 1⟩, ⟨1, 2⟩, ⟨2, 3⟩, ⟨2, 4⟩]) 0 1 5 (by decide),
    by decide, by decide, by decide⟩

theorem dedup_with_keys_no_dedup_needed_iff_witness :
    ((memOf [⟨1, 0⟩, ⟨2, 1⟩, ⟨3, 2⟩]).slice 0 0 (3 : Int).toNat).Pairwise
      (fun a b => a.ts ≤ b.ts) ∧
    (∃ r, dedup_sorted_timestamp_index_with_keys (fun _ _ => 0)
        (memOf [⟨1, 0⟩, ⟨2, 1⟩, ⟨3, 2⟩]) 0 3 1 2 = some r ∧
      (r.1 = -2 ↔ ((memOf [⟨1, 0⟩, ⟨2, 1⟩, ⟨3, 2⟩]).slice 0 0 (3 : Int).toNat).Pairwise
        (fun a b => a.ts ≠ b.ts))) ∧
    (dedup_sorted_timestamp_index_with_keys (fun _ _ => 0)
        (memOf [⟨1, 0⟩, ⟨2, 1⟩, ⟨3, 2⟩]) 0 3 1 2).map Prod.fst = some (-2) :=
  ⟨by decide,
    dedup_with_keys_no_dedup_needed_iff (fun _ _ => 0) (memOf [⟨1, 0⟩, ⟨2, 1⟩, ⟨3, 2⟩]) 0 3 1 2
      (by decide),
    by decide⟩

theorem dedup_unsorted_returns_error_witness :
    (∃ j k : Nat, j < k ∧ k < (3 : Int).toNat ∧
      ((memOf [⟨1, 0⟩, ⟨3, 1⟩, ⟨2, 2⟩]) 0 k).ts < ((memOf [⟨1, 0⟩, ⟨3, 1⟩, ⟨2, 2⟩]) 0 j).ts) ∧
    ((dedup_sorted_timestamp_index (memOf [⟨1, 0⟩, ⟨3, 1⟩, ⟨2, 2⟩]) 0 3 1).1 = -1 ∧
      dedup_sorted_timestamp_index_with_keys (fun _ _ => 0) (memOf [⟨1, 0⟩, ⟨3, 1⟩, ⟨2, 2⟩]) 0 3 1
        2 = some (-1, memOf [⟨1, 0⟩, ⟨3, 1⟩, ⟨2, 2⟩])) :=
  ⟨⟨1, 2, by decide, by decide, by decide⟩,
    dedup_unsorted_returns_error (fun _ _ => 0) (memOf [⟨1, 0⟩, ⟨3, 1⟩, ⟨2, 2⟩]) 0 3 1 2
      ⟨1, 2, by decide, by decide, by decide⟩⟩

theorem branch_free_search_loop_isSome (compare : Nat → Nat → Int) (searchIndex : Nat)
    (array : Nat → index_t) (count : Nat) :
    ∀ (fuel base n : Nat), n ≤ fuel + 1 → 1 ≤ n → base + n ≤ count →
      ∃ base', branch_free_search_loop compare searchIndex array fuel base n = some base' ∧
        base' < count := by
  intro fuel
  induction fuel with
  | zero =>
    intro base n h1 h2 h3
    unfold branch_free_search_loop
    rw [if_neg (by omega)]
    exact ⟨base, rfl, by omega⟩
  | succ fuel ih =>
    intro base n h1 h2 h3
    unfold branch_free_search_loop
    by_cases hn : n > 1
    · rw [if_pos hn]
      simp only []
      have hh : 1 ≤ n / 2 := by omega
      have hh2 : n / 2 < n := by omega
      split
      · exact ih _ _ (by omega) (by omega) (by omega)
      · exact ih _ _ (by omega) (by omega) (by omega)
    · rw [if_neg hn]
      exact ⟨base, rfl, by omega⟩

theorem branch_free_search_loop_sorted (compare : Nat → Nat → Int) (searchIndex : Nat)
    (array : Nat → index_t) (count : Nat)
    (hs : SignSorted (fun j => compare searchIndex (array j).i) count) :
    ∀ (fuel base n : Nat), n ≤ fuel + 1 → 1 ≤ n → base + n ≤ count →
      (base = 0 ∨ 0 < compare searchIndex (array base).i) →
      (∀ j, base + n ≤ j → j < count → compare searchIndex (array j).i ≤ 0) →
      ∃ base', branch_free_search_loop compare searchIndex array fuel base n = some base' ∧
        base' < count ∧ (base' = 0 ∨ 0 < compare searchIndex (array base').i) ∧
        (∀ j, base' + 1 ≤ j → j < count → compare searchIndex (array j).i ≤ 0) := by
  intro fuel
  induction fuel with
  | zero =>
    intro base n h1 h2 h3 h4 h5
    unfold branch_free_search_loop
    rw [if_neg (by omega)]
    have : n = 1 := by omega
    subst this
    exact ⟨base, rfl, by omega, h4, h5⟩
  | succ fuel ih =>
    intro base n h1 h2 h3 h4 h5
    unfold branch_free_search_loop
    by_cases hn : n > 1
    · rw [if_pos hn]
      simp only []
      have hh : 1 ≤ n / 2 := by omega
      have hh2 : n / 2 < n := by omega
      by_cases hd : compare searchIndex (array (base + n / 2)).i > 0
      · rw [if_pos hd]
        apply ih _ _ (by omega) (by omega) (by omega) (Or.inr hd)
        intro j hj1 hj2
        exact h5 j (by omega) hj2
      · rw [if_neg hd]
        apply ih _ _ (by omega) (by omega) (by omega) h4
        intro j hj1 hj2
        have := (hs (base + n / 2) j (by omega) hj2).1
        simp only at this
        by_contra hcon
        exact hd (this (by omega))
    · rw [if_neg hn]
      have : n = 1 := by omega
      subst this
      exact ⟨base, rfl, by omega, h4, h5⟩

/-- The search always returns: `-1`, or the offset of a band entry that compares equal. -/
theorem branch_free_search_sound (compare : Nat → Nat → Int) (searchIndex : Nat)
    (array : Nat → index_t) (count : Nat) (hcount : 1 ≤ count) :
    ∃ r, branch_free_search compare searchIndex array count = some r ∧
      (r = -1 ∨ (0 ≤ r ∧ r.toNat < count ∧ compare searchIndex (array r.toNat).i = 0)) := by
  obtain ⟨base, h1, h2⟩ := branch_free_search_loop_isSome compare searchIndex array count count 0
    count (by omega) hcount (by omega)
  unfold branch_free_search
  rw [h1]
  simp only []
  split
  · rename_i h
    exact ⟨_, rfl, Or.inr ⟨by omega, by simpa using h2, by simpa using h⟩⟩
  · split
    · rename_i h
      refine ⟨_, rfl, Or.inr ⟨by omega, ?_, ?_⟩⟩
      · have : ((base : Int) + 1).toNat = base + 1 := by omega
        rw [this]; exact h.1
      · have : ((base : Int) + 1).toNat = base + 1 := by omega
        rw [this]; exact h.2
    · exact ⟨_, rfl, Or.inl rfl⟩

/-- On a band that is sorted as seen from the target, the search misses no match. -/
theorem branch_free_search_complete (compare : Nat → Nat → Int) (searchIndex : Nat)
    (array : Nat → index_t) (count : Nat) (hcount : 1 ≤ count)
    (hs : SignSorted (fun j => compare searchIndex (array j).i) count)
    (h : branch_free_search compare searchIndex array count = some (-1)) :
    ∀ j, j < count → compare searchIndex (array j).i ≠ 0 := by
  obtain ⟨base, h1, h2, h3, h4⟩ := branch_free_search_loop_sorted compare searchIndex array count
    hs count 0 count (by omega) hcount (by omega) (Or.inl rfl) (by intro j h1 h2; omega)
  unfold branch_free_search at h
  rw [h1] at h
  simp only [] at h
  intro j hj hz
  by_cases hb : compare searchIndex (array base).i = 0
  · rw [if_pos hb] at h
    simp only [Option.some.injEq] at h
    omega
  · rw [if_neg hb] at h
    by_cases hb1 : base + 1 < count ∧ compare searchIndex (array (base + 1)).i = 0
    · rw [if_pos hb1] at h
      simp only [Option.some.injEq] at h
      omega
    · rcases h3 with h3 | h3
      · -- base = 0 and its entry is strictly above the target
        subst h3
        have hneg : compare searchIndex (array 0).i < 0 := by
          by_contra hcon
          have hpos : 0 < compare searchIndex (array 0).i := by omega
          by_cases hj0 : j = 0
          · rw [hj0] at hz; omega
          · have := h4 1 (by omega) (by omega)
            have h5 := (hs 1 j (by omega) hj).2
            have h6 := (hs 0 1 (by omega) (by omega)).1
            simp only at h5 h6
            have h7 : compare searchIndex (array 1).i = 0 := by
              by_contra h7
              have : compare searchIndex (array 1).i < 0 := by omega
              have := h5 this
              omega
            exact hb1 ⟨by omega, h7⟩
        have := (hs 0 j (by omega) hj).2 hneg
        simp only at this
        omega
      · have hjb : base < j := by
          by_contra hcon
          have := (hs j base (by omega) h2).1 h3
          simp only at this
          omega
        have h5 := h4 (base + 1) (by omega) (by omega)
        have h6 := (hs (base + 1) j (by omega) hj).2
        simp only at h6
        have h7 : compare searchIndex (array (base + 1)).i = 0 := by
          by_contra h7
          have : compare searchIndex (array (base + 1)).i < 0 := by omega
          have := h6 this
          omega
        exact hb1 ⟨by omega, h7⟩

theorem getD_set_true (used : List Bool) (j k : Nat) (hj : j < used.length) :
    (used.set j true).getD k false = (used.getD k false || decide (j = k)) := by
  simp only [List.getD_eq_getElem?_getD, List.getElem?_set]
  by_cases h : j = k
  · subst h
    simp [hj]
  · simp [h]

theorem conflict_src_loop_spec (compare : Nat → Nat → Int) (src : Nat → Nat)
    (index : Nat → index_t) (ip len T : Nat) (hlen : 1 ≤ len) :
    ∀ (n sp : Nat) (dest : List index_t) (used : List Bool), used.length = len →
      ∃ sp1 used1, conflict_src_loop compare src index ip len T n sp dest used =
          some (sp1, dest ++ (List.range' sp (sp1 - sp)).map (emitRow compare index ip len T),
            used1) ∧
        sp ≤ sp1 ∧ sp1 ≤ sp + n ∧ (∀ p, sp ≤ p → p < sp1 → src p = T) ∧
        (sp1 < sp + n → src sp1 ≠ T) ∧ used1.length = len ∧
        ∀ j, used1.getD j false = (used.getD j false ||
          (List.range' sp (sp1 - sp)).any (fun p => matchOf compare index ip len p == some j)) := by
  intro n
  induction n with
  | zero =>
    intro sp dest used hu
    refine ⟨sp, used, ?_, Nat.le_refl _, Nat.le_refl _, by intro p h1 h2; omega,
      by intro h; omega, hu, ?_⟩
    · simp [conflict_src_loop]
    · intro j; simp
  | succ n ih =>
    intro sp dest used hu
    unfold conflict_src_loop
    by_cases hT : src sp = T
    · rw [if_pos hT]
      obtain ⟨r, hr1, hr2⟩ := branch_free_search_sound compare sp (fun k => index (ip + k)) len
        hlen
      rw [hr1]
      simp only []
      have hm : matchOf compare index ip len sp = if r > -1 then some r.toNat else none := by
        unfold matchOf
        rw [hr1]
      by_cases hr : r > -1
      · rw [if_pos hr]
        rw [if_pos hr] at hm
        have hrlt : r.toNat < len := by
          rcases hr2 with hr2 | hr2
          · omega
          · exact hr2.2.1
        obtain ⟨sp1, used1, h1, h2, h3, h4, h5, h6, h7⟩ := ih (sp + 1)
          (dest ++ [⟨T, (index (ip + r.toNat)).i⟩]) (used.set r.toNat true)
          (by rw [List.length_set]; exact hu)
        refine ⟨sp1, used1, ?_, by omega, by omega, ?_, ?_, h6, ?_⟩
        · rw [h1]
          congr 2
          have e : sp1 - sp = (sp1 - (sp + 1)) + 1 := by omega
          rw [e, List.range'_succ, List.map_cons, List.append_assoc]
          congr 2
          unfold emitRow
          rw [hm]
          rfl
        · intro p hp1 hp2
          by_cases hp : p = sp
          · rw [hp]; exact hT
          · exact h4 p (by omega) hp2
        · intro h; exact h5 (by omega)
        · intro j
          rw [h7 j, getD_set_true used r.toNat j (by omega)]
          have e : sp1 - sp = (sp1 - (sp + 1)) + 1 := by omega
          rw [e, List.range'_succ, List.any_cons, hm]
          by_cases hj : r.toNat = j
          · simp [hj]
          · have hb : (some r.toNat == some j) = false := by simpa using hj
            have hd : decide (r.toNat = j) = false := by simpa using hj
            rw [hb, hd, Bool.or_false, Bool.false_or]
      · rw [if_neg hr]
        rw [if_neg hr] at hm
        obtain ⟨sp1, used1, h1, h2, h3, h4, h5, h6, h7⟩ := ih (sp + 1)
          (dest ++ [⟨T, tag63 sp⟩]) used hu
        refine ⟨sp1, used1, ?_, by omega, by omega, ?_, ?_, h6, ?_⟩
        · rw [h1]
          congr 2
          have e : sp1 - sp = (sp1 - (sp + 1)) + 1 := by omega
          rw [e, List.range'_succ, List.map_cons, List.append_assoc]
          congr 2
          unfold emitRow
          rw [hm]
          rfl
        · intro p hp1 hp2
          by_cases hp : p = sp
          · rw [hp]; exact hT
          · exact h4 p (by omega) hp2
        · intro h; exact h5 (by omega)
        · intro j
          rw [h7 j]
          have e : sp1 - sp = (sp1 - (sp + 1)) + 1 := by omega
          rw [e, List.range'_succ, List.any_cons, hm]
          simp
    · rw [if_neg hT]
      refine ⟨sp, used, ?_, Nat.le_refl _, by omega, by intro p h1 h2; omega,
        fun _ => hT, hu, ?_⟩
      · simp
      · intro j; simp

theorem conflict_unmatched_loop_spec (index : Nat → index_t) (ip : Nat) (used : List Bool) :
    ∀ (n i_pos : Nat) (dest : List index_t),
      conflict_unmatched_loop index ip used n i_pos dest =
        dest ++ ((List.range' i_pos n).filter (fun k => !used.getD (k - ip) false)).map index := by
  intro n
  induction n with
  | zero => intro i_pos dest; simp [conflict_unmatched_loop]
  | succ n ih =>
    intro i_pos dest
    unfold conflict_unmatched_loop
    rw [List.range'_succ]
    by_cases h : used.getD (i_pos - ip) false = true
    · rw [if_neg (by simpa using h), ih, List.filter_cons_of_neg (by simpa using h)]
    · rw [if_pos h, ih, List.filter_cons_of_pos (by simpa using h)]
      simp

theorem band_with_keys_run (compare : Nat → Nat → Int) (src : Nat → Nat) (src_hi_incl : Int)
    (index : Nat → index_t) (index_hi_incl : Int) (sp ip : Nat) (dest : List index_t)
    (h1 : (sp : Int) ≤ src_hi_incl) (h2 : (ip : Int) ≤ index_hi_incl)
    (hT : src sp = (index ip).ts) :
    ∃ sp1 ip1, band_with_keys compare src src_hi_incl index index_hi_incl sp ip dest =
        some (sp1, ip1, dest ++ bandSegment compare src index sp sp1 ip ip1) ∧
      BandRun src src_hi_incl index index_hi_incl sp ip sp1 ip1 := by
  obtain ⟨n, hn⟩ : ∃ n, (index_hi_incl + 1 - ip).toNat = n + 1 :=
    ⟨(index_hi_incl + 1 - ip).toNat - 1, by omega⟩
  obtain ⟨m, hm⟩ : ∃ m, (src_hi_incl + 1 - sp).toNat = m + 1 :=
    ⟨(src_hi_incl + 1 - sp).toNat - 1, by omega⟩
  obtain ⟨e1, e2, e3, e4⟩ := conflict_end_loop_spec index (src sp) (n + 1) ip
  have e5 : ip < conflict_end_loop index (src sp) (n + 1) ip := by
    unfold conflict_end_loop
    rw [if_pos hT.symm]
    exact Nat.lt_of_lt_of_le (Nat.lt_succ_self _)
      (conflict_end_loop_spec index (src sp) n (ip + 1)).1
  generalize hip1 : conflict_end_loop index (src sp) (n + 1) ip = ip1 at e1 e2 e3 e4 e5
  obtain ⟨sp1, used1, r1, r2, r3, r4, r5, r6, r7⟩ := conflict_src_loop_spec compare src index ip
    (ip1 - ip) (src sp) (by omega) (m + 1) sp dest (List.replicate (ip1 - ip) false)
    (List.length_replicate _ _)
  have r8 : sp < sp1 := by
    by_contra hcon
    have : sp1 = sp := by omega
    rw [this] at r5
    exact r5 (by omega) rfl
  refine ⟨sp1, ip1, ?_, ⟨r8, by omega, e5, by omega, r4, ?_, e3, ?_⟩⟩
  · unfold band_with_keys
    simp only [hn, hm, hip1]
    rw [r1]
    simp only []
    rw [conflict_unmatched_loop_spec, List.append_assoc]
    unfold bandSegment
    have hf : (fun k => !used1.getD (k - ip) false) =
        (fun k => !(List.range' sp (sp1 - sp)).any
          (fun p => matchOf compare index ip (ip1 - ip) p == some (k - ip))) := by
      funext k
      rw [r7]
      have : (List.replicate (ip1 - ip) false).getD (k - ip) false = false := by
        simp only [List.getD_eq_getElem?_getD, List.getElem?_replicate]
        split <;> rfl
      rw [this, Bool.false_or]
    rw [hf]
  · intro h; exact r5 (by omega)
  · intro h; exact e4 (by omega)

theorem matchOf_sound (compare : Nat → Nat → Int) (index : Nat → index_t) (ip len p j : Nat)
    (hlen : 1 ≤ len) (h : matchOf compare index ip len p = some j) :
    j < len ∧ compare p (index (ip + j)).i = 0 := by
  obtain ⟨r, hr1, hr2⟩ := branch_free_search_sound compare p (fun k => index (ip + k)) len hlen
  unfold matchOf at h
  rw [hr1] at h
  simp only [] at h
  by_cases hr : r > -1
  · rw [if_pos hr] at h
    simp only [Option.some.injEq] at h
    rcases hr2 with hr2 | hr2
    · omega
    · rw [← h]
      exact ⟨hr2.2.1, hr2.2.2⟩
  · rw [if_neg hr] at h
    exact absurd h (by simp)

theorem matchOf_complete (compare : Nat → Nat → Int) (index : Nat → index_t) (ip len p : Nat)
    (hlen : 1 ≤ len)
    (hs : SignSorted (fun j => compare p (index (ip + j)).i) len)
    (h : matchOf compare index ip len p = none) :
    ∀ j, j < len → compare p (index (ip + j)).i ≠ 0 := by
  obtain ⟨r, hr1, hr2⟩ := branch_free_search_sound compare p (fun k => index (ip + k)) len hlen
  unfold matchOf at h
  rw [hr1] at h
  simp only [] at h
  by_cases hr : r > -1
  · rw [if_pos hr] at h
    exact absurd h (by simp)
  · have : r = -1 := by
      rcases hr2 with hr2 | hr2
      · exact hr2
      · omega
    rw [this] at hr1
    exact branch_free_search_complete compare p (fun k => index (ip + k)) len hlen hs hr1

theorem bandSegment_ts (compare : Nat → Nat → Int) (src : Nat → Nat) (src_hi_incl : Int)
    (index : Nat → index_t) (index_hi_incl : Int) (sp sp1 ip ip1 : Nat)
    (hb : BandRun src src_hi_incl index index_hi_incl sp ip sp1 ip1) :
    ∀ e ∈ bandSegment compare src index sp sp1 ip ip1, e.ts = src sp := by
  intro e he
  unfold bandSegment at he
  rw [List.mem_append] at he
  rcases he with he | he
  · rw [List.mem_map] at he
    obtain ⟨p, _, rfl⟩ := he
    unfold emitRow
    split <;> rfl
  · rw [List.mem_map] at he
    obtain ⟨k, hk, rfl⟩ := he
    rw [List.mem_filter, List.mem_range'_1] at hk
    exact hb.2.2.2.2.2.2.1 k hk.1.1 (by omega)

theorem filter_ts_snoc_ne (dest : List index_t) (x : index_t) (T : Nat) (h : x.ts ≠ T) :
    (dest ++ [x]).filter (fun e => e.ts = T) = dest.filter (fun e => e.ts = T) := by
  rw [List.filter_append, List.filter_cons_of_neg (by simpa using h), List.filter_nil,
    List.append_nil]

theorem filter_ts_append_ne (dest seg : List index_t) (T : Nat) (h : ∀ e ∈ seg, e.ts ≠ T) :
    (dest ++ seg).filter (fun e => e.ts = T) = dest.filter (fun e => e.ts = T) := by
  rw [List.filter_append]
  have : seg.filter (fun e => e.ts = T) = [] := by
    rw [List.filter_eq_nil_iff]
    intro a ha
    simpa using h a ha
  rw [this, List.append_nil]

theorem after_band_src_ne (src : Nat → Nat) (srcLo : Nat) (srcHi : Int) (index : Nat → index_t)
    (indexHi : Int)
    (hsrc : ∀ p q, srcLo ≤ p → p ≤ q → (q : Int) ≤ srcHi → src p ≤ src q)
    (sp0 sp1 ip0 ip1 : Nat) (h0 : srcLo ≤ sp0)
    (hb : BandRun src srcHi index indexHi sp0 ip0 sp1 ip1) (p : Nat) (hp1 : sp1 ≤ p)
    (hp2 : (p : Int) ≤ srcHi) : src sp0 < src p := by
  obtain ⟨b1, b2, b3, b4, b5, b6, b7, b8⟩ := hb
  have h1 := b6 (by omega)
  have h2 := hsrc sp0 sp1 h0 (by omega) (by omega)
  have h3 := hsrc sp1 p (by omega) hp1 hp2
  omega

theorem after_band_idx_ne (src : Nat → Nat) (srcHi : Int) (index : Nat → index_t)
    (indexLo : Nat) (indexHi : Int)
    (hidx : ∀ j k, indexLo ≤ j → j ≤ k → (k : Int) ≤ indexHi → (index j).ts ≤ (index k).ts)
    (sp0 sp1 ip0 ip1 : Nat) (h0 : indexLo ≤ ip0)
    (hb : BandRun src srcHi index indexHi sp0 ip0 sp1 ip1) (k : Nat) (hk1 : ip1 ≤ k)
    (hk2 : (k : Int) ≤ indexHi) : src sp0 < (index k).ts := by
  obtain ⟨b1, b2, b3, b4, b5, b6, b7, b8⟩ := hb
  have h1 := b8 (by omega)
  have h0' := b7 ip0 (Nat.le_refl _) b3
  have h2 := hidx ip0 ip1 h0 (by omega) (by omega)
  have h3 := hidx ip1 k (by omega) hk1 hk2
  omega

theorem bandInv_lt (compare : Nat → Nat → Int) (src : Nat → Nat) (srcLo : Nat) (srcHi : Int)
    (index : Nat → index_t) (indexLo : Nat) (indexHi : Int) (T : Nat)
    (hsrc : ∀ p q, srcLo ≤ p → p ≤ q → (q : Int) ≤ srcHi → src p ≤ src q)
    (hidx : ∀ j k, indexLo ≤ j → j ≤ k → (k : Int) ≤ indexHi → (index j).ts ≤ (index k).ts)
    (hTi : ∃ k, indexLo ≤ k ∧ (k : Int) ≤ indexHi ∧ (index k).ts = T)
    (sp ip : Nat) (dest : List index_t) (_h1 : srcLo ≤ sp) (h2 : indexLo ≤ ip)
    (h3 : (sp : Int) ≤ srcHi) (_h4 : (ip : Int) ≤ indexHi)
    (_hc : Cross src srcLo srcHi index indexLo indexHi sp ip) (hl : src sp < (index ip).ts)
    (hq : BandInv compare src srcLo srcHi index indexLo indexHi T sp ip dest) :
    BandInv compare src srcLo srcHi index indexLo indexHi T (sp + 1) ip
      (dest ++ [⟨src sp, tag63 sp⟩]) := by
  rcases hq with ⟨q1, q2, q3⟩ | ⟨sp0, sp1, ip0, ip1, a1, a2, a3, a4, a5, a6, a7, a8⟩
  · have hne : src sp ≠ T := by
      intro he
      obtain ⟨k, hk1, hk2, hk3⟩ := hTi
      by_cases hk : k < ip
      · exact q2 k hk1 hk hk3
      · have := hidx ip k h2 (by omega) hk2
        omega
    left
    refine ⟨?_, q2, ?_⟩
    · intro p hp1 hp2
      by_cases hp : p < sp
      · exact q1 p hp1 hp
      · have : p = sp := by omega
        rw [this]; exact hne
    · rw [filter_ts_snoc_ne _ _ _ hne]; exact q3
  · have hne : src sp ≠ T := by
      have := after_band_src_ne src srcLo srcHi index indexHi hsrc sp0 sp1 ip0 ip1 a1 a7 sp a3 h3
      omega
    right
    refine ⟨sp0, sp1, ip0, ip1, a1, a2, by omega, a4, a5, a6, a7, ?_⟩
    rw [filter_ts_snoc_ne _ _ _ hne]; exact a8

theorem bandInv_gt (compare : Nat → Nat → Int) (src : Nat → Nat) (srcLo : Nat) (srcHi : Int)
    (index : Nat → index_t) (indexLo : Nat) (indexHi : Int) (T : Nat)
    (hsrc : ∀ p q, srcLo ≤ p → p ≤ q → (q : Int) ≤ srcHi → src p ≤ src q)
    (hidx : ∀ j k, indexLo ≤ j → j ≤ k → (k : Int) ≤ indexHi → (index j).ts ≤ (index k).ts)
    (hTs : ∃ p, srcLo ≤ p ∧ (p : Int) ≤ srcHi ∧ src p = T)
    (sp ip : Nat) (dest : List index_t) (h1 : srcLo ≤ sp) (_h2 : indexLo ≤ ip)
    (_h3 : (sp : Int) ≤ srcHi) (h4 : (ip : Int) ≤ indexHi)
    (_hc : Cross src srcLo srcHi index indexLo indexHi sp ip) (hl : (index ip).ts < src sp)
    (hq : BandInv compare src srcLo srcHi index indexLo indexHi T sp ip dest) :
    BandInv compare src srcLo srcHi index indexLo indexHi T sp (ip + 1)
      (dest ++ [index ip]) := by
  rcases hq with ⟨q1, q2, q3⟩ | ⟨sp0, sp1, ip0, ip1, a1, a2, a3, a4, a5, a6, a7, a8⟩
  · have hne : (index ip).ts ≠ T := by
      intro he
      obtain ⟨p, hp1, hp2, hp3⟩ := hTs
      by_cases hp : p < sp
      · exact q1 p hp1 hp hp3
      · have := hsrc sp p h1 (by omega) hp2
        omega
    left
    refine ⟨q1, ?_, ?_⟩
    · intro k hk1 hk2
      by_cases hk : k < ip
      · exact q2 k hk1 hk
      · have : k = ip := by omega
        rw [this]; exact hne
    · rw [filter_ts_snoc_ne _ _ _ hne]; exact q3
  · have hne : (index ip).ts ≠ T := by
      have := after_band_idx_ne src srcHi index indexLo indexHi hidx sp0 sp1 ip0 ip1 a2 a7 ip a4 h4
      omega
    right
    refine ⟨sp0, sp1, ip0, ip1, a1, a2, a3, by omega, a5, a6, a7, ?_⟩
    rw [filter_ts_snoc_ne _ _ _ hne]; exact a8

theorem bandInv_band (compare : Nat → Nat → Int) (src : Nat → Nat) (srcLo : Nat) (srcHi : Int)
    (index : Nat → index_t) (indexLo : Nat) (indexHi : Int) (T : Nat)
    (hsrc : ∀ p q, srcLo ≤ p → p ≤ q → (q : Int) ≤ srcHi → src p ≤ src q)
    (sp ip : Nat) (dest : List index_t) (sp1 ip1 : Nat) (h1 : srcLo ≤ sp) (h2 : indexLo ≤ ip)
    (h3 : (sp : Int) ≤ srcHi) (_h4 : (ip : Int) ≤ indexHi)
    (hc : Cross src srcLo srcHi index indexLo indexHi sp ip)
    (hb : BandRun src srcHi index indexHi sp ip sp1 ip1)
    (hq : BandInv compare src srcLo srcHi index indexLo indexHi T sp ip dest) :
    BandInv compare src srcLo srcHi index indexLo indexHi T sp1 ip1
      (dest ++ bandSegment compare src index sp sp1 ip ip1) := by
  have hseg := bandSegment_ts compare src srcHi index indexHi sp sp1 ip ip1 hb
  have hb' := hb
  obtain ⟨b1, b2, b3, b4, b5, b6, b7, b8⟩ := hb'
  by_cases hT : src sp = T
  · rcases hq with ⟨q1, q2, q3⟩ | ⟨sp0, sp1', ip0, ip1', a1, a2, a3, a4, a5, a6, a7, a8⟩
    · right
      refine ⟨sp, sp1, ip, ip1, h1, h2, Nat.le_refl _, Nat.le_refl _, hT, hc, hb, ?_⟩
      rw [List.filter_append, q3, List.nil_append, List.filter_eq_self]
      intro e he
      simpa using (hseg e he).trans hT
    · exfalso
      have := after_band_src_ne src srcLo srcHi index indexHi hsrc sp0 sp1' ip0 ip1' a1 a7 sp a3 h3
      omega
  · have hne : ∀ e ∈ bandSegment compare src index sp sp1 ip ip1, e.ts ≠ T := by
      intro e he
      rw [hseg e he]; exact hT
    rcases hq with ⟨q1, q2, q3⟩ | ⟨sp0, sp1', ip0, ip1', a1, a2, a3, a4, a5, a6, a7, a8⟩
    · left
      refine ⟨?_, ?_, ?_⟩
      · intro p hp1 hp2
        by_cases hp : p < sp
        · exact q1 p hp1 hp
        · rw [b5 p (by omega) hp2]; exact hT
      · intro k hk1 hk2
        by_cases hk : k < ip
        · exact q2 k hk1 hk
        · rw [b7 k (by omega) hk2]; exact hT
      · rw [filter_ts_append_ne _ _ _ hne]; exact q3
    · right
      refine ⟨sp0, sp1', ip0, ip1', a1, a2, by omega, by omega, a5, a6, a7, ?_⟩
      rw [filter_ts_append_ne _ _ _ hne]; exact a8

theorem merge_keys_band_run (compare : Nat → Nat → Int) (src : Nat → Nat) (srcLo : Nat)
    (srcHi : Int) (index : Nat → index_t) (indexLo : Nat) (indexHi : Int) (T : Nat)
    (hsrc : ∀ p q, srcLo ≤ p → p ≤ q → (q : Int) ≤ srcHi → src p ≤ src q)
    (hidx : ∀ j k, indexLo ≤ j → j ≤ k → (k : Int) ≤ indexHi → (index j).ts ≤ (index k).ts)
    (hTs : ∃ p, srcLo ≤ p ∧ (p : Int) ≤ srcHi ∧ src p = T)
    (hTi : ∃ k, indexLo ≤ k ∧ (k : Int) ≤ indexHi ∧ (index k).ts = T) :
    ∃ out sp0 sp1 ip0 ip1, merge_dedup_long_index_int_keys compare src srcLo srcHi index indexLo
        indexHi = some ((out.length : Int), out) ∧
      srcLo ≤ sp0 ∧ indexLo ≤ ip0 ∧ src sp0 = T ∧
      Cross src srcLo srcHi index indexLo indexHi sp0 ip0 ∧
      BandRun src srcHi index indexHi sp0 ip0 sp1 ip1 ∧
      out.filter (fun e => e.ts = T) = bandSegment compare src index sp0 sp1 ip0 ip1 := by
  obtain ⟨sp, ip, dest, hrun, hq, hc, b1, b2, b3, b4, hg⟩ :=
    merge_skel_induct (band_with_keys compare src srcHi index indexHi) src srcLo srcHi index
      indexLo indexHi hsrc hidx
      (by
        intro sp ip dest h1 h2 hT
        obtain ⟨sp1, ip1, hb, hr⟩ :=
          band_with_keys_run compare src srcHi index indexHi sp ip dest h1 h2 hT
        exact ⟨sp1, ip1, _, hb, hr⟩)
      (BandInv compare src srcLo srcHi index indexLo indexHi T)
      (bandInv_lt compare src srcLo srcHi index indexLo indexHi T hsrc hidx hTi)
      (bandInv_gt compare src srcLo srcHi index indexLo indexHi T hsrc hidx hTs)
      (by
        intro sp ip dest sp1 ip1 dest1 h1 h2 h3 h4 hc hT hb hr hq
        obtain ⟨sp1', ip1', hb', _⟩ :=
          band_with_keys_run compare src srcHi index indexHi sp ip dest h3 h4 hT
        rw [hb] at hb'
        simp only [Option.some.injEq, Prod.mk.injEq] at hb'
        obtain ⟨e1, e2, e3⟩ := hb'
        rw [e3, ← e1, ← e2]
        exact bandInv_band compare src srcLo srcHi index indexLo indexHi T hsrc sp ip dest sp1 ip1
          h1 h2 h3 h4 hc hr hq)
      ((srcHi + 1 - srcLo).toNat + (indexHi + 1 - indexLo).toNat) srcLo indexLo []
      (Nat.le_refl _) (Nat.le_refl _) (by omega) (by omega) (Nat.le_refl _)
      ⟨by intro p k h1 h2; omega, by intro k p h1 h2; omega⟩
      (Or.inl ⟨by intro p h1 h2; omega, by intro k h1 h2; omega, rfl⟩)
  -- at loop exit the band of `T` has been met
  have hafter : ∃ sp0 sp1 ip0 ip1, srcLo ≤ sp0 ∧ indexLo ≤ ip0 ∧ sp1 ≤ sp ∧ ip1 ≤ ip ∧
      src sp0 = T ∧ Cross src srcLo srcHi index indexLo indexHi sp0 ip0 ∧
      BandRun src srcHi index indexHi sp0 ip0 sp1 ip1 ∧
      dest.filter (fun e => e.ts = T) = bandSegment compare src index sp0 sp1 ip0 ip1 := by
    rcases hq with ⟨q1, q2, _⟩ | h
    · exfalso
      obtain ⟨p, hp1, hp2, hp3⟩ := hTs
      obtain ⟨k, hk1, hk2, hk3⟩ := hTi
      by_cases h : (sp : Int) ≤ srcHi
      · exact q2 k hk1 (by
          by_contra hcon
          exact hg ⟨h, by omega⟩) hk3
      · exact q1 p hp1 (by omega) hp3
    · exact h
  obtain ⟨sp0, sp1, ip0, ip1, a1, a2, a3, a4, a5, a6, a7, a8⟩ := hafter
  unfold merge_dedup_long_index_int_keys
  rw [merge_dedup_long_index_int_keys_loop_eq, hrun]
  simp only []
  by_cases hi : (ip : Int) ≤ indexHi
  · rw [if_pos hi]
    refine ⟨_, sp0, sp1, ip0, ip1, rfl, a1, a2, a5, a6, a7, ?_⟩
    rw [filter_ts_append_ne _ _ _ ?_]
    · exact a8
    · intro e he
      rw [List.mem_map] at he
      obtain ⟨k, hk, rfl⟩ := he
      rw [List.mem_range] at hk
      have := after_band_idx_ne src srcHi index indexLo indexHi hidx sp0 sp1 ip0 ip1 a2 a7
        (ip + k) (by omega) (by omega)
      omega
  · rw [if_neg hi, src_drain_loop_spec]
    refine ⟨_, sp0, sp1, ip0, ip1, rfl, a1, a2, a5, a6, a7, ?_⟩
    rw [filter_ts_append_ne _ _ _ ?_]
    · exact a8
    · intro e he
      rw [List.mem_map] at he
      obtain ⟨p, hp, rfl⟩ := he
      rw [List.mem_range'_1] at hp
      have := after_band_src_ne src srcLo srcHi index indexHi hsrc sp0 sp1 ip0 ip1 a1 a7
        p (by omega) (by omega)
      simp only
      omega

theorem rows_filter_band (src : Nat → Nat) (srcLo : Nat) (srcHi : Int) (index : Nat → index_t)
    (indexLo : Nat) (indexHi : Int)
    (hsrc : ∀ p q, srcLo ≤ p → p ≤ q → (q : Int) ≤ srcHi → src p ≤ src q)
    (sp0 sp1 ip0 ip1 : Nat) (h0 : srcLo ≤ sp0)
    (hc : Cross src srcLo srcHi index indexLo indexHi sp0 ip0)
    (hb : BandRun src srcHi index indexHi sp0 ip0 sp1 ip1) :
    (rowsOf srcLo srcHi).filter (fun p => src p = src sp0) = List.range' sp0 (sp1 - sp0) := by
  have hb' := hb
  obtain ⟨b1, b2, b3, b4, b5, b6, b7, b8⟩ := hb'
  unfold rowsOf
  rw [range'_split srcLo (srcHi + 1 - srcLo).toNat sp1 (by omega) (by omega),
    range'_split srcLo (sp1 - srcLo) sp0 h0 (by omega), List.filter_append, List.filter_append,
    show srcLo + (sp1 - srcLo) - sp0 = sp1 - sp0 by omega]
  have e1 : (List.range' srcLo (sp0 - srcLo)).filter (fun p => src p = src sp0) = [] := by
    rw [List.filter_eq_nil_iff]
    intro p hp
    rw [List.mem_range'_1] at hp
    have := hc.1 p ip0 hp.1 (by omega) (Nat.le_refl _) (by omega)
    have := b7 ip0 (Nat.le_refl _) b3
    simp only [decide_eq_true_eq]
    omega
  have e2 : (List.range' sp0 (sp1 - sp0)).filter (fun p => src p = src sp0) =
      List.range' sp0 (sp1 - sp0) := by
    rw [List.filter_eq_self]
    intro p hp
    rw [List.mem_range'_1] at hp
    simpa using b5 p hp.1 (by omega)
  have e3 : (List.range' sp1 (srcLo + (srcHi + 1 - srcLo).toNat - sp1)).filter
      (fun p => src p = src sp0) = [] := by
    rw [List.filter_eq_nil_iff]
    intro p hp
    rw [List.mem_range'_1] at hp
    have := after_band_src_ne src srcLo srcHi index indexHi hsrc sp0 sp1 ip0 ip1 h0 hb p hp.1
      (by omega)
    simp only [decide_eq_true_eq]
    omega
  rw [e1, e2, e3, List.nil_append, List.append_nil]

theorem idx_filter_band (src : Nat → Nat) (srcLo : Nat) (srcHi : Int) (index : Nat → index_t)
    (indexLo : Nat) (indexHi : Int)
    (hidx : ∀ j k, indexLo ≤ j → j ≤ k → (k : Int) ≤ indexHi → (index j).ts ≤ (index k).ts)
    (sp0 sp1 ip0 ip1 : Nat) (h0 : indexLo ≤ ip0)
    (hc : Cross src srcLo srcHi index indexLo indexHi sp0 ip0)
    (hb : BandRun src srcHi index indexHi sp0 ip0 sp1 ip1) :
    ((rowsOf indexLo indexHi).map index).filter (fun e => e.ts = src sp0) =
      (List.range' ip0 (ip1 - ip0)).map index := by
  have hb' := hb
  obtain ⟨b1, b2, b3, b4, b5, b6, b7, b8⟩ := hb'
  unfold rowsOf
  rw [range'_split indexLo (indexHi + 1 - indexLo).toNat ip1 (by omega) (by omega),
    range'_split indexLo (ip1 - indexLo) ip0 h0 (by omega), List.map_append, List.map_append,
    List.filter_append, List.filter_append,
    show indexLo + (ip1 - indexLo) - ip0 = ip1 - ip0 by omega]
  have e1 : ((List.range' indexLo (ip0 - indexLo)).map index).filter
      (fun e => e.ts = src sp0) = [] := by
    rw [List.filter_eq_nil_iff]
    intro e he
    rw [List.mem_map] at he
    obtain ⟨k, hk, rfl⟩ := he
    rw [List.mem_range'_1] at hk
    have := hc.2 k sp0 hk.1 (by omega) (Nat.le_refl _) (by omega)
    simp only [decide_eq_true_eq]
    omega
  have e2 : ((List.range' ip0 (ip1 - ip0)).map index).filter (fun e => e.ts = src sp0) =
      (List.range' ip0 (ip1 - ip0)).map index := by
    rw [List.filter_eq_self]
    intro e he
    rw [List.mem_map] at he
    obtain ⟨k, hk, rfl⟩ := he
    rw [List.mem_range'_1] at hk
    simpa using b7 k hk.1 (by omega)
  have e3 : ((List.range' ip1 (indexLo + (indexHi + 1 - indexLo).toNat - ip1)).map index).filter
      (fun e => e.ts = src sp0) = [] := by
    rw [List.filter_eq_nil_iff]
    intro e he
    rw [List.mem_map] at he
    obtain ⟨k, hk, rfl⟩ := he
    rw [List.mem_range'_1] at hk
    have := after_band_idx_ne src srcHi index indexLo indexHi hidx sp0 sp1 ip0 ip1 h0 hb k hk.1
      (by omega)
    simp only [decide_eq_true_eq]
    omega
  rw [e1, e2, e3, List.nil_append, List.append_nil]

theorem getD_map_range' (index : Nat → index_t) (ip len j : Nat) (h : j < len) :
    ((List.range' ip len).map index).getD j default = index (ip + j) := by
  simp [List.getD_eq_getElem?_getD, List.getElem?_map, List.getElem?_range', h]

theorem bandSegment_eq_resolvedBand (compare : Nat → Nat → Int) (src : Nat → Nat) (srcHi : Int)
    (index : Nat → index_t) (indexHi : Int) (sp0 sp1 ip0 ip1 : Nat)
    (hb : BandRun src srcHi index indexHi sp0 ip0 sp1 ip1) :
    bandSegment compare src index sp0 sp1 ip0 ip1 =
      resolvedBand (matchOf compare index ip0 (ip1 - ip0)) (List.range' sp0 (sp1 - sp0))
        ((List.range' ip0 (ip1 - ip0)).map index) (src sp0) := by
  obtain ⟨b1, b2, b3, b4, b5, b6, b7, b8⟩ := hb
  unfold bandSegment resolvedBand
  congr 1
  · apply List.map_congr_left
    intro p _
    unfold emitRow
    cases hm : matchOf compare index ip0 (ip1 - ip0) p with
    | none => rfl
    | some j =>
      simp only []
      obtain ⟨hj, _⟩ := matchOf_sound compare index ip0 (ip1 - ip0) p j (by omega) hm
      rw [getD_map_range' index ip0 (ip1 - ip0) j hj]
      have := b7 (ip0 + j) (by omega) (by omega)
      rw [← this]
  · have hr : List.range' ip0 (ip1 - ip0) = (List.range (ip1 - ip0)).map (fun x => ip0 + x) :=
      List.range'_eq_map_range _ _
    rw [List.length_map, List.length_range']
    conv_lhs => rw [hr, List.filter_map, List.map_map]
    have hf : ((fun k => !(List.range' sp0 (sp1 - sp0)).any
          (fun p => matchOf compare index ip0 (ip1 - ip0) p == some (k - ip0))) ∘
          (fun x => ip0 + x)) =
        (fun j => decide (∀ p ∈ List.range' sp0 (sp1 - sp0),
          matchOf compare index ip0 (ip1 - ip0) p ≠ some j)) := by
      funext j
      simp only [Function.comp, Nat.add_sub_cancel_left]
      rw [Bool.eq_iff_iff]
      simp
    rw [hf]
    apply List.map_congr_left
    intro j hj
    rw [List.mem_filter, List.mem_range] at hj
    simp only [Function.comp]
    rw [getD_map_range' index ip0 (ip1 - ip0) j hj.1]

theorem signSorted_of_keys {K : Type} [LinearOrder K] (compare : Nat → Nat → Int)
    (keyP keyO : Nat → K) (hcmp : InducedBy compare keyP keyO) (index : Nat → index_t)
    (ip0 len p : Nat)
    (hk : ∀ j k, j ≤ k → k < len → keyO (index (ip0 + j)).i ≤ keyO (index (ip0 + k)).i) :
    SignSorted (fun j => compare p (index (ip0 + j)).i) len := by
  intro j k hjk hkl
  have h := hk j k hjk hkl
  constructor
  · intro hpos
    rw [(hcmp p _).1] at hpos ⊢
    exact lt_of_le_of_lt h hpos
  · intro hneg
    simp only at hneg ⊢
    rw [(hcmp p _).2] at hneg ⊢
    exact lt_of_lt_of_le hneg h

theorem compare_eq_zero_iff {K : Type} [LinearOrder K] (compare : Nat → Nat → Int)
    (keyP keyO : Nat → K) (hcmp : InducedBy compare keyP keyO) (p r : Nat) :
    compare p r = 0 ↔ keyP p = keyO r := by
  obtain ⟨h1, h2⟩ := hcmp p r
  constructor
  · intro h
    rcases lt_trichotomy (keyP p) (keyO r) with hlt | heq | hgt
    · have := h2.2 hlt; omega
    · exact heq
    · have := h1.2 hgt; omega
  · intro h
    by_contra hne
    rcases lt_trichotomy (compare p r) 0 with hlt | heq | hgt
    · have := h2.1 hlt
      rw [h] at this
      exact lt_irrefl _ this
    · exact hne heq
    · have := h1.1 hgt
      rw [h] at this
      exact lt_irrefl _ this

theorem inducedBy_cmp3 (keyP keyO : Nat → Int) :
    InducedBy (fun p r => cmp3 (keyP p) (keyO r)) keyP keyO := by
  intro p r
  show (0 < cmp3 (keyP p) (keyO r) ↔ keyO r < keyP p) ∧
    (cmp3 (keyP p) (keyO r) < 0 ↔ keyP p < keyO r)
  unfold cmp3
  split_ifs with h1 h2 <;> constructor <;> constructor <;> intro h <;> omega

theorem merge_keys_band_resolved {K : Type} [LinearOrder K] (compare : Nat → Nat → Int)
    (keyP keyO : Nat → K) (hcmp : InducedBy compare keyP keyO)
    (src : Nat → Nat) (srcLo : Nat) (srcHi : Int) (index : Nat → index_t) (indexLo : Nat)
    (indexHi : Int)
    (hsrc : ((rowsOf srcLo srcHi).map src).Pairwise (fun a b => a ≤ b))
    (hidx : ((rowsOf indexLo indexHi).map index).Pairwise (fun a b => a.ts ≤ b.ts))
    (hkeys : ((rowsOf indexLo indexHi).map index).Pairwise
      (fun a b => a.ts = b.ts → keyO a.i ≤ keyO b.i))
    (T : Nat) (hTs : T ∈ (rowsOf srcLo srcHi).map src)
    (hTi : T ∈ ((rowsOf indexLo indexHi).map index).map (fun e => e.ts)) :
    ∃ out m sp0 sp1 ip0 ip1,
      merge_dedup_long_index_int_keys compare src srcLo srcHi index indexLo indexHi =
        some ((out.length : Int), out) ∧
      rowsAt src srcLo srcHi T = List.range' sp0 (sp1 - sp0) ∧
      bandAt index indexLo indexHi T = (List.range' ip0 (ip1 - ip0)).map index ∧
      (∀ p j, m p = some j → j < ip1 - ip0 ∧ compare p (index (ip0 + j)).i = 0) ∧
      (∀ p, m p = none → ∀ j, j < ip1 - ip0 → compare p (index (ip0 + j)).i ≠ 0) ∧
      (∀ k, ip0 ≤ k → k < ip1 → (index k).ts = T) ∧
      out.filter (fun e => e.ts = T) =
        resolvedBand m (rowsAt src srcLo srcHi T) (bandAt index indexLo indexHi T) T := by
  have hsrc' := sorted_rows_pointwise src srcLo srcHi hsrc
  have hidx' := sorted_entries_pointwise index indexLo indexHi hidx
  have hTs' : ∃ p, srcLo ≤ p ∧ (p : Int) ≤ srcHi ∧ src p = T := by
    rw [List.mem_map] at hTs
    obtain ⟨p, hp, he⟩ := hTs
    rw [mem_rowsOf] at hp
    exact ⟨p, hp.1, hp.2, he⟩
  have hTi' : ∃ k, indexLo ≤ k ∧ (k : Int) ≤ indexHi ∧ (index k).ts = T := by
    rw [List.mem_map] at hTi
    obtain ⟨e, he, het⟩ := hTi
    rw [List.mem_map] at he
    obtain ⟨k, hk, rfl⟩ := he
    rw [mem_rowsOf] at hk
    exact ⟨k, hk.1, hk.2, het⟩
  obtain ⟨out, sp0, sp1, ip0, ip1, h1, h2, h3, h4, h5, h6, h7⟩ :=
    merge_keys_band_run compare src srcLo srcHi index indexLo indexHi T hsrc' hidx' hTs' hTi'
  have hrows : rowsAt src srcLo srcHi T = List.range' sp0 (sp1 - sp0) := by
    unfold rowsAt
    rw [← h4]
    exact rows_filter_band src srcLo srcHi index indexLo indexHi hsrc' sp0 sp1 ip0 ip1 h2 h5 h6
  have hband : bandAt index indexLo indexHi T = (List.range' ip0 (ip1 - ip0)).map index := by
    unfold bandAt
    rw [← h4]
    exact idx_filter_band src srcLo srcHi index indexLo indexHi hidx' sp0 sp1 ip0 ip1 h3 h5 h6
  have h6' := h6
  obtain ⟨b1, b2, b3, b4, b5, b6, b7, b8⟩ := h6'
  have hk : ∀ j k, j ≤ k → k < ip1 - ip0 →
      keyO (index (ip0 + j)).i ≤ keyO (index (ip0 + k)).i := by
    intro j k hjk hkl
    by_cases hjk' : j = k
    · rw [hjk']
    · unfold rowsOf at hkeys
      rw [pairwise_map_range'] at hkeys
      apply hkeys (ip0 + j) (ip0 + k) (by omega) (by omega) (by omega)
      rw [b7 (ip0 + j) (by omega) (by omega), b7 (ip0 + k) (by omega) (by omega)]
  refine ⟨out, matchOf compare index ip0 (ip1 - ip0), sp0, sp1, ip0, ip1, h1, hrows, hband,
    ?_, ?_, ?_, ?_⟩
  · intro p j hm
    exact matchOf_sound compare index ip0 (ip1 - ip0) p j (by omega) hm
  · intro p hm
    exact matchOf_complete compare index ip0 (ip1 - ip0) p (by omega)
      (signSorted_of_keys compare keyP keyO hcmp index ip0 (ip1 - ip0) p hk) hm
  · intro k hk1 hk2
    rw [b7 k hk1 hk2, h4]
  · rw [h7, hrows, hband, ← h4]
    exact bandSegment_eq_resolvedBand compare src srcHi index indexHi sp0 sp1 ip0 ip1 h6

/-- Claim C4 (conflict band of the key-aware merge-dedup).  For timestamp-non-decreasing
inputs whose O3 bands are sorted by key, a comparator induced by a total order on the keys,
and a timestamp `T` that occurs in both inputs, the entries of timestamp `T` written by
`merge_dedup_long_index_int_keys` are `resolvedBand m rows band`: one entry per persisted row
at `T` in row order, which is the band entry `m p` whose key compares equal to the key of
the row `p`, or the row tagged with bit 63 when no band entry compares equal; then, in band
order, the band entries that no persisted row is matched to. -/
theorem merge_dedup_long_index_int_keys_band {K : Type} [LinearOrder K]
    (compare : Nat → Nat → Int) (keyP keyO : Nat → K) (hcmp : InducedBy compare keyP keyO)
    (src : Nat → Nat) (srcLo : Nat) (srcHi : Int) (index : Nat → index_t) (indexLo : Nat)
    (indexHi : Int)
    (hsrc : ((rowsOf srcLo srcHi).map src).Pairwise (fun a b => a ≤ b))
    (hidx : ((rowsOf indexLo indexHi).map index).Pairwise (fun a b => a.ts ≤ b.ts))
    (hkeys : ((rowsOf indexLo indexHi).map index).Pairwise
      (fun a b => a.ts = b.ts → keyO a.i ≤ keyO b.i))
    (T : Nat) (hTs : T ∈ (rowsOf srcLo srcHi).map src)
    (hTi : T ∈ ((rowsOf indexLo indexHi).map index).map (fun e => e.ts)) :
    ∃ out m,
      merge_dedup_long_index_int_keys compare src srcLo srcHi index indexLo indexHi =
        some ((out.length : Int), out) ∧
      (∀ p ∈ rowsAt src srcLo srcHi T, ∀ j, m p = some j →
        j < (bandAt index indexLo indexHi T).length ∧
        compare p ((bandAt index indexLo indexHi T).getD j default).i = 0) ∧
      (∀ p ∈ rowsAt src srcLo srcHi T, m p = none →
        ∀ e ∈ bandAt index indexLo indexHi T, compare p e.i ≠ 0) ∧
      out.filter (fun e => e.ts = T) =
        resolvedBand m (rowsAt src srcLo srcHi T) (bandAt index indexLo indexHi T) T := by
  obtain ⟨out, m, sp0, sp1, ip0, ip1, h1, h2, h3, h4, h5, _, h7⟩ :=
    merge_keys_band_resolved compare keyP keyO hcmp src srcLo srcHi index indexLo indexHi hsrc
      hidx hkeys T hTs hTi
  refine ⟨out, m, h1, ?_, ?_, h7⟩
  · intro p _ j hm
    obtain ⟨hj, hc⟩ := h4 p j hm
    rw [h3, List.length_map, List.length_range', getD_map_range' index ip0 (ip1 - ip0) j hj]
    exact ⟨hj, hc⟩
  · intro p _ hm e he
    rw [h3, List.mem_map] at he
    obtain ⟨k, hk, rfl⟩ := he
    rw [List.mem_range'_1] at hk
    have := h5 p hm (k - ip0) (by omega)
    rwa [show ip0 + (k - ip0) = k by omega] at this

theorem merge_dedup_long_index_int_keys_band_witness :
    InducedBy (fun p r => cmp3 (keyArray [7, 9] p) (keyArray [9, 11] r))
      (keyArray [7, 9]) (keyArray [9, 11]) ∧
    ((rowsOf 0 1).map (tsArray [5, 5])).Pairwise (fun a b => a ≤ b) ∧
    ((rowsOf 0 1).map (indexArray [⟨5, 0⟩, ⟨5, 1⟩])).Pairwise (fun a b => a.ts ≤ b.ts) ∧
    ((rowsOf 0 1).map (indexArray [⟨5, 0⟩, ⟨5, 1⟩])).Pairwise
      (fun a b => a.ts = b.ts → keyArray [9, 11] a.i ≤ keyArray [9, 11] b.i) ∧
    5 ∈ (rowsOf 0 1).map (tsArray [5, 5]) ∧
    5 ∈ ((rowsOf 0 1).map (indexArray [⟨5, 0⟩, ⟨5, 1⟩])).map (fun e => e.ts) ∧
    (∃ out m,
      merge_dedup_long_index_int_keys (fun p r => cmp3 (keyArray [7, 9] p) (keyArray [9, 11] r))
        (tsArray [5, 5]) 0 1 (indexArray [⟨5, 0⟩, ⟨5, 1⟩]) 0 1 = some ((out.length : Int), out) ∧
      (∀ p ∈ rowsAt (tsArray [5, 5]) 0 1 5, ∀ j, m p = some j →
        j < (bandAt (indexArray [⟨5, 0⟩, ⟨5, 1⟩]) 0 1 5).length ∧
        (fun p r => cmp3 (keyArray [7, 9] p) (keyArray [9, 11] r)) p
          ((bandAt (indexArray [⟨5, 0⟩, ⟨5, 1⟩]) 0 1 5).getD j default).i = 0) ∧
      (∀ p ∈ rowsAt (tsArray [5, 5]) 0 1 5, m p = none →
        ∀ e ∈ bandAt (indexArray [⟨5, 0⟩, ⟨5, 1⟩]) 0 1 5,
          (fun p r => cmp3 (keyArray [7, 9] p) (keyArray [9, 11] r)) p e.i ≠ 0) ∧
      out.filter (fun e => e.ts = 5) =
        resolvedBand m (rowsAt (tsArray [5, 5]) 0 1 5)
          (bandAt (indexArray [⟨5, 0⟩, ⟨5, 1⟩]) 0 1 5) 5) ∧
    merge_dedup_long_index_int_keys (fun p r => cmp3 (keyArray [7, 9] p) (keyArray [9, 11] r))
        (tsArray [5, 5]) 0 1 (indexArray [⟨5, 0⟩, ⟨5, 1⟩]) 0 1 =
      some (3, [⟨5, tag63 0⟩, ⟨5, 0⟩, ⟨5, 1⟩]) :=
  ⟨inducedBy_cmp3 _ _, by decide, by decide, by decide, by decide, by decide,
    merge_dedup_long_index_int_keys_band (fun p r => cmp3 (keyArray [7, 9] p) (keyArray [9, 11] r))
      (keyArray [7, 9]) (keyArray [9, 11]) (inducedBy_cmp3 _ _) (tsArray [5, 5]) 0 1
      (indexArray [⟨5, 0⟩, ⟨5, 1⟩]) 0 1 (by decide) (by decide) (by decide) 5 (by decide)
      (by decide),
    by decide⟩

/-- Claim C10, amended (last-wins for the key-aware merge-dedup).  For timestamp-non-decreasing
inputs whose O3 bands are sorted by key, a comparator induced by a total order on the keys,
and a timestamp `T` shared by both inputs at which no two persisted rows have equal keys and
no two O3 band entries have equal keys, every output entry of timestamp `T` is the last
occurrence of its key class among the persisted rows at `T` followed by the O3 band. -/
theorem merge_dedup_long_index_int_keys_last_wins {K : Type} [LinearOrder K]
    (compare : Nat → Nat → Int) (keyP keyO : Nat → K) (hcmp : InducedBy compare keyP keyO)
    (src : Nat → Nat) (srcLo : Nat) (srcHi : Int) (index : Nat → index_t) (indexLo : Nat)
    (indexHi : Int)
    (hsrc : ((rowsOf srcLo srcHi).map src).Pairwise (fun a b => a ≤ b))
    (hidx : ((rowsOf indexLo indexHi).map index).Pairwise (fun a b => a.ts ≤ b.ts))
    (hkeys : ((rowsOf indexLo indexHi).map index).Pairwise
      (fun a b => a.ts = b.ts → keyO a.i ≤ keyO b.i))
    (T : Nat) (hTs : T ∈ (rowsOf srcLo srcHi).map src)
    (hTi : T ∈ ((rowsOf indexLo indexHi).map index).map (fun e => e.ts))
    (hrowsNodup : ((rowsAt src srcLo srcHi T).map keyP).Nodup)
    (hbandNodup : ((bandAt index indexLo indexHi T).map (fun e => keyO e.i)).Nodup) :
    LastWinsAsStated compare keyP keyO src srcLo srcHi index indexLo indexHi T := by
  obtain ⟨out, m, sp0, sp1, ip0, ip1, h1, h2, h3, h4, h5, h6, h7⟩ :=
    merge_keys_band_resolved compare keyP keyO hcmp src srcLo srcHi index indexLo indexHi hsrc
      hidx hkeys T hTs hTi
  refine ⟨out, h1, ?_⟩
  intro e he heT
  have hmem : e ∈ out.filter (fun e => e.ts = T) := by
    rw [List.mem_filter]
    exact ⟨he, by simpa using heT⟩
  rw [h7] at hmem
  -- a band entry is the last of its key class, because the keys of the band are distinct
  have hbandlast : ∀ j, j < (bandAt index indexLo indexHi T).length →
      ∀ k, k < (bandAt index indexLo indexHi T).length → j < k →
        keyO ((bandAt index indexLo indexHi T).getD k default).i ≠
          keyO ((bandAt index indexLo indexHi T).getD j default).i := by
    intro j hj k hk hjk
    have hp := (List.pairwise_iff_getElem.1 hbandNodup) j k
      (by rw [List.length_map]; exact hj) (by rw [List.length_map]; exact hk) hjk
    rw [List.getElem_map, List.getElem_map] at hp
    rw [List.getD_eq_getElem _ _ hk, List.getD_eq_getElem _ _ hj]
    exact fun h => hp h.symm
  unfold resolvedBand at hmem
  rw [List.mem_append] at hmem
  rcases hmem with hmem | hmem
  · rw [List.mem_map] at hmem
    obtain ⟨p, hp, hpe⟩ := hmem
    cases hm : m p with
    | none =>
      rw [hm] at hpe
      simp only [] at hpe
      left
      refine ⟨p, hp, hpe.symm, ?_, ?_⟩
      · intro q hq hpq heq
        have := List.inj_on_of_nodup_map hrowsNodup hq hp heq
        omega
      · intro b hb heq
        rw [h3, List.mem_map] at hb
        obtain ⟨k, hk, rfl⟩ := hb
        rw [List.mem_range'_1] at hk
        have hne := h5 p hm (k - ip0) (by omega)
        rw [show ip0 + (k - ip0) = k by omega] at hne
        exact hne ((compare_eq_zero_iff compare keyP keyO hcmp p _).2 heq.symm)
    | some j =>
      rw [hm] at hpe
      simp only [] at hpe
      obtain ⟨hj, _⟩ := h4 p j hm
      have hj' : j < (bandAt index indexLo indexHi T).length := by
        rw [h3, List.length_map, List.length_range']; exact hj
      right
      exact ⟨j, hj', hpe.symm, hbandlast j hj'⟩
  · rw [List.mem_map] at hmem
    obtain ⟨j, hj, hje⟩ := hmem
    rw [List.mem_filter, List.mem_range] at hj
    right
    exact ⟨j, hj.1, hje.symm, hbandlast j hj.1⟩

theorem merge_dedup_long_index_int_keys_last_wins_witness :
    InducedBy (fun p r => cmp3 (keyArray [7, 9] p) (keyArray [9, 11] r))
      (keyArray [7, 9]) (keyArray [9, 11]) ∧
    ((rowsOf 0 1).map (tsArray [5, 5])).Pairwise (fun a b => a ≤ b) ∧
    ((rowsOf 0 1).map (indexArray [⟨5, 0⟩, ⟨5, 1⟩])).Pairwise (fun a b => a.ts ≤ b.ts) ∧
    ((rowsOf 0 1).map (indexArray [⟨5, 0⟩, ⟨5, 1⟩])).Pairwise
      (fun a b => a.ts = b.ts → keyArray [9, 11] a.i ≤ keyArray [9, 11] b.i) ∧
    5 ∈ (rowsOf 0 1).map (tsArray [5, 5]) ∧
    5 ∈ ((rowsOf 0 1).map (indexArray [⟨5, 0⟩, ⟨5, 1⟩])).map (fun e => e.ts) ∧
    ((rowsAt (tsArray [5, 5]) 0 1 5).map (keyArray [7, 9])).Nodup ∧
    ((bandAt (indexArray [⟨5, 0⟩, ⟨5, 1⟩]) 0 1 5).map (fun e => keyArray [9, 11] e.i)).Nodup ∧
    LastWinsAsStated (fun p r => cmp3 (keyArray [7, 9] p) (keyArray [9, 11] r))
      (keyArray [7, 9]) (keyArray [9, 11]) (tsArray [5, 5]) 0 1
      (indexArray [⟨5, 0⟩, ⟨5, 1⟩]) 0 1 5 :=
  ⟨inducedBy_cmp3 _ _, by decide, by decide, by decide, by decide, by decide, by decide,
    by decide,
    merge_dedup_long_index_int_keys_last_wins
      (fun p r => cmp3 (keyArray [7, 9] p) (keyArray [9, 11] r))
      (keyArray [7, 9]) (keyArray [9, 11]) (inducedBy_cmp3 _ _) (tsArray [5, 5]) 0 1
      (indexArray [⟨5, 0⟩, ⟨5, 1⟩]) 0 1 (by decide) (by decide) (by decide) 5 (by decide)
      (by decide) (by decide) (by decide)⟩

/-- Claim C10 as stated fails, in two ways.  Persisted keys `[7, 7]` against the O3 key `[9]`
at one timestamp: both persisted rows are written, so the tagged row 0 is not the last
occurrence of key 7.  Persisted key `[9]` against the O3 keys `[9, 9]`: both band entries are
written, so the band entry 0 is not the last occurrence of key 9. -/
theorem last_wins_as_stated_fails :
    (InducedBy (fun p r => cmp3 (keyArray [7, 7] p) (keyArray [9] r))
        (keyArray [7, 7]) (keyArray [9]) ∧
      ((rowsOf 0 1).map (tsArray [5, 5])).Pairwise (fun a b => a ≤ b) ∧
      ((rowsOf 0 0).map (indexArray [⟨5, 0⟩])).Pairwise (fun a b => a.ts ≤ b.ts) ∧
      ((rowsOf 0 0).map (indexArray [⟨5, 0⟩])).Pairwise
        (fun a b => a.ts = b.ts → keyArray [9] a.i ≤ keyArray [9] b.i) ∧
      5 ∈ (rowsOf 0 1).map (tsArray [5, 5]) ∧
      5 ∈ ((rowsOf 0 0).map (indexArray [⟨5, 0⟩])).map (fun e => e.ts) ∧
      merge_dedup_long_index_int_keys (fun p r => cmp3 (keyArray [7, 7] p) (keyArray [9] r))
          (tsArray [5, 5]) 0 1 (indexArray [⟨5, 0⟩]) 0 0 =
        some (3, [⟨5, tag63 0⟩, ⟨5, tag63 1⟩, ⟨5, 0⟩]) ∧
      ¬ LastWinsAsStated (fun p r => cmp3 (keyArray [7, 7] p) (keyArray [9] r))
        (keyArray [7, 7]) (keyArray [9]) (tsArray [5, 5]) 0 1 (indexArray [⟨5, 0⟩]) 0 0 5) ∧
    (InducedBy (fun p r => cmp3 (keyArray [9] p) (keyArray [9, 9] r))
        (keyArray [9]) (keyArray [9, 9]) ∧
      ((rowsOf 0 0).map (tsArray [5])).Pairwise (fun a b => a ≤ b) ∧
      ((rowsOf 0 1).map (indexArray [⟨5, 0⟩, ⟨5, 1⟩])).Pairwise (fun a b => a.ts ≤ b.ts) ∧
      ((rowsOf 0 1).map (indexArray [⟨5, 0⟩, ⟨5, 1⟩])).Pairwise
        (fun a b => a.ts = b.ts → keyArray [9, 9] a.i ≤ keyArray [9, 9] b.i) ∧
      5 ∈ (rowsOf 0 0).map (tsArray [5]) ∧
      5 ∈ ((rowsOf 0 1).map (indexArray [⟨5, 0⟩, ⟨5, 1⟩])).map (fun e => e.ts) ∧
      merge_dedup_long_index_int_keys (fun p r => cmp3 (keyArray [9] p) (keyArray [9, 9] r))
          (tsArray [5]) 0 0 (indexArray [⟨5, 0⟩, ⟨5, 1⟩]) 0 1 =
        some (2, [⟨5, 0⟩, ⟨5, 1⟩]) ∧
      ¬ LastWinsAsStated (fun p r => cmp3 (keyArray [9] p) (keyArray [9, 9] r))
        (keyArray [9]) (keyArray [9, 9]) (tsArray [5]) 0 0 (indexArray [⟨5, 0⟩, ⟨5, 1⟩]) 0 1
        5) := by
  refine ⟨⟨inducedBy_cmp3 _ _, by decide, by decide, by decide, by decide, by decide, by decide,
    ?_⟩, ⟨inducedBy_cmp3 _ _, by decide, by decide, by decide, by decide, by decide, by decide,
    ?_⟩⟩
  · rintro ⟨out, h1, h2⟩
    have hrun : merge_dedup_long_index_int_keys
        (fun p r => cmp3 (keyArray [7, 7] p) (keyArray [9] r))
        (tsArray [5, 5]) 0 1 (indexArray [⟨5, 0⟩]) 0 0 =
        some (3, [⟨5, tag63 0⟩, ⟨5, tag63 1⟩, ⟨5, 0⟩]) := by decide
    rw [hrun] at h1
    simp only [Option.some.injEq, Prod.mk.injEq] at h1
    have h3 := h2 ⟨5, tag63 0⟩ (by rw [← h1.2]; decide) rfl
    revert h3
    unfold LastWinsAt
    decide
  · rintro ⟨out, h1, h2⟩
    have hrun : merge_dedup_long_index_int_keys
        (fun p r => cmp3 (keyArray [9] p) (keyArray [9, 9] r))
        (tsArray [5]) 0 0 (indexArray [⟨5, 0⟩, ⟨5, 1⟩]) 0 1 =
        some (2, [⟨5, 0⟩, ⟨5, 1⟩]) := by decide
    rw [hrun] at h1
    simp only [Option.some.injEq, Prod.mk.injEq] at h1
    have h3 := h2 ⟨5, 0⟩ (by rw [← h1.2]; decide) rfl
    revert h3
    unfold LastWinsAt
    decide

theorem Mem.memcpy_slice (m : Mem) (dst doff src soff n : Nat) :
    (m.memcpy dst doff src soff n).slice dst doff n = m.slice src soff n := by
  apply Mem.slice_congr
  intro k hk
  unfold Mem.memcpy
  rw [if_pos ⟨rfl, by omega, by omega⟩]
  congr 1
  omega

theorem Mem.memcpy_frame (m : Mem) (dst doff src soff n q j : Nat)
    (h : ¬ (q = dst ∧ doff ≤ j ∧ j < doff + n)) : (m.memcpy dst doff src soff n) q j = m q j := by
  unfold Mem.memcpy
  rw [if_neg h]

theorem merge_sort_slice_loop_spec (diff_l : Nat → Nat → Int)
    (s1b s1o s2b s2o db src1_len src2_len : Nat) (h1 : db ≠ s1b) (h2 : db ≠ s2b) :
    ∀ (fuel : Nat) (mem : Mem) (i1 i2 dest : Nat), i1 ≤ src1_len → i2 ≤ src2_len →
      (src1_len - i1) + (src2_len - i2) ≤ fuel →
      ∃ m1 j1 j2, merge_sort_slice_loop diff_l s1b s1o s2b s2o db src1_len src2_len fuel mem i1 i2
          dest = some (m1, j1, j2, dest + (j1 - i1) + (j2 - i2)) ∧
        i1 ≤ j1 ∧ j1 ≤ src1_len ∧ i2 ≤ j2 ∧ j2 ≤ src2_len ∧
        ¬ (j1 < src1_len ∧ j2 < src2_len) ∧
        m1.slice db dest ((j1 - i1) + (j2 - i2)) ++
            List.merge (mem.slice s1b (s1o + j1) (src1_len - j1))
              (mem.slice s2b (s2o + j2) (src2_len - j2)) (entryLe diff_l) =
          List.merge (mem.slice s1b (s1o + i1) (src1_len - i1))
            (mem.slice s2b (s2o + i2) (src2_len - i2)) (entryLe diff_l) ∧
        ∀ q j, ¬ (q = db ∧ dest ≤ j ∧ j < dest + (j1 - i1) + (j2 - i2)) → m1 q j = mem q j := by
  intro fuel
  induction fuel with
  | zero =>
    intro mem i1 i2 dest hi1 hi2 hf
    have hg : ¬ (i1 < src1_len ∧ i2 < src2_len) := by omega
    refine ⟨mem, i1, i2, ?_, Nat.le_refl _, hi1, Nat.le_refl _, hi2, hg, ?_, ?_⟩
    · unfold merge_sort_slice_loop
      rw [if_neg hg]
      simp
    · simp [Mem.slice_zero]
    · intro q j _; rfl
  | succ fuel ih =>
    intro mem i1 i2 dest hi1 hi2 hf
    by_cases hg : i1 < src1_len ∧ i2 < src2_len
    · -- one step of the loop
      have hs1 : mem.slice s1b (s1o + i1) (src1_len - i1) =
          mem s1b (s1o + i1) :: mem.slice s1b (s1o + (i1 + 1)) (src1_len - (i1 + 1)) := by
        rw [show src1_len - i1 = (src1_len - (i1 + 1)) + 1 by omega, Mem.slice_succ]
        rfl
      have hs2 : mem.slice s2b (s2o + i2) (src2_len - i2) =
          mem s2b (s2o + i2) :: mem.slice s2b (s2o + (i2 + 1)) (src2_len - (i2 + 1)) := by
        rw [show src2_len - i2 = (src2_len - (i2 + 1)) + 1 by omega, Mem.slice_succ]
        rfl
      -- taking the entry `x` of the right run
      have right : ∀ (hle : entryLe diff_l (mem s1b (s1o + i1)) (mem s2b (s2o + i2)) = false),
          ∃ m1 j1 j2, merge_sort_slice_loop diff_l s1b s1o s2b s2o db src1_len src2_len fuel
              (mem.write db dest (mem s2b (s2o + i2))) i1 (i2 + 1) (dest + 1) =
              some (m1, j1, j2, dest + (j1 - i1) + (j2 - i2)) ∧
            i1 ≤ j1 ∧ j1 ≤ src1_len ∧ i2 ≤ j2 ∧ j2 ≤ src2_len ∧
            ¬ (j1 < src1_len ∧ j2 < src2_len) ∧
            m1.slice db dest ((j1 - i1) + (j2 - i2)) ++
                List.merge (mem.slice s1b (s1o + j1) (src1_len - j1))
                  (mem.slice s2b (s2o + j2) (src2_len - j2)) (entryLe diff_l) =
              List.merge (mem.slice s1b (s1o + i1) (src1_len - i1))
                (mem.slice s2b (s2o + i2) (src2_len - i2)) (entryLe diff_l) ∧
            ∀ q j, ¬ (q = db ∧ dest ≤ j ∧ j < dest + (j1 - i1) + (j2 - i2)) →
              m1 q j = mem q j := by
        intro hle
        have hw : ∀ q j, q ≠ db → (mem.write db dest (mem s2b (s2o + i2))) q j = mem q j :=
          fun q j hq => Mem.write_ne _ _ _ _ _ _ (Or.inl hq)
        obtain ⟨m1, j1, j2, e1, e2, e3, e4, e5, e6, e7, e8⟩ :=
          ih (mem.write db dest (mem s2b (s2o + i2))) i1 (i2 + 1) (dest + 1) hi1 (by omega)
            (by omega)
        refine ⟨m1, j1, j2, ?_, e2, e3, by omega, e5, e6, ?_, ?_⟩
        · rw [e1]
          congr 4
          omega
        · rw [Mem.slice_congr _ mem s1b s1b _ _ _ (fun k _ => hw s1b _ (Ne.symm h1)),
            Mem.slice_congr _ mem s2b s2b _ _ _ (fun k _ => hw s2b _ (Ne.symm h2)),
            Mem.slice_congr _ mem s1b s1b (s1o + i1) _ _ (fun k _ => hw s1b _ (Ne.symm h1)),
            Mem.slice_congr _ mem s2b s2b (s2o + (i2 + 1)) _ _
              (fun k _ => hw s2b _ (Ne.symm h2))] at e7
          rw [show (j1 - i1) + (j2 - i2) = ((j1 - i1) + (j2 - (i2 + 1))) + 1 by omega,
            Mem.slice_succ, List.cons_append, e7, e8 db dest (by omega), Mem.write_eq]
          conv_rhs => rw [hs1, hs2]
          rw [List.cons_merge_cons_neg _ _ _ (by rw [hle]; simp), ← hs1]
        · intro q j hq
          rw [e8 q j (by omega)]
          apply Mem.write_ne
          by_contra hcon
          push_neg at hcon
          exact hq ⟨hcon.1, by omega, by omega⟩
      -- taking the entry of the left run
      have left : ∀ (hle : entryLe diff_l (mem s1b (s1o + i1)) (mem s2b (s2o + i2)) = true),
          ∃ m1 j1 j2, merge_sort_slice_loop diff_l s1b s1o s2b s2o db src1_len src2_len fuel
              (mem.write db dest (mem s1b (s1o + i1))) (i1 + 1) i2 (dest + 1) =
              some (m1, j1, j2, dest + (j1 - i1) + (j2 - i2)) ∧
            i1 ≤ j1 ∧ j1 ≤ src1_len ∧ i2 ≤ j2 ∧ j2 ≤ src2_len ∧
            ¬ (j1 < src1_len ∧ j2 < src2_len) ∧
            m1.slice db dest ((j1 - i1) + (j2 - i2)) ++
                List.merge (mem.slice s1b (s1o + j1) (src1_len - j1))
                  (mem.slice s2b (s2o + j2) (src2_len - j2)) (entryLe diff_l) =
              List.merge (mem.slice s1b (s1o + i1) (src1_len - i1))
                (mem.slice s2b (s2o + i2) (src2_len - i2)) (entryLe diff_l) ∧
            ∀ q j, ¬ (q = db ∧ dest ≤ j ∧ j < dest + (j1 - i1) + (j2 - i2)) →
              m1 q j = mem q j := by
        intro hle
        have hw : ∀ q j, q ≠ db → (mem.write db dest (mem s1b (s1o + i1))) q j = mem q j :=
          fun q j hq => Mem.write_ne _ _ _ _ _ _ (Or.inl hq)
        obtain ⟨m1, j1, j2, e1, e2, e3, e4, e5, e6, e7, e8⟩ :=
          ih (mem.write db dest (mem s1b (s1o + i1))) (i1 + 1) i2 (dest + 1) (by omega) hi2
            (by omega)
        refine ⟨m1, j1, j2, ?_, by omega, e3, e4, e5, e6, ?_, ?_⟩
        · rw [e1]
          congr 4
          omega
        · rw [Mem.slice_congr _ mem s1b s1b _ _ _ (fun k _ => hw s1b _ (Ne.symm h1)),
            Mem.slice_congr _ mem s2b s2b _ _ _ (fun k _ => hw s2b _ (Ne.symm h2)),
            Mem.slice_congr _ mem s1b s1b (s1o + (i1 + 1)) _ _
              (fun k _ => hw s1b _ (Ne.symm h1)),
            Mem.slice_congr _ mem s2b s2b (s2o + i2) _ _
              (fun k _ => hw s2b _ (Ne.symm h2))] at e7
          rw [show (j1 - i1) + (j2 - i2) = (((j1 - (i1 + 1)) + (j2 - i2))) + 1 by omega,
            Mem.slice_succ, List.cons_append, e7, e8 db dest (by omega), Mem.write_eq]
          conv_rhs => rw [hs1, hs2]
          rw [List.cons_merge_cons_pos _ _ _ hle, ← hs2]
        · intro q j hq
          rw [e8 q j (by omega)]
          apply Mem.write_ne
          by_contra hcon
          push_neg at hcon
          exact hq ⟨hcon.1, by omega, by omega⟩
      unfold merge_sort_slice_loop
      rw [if_pos hg]
      by_cases c1 : (mem s1b (s1o + i1)).ts > (mem s2b (s2o + i2)).ts
      · rw [if_pos c1]
        exact right (by unfold entryLe; rw [if_pos c1])
      · rw [if_neg c1]
        by_cases c2 : (mem s1b (s1o + i1)).ts < (mem s2b (s2o + i2)).ts
        · rw [if_pos c2]
          exact left (by unfold entryLe; rw [if_neg c1, if_pos c2])
        · rw [if_neg c2]
          by_cases c3 : diff_l (mem s1b (s1o + i1)).i (mem s2b (s2o + i2)).i > 0
          · rw [if_pos c3]
            exact right (by unfold entryLe; rw [if_neg c1, if_neg c2, if_pos c3])
          · rw [if_neg c3]
            exact left (by unfold entryLe; rw [if_neg c1, if_neg c2, if_neg c3])
    · refine ⟨mem, i1, i2, ?_, Nat.le_refl _, hi1, Nat.le_refl _, hi2, hg, ?_, ?_⟩
      · unfold merge_sort_slice_loop
        rw [if_neg hg]
        simp
      · simp [Mem.slice_zero]
      · intro q j _; rfl

theorem Mem.slice_take (m : Mem) (p lo n k : Nat) :
    (m.slice p lo n).take k = m.slice p lo (min k n) := by
  unfold Mem.slice
  rw [← List.map_take, List.take_range]

theorem Mem.slice_drop (m : Mem) (p lo n k : Nat) :
    (m.slice p lo n).drop k = m.slice p (lo + k) (n - k) := by
  apply List.ext_getElem
  · simp [Mem.length_slice]
  · intro j h1 h2
    rw [List.getElem_drop, Mem.getElem_slice, Mem.getElem_slice]
    congr 1
    omega

theorem merge_sort_slice_spec (diff_l : Nat → Nat → Int) (mem : Mem)
    (s1b s1o s2b s2o db doff src1_len src2_len : Nat) (h1 : db ≠ s1b) (h2 : db ≠ s2b) :
    ∃ mem', merge_sort_slice diff_l mem s1b s1o s2b s2o db doff src1_len src2_len = some mem' ∧
      mem'.slice db doff (src1_len + src2_len) =
        List.merge (mem.slice s1b s1o src1_len) (mem.slice s2b s2o src2_len) (entryLe diff_l) ∧
      ∀ q j, ¬ (q = db ∧ doff ≤ j ∧ j < doff + (src1_len + src2_len)) → mem' q j = mem q j := by
  obtain ⟨m1, j1, j2, e1, e2, e3, e4, e5, e6, e7, e8⟩ :=
    merge_sort_slice_loop_spec diff_l s1b s1o s2b s2o db src1_len src2_len h1 h2
      (src1_len + src2_len) mem 0 0 doff (Nat.zero_le _) (Nat.zero_le _) (by omega)
  simp only [Nat.sub_zero, Nat.add_zero] at e1 e7 e8
  unfold merge_sort_slice
  rw [e1]
  simp only []
  by_cases hj : j1 < src1_len
  · rw [if_pos hj]
    have hj2 : j2 = src2_len := by omega
    refine ⟨_, rfl, ?_, ?_⟩
    · rw [show src1_len + src2_len = (j1 + j2) + (src1_len - j1) by omega, Mem.slice_add,
        show doff + (j1 + j2) = doff + j1 + j2 by omega, Mem.memcpy_slice]
      rw [Mem.slice_congr _ m1 db db doff doff (j1 + j2)
        (fun k hk => Mem.memcpy_frame _ _ _ _ _ _ _ _ (by omega))]
      rw [← e7, hj2, Nat.sub_self, Mem.slice_zero, List.merge_right]
      congr 1
      apply Mem.slice_congr
      intro k _
      exact e8 _ _ (by intro hcon; exact h1 hcon.1.symm)
    · intro q j hq
      rw [Mem.memcpy_frame _ _ _ _ _ _ _ _ (by intro hcon; exact hq ⟨hcon.1, by omega, by omega⟩)]
      exact e8 q j (by intro hcon; exact hq ⟨hcon.1, by omega, by omega⟩)
  · rw [if_neg hj]
    have hj1 : j1 = src1_len := by omega
    refine ⟨_, rfl, ?_, ?_⟩
    · rw [show src1_len + src2_len = (j1 + j2) + (src2_len - j2) by omega, Mem.slice_add,
        show doff + (j1 + j2) = doff + j1 + j2 by omega, Mem.memcpy_slice]
      rw [Mem.slice_congr _ m1 db db doff doff (j1 + j2)
        (fun k hk => Mem.memcpy_frame _ _ _ _ _ _ _ _ (by omega))]
      rw [← e7, hj1, Nat.sub_self, Mem.slice_zero, List.nil_merge]
      congr 1
      apply Mem.slice_congr
      intro k _
      exact e8 _ _ (by intro hcon; exact h2 hcon.1.symm)
    · intro q j hq
      rw [Mem.memcpy_frame _ _ _ _ _ _ _ _ (by intro hcon; exact hq ⟨hcon.1, by omega, by omega⟩)]
      exact e8 q j (by intro hcon; exact hq ⟨hcon.1, by omega, by omega⟩)

theorem passL_nil (le : index_t → index_t → Bool) (k fuel : Nat) : passL le k fuel [] = [] := by
  cases fuel with
  | zero => rfl
  | succ n => simp [passL]

theorem merge_sort_pass_spec (diff_l : Nat → Nat → Int) (source dest end_ slice_len : Nat)
    (hsd : source ≠ dest) (hk : 1 ≤ slice_len) :
    ∀ (fuel : Nat) (mem : Mem) (i : Nat), end_ - i ≤ fuel →
      ∃ mem', merge_sort_pass diff_l source dest end_ slice_len fuel mem i = some mem' ∧
        mem'.slice dest i (end_ - i) =
          passL (entryLe diff_l) slice_len fuel (mem.slice source i (end_ - i)) ∧
        ∀ q j, ¬ (q = dest ∧ i ≤ j ∧ j < end_) → mem' q j = mem q j := by
  intro fuel
  induction fuel with
  | zero =>
    intro mem i hf
    refine ⟨mem, ?_, ?_, fun q j _ => rfl⟩
    · unfold merge_sort_pass
      rw [if_neg (by omega)]
    · rw [show end_ - i = 0 by omega]
      simp [Mem.slice_zero, passL]
  | succ fuel ih =>
    intro mem i hf
    unfold merge_sort_pass
    by_cases hi : i < end_
    · rw [if_pos hi]
      have hl2 : (max (0 : Int) (min (slice_len : Int) ((end_ : Int) - ((i : Int) + slice_len)))).toNat
          = min slice_len (end_ - i - slice_len) := by omega
      rw [hl2]
      obtain ⟨mem1, s1, s2, s3⟩ := merge_sort_slice_spec diff_l mem source i source
        (i + slice_len) dest i (min slice_len (end_ - i)) (min slice_len (end_ - i - slice_len))
        (Ne.symm hsd) (Ne.symm hsd)
      rw [s1]
      simp only []
      obtain ⟨mem', p1, p2, p3⟩ := ih mem1 (i + 2 * slice_len) (by omega)
      refine ⟨mem', p1, ?_, ?_⟩
      · have hne : mem.slice source i (end_ - i) ≠ [] := by
          intro h
          have := congrArg List.length h
          rw [Mem.length_slice] at this
          simp at this
          omega
        rw [passL, if_neg hne, Mem.slice_take, Mem.slice_drop, Mem.slice_take, Mem.slice_drop,
          ← s2]
        have hL : end_ - i = (min slice_len (end_ - i) + min slice_len (end_ - i - slice_len)) +
            (end_ - (i + 2 * slice_len)) := by omega
        conv_lhs => rw [hL, Mem.slice_add]
        congr 1
        · apply Mem.slice_congr
          intro k hk'
          exact p3 _ _ (by omega)
        · by_cases hfull : i + 2 * slice_len ≤ end_
          · rw [show i + (min slice_len (end_ - i) + min slice_len (end_ - i - slice_len)) =
              i + 2 * slice_len by omega, p2]
            congr 1
            rw [show end_ - i - 2 * slice_len = end_ - (i + 2 * slice_len) by omega]
            apply Mem.slice_congr
            intro k _
            exact s3 _ _ (by intro hcon; exact hsd hcon.1)
          · rw [show end_ - (i + 2 * slice_len) = 0 by omega, Mem.slice_zero,
              show end_ - i - 2 * slice_len = 0 by omega, Mem.slice_zero, passL_nil]
      · intro q j hq
        rw [p3 q j (by intro hcon; exact hq ⟨hcon.1, by omega, hcon.2.2⟩)]
        exact s3 q j (by intro hcon; exact hq ⟨hcon.1, by omega, by omega⟩)
    · rw [if_neg hi]
      refine ⟨mem, rfl, ?_, fun q j _ => rfl⟩
      rw [show end_ - i = 0 by omega]
      simp [Mem.slice_zero, passL]

theorem merge_sort_loop_spec (diff_l : Nat → Nat → Int)
    (index_dest1 index_dest2 start end_ : Nat) (hd : index_dest1 ≠ index_dest2) :
    ∀ (fuel : Nat) (mem : Mem) (source slice_len cycle : Nat),
      source ≠ (if cycle % 2 = 0 then index_dest2 else index_dest1) → 0 < fuel →
      1 ≤ slice_len → end_ - start < fuel + slice_len →
      ∃ mem' mr, merge_sort_loop diff_l index_dest1 index_dest2 start end_ fuel mem source
          slice_len cycle = some (mem', mr) ∧
        (mr = index_dest1 ∨ mr = index_dest2) ∧
        mem'.slice mr start (end_ - start) =
          sortLoopL (entryLe diff_l) fuel slice_len (mem.slice source start (end_ - start)) ∧
        ∀ q j, ¬ ((q = index_dest1 ∨ q = index_dest2) ∧ start ≤ j ∧ j < end_) →
          mem' q j = mem q j := by
  intro fuel
  induction fuel with
  | zero => intro mem source k cycle _ h; omega
  | succ fuel ih =>
    intro mem source k cycle hsrc _ hk hf
    unfold merge_sort_loop
    simp only []
    obtain ⟨mem1, p1, p2, p3⟩ := merge_sort_pass_spec diff_l source
      (if cycle % 2 = 0 then index_dest2 else index_dest1) end_ k hsrc hk (end_ - start) mem
      start (Nat.le_refl _)
    rw [p1]
    simp only []
    have hdest : (if cycle % 2 = 0 then index_dest2 else index_dest1) = index_dest1 ∨
        (if cycle % 2 = 0 then index_dest2 else index_dest1) = index_dest2 := by
      split
      · exact Or.inr rfl
      · exact Or.inl rfl
    rw [sortLoopL, Mem.length_slice]
    by_cases h2 : 2 * k < end_ - start
    · rw [if_pos h2, if_pos h2]
      obtain ⟨mem', mr, q1, q2, q3, q4⟩ := ih mem1
        (if cycle % 2 = 0 then index_dest2 else index_dest1) (2 * k) (cycle + 1)
        (by
          by_cases hc : cycle % 2 = 0
          · rw [if_pos hc, if_neg (by omega)]
            exact Ne.symm hd
          · rw [if_neg hc, if_pos (by omega)]
            exact hd)
        (by omega) (by omega) (by omega)
      refine ⟨mem', mr, q1, q2, ?_, ?_⟩
      · rw [q3, p2]
      · intro q j hq
        rw [q4 q j hq]
        apply p3
        intro hcon
        apply hq
        refine ⟨?_, hcon.2.1, hcon.2.2⟩
        rw [hcon.1]
        exact hdest
    · rw [if_neg h2, if_neg h2]
      refine ⟨mem1, _, rfl, hdest, p2, ?_⟩
      intro q j hq
      apply p3
      intro hcon
      apply hq
      refine ⟨?_, hcon.2.1, hcon.2.2⟩
      rw [hcon.1]
      exact hdest

theorem merge_sort_spec (diff_l : Nat → Nat → Int) (mem : Mem)
    (index_src index_dest1 index_dest2 start end_ : Nat) (hd : index_dest1 ≠ index_dest2)
    (hs : index_src ≠ index_dest2) :
    ∃ mem' mr, merge_sort diff_l mem index_src index_dest1 index_dest2 start end_ =
        some (mem', mr) ∧
      (mr = index_dest1 ∨ mr = index_dest2) ∧
      mem'.slice mr start (end_ - start) =
        mergeSortL (entryLe diff_l) (mem.slice index_src start (end_ - start)) ∧
      ∀ q j, ¬ ((q = index_dest1 ∨ q = index_dest2) ∧ start ≤ j ∧ j < end_) →
        mem' q j = mem q j := by
  unfold merge_sort mergeSortL
  rw [Mem.length_slice]
  exact merge_sort_loop_spec diff_l index_dest1 index_dest2 start end_ hd (end_ - start + 1) mem
    index_src 1 0 (by simpa using hs) (by omega) (by omega) (by omega)

theorem Chunked.length_eq {R : List index_t → List index_t → Prop} {k : Nat}
    {o c : List index_t} (h : Chunked R k o c) : o.length = c.length := by
  induction h with
  | nil => rfl
  | cons o c orest crest _ _ _ _ hl _ ih => rw [List.length_append, List.length_append, hl, ih]

theorem Chunked.singletons (R : List index_t → List index_t → Prop)
    (hR1 : ∀ a, R [a] [a]) (xs : List index_t) : Chunked R 1 xs xs := by
  induction xs with
  | nil => exact Chunked.nil
  | cons a xs ih =>
    exact Chunked.cons [a] [a] xs xs (by simp) (fun _ => rfl) (by simp) (hR1 a) rfl ih

theorem Chunked.single {R : List index_t → List index_t → Prop} {k : Nat}
    {o c : List index_t} (h : Chunked R k o c) (hne : c ≠ []) (hlen : c.length ≤ k) : R o c := by
  cases h with
  | nil => exact absurd rfl hne
  | cons o1 c1 orest crest h1 h2 h3 h4 h5 h6 =>
    have hcr : crest = [] := by
      by_contra hcon
      have := h2 hcon
      rw [List.length_append] at hlen
      have : 0 < crest.length := List.length_pos.2 hcon
      omega
    subst hcr
    have hor : orest = [] := by
      have := h6.length_eq
      simpa using this
    subst hor
    simpa using h4

theorem passL_chunked (R : List index_t → List index_t → Prop) (le : index_t → index_t → Bool)
    (hRm : ∀ o1 c1 o2 c2, R o1 c1 → R o2 c2 → R (o1 ++ o2) (List.merge c1 c2 le))
    (k : Nat) :
    ∀ (fuel : Nat) (o xs : List index_t), Chunked R k o xs → xs.length ≤ fuel →
      Chunked R (2 * k) o (passL le k fuel xs) := by
  intro fuel
  induction fuel with
  | zero =>
    intro o xs h hl
    have hx : xs = [] := List.length_eq_zero.1 (by omega)
    subst hx
    have ho : o = [] := List.length_eq_zero.1 (by rw [h.length_eq]; rfl)
    subst ho
    exact Chunked.nil
  | succ fuel ih =>
    intro o xs h hl
    cases h with
    | nil => rw [passL_nil]; exact Chunked.nil
    | cons o1 c1 orest crest h1 h2 h3 h4 h5 h6 =>
      have hne : c1 ++ crest ≠ [] := by
        intro hcon
        exact h3 (List.append_eq_nil.1 hcon).1
      rw [passL, if_neg hne]
      by_cases hcr : crest = []
      · subst hcr
        have hor : orest = [] := by
          have := h6.length_eq
          simpa using this
        subst hor
        have e1 : (c1 ++ []).take k = c1 := by
          rw [List.append_nil]; exact List.take_of_length_le h1
        have e2 : ((c1 ++ []).drop k).take k = [] := by
          rw [List.append_nil, List.drop_of_length_le h1, List.take_nil]
        have e3 : (c1 ++ []).drop (2 * k) = [] := by
          rw [List.append_nil]; exact List.drop_of_length_le (by omega)
        rw [e1, e2, e3, passL_nil, List.merge_right]
        exact Chunked.cons o1 c1 [] [] (by omega) (fun h => absurd rfl h) h3 h4 h5 Chunked.nil
      · have hk : c1.length = k := h2 hcr
        cases h6 with
        | nil => exact absurd rfl hcr
        | cons o2 c2 orest' crest' g1 g2 g3 g4 g5 g6 =>
          have e1 : (c1 ++ (c2 ++ crest')).take k = c1 := by
            rw [List.take_append_of_le_length (by omega)]
            exact List.take_of_length_le (by omega)
          have e2 : (c1 ++ (c2 ++ crest')).drop k = c2 ++ crest' := by
            rw [← hk]; exact List.drop_left _ _
          have e3 : (c2 ++ crest').take k = c2 := by
            by_cases hc' : crest' = []
            · subst hc'
              rw [List.append_nil]; exact List.take_of_length_le g1
            · rw [← g2 hc']; exact List.take_left _ _
          have e4 : (c1 ++ (c2 ++ crest')).drop (2 * k) = crest' := by
            rw [show 2 * k = k + k by omega, ← List.drop_drop, e2]
            by_cases hc' : crest' = []
            · subst hc'
              rw [List.append_nil]; exact List.drop_of_length_le g1
            · rw [← g2 hc']; exact List.drop_left _ _
          rw [e1, e2, e3, e4, ← List.append_assoc]
          refine Chunked.cons (o1 ++ o2) (List.merge c1 c2 le) orest' _ ?_ ?_ ?_
            (hRm o1 c1 o2 c2 h4 g4) ?_ (ih orest' crest' g6 ?_)
          · rw [List.length_merge]; omega
          · intro hp
            have : crest' ≠ [] := by
              intro hcon
              rw [hcon, passL_nil] at hp
              exact hp rfl
            rw [List.length_merge, hk, g2 this]
            omega
          · intro hcon
            have hz := congrArg List.length hcon
            rw [List.length_merge, List.length_nil] at hz
            have hpos : 0 < c1.length := List.length_pos.2 h3
            omega
          · rw [List.length_append, List.length_merge, h5, g5]
          · rw [List.length_append, List.length_append] at hl
            have : 0 < c1.length := List.length_pos.2 h3
            omega

theorem length_passL (le : index_t → index_t → Bool) (k : Nat) (hk : 1 ≤ k) :
    ∀ (fuel : Nat) (xs : List index_t), (passL le k fuel xs).length = xs.length := by
  intro fuel
  induction fuel with
  | zero => intro xs; rfl
  | succ fuel ih =>
    intro xs
    rw [passL]
    by_cases h : xs = []
    · rw [if_pos h, h]
    · rw [if_neg h, List.length_append, List.length_merge, ih, List.length_take, List.length_take,
        List.length_drop, List.length_drop]
      omega

theorem sortLoopL_rel (R : List index_t → List index_t → Prop) (le : index_t → index_t → Bool)
    (hRm : ∀ o1 c1 o2 c2, R o1 c1 → R o2 c2 → R (o1 ++ o2) (List.merge c1 c2 le)) :
    ∀ (fuel k : Nat) (o xs : List index_t), Chunked R k o xs → 1 ≤ k → xs ≠ [] → 0 < fuel →
      xs.length < fuel + k → R o (sortLoopL le fuel k xs) := by
  intro fuel
  induction fuel with
  | zero => intro k o xs _ _ _ h; omega
  | succ fuel ih =>
    intro k o xs h hk hne _ hf
    have hp := passL_chunked R le hRm k xs.length o xs h (Nat.le_refl _)
    have hlen := length_passL le k hk xs.length xs
    have hne' : passL le k xs.length xs ≠ [] := by
      intro hcon
      rw [hcon] at hlen
      exact hne (List.length_eq_zero.1 hlen.symm)
    rw [sortLoopL]
    by_cases h2 : 2 * k < xs.length
    · rw [if_pos h2]
      exact ih (2 * k) o _ hp (by omega) hne' (by omega) (by omega)
    · rw [if_neg h2]
      exact hp.single hne' (by omega)

theorem mergeSortL_rel (R : List index_t → List index_t → Prop) (le : index_t → index_t → Bool)
    (hR1 : ∀ a, R [a] [a])
    (hRm : ∀ o1 c1 o2 c2, R o1 c1 → R o2 c2 → R (o1 ++ o2) (List.merge c1 c2 le))
    (xs : List index_t) (hne : xs ≠ []) : R xs (mergeSortL le xs) := by
  unfold mergeSortL
  exact sortLoopL_rel R le hRm (xs.length + 1) 1 xs xs (Chunked.singletons R hR1 xs)
    (Nat.le_refl _) hne (by omega) (by omega)

theorem entryLe_iff {K : Type} [LinearOrder K] (diff_l : Nat → Nat → Int) (key : Nat → K)
    (hd : InducedBy diff_l key key) (a b : index_t) :
    entryLe diff_l a b = true ↔ sortKey key a ≤ sortKey key b := by
  unfold entryLe sortKey
  rw [Prod.Lex.le_iff]
  simp only []
  by_cases c1 : a.ts > b.ts
  · rw [if_pos c1]
    constructor
    · intro h; exact absurd h (by simp)
    · rintro (h | ⟨h, _⟩) <;> omega
  · rw [if_neg c1]
    by_cases c2 : a.ts < b.ts
    · rw [if_pos c2]
      exact ⟨fun _ => Or.inl c2, fun _ => rfl⟩
    · rw [if_neg c2]
      have heq : a.ts = b.ts := by omega
      by_cases c3 : diff_l a.i b.i > 0
      · rw [if_pos c3]
        constructor
        · intro h; exact absurd h (by simp)
        · rintro (h | ⟨_, h⟩)
          · omega
          · exact absurd ((hd a.i b.i).1.1 c3) (not_lt.2 h)
      · rw [if_neg c3]
        refine ⟨fun _ => Or.inr ⟨heq, ?_⟩, fun _ => rfl⟩
        by_contra hcon
        exact c3 ((hd a.i b.i).1.2 (not_le.1 hcon))

theorem merge_sorted_key {L : Type} [LinearOrder L] (κ : index_t → L)
    (le : index_t → index_t → Bool) (hle : ∀ a b, le a b = true ↔ κ a ≤ κ b)
    (l1 l2 : List index_t) (h1 : l1.Pairwise (fun a b => κ a ≤ κ b))
    (h2 : l2.Pairwise (fun a b => κ a ≤ κ b)) :
    (List.merge l1 l2 le).Pairwise (fun a b => κ a ≤ κ b) := by
  have key : ∀ l : List index_t, l.Pairwise (fun a b => le a b = true) ↔
      l.Pairwise (fun a b => κ a ≤ κ b) := by
    intro l
    constructor
    · intro h; exact h.imp (fun hab => (hle _ _).1 hab)
    · intro h; exact h.imp (fun hab => (hle _ _).2 hab)
  rw [← key] at h1 h2 ⊢
  apply List.sorted_merge
  · intro a b c hab hbc
    exact (hle _ _).2 (le_trans ((hle _ _).1 hab) ((hle _ _).1 hbc))
  · intro a b
    rcases le_total (κ a) (κ b) with h | h
    · simp [(hle a b).2 h]
    · simp [(hle b a).2 h]
  · exact h1
  · exact h2

theorem merge_filter_key {L : Type} [LinearOrder L] (κ : index_t → L)
    (le : index_t → index_t → Bool) (hle : ∀ a b, le a b = true ↔ κ a ≤ κ b) (v : L) :
    ∀ (l1 l2 : List index_t), l1.Pairwise (fun a b => κ a ≤ κ b) →
      (List.merge l1 l2 le).filter (fun x => κ x = v) =
        l1.filter (fun x => κ x = v) ++ l2.filter (fun x => κ x = v) := by
  intro l1
  induction l1 with
  | nil => intro l2 _; simp
  | cons a l1 ih1 =>
    intro l2
    induction l2 with
    | nil => intro _; simp
    | cons b l2 ih2 =>
      intro hs
      by_cases hab : le a b = true
      · rw [List.cons_merge_cons_pos _ _ _ hab]
        by_cases ha : κ a = v
        · have e1 : (a :: List.merge l1 (b :: l2) le).filter (fun x => κ x = v) =
              a :: (List.merge l1 (b :: l2) le).filter (fun x => κ x = v) :=
            List.filter_cons_of_pos (by simpa using ha)
          have e2 : (a :: l1).filter (fun x => κ x = v) = a :: l1.filter (fun x => κ x = v) :=
            List.filter_cons_of_pos (by simpa using ha)
          rw [e1, e2, ih1 (b :: l2) hs.tail, List.cons_append]
        · have e1 : (a :: List.merge l1 (b :: l2) le).filter (fun x => κ x = v) =
              (List.merge l1 (b :: l2) le).filter (fun x => κ x = v) :=
            List.filter_cons_of_neg (by simpa using ha)
          have e2 : (a :: l1).filter (fun x => κ x = v) = l1.filter (fun x => κ x = v) :=
            List.filter_cons_of_neg (by simpa using ha)
          rw [e1, e2, ih1 (b :: l2) hs.tail]
      · rw [List.cons_merge_cons_neg _ _ _ hab]
        by_cases hb : κ b = v
        · -- nothing of the left run has the key of `b`
          have hlt : κ b < κ a := by
            by_contra hcon
            exact hab ((hle a b).2 (le_of_not_lt (fun h => hcon h)))
          have hnil : (a :: l1).filter (fun x => κ x = v) = [] := by
            rw [List.filter_eq_nil_iff]
            intro x hx
            have hax : κ a ≤ κ x := by
              rw [List.mem_cons] at hx
              rcases hx with hx | hx
              · rw [hx]
              · exact List.rel_of_pairwise_cons hs hx
            have : κ b < κ x := lt_of_lt_of_le hlt hax
            rw [hb] at this
            simpa using (ne_of_gt this)
          have e1 : (b :: List.merge (a :: l1) l2 le).filter (fun x => κ x = v) =
              b :: (List.merge (a :: l1) l2 le).filter (fun x => κ x = v) :=
            List.filter_cons_of_pos (by simpa using hb)
          have e2 : (b :: l2).filter (fun x => κ x = v) = b :: l2.filter (fun x => κ x = v) :=
            List.filter_cons_of_pos (by simpa using hb)
          rw [e1, e2, ih2 hs, hnil, List.nil_append, List.nil_append]
        · have e1 : (b :: List.merge (a :: l1) l2 le).filter (fun x => κ x = v) =
              (List.merge (a :: l1) l2 le).filter (fun x => κ x = v) :=
            List.filter_cons_of_neg (by simpa using hb)
          have e2 : (b :: l2).filter (fun x => κ x = v) = l2.filter (fun x => κ x = v) :=
            List.filter_cons_of_neg (by simpa using hb)
          rw [e1, e2, ih2 hs]

theorem stableSorted_singleton {L : Type} [LinearOrder L] (κ : index_t → L) (a : index_t) :
    StableSorted κ [a] [a] :=
  ⟨List.pairwise_singleton _ _, List.Perm.refl _, fun _ => rfl⟩

theorem stableSorted_merge {L : Type} [LinearOrder L] (κ : index_t → L)
    (le : index_t → index_t → Bool) (hle : ∀ a b, le a b = true ↔ κ a ≤ κ b)
    (o1 c1 o2 c2 : List index_t) (h1 : StableSorted κ o1 c1) (h2 : StableSorted κ o2 c2) :
    StableSorted κ (o1 ++ o2) (List.merge c1 c2 le) := by
  obtain ⟨s1, p1, f1⟩ := h1
  obtain ⟨s2, p2, f2⟩ := h2
  refine ⟨merge_sorted_key κ le hle c1 c2 s1 s2, ?_, ?_⟩
  · exact (List.merge_perm_append le).trans (p1.append p2)
  · intro v
    rw [merge_filter_key κ le hle v c1 c2 s1, f1 v, f2 v, List.filter_append]

theorem mergeSortL_stable {K : Type} [LinearOrder K] (diff_l : Nat → Nat → Int) (key : Nat → K)
    (hd : InducedBy diff_l key key) (xs : List index_t) (hne : xs ≠ []) :
    StableSorted (sortKey key) xs (mergeSortL (entryLe diff_l) xs) :=
  mergeSortL_rel (StableSorted (sortKey key)) (entryLe diff_l)
    (stableSorted_singleton (sortKey key))
    (stableSorted_merge (sortKey key) (entryLe diff_l) (entryLe_iff diff_l key hd)) xs hne

theorem dedup_pass_loop_spec (diff_l : Nat → Nat → Int) (mr d : Nat) :
    ∀ (n i : Nat) (mem : Mem) (copy_to last : Nat), copy_to ≤ last → last < i →
      (∀ j1 j2, last ≤ j1 → j1 ≤ j2 → j2 < i + n → (mem mr j1).ts ≤ (mem mr j2).ts) →
      ∃ mem' w last', dedup_pass_loop diff_l mr d n i mem copy_to last =
          (mem', some (copy_to + w.length, last')) ∧
        lastOfKeyRuns diff_l (mem mr last) (mem mr (i - 1)) (mem.slice mr i n) =
          w ++ [mem mr (i + n - 1)] ∧
        mem'.slice d copy_to w.length = w ∧ copy_to + w.length < i + n ∧
        ∀ q j, ¬ (q = d ∧ copy_to ≤ j ∧ j < copy_to + w.length) → mem' q j = mem q j := by
  intro n
  induction n with
  | zero =>
    intro i mem copy_to last h1 h2 _
    refine ⟨mem, [], last, rfl, ?_, ?_, by simpa using Nat.lt_of_le_of_lt h1 h2,
      fun q j _ => rfl⟩
    · simp [Mem.slice_zero, lastOfKeyRuns]
    · simp [Mem.slice_zero]
  | succ n ih =>
    intro i mem copy_to last h1 h2 hs
    unfold dedup_pass_loop
    simp only []
    rw [Mem.slice_succ, lastOfKeyRuns]
    by_cases hc : (mem mr i).ts > (mem mr last).ts ∨ diff_l (mem mr last).i (mem mr i).i ≠ 0
    · rw [if_pos hc, if_pos hc]
      have hkeep : ∀ j, i ≤ j → (mem.write d copy_to (mem mr (i - 1))) mr j = mem mr j := by
        intro j hj
        apply Mem.write_ne
        right
        omega
      obtain ⟨mem', w, last', e1, e2, e3, e4, e5⟩ :=
        ih (i + 1) (mem.write d copy_to (mem mr (i - 1))) (copy_to + 1) i (by omega) (by omega)
          (by
            intro j1 j2 hj1 hj12 hj2
            rw [hkeep j1 hj1, hkeep j2 (by omega)]
            exact hs j1 j2 (by omega) hj12 (by omega))
      refine ⟨mem', mem mr (i - 1) :: w, last', ?_, ?_, ?_, ?_, ?_⟩
      · rw [e1, List.length_cons, show copy_to + 1 + w.length = copy_to + (w.length + 1) by omega]
      · rw [Nat.add_sub_cancel, hkeep i (Nat.le_refl _),
          Mem.slice_congr _ mem mr mr (i + 1) (i + 1) n (fun k _ => hkeep _ (by omega)),
          show i + 1 + n - 1 = i + n by omega, hkeep (i + n) (by omega)] at e2
        rw [e2, List.cons_append, show i + (n + 1) - 1 = i + n by omega]
      · rw [List.length_cons, Mem.slice_succ, e3, e5 d copy_to (by omega), Mem.write_eq]
      · rw [List.length_cons]; omega
      · intro q j hq
        rw [List.length_cons] at hq
        rw [e5 q j (by intro hcon; exact hq ⟨hcon.1, by omega, by omega⟩)]
        apply Mem.write_ne
        by_contra hcon
        push_neg at hcon
        exact hq ⟨hcon.1, by omega, by omega⟩
    · rw [if_neg hc, if_neg hc]
      have hle := hs last i (Nat.le_refl _) (by omega) (by omega)
      have hts : ¬ (mem mr i).ts ≠ (mem mr last).ts := by
        push_neg at hc
        omega
      rw [if_neg hts]
      obtain ⟨mem', w, last', e1, e2, e3, e4, e5⟩ :=
        ih (i + 1) mem copy_to last h1 (by omega)
          (by
            intro j1 j2 hj1 hj12 hj2
            exact hs j1 j2 hj1 hj12 (by omega))
      refine ⟨mem', w, last', e1, ?_, e3, by omega, e5⟩
      rw [Nat.add_sub_cancel, show i + 1 + n - 1 = i + n by omega] at e2
      rw [e2, show i + (n + 1) - 1 = i + n by omega]

theorem dedup_range_with_keys_spec (diff_l : Nat → Nat → Int) (mem : Mem)
    (index_src count index_dest index_tmp ds de : Nat)
    (h1 : index_tmp ≠ index_src) (h2 : index_tmp ≠ index_dest) (h3 : ds + 2 ≤ de)
    (_h4 : de ≤ count)
    (hts : (mergeSortL (entryLe diff_l) (mem.slice index_src ds (de - ds))).Pairwise
      (fun a b => a.ts ≤ b.ts)) :
    ∃ mem', dedup_range_with_keys diff_l mem index_src count index_dest index_tmp ds de =
        some (((ds + (keyRuns diff_l (mergeSortL (entryLe diff_l)
          (mem.slice index_src ds (de - ds)))).length + (count - de) : Nat) : Int), mem') ∧
      mem'.slice index_dest 0 (ds + (keyRuns diff_l (mergeSortL (entryLe diff_l)
          (mem.slice index_src ds (de - ds)))).length + (count - de)) =
        mem.slice index_src 0 ds ++
          keyRuns diff_l (mergeSortL (entryLe diff_l) (mem.slice index_src ds (de - ds))) ++
          mem.slice index_src de (count - de) := by
  obtain ⟨mem1, mr, m1, m2, m3, m4⟩ := merge_sort_spec diff_l mem index_src index_dest index_tmp
    ds de (Ne.symm h2) (Ne.symm h1)
  rw [← m3] at hts ⊢
  have hsorted : ∀ j1 j2, ds ≤ j1 → j1 ≤ j2 → j2 < ds + 1 + (de - (ds + 1)) →
      (mem1 mr j1).ts ≤ (mem1 mr j2).ts := by
    intro j1 j2 hj1 hj12 hj2
    by_cases he : j1 = j2
    · rw [he]
    · have := Mem.slice_pairwise mem1 mr ds (de - ds) _ hts (j1 - ds) (j2 - ds) (by omega)
        (by omega)
      rwa [show ds + (j1 - ds) = j1 by omega, show ds + (j2 - ds) = j2 by omega] at this
  obtain ⟨mem2, w, last', p1, p2, p3, p4, p5⟩ := dedup_pass_loop_spec diff_l mr index_dest
    (de - (ds + 1)) (ds + 1) mem1 ds ds (Nat.le_refl _) (by omega) hsorted
  have hS : mem1.slice mr ds (de - ds) = mem1 mr ds :: mem1.slice mr (ds + 1) (de - (ds + 1)) := by
    rw [show de - ds = (de - (ds + 1)) + 1 by omega, Mem.slice_succ]
  have hk : keyRuns diff_l (mem1.slice mr ds (de - ds)) = w ++ [mem1 mr (de - 1)] := by
    rw [hS, keyRuns]
    rw [Nat.add_sub_cancel, show ds + 1 + (de - (ds + 1)) - 1 = de - 1 by omega] at p2
    exact p2
  have hwl : ds + w.length < de := by omega
  unfold dedup_range_with_keys
  rw [m1]
  simp only []
  rw [p1]
  simp only []
  rw [hk, List.length_append, List.length_singleton]
  -- cells that the sort and the pass leave alone
  have hcell : ∀ q j, (q ≠ index_dest ∧ q ≠ index_tmp) ∨ (q = index_dest ∧ (j < ds ∨ de ≤ j)) →
      (mem2.write index_dest (ds + w.length) (mem2 mr (de - 1))) q j = mem q j := by
    intro q j hq
    rw [Mem.write_ne _ _ _ _ _ _ (by
      rcases hq with hq | hq
      · exact Or.inl hq.1
      · exact Or.inr (by omega))]
    rw [p5 q j (by
      intro hcon
      rcases hq with hq | hq
      · exact hq.1 hcon.1
      · omega)]
    apply m4
    intro hcon
    rcases hq with hq | hq
    · rcases hcon.1 with h | h
      · exact hq.1 h
      · exact hq.2 h
    · omega
  have hmid : (mem2.write index_dest (ds + w.length) (mem2 mr (de - 1))).slice index_dest ds
      (w.length + 1) = w ++ [mem1 mr (de - 1)] := by
    rw [Mem.slice_snoc, Mem.write_eq, p5 mr (de - 1) (by intro hcon; omega)]
    congr 1
    refine Eq.trans ?_ p3
    apply Mem.slice_congr
    intro k hk'
    apply Mem.write_ne
    right
    omega
  refine ⟨_, congrArg some (Prod.ext ?_ rfl), ?_⟩
  · simp only []
    push_cast
    omega
  · rw [Mem.slice_add, Mem.slice_add, Nat.zero_add, Nat.zero_add]
    congr 1
    · congr 1
      · -- prefix
        apply Mem.slice_congr
        intro k hk'
        rw [Mem.memcpy_frame _ _ _ _ _ _ _ _ (by intro hcon; omega)]
        by_cases hsd : index_src = index_dest
        · rw [if_neg (by simpa using hsd), hcell _ _ (Or.inr ⟨rfl, Or.inl (by omega)⟩), hsd]
        · rw [if_pos hsd]
          unfold Mem.memcpy
          rw [if_pos ⟨rfl, by omega, by omega⟩,
            hcell _ _ (Or.inl ⟨hsd, Ne.symm h1⟩)]
          congr 1
          omega
      · -- survivors of the duplicate range
        refine Eq.trans ?_ hmid
        apply Mem.slice_congr
        intro k hk'
        rw [Mem.memcpy_frame _ _ _ _ _ _ _ _ (by intro hcon; omega)]
        by_cases hsd : index_src = index_dest
        · rw [if_neg (by simpa using hsd)]
        · rw [if_pos hsd, Mem.memcpy_frame _ _ _ _ _ _ _ _ (by intro hcon; omega)]
    · -- tail
      rw [show ds + (w.length + 1) = ds + w.length + 1 by omega, Mem.memcpy_slice]
      apply Mem.slice_congr
      intro k hk'
      by_cases hsd : index_src = index_dest
      · rw [if_neg (by simpa using hsd), hsd, hcell _ _ (Or.inr ⟨rfl, Or.inr (by omega)⟩)]
      · rw [if_pos hsd, Mem.memcpy_frame _ _ _ _ _ _ _ _ (by intro hcon; exact hsd hcon.1),
          hcell _ _ (Or.inl ⟨hsd, Ne.symm h1⟩)]

theorem sortKey_eq_iff {K : Type} (key : Nat → K) (a b : index_t) :
    sortKey key a = sortKey key b ↔ a.ts = b.ts ∧ key a.i = key b.i := by
  unfold sortKey
  rw [toLex.injective.eq_iff, Prod.mk.injEq]

theorem sortKey_lt_iff {K : Type} [LinearOrder K] (key : Nat → K) (a b : index_t) :
    sortKey key a < sortKey key b ↔ a.ts < b.ts ∨ (a.ts = b.ts ∧ key a.i < key b.i) := by
  unfold sortKey
  rw [Prod.Lex.lt_iff]

theorem ts_le_of_sortKey_le {K : Type} [LinearOrder K] (key : Nat → K) (a b : index_t)
    (h : sortKey key a ≤ sortKey key b) : a.ts ≤ b.ts := by
  unfold sortKey at h
  rw [Prod.Lex.le_iff] at h
  rcases h with h | h
  · exact Nat.le_of_lt h
  · exact Nat.le_of_eq h.1

theorem keyRun_break_iff {K : Type} [LinearOrder K] (diff_l : Nat → Nat → Int) (key : Nat → K)
    (hd : InducedBy diff_l key key) (h x : index_t) (hle : h.ts ≤ x.ts) :
    (x.ts > h.ts ∨ diff_l h.i x.i ≠ 0) ↔ sortKey key h ≠ sortKey key x := by
  simp only [ne_eq, sortKey_eq_iff, compare_eq_zero_iff diff_l key key hd]
  constructor
  · rintro (c | c) ⟨e1, e2⟩
    · omega
    · exact c e2
  · intro c
    by_cases e1 : h.ts = x.ts
    · right
      intro e2
      exact c ⟨e1, e2⟩
    · left
      omega

theorem lastOfKeyRuns_sublist (diff_l : Nat → Nat → Int) :
    ∀ (rest : List index_t) (h p : index_t),
      (lastOfKeyRuns diff_l h p rest).Sublist (p :: rest) := by
  intro rest
  induction rest with
  | nil =>
    intro h p
    unfold lastOfKeyRuns
    exact List.Sublist.refl _
  | cons x r ih =>
    intro h p
    unfold lastOfKeyRuns
    split
    · exact List.Sublist.cons₂ p (ih x x)
    · exact List.Sublist.cons p (ih h x)

theorem lastOfKeyRuns_filter {K : Type} [LinearOrder K] (diff_l : Nat → Nat → Int)
    (key : Nat → K) (hd : InducedBy diff_l key key) (v : Lex (Nat × K)) :
    ∀ (rest : List index_t) (h p : index_t), sortKey key h = sortKey key p →
      (p :: rest).Pairwise (fun a b => sortKey key a ≤ sortKey key b) →
      (lastOfKeyRuns diff_l h p rest).filter (fun x => sortKey key x = v) =
        ((p :: rest).filter (fun x => sortKey key x = v)).getLast?.toList := by
  intro rest
  induction rest with
  | nil =>
    intro h p _ _
    unfold lastOfKeyRuns
    by_cases hv : sortKey key p = v
    · rw [List.filter_cons_of_pos (by simpa using hv)]
      rfl
    · rw [List.filter_cons_of_neg (by simpa using hv)]
      rfl
  | cons x r ih =>
    intro h p hhp hs
    have hpx : sortKey key p ≤ sortKey key x :=
      (List.pairwise_cons.1 hs).1 x (List.mem_cons_self _ _)
    have hs' := (List.pairwise_cons.1 hs).2
    have hts : h.ts ≤ x.ts := ts_le_of_sortKey_le key h x (hhp ▸ hpx)
    unfold lastOfKeyRuns
    by_cases c : x.ts > h.ts ∨ diff_l h.i x.i ≠ 0
    · rw [if_pos c]
      have hne : sortKey key h ≠ sortKey key x := (keyRun_break_iff diff_l key hd h x hts).1 c
      have hlt : sortKey key p < sortKey key x := lt_of_le_of_ne hpx (hhp ▸ hne)
      by_cases hv : sortKey key p = v
      · have hnil : (x :: r).filter (fun x => decide (sortKey key x = v)) = [] := by
          rw [List.filter_eq_nil_iff]
          intro y hy hyv
          have hyv' : sortKey key y = v := by simpa using hyv
          have hxy : sortKey key x ≤ sortKey key y := by
            rcases List.mem_cons.1 hy with e | e
            · rw [e]
            · exact (List.pairwise_cons.1 hs').1 y e
          rw [← hv] at hyv'
          rw [hyv'] at hxy
          exact absurd hlt (not_lt_of_le hxy)
        have e1 : ∀ l : List index_t, (p :: l).filter (fun x => decide (sortKey key x = v)) =
            p :: l.filter (fun x => decide (sortKey key x = v)) :=
          fun l => List.filter_cons_of_pos (by simpa using hv)
        rw [e1, e1, ih x x rfl hs', hnil]
        rfl
      · have e1 : ∀ l : List index_t, (p :: l).filter (fun x => decide (sortKey key x = v)) =
            l.filter (fun x => decide (sortKey key x = v)) :=
          fun l => List.filter_cons_of_neg (by simpa using hv)
        rw [e1, e1, ih x x rfl hs']
    · rw [if_neg c]
      have heq : sortKey key h = sortKey key x := by
        by_contra hne
        exact c ((keyRun_break_iff diff_l key hd h x hts).2 hne)
      rw [ih h x heq hs']
      by_cases hv : sortKey key p = v
      · have hxv : sortKey key x = v := by rw [← heq, hhp, hv]
        have e1 : ∀ l : List index_t, (p :: l).filter (fun x => decide (sortKey key x = v)) =
            p :: l.filter (fun x => decide (sortKey key x = v)) :=
          fun l => List.filter_cons_of_pos (by simpa using hv)
        have e2 : ∀ l : List index_t, (x :: l).filter (fun x => decide (sortKey key x = v)) =
            x :: l.filter (fun x => decide (sortKey key x = v)) :=
          fun l => List.filter_cons_of_pos (by simpa using hxv)
        rw [e1, e2, List.getLast?_cons_cons]
      · have e1 : ∀ l : List index_t, (p :: l).filter (fun x => decide (sortKey key x = v)) =
            l.filter (fun x => decide (sortKey key x = v)) :=
          fun l => List.filter_cons_of_neg (by simpa using hv)
        rw [e1]

theorem lastOfKeyRuns_strict {K : Type} [LinearOrder K] (diff_l : Nat → Nat → Int)
    (key : Nat → K) (hd : InducedBy diff_l key key) :
    ∀ (rest : List index_t) (h p : index_t), sortKey key h = sortKey key p →
      (p :: rest).Pairwise (fun a b => sortKey key a ≤ sortKey key b) →
      (lastOfKeyRuns diff_l h p rest).Pairwise (fun a b => sortKey key a < sortKey key b) := by
  intro rest
  induction rest with
  | nil =>
    intro h p _ _
    unfold lastOfKeyRuns
    exact List.pairwise_singleton _ _
  | cons x r ih =>
    intro h p hhp hs
    have hpx : sortKey key p ≤ sortKey key x :=
      (List.pairwise_cons.1 hs).1 x (List.mem_cons_self _ _)
    have hs' := (List.pairwise_cons.1 hs).2
    have hts : h.ts ≤ x.ts := ts_le_of_sortKey_le key h x (hhp ▸ hpx)
    unfold lastOfKeyRuns
    by_cases c : x.ts > h.ts ∨ diff_l h.i x.i ≠ 0
    · rw [if_pos c]
      have hne : sortKey key h ≠ sortKey key x := (keyRun_break_iff diff_l key hd h x hts).1 c
      have hlt : sortKey key p < sortKey key x := lt_of_le_of_ne hpx (hhp ▸ hne)
      refine List.pairwise_cons.2 ⟨?_, ih x x rfl hs'⟩
      intro y hy
      have hy' := (lastOfKeyRuns_sublist diff_l r x x).subset hy
      rcases List.mem_cons.1 hy' with e | e
      · rw [e]; exact hlt
      · exact lt_of_lt_of_le hlt ((List.pairwise_cons.1 hs').1 y e)
    · rw [if_neg c]
      have heq : sortKey key h = sortKey key x := by
        by_contra hne
        exact c ((keyRun_break_iff diff_l key hd h x hts).2 hne)
      exact ih h x heq hs'

theorem getLast_toList_append (l1 l2 : List index_t) (h : l1 = [] ∨ l2 = []) :
    (l1 ++ l2).getLast?.toList = l1.getLast?.toList ++ l2.getLast?.toList := by
  rcases h with h | h
  · rw [h]; rfl
  · rw [h, List.append_nil]
    exact (List.append_nil _).symm

theorem getLast_toList_of_length_le_one (l : List index_t) (h : l.length ≤ 1) :
    l.getLast?.toList = l := by
  match l, h with
  | [], _ => rfl
  | [_], _ => rfl

theorem filter_class_length_le_one {K : Type} [LinearOrder K] (key : Nat → K)
    (l : List index_t) (hl : l.Pairwise (fun a b => sortKey key a < sortKey key b))
    (v : Lex (Nat × K)) : (l.filter (fun x => sortKey key x = v)).length ≤ 1 := by
  have hs : (l.filter (fun x => decide (sortKey key x = v))).Pairwise
      (fun a b => sortKey key a < sortKey key b) := hl.sublist (List.filter_sublist l)
  have hm : ∀ y ∈ l.filter (fun x => decide (sortKey key x = v)), sortKey key y = v := by
    intro y hy
    simpa using (List.mem_filter.1 hy).2
  match hf : l.filter (fun x => decide (sortKey key x = v)) with
  | [] => simp
  | [_] => simp
  | a :: b :: t =>
    rw [hf] at hs hm
    have h1 := hm a (by simp)
    have h2 := hm b (by simp)
    have h3 := (List.pairwise_cons.1 hs).1 b (by simp)
    rw [h1, h2] at h3
    exact absurd h3 (lt_irrefl _)

theorem filter_class_disjoint {K : Type} (key : Nat → K) (A B : List index_t)
    (h : ∀ x ∈ A, ∀ y ∈ B, x.ts < y.ts) (v : Lex (Nat × K)) [DecidableEq (Lex (Nat × K))] :
    A.filter (fun x => sortKey key x = v) = [] ∨ B.filter (fun x => sortKey key x = v) = [] := by
  by_cases hA : A.filter (fun x => decide (sortKey key x = v)) = []
  · exact Or.inl hA
  · right
    obtain ⟨x, hx⟩ := List.exists_mem_of_ne_nil _ hA
    rw [List.filter_eq_nil_iff]
    intro y hy hyv
    have hxv : sortKey key x = v := by simpa using (List.mem_filter.1 hx).2
    have hyv' : sortKey key y = v := by simpa using hyv
    have := h x (List.mem_filter.1 hx).1 y hy
    have e := ((sortKey_eq_iff key x y).1 (hxv.trans hyv'.symm)).1
    omega

theorem key_blocks {K : Type} [LinearOrder K] (diff_l : Nat → Nat → Int) (key : Nat → K)
    (hd : InducedBy diff_l key key) (P M T : List index_t) (hM : M ≠ [])
    (hP : P.Pairwise (fun a b => a.ts < b.ts)) (hT : T.Pairwise (fun a b => a.ts < b.ts))
    (hPM : ∀ x ∈ P, ∀ y ∈ M, x.ts < y.ts) (hMT : ∀ x ∈ M, ∀ y ∈ T, x.ts < y.ts)
    (hPT : ∀ x ∈ P, ∀ y ∈ T, x.ts < y.ts) :
    (P ++ keyRuns diff_l (mergeSortL (entryLe diff_l) M) ++ T).Pairwise
      (fun a b => sortKey key a < sortKey key b) ∧
    ∀ v, (P ++ keyRuns diff_l (mergeSortL (entryLe diff_l) M) ++ T).filter
        (fun x => sortKey key x = v) =
      ((P ++ M ++ T).filter (fun x => sortKey key x = v)).getLast?.toList := by
  obtain ⟨s1, s2, s3⟩ := mergeSortL_stable diff_l key hd M hM
  have hlt : ∀ a b : index_t, a.ts < b.ts → sortKey key a < sortKey key b :=
    fun a b h => (sortKey_lt_iff key a b).2 (Or.inl h)
  match hS : mergeSortL (entryLe diff_l) M with
  | [] =>
    rw [hS] at s2
    exact absurd s2.symm.eq_nil hM
  | s0 :: srest =>
    rw [hS] at s1 s2 s3
    have hsub := lastOfKeyRuns_sublist diff_l srest s0 s0
    have hmem : ∀ y ∈ lastOfKeyRuns diff_l s0 s0 srest, y ∈ M :=
      fun y hy => s2.subset (hsub.subset hy)
    unfold keyRuns
    constructor
    · rw [List.pairwise_append, List.pairwise_append]
      refine ⟨⟨hP.imp (hlt _ _), lastOfKeyRuns_strict diff_l key hd srest s0 s0 rfl s1, ?_⟩,
        hT.imp (hlt _ _), ?_⟩
      · intro x hx y hy
        exact hlt _ _ (hPM x hx y (hmem y hy))
      · intro x hx y hy
        rcases List.mem_append.1 hx with h | h
        · exact hlt _ _ (hPT x h y hy)
        · exact hlt _ _ (hMT x (hmem x h) y hy)
    · intro v
      rw [List.filter_append, List.filter_append, List.filter_append, List.filter_append,
        lastOfKeyRuns_filter diff_l key hd v srest s0 s0 rfl s1, s3 v,
        getLast_toList_append _ _ (by
          rw [← List.filter_append]
          apply filter_class_disjoint key (P ++ M) T
          intro x hx y hy
          rcases List.mem_append.1 hx with h | h
          · exact hPT x h y hy
          · exact hMT x h y hy),
        getLast_toList_append _ _ (filter_class_disjoint key P M hPM v),
        getLast_toList_of_length_le_one _
          (filter_class_length_le_one key P (hP.imp (hlt _ _)) v),
        getLast_toList_of_length_le_one _
          (filter_class_length_le_one key T (hT.imp (hlt _ _)) v)]

theorem Mem.mem_slice (m : Mem) (p lo n : Nat) (x : index_t) :
    x ∈ m.slice p lo n ↔ ∃ k, k < n ∧ x = m p (lo + k) := by
  unfold Mem.slice
  rw [List.mem_map]
  constructor
  · rintro ⟨k, hk, e⟩
    exact ⟨k, List.mem_range.1 hk, e.symm⟩
  · rintro ⟨k, hk, e⟩
    exact ⟨k, List.mem_range.2 hk, e.symm⟩

theorem dupRange_strict (t : Nat → Nat) (N a b : Nat)
    (hs : ∀ j k, j < k → k < N → t j ≤ t k) (hr : DupRange t N a b) :
    ∀ j k, j < k → k < N → (j < a ∨ b ≤ k) → t j < t k := by
  obtain ⟨_, _, _, r4, r5⟩ := hr
  intro j k hjk hk hc
  rcases hc with hc | hc
  · have h1 := r4 j hc
    by_cases e : j + 1 = k
    · rw [← e]; exact h1
    · have := hs (j + 1) k (by omega) hk
      omega
  · have h1 := r5 (k - 1) (by omega) (by omega)
    rw [show k - 1 + 1 = k by omega] at h1
    by_cases e : j = k - 1
    · rw [e]; exact h1
    · have := hs j (k - 1) (by omega) (by omega)
      omega

theorem dedup_with_keys_run {K : Type} [LinearOrder K] (diff_l : Nat → Nat → Int)
    (key : Nat → K) (mem : Mem) (index_src : Nat) (count : Int) (index_dest index_tmp : Nat)
    (hd : InducedBy diff_l key key) (h1 : index_tmp ≠ index_src) (h2 : index_tmp ≠ index_dest)
    (hsorted : (mem.slice index_src 0 count.toNat).Pairwise (fun a b => a.ts ≤ b.ts)) :
    (dedup_sorted_timestamp_index_with_keys diff_l mem index_src count index_dest index_tmp =
        some (-2, mem) ∧
      (mem.slice index_src 0 count.toNat).Pairwise (fun a b => a.ts ≠ b.ts)) ∨
    (¬ (mem.slice index_src 0 count.toNat).Pairwise (fun a b => a.ts ≠ b.ts) ∧
      ∃ (n : Nat) (mem' : Mem),
        dedup_sorted_timestamp_index_with_keys diff_l mem index_src count index_dest index_tmp =
          some ((n : Int), mem') ∧
        (mem'.slice index_dest 0 n).Pairwise (fun a b => sortKey key a < sortKey key b) ∧
        ∀ v, (mem'.slice index_dest 0 n).filter (fun x => sortKey key x = v) =
          ((mem.slice index_src 0 count.toNat).filter
            (fun x => sortKey key x = v)).getLast?.toList) := by
  by_cases hc : count < 2
  · left
    refine ⟨?_, ?_⟩
    · unfold dedup_sorted_timestamp_index_with_keys
      rw [if_pos hc]
    · rw [Mem.slice_pairwise_iff]
      intro j k hjk hk
      omega
  · have hs := (Mem.slice_pairwise_iff _ _ _ _ _).1 hsorted
    simp only [Nat.zero_add] at hs
    rcases dedup_sorted_timestamp_index_with_keys_cases diff_l mem index_src count index_dest
      index_tmp (by omega) (by
        intro k hk
        exact hs k (k + 1) (by omega) hk) with ⟨hinc, hres⟩ | ⟨a, b, hr, hres⟩
    · left
      refine ⟨hres, ?_⟩
      rw [Mem.slice_pairwise_iff]
      intro j k hjk hk
      have := strict_mono_of_adjacent (fun k => (mem index_src k).ts) count.toNat hinc j k hjk hk
      simp only [Nat.zero_add]
      simp only at this
      omega
    · right
      have hstrict := dupRange_strict _ _ a b hs hr
      obtain ⟨r1, r2, r3, _, _⟩ := hr
      simp only at hstrict r3
      constructor
      · intro h
        rw [Mem.slice_pairwise_iff] at h
        have := h a (a + 1) (by omega) (by omega)
        simp only [Nat.zero_add] at this
        exact this r3
      · have hM : mem.slice index_src a (b - a) ≠ [] := by
          intro e
          have := congrArg List.length e
          rw [Mem.length_slice] at this
          simp at this
          omega
        obtain ⟨s1, _, _⟩ := mergeSortL_stable diff_l key hd _ hM
        obtain ⟨mem', e1, e2⟩ := dedup_range_with_keys_spec diff_l mem index_src count.toNat
          index_dest index_tmp a b h1 h2 r1 r2
          (s1.imp (fun h => ts_le_of_sortKey_le key _ _ h))
        have hsplit : mem.slice index_src 0 count.toNat = mem.slice index_src 0 a ++
            mem.slice index_src a (b - a) ++ mem.slice index_src b (count.toNat - b) := by
          conv_lhs => rw [show count.toNat = a + (b - a) + (count.toNat - b) by omega]
          rw [Mem.slice_add, Mem.slice_add, Nat.zero_add, Nat.zero_add,
            show a + (b - a) = b by omega]
        obtain ⟨k1, k2⟩ := key_blocks diff_l key hd (mem.slice index_src 0 a)
          (mem.slice index_src a (b - a)) (mem.slice index_src b (count.toNat - b)) hM
          (by
            rw [Mem.slice_pairwise_iff]
            intro j k hjk hk
            simp only [Nat.zero_add]
            exact hstrict j k hjk (by omega) (Or.inl (by omega)))
          (by
            rw [Mem.slice_pairwise_iff]
            intro j k hjk hk
            exact hstrict (b + j) (b + k) (by omega) (by omega) (Or.inr (by omega)))
          (by
            intro x hx y hy
            obtain ⟨j, hj, ex⟩ := (Mem.mem_slice _ _ _ _ _).1 hx
            obtain ⟨k, hk, ey⟩ := (Mem.mem_slice _ _ _ _ _).1 hy
            rw [ex, ey]
            exact hstrict (0 + j) (a + k) (by omega) (by omega) (Or.inl (by omega)))
          (by
            intro x hx y hy
            obtain ⟨j, hj, ex⟩ := (Mem.mem_slice _ _ _ _ _).1 hx
            obtain ⟨k, hk, ey⟩ := (Mem.mem_slice _ _ _ _ _).1 hy
            rw [ex, ey]
            exact hstrict (a + j) (b + k) (by omega) (by omega) (Or.inr (by omega)))
          (by
            intro x hx y hy
            obtain ⟨j, hj, ex⟩ := (Mem.mem_slice _ _ _ _ _).1 hx
            obtain ⟨k, hk, ey⟩ := (Mem.mem_slice _ _ _ _ _).1 hy
            rw [ex, ey]
            exact hstrict (0 + j) (b + k) (by omega) (by omega) (Or.inl (by omega)))
        refine ⟨_, mem', hres.trans e1, ?_, ?_⟩
        · rw [e2]; exact k1
        · intro v
          rw [e2, hsplit]
          exact k2 v

theorem getLast_toList_eq_nil_iff (l : List index_t) : l.getLast?.toList = [] ↔ l = [] := by
  cases h : l.getLast? with
  | none => simpa using h
  | some a =>
    have : l ≠ [] := by
      intro e
      rw [e] at h
      simp at h
    simpa using this

theorem class_count {K : Type} [LinearOrder K] (key : Nat → K) (out xs : List index_t)
    (hout : out.Pairwise (fun a b => sortKey key a < sortKey key b))
    (hf : ∀ v, out.filter (fun x => sortKey key x = v) =
      (xs.filter (fun x => sortKey key x = v)).getLast?.toList) :
    out.length = (xs.map (sortKey key)).toFinset.card := by
  have hnd : (out.map (sortKey key)).Nodup := by
    rw [List.Nodup, List.pairwise_map]
    exact hout.imp (fun h => ne_of_lt h)
  have hmem : ∀ (l : List index_t) (v : Lex (Nat × K)),
      v ∈ l.map (sortKey key) ↔ l.filter (fun x => decide (sortKey key x = v)) ≠ [] := by
    intro l v
    rw [Ne, List.filter_eq_nil_iff, List.mem_map]
    constructor
    · rintro ⟨x, hx, e⟩ h
      exact h x hx (by simpa using e)
    · intro h
      by_contra hc
      apply h
      intro x hx hxv
      exact hc ⟨x, hx, by simpa using hxv⟩
  have hset : (out.map (sortKey key)).toFinset = (xs.map (sortKey key)).toFinset := by
    ext v
    rw [List.mem_toFinset, List.mem_toFinset, hmem, hmem, hf v, Ne, Ne,
      getLast_toList_eq_nil_iff]
  rw [← hset, List.toFinset_card_of_nodup hnd, List.length_map]

theorem strict_eq_of_filter_eq {K : Type} [LinearOrder K] (key : Nat → K)
    (l1 l2 : List index_t) (h1 : l1.Pairwise (fun a b => sortKey key a < sortKey key b))
    (h2 : l2.Pairwise (fun a b => sortKey key a < sortKey key b))
    (hf : ∀ v, l1.filter (fun x => sortKey key x = v) =
      (l2.filter (fun x => sortKey key x = v)).getLast?.toList) : l1 = l2 := by
  have hp : l1.Perm l2 := by
    rw [List.perm_iff_count]
    intro a
    have e1 : List.count a (l1.filter (fun x => decide (sortKey key x = sortKey key a))) =
        List.count a l1 := List.count_filter (by simp)
    have e2 : List.count a (l2.filter (fun x => decide (sortKey key x = sortKey key a))) =
        List.count a l2 := List.count_filter (by simp)
    rw [← e1, ← e2, hf, getLast_toList_of_length_le_one _
      (filter_class_length_le_one key l2 h2 _)]
  haveI : IsAntisymm index_t (fun a b => sortKey key a < sortKey key b) :=
    ⟨fun a b h1 h2 => absurd h1 (lt_asymm h2)⟩
  exact List.eq_of_perm_of_sorted hp h1 h2

/-- Claim C1 (one survivor per class in the key-aware single-stream dedup).  For every
timestamp-non-decreasing input `index_src[0 .. count)` with a repeated timestamp, a comparator
`diff_l` induced by a total order on the keys, and a scratch buffer `index_tmp` other than
`index_src` and `index_dest`, `dedup_sorted_timestamp_index_with_keys` returns a count `n`
such that for every (timestamp, key) class `v` the entries of class `v` among the first `n`
entries of `index_dest` are exactly the last input entry of class `v` (none when the input
has no entry of that class), and `n` is the number of classes of the input. -/
theorem dedup_with_keys_last_of_each_class {K : Type} [LinearOrder K]
    (diff_l : Nat → Nat → Int) (key : Nat → K) (mem : Mem) (index_src : Nat) (count : Int)
    (index_dest index_tmp : Nat) (hd : InducedBy diff_l key key)
    (h1 : index_tmp ≠ index_src) (h2 : index_tmp ≠ index_dest)
    (hsorted : (mem.slice index_src 0 count.toNat).Pairwise (fun a b => a.ts ≤ b.ts))
    (hrep : ∃ j k, j < k ∧ k < count.toNat ∧ (mem index_src j).ts = (mem index_src k).ts) :
    ∃ (n : Nat) (mem' : Mem),
      dedup_sorted_timestamp_index_with_keys diff_l mem index_src count index_dest index_tmp =
        some ((n : Int), mem') ∧
      (∀ v, (mem'.slice index_dest 0 n).filter (fun x => sortKey key x = v) =
        ((mem.slice index_src 0 count.toNat).filter
          (fun x => sortKey key x = v)).getLast?.toList) ∧
      n = ((mem.slice index_src 0 count.toNat).map (sortKey key)).toFinset.card := by
  rcases dedup_with_keys_run diff_l key mem index_src count index_dest index_tmp hd h1 h2
    hsorted with ⟨_, hp⟩ | ⟨_, n, mem', e1, e2, e3⟩
  · obtain ⟨j, k, hjk, hk, e⟩ := hrep
    have := Mem.slice_pairwise _ _ _ _ _ hp j k hjk hk
    simp only [Nat.zero_add] at this
    exact absurd e this
  · refine ⟨n, mem', e1, e3, ?_⟩
    have := class_count key _ _ e2 e3
    rwa [Mem.length_slice] at this

/-- Claim C7 (adjacent output entries of the key-aware single-stream dedup).  For a
timestamp-non-decreasing input, a comparator `diff_l` induced by a total order on the keys
and a scratch buffer other than the input and the output buffer: when
`dedup_sorted_timestamp_index_with_keys` returns a count `n ≥ 0`, the first `n` output
entries have non-decreasing timestamps, and every adjacent pair `(a, b)` has `a.ts < b.ts`,
or `a.ts = b.ts` with different keys and a non-zero comparator on their ids. -/
theorem dedup_with_keys_adjacent_distinct {K : Type} [LinearOrder K]
    (diff_l : Nat → Nat → Int) (key : Nat → K) (mem : Mem) (index_src : Nat) (count : Int)
    (index_dest index_tmp : Nat) (hd : InducedBy diff_l key key)
    (h1 : index_tmp ≠ index_src) (h2 : index_tmp ≠ index_dest)
    (hsorted : (mem.slice index_src 0 count.toNat).Pairwise (fun a b => a.ts ≤ b.ts))
    (n : Int) (mem' : Mem)
    (hres : dedup_sorted_timestamp_index_with_keys diff_l mem index_src count index_dest
      index_tmp = some (n, mem'))
    (hn : 0 ≤ n) :
    (mem'.slice index_dest 0 n.toNat).Pairwise (fun a b => a.ts ≤ b.ts) ∧
    (mem'.slice index_dest 0 n.toNat).Chain'
      (fun a b => a.ts < b.ts ∨ (a.ts = b.ts ∧ key a.i ≠ key b.i ∧ diff_l a.i b.i ≠ 0)) := by
  rcases dedup_with_keys_run diff_l key mem index_src count index_dest index_tmp hd h1 h2
    hsorted with ⟨e, _⟩ | ⟨_, n0, mem0, e1, e2, _⟩
  · rw [e] at hres
    have := congrArg (fun r => r.map Prod.fst) hres
    simp only [Option.map_some'] at this
    injection this with this
    omega
  · rw [e1] at hres
    injection hres with hres
    injection hres with hn0 hm0
    subst hn0 hm0
    rw [Int.toNat_ofNat]
    constructor
    · exact e2.imp (fun h => ts_le_of_sortKey_le key _ _ (le_of_lt h))
    · apply List.Pairwise.chain'
      refine e2.imp ?_
      intro a b h
      rcases (sortKey_lt_iff key a b).1 h with h | ⟨h, hk⟩
      · exact Or.inl h
      · refine Or.inr ⟨h, ne_of_lt hk, ?_⟩
        rw [Ne, compare_eq_zero_iff diff_l key key hd]
        exact ne_of_lt hk

/-- A second application under a comparator induced by a total order on the keys: when the
first call returns a count `n ≥ 0`, a second call on the first `n` output entries either
returns `-2` and changes nothing (the `n` entries have pairwise distinct timestamps), or
returns `n` again and writes the same `n` entries. -/
theorem dedup_with_keys_second_application {K : Type} [LinearOrder K]
    (diff_l : Nat → Nat → Int) (key : Nat → K) (mem : Mem) (index_src : Nat) (count : Int)
    (index_dest index_tmp : Nat) (hd : InducedBy diff_l key key)
    (h1 : index_tmp ≠ index_src) (h2 : index_tmp ≠ index_dest)
    (hsorted : (mem.slice index_src 0 count.toNat).Pairwise (fun a b => a.ts ≤ b.ts))
    (n : Int) (mem' : Mem)
    (hres : dedup_sorted_timestamp_index_with_keys diff_l mem index_src count index_dest
      index_tmp = some (n, mem'))
    (hn : 0 ≤ n) (index_dest2 index_tmp2 : Nat)
    (h3 : index_tmp2 ≠ index_dest) (h4 : index_tmp2 ≠ index_dest2) :
    (dedup_sorted_timestamp_index_with_keys diff_l mem' index_dest n index_dest2 index_tmp2 =
        some (-2, mem') ∧
      (mem'.slice index_dest 0 n.toNat).Pairwise (fun a b => a.ts ≠ b.ts)) ∨
    (¬ (mem'.slice index_dest 0 n.toNat).Pairwise (fun a b => a.ts ≠ b.ts) ∧
      ∃ mem'', dedup_sorted_timestamp_index_with_keys diff_l mem' index_dest n index_dest2
          index_tmp2 = some (n, mem'') ∧
        mem''.slice index_dest2 0 n.toNat = mem'.slice index_dest 0 n.toNat) := by
  rcases dedup_with_keys_run diff_l key mem index_src count index_dest index_tmp hd h1 h2
    hsorted with ⟨e, _⟩ | ⟨_, n0, mem0, e1, e2, _⟩
  · rw [e] at hres
    have := congrArg (fun r => r.map Prod.fst) hres
    simp only [Option.map_some'] at this
    injection this with this
    omega
  · rw [e1] at hres
    injection hres with hres
    injection hres with hn0 hm0
    subst hn0 hm0
    rw [Int.toNat_ofNat]
    rcases dedup_with_keys_run diff_l key mem0 index_dest (n0 : Int) index_dest2 index_tmp2 hd
      h3 h4 (by
        rw [Int.toNat_ofNat]
        exact e2.imp (fun h => ts_le_of_sortKey_le key _ _ (le_of_lt h)))
      with ⟨f1, f2⟩ | ⟨f1, n2, mem2, f2, f3, f4⟩
    · left
      rw [Int.toNat_ofNat] at f2
      exact ⟨f1, f2⟩
    · right
      rw [Int.toNat_ofNat] at f1 f4
      have heq := strict_eq_of_filter_eq key _ _ f3 e2 f4
      have hlen := congrArg List.length heq
      rw [Mem.length_slice, Mem.length_slice] at hlen
      subst hlen
      exact ⟨f1, mem2, f2, heq⟩

theorem option_eq_some_getD (r : Option (Int × Mem)) (d : Int × Mem) (h : r.isSome = true) :
    r = some ((r.getD d).1, (r.getD d).2) := by
  cases r with
  | none => simp at h
  | some x => rfl

theorem dedup_with_keys_last_of_each_class_witness :
    InducedBy (fun l r => cmp3 (keyArray [10, 21, 20, 21, 10] l)
      (keyArray [10, 21, 20, 21, 10] r)) (keyArray [10, 21, 20, 21, 10])
      (keyArray [10, 21, 20, 21, 10]) ∧
    ((memOf [⟨1, 0⟩, ⟨2, 1⟩, ⟨2, 2⟩, ⟨2, 3⟩, ⟨3, 4⟩]).slice 0 0 (5 : Int).toNat).Pairwise
      (fun a b => a.ts ≤ b.ts) ∧
    (∃ (n : Nat) (mem' : Mem),
      dedup_sorted_timestamp_index_with_keys
        (fun l r => cmp3 (keyArray [10, 21, 20, 21, 10] l) (keyArray [10, 21, 20, 21, 10] r))
        (memOf [⟨1, 0⟩, ⟨2, 1⟩, ⟨2, 2⟩, ⟨2, 3⟩, ⟨3, 4⟩]) 0 5 1 2 = some ((n : Int), mem') ∧
      (∀ v, (mem'.slice 1 0 n).filter
          (fun x => sortKey (keyArray [10, 21, 20, 21, 10]) x = v) =
        (((memOf [⟨1, 0⟩, ⟨2, 1⟩, ⟨2, 2⟩, ⟨2, 3⟩, ⟨3, 4⟩]).slice 0 0 (5 : Int).toNat).filter
          (fun x => sortKey (keyArray [10, 21, 20, 21, 10]) x = v)).getLast?.toList) ∧
      n = (((memOf [⟨1, 0⟩, ⟨2, 1⟩, ⟨2, 2⟩, ⟨2, 3⟩, ⟨3, 4⟩]).slice 0 0 (5 : Int).toNat).map
        (sortKey (keyArray [10, 21, 20, 21, 10]))).toFinset.card) ∧
    (dedup_sorted_timestamp_index_with_keys
        (fun l r => cmp3 (keyArray [10, 21, 20, 21, 10] l) (keyArray [10, 21, 20, 21, 10] r))
        (memOf [⟨1, 0⟩, ⟨2, 1⟩, ⟨2, 2⟩, ⟨2, 3⟩, ⟨3, 4⟩]) 0 5 1 2).map
      (fun r => (r.1, r.2.slice 1 0 4)) = some (4, [⟨1, 0⟩, ⟨2, 2⟩, ⟨2, 3⟩, ⟨3, 4⟩]) :=
  ⟨inducedBy_cmp3 _ _, by decide,
    dedup_with_keys_last_of_each_class
      (fun l r => cmp3 (keyArray [10, 21, 20, 21, 10] l) (keyArray [10, 21, 20, 21, 10] r))
      (keyArray [10, 21, 20, 21, 10]) (memOf [⟨1, 0⟩, ⟨2, 1⟩, ⟨2, 2⟩, ⟨2, 3⟩, ⟨3, 4⟩]) 0 5 1 2
      (inducedBy_cmp3 _ _) (by decide) (by decide) (by decide)
      ⟨1, 2, by decide, by decide, by decide⟩,
    by decide⟩

theorem dedup_with_keys_adjacent_distinct_witness :
    InducedBy (fun l r => cmp3 (keyArray [10, 21, 20, 21, 10] l)
      (keyArray [10, 21, 20, 21, 10] r)) (keyArray [10, 21, 20, 21, 10])
      (keyArray [10, 21, 20, 21, 10]) ∧
    ((memOf [⟨1, 0⟩, ⟨2, 1⟩, ⟨2, 2⟩, ⟨2, 3⟩, ⟨3, 4⟩]).slice 0 0 (5 : Int).toNat).Pairwise
      (fun a b => a.ts ≤ b.ts) ∧
    ((dedup_sorted_timestamp_index_with_keys
        (fun l r => cmp3 (keyArray [10, 21, 20, 21, 10] l) (keyArray [10, 21, 20, 21, 10] r))
        (memOf [⟨1, 0⟩, ⟨2, 1⟩, ⟨2, 2⟩, ⟨2, 3⟩, ⟨3, 4⟩]) 0 5 1 2).map Prod.fst = some 4) ∧
    (((dedup_sorted_timestamp_index_with_keys
        (fun l r => cmp3 (keyArray [10, 21, 20, 21, 10] l) (keyArray [10, 21, 20, 21, 10] r))
        (memOf [⟨1, 0⟩, ⟨2, 1⟩, ⟨2, 2⟩, ⟨2, 3⟩, ⟨3, 4⟩]) 0 5 1 2).getD
          (0, memOf [])).2.slice 1 0
        ((dedup_sorted_timestamp_index_with_keys
          (fun l r => cmp3 (keyArray [10, 21, 20, 21, 10] l) (keyArray [10, 21, 20, 21, 10] r))
          (memOf [⟨1, 0⟩, ⟨2, 1⟩, ⟨2, 2⟩, ⟨2, 3⟩, ⟨3, 4⟩]) 0 5 1 2).getD
            (0, memOf [])).1.toNat).Pairwise (fun a b => a.ts ≤ b.ts) ∧
    (((dedup_sorted_timestamp_index_with_keys
        (fun l r => cmp3 (keyArray [10, 21, 20, 21, 10] l) (keyArray [10, 21, 20, 21, 10] r))
        (memOf [⟨1, 0⟩, ⟨2, 1⟩, ⟨2, 2⟩, ⟨2, 3⟩, ⟨3, 4⟩]) 0 5 1 2).getD
          (0, memOf [])).2.slice 1 0
        ((dedup_sorted_timestamp_index_with_keys
          (fun l r => cmp3 (keyArray [10, 21, 20, 21, 10] l) (keyArray [10, 21, 20, 21, 10] r))
          (memOf [⟨1, 0⟩, ⟨2, 1⟩, ⟨2, 2⟩, ⟨2, 3⟩, ⟨3, 4⟩]) 0 5 1 2).getD
            (0, memOf [])).1.toNat).Chain'
      (fun a b => a.ts < b.ts ∨ (a.ts = b.ts ∧
        keyArray [10, 21, 20, 21, 10] a.i ≠ keyArray [10, 21, 20, 21, 10] b.i ∧
        cmp3 (keyArray [10, 21, 20, 21, 10] a.i) (keyArray [10, 21, 20, 21, 10] b.i) ≠ 0)) :=
  ⟨inducedBy_cmp3 _ _, by decide, by decide,
    dedup_with_keys_adjacent_distinct
      (fun l r => cmp3 (keyArray [10, 21, 20, 21, 10] l) (keyArray [10, 21, 20, 21, 10] r))
      (keyArray [10, 21, 20, 21, 10]) (memOf [⟨1, 0⟩, ⟨2, 1⟩, ⟨2, 2⟩, ⟨2, 3⟩, ⟨3, 4⟩]) 0 5 1 2
      (inducedBy_cmp3 _ _) (by decide) (by decide) (by decide) _ _
      (option_eq_some_getD _ _ (by decide)) (by decide)⟩

/-- Claim C8 as stated fails: for the input `[{1,0},{1,1}]` with the keys `[7, 9]` the first
call returns 2 and writes both entries, and the second call on these two entries returns 2
again, not `-2`, since the two entries still share their timestamp. -/
theorem idempotence_as_stated_fails :
    InducedBy (fun l r => cmp3 (keyArray [7, 9] l) (keyArray [7, 9] r))
      (keyArray [7, 9]) (keyArray [7, 9]) ∧
    ((memOf [⟨1, 0⟩, ⟨1, 1⟩]).slice 0 0 (2 : Int).toNat).Pairwise (fun a b => a.ts ≤ b.ts) ∧
    (dedup_sorted_timestamp_index_with_keys
        (fun l r => cmp3 (keyArray [7, 9] l) (keyArray [7, 9] r))
        (memOf [⟨1, 0⟩, ⟨1, 1⟩]) 0 2 1 2).bind
      (fun r1 => (dedup_sorted_timestamp_index_with_keys
          (fun l r => cmp3 (keyArray [7, 9] l) (keyArray [7, 9] r)) r1.2 1 r1.1 3 4).map
        (fun r2 => (r1.1, r1.2.slice 1 0 2, r2.1, r2.2.slice 3 0 2))) =
      some (2, [⟨1, 0⟩, ⟨1, 1⟩], 2, [⟨1, 0⟩, ⟨1, 1⟩]) :=
  ⟨inducedBy_cmp3 _ _, by decide, by decide⟩

theorem entryLe_ts (diff_l : Nat → Nat → Int) (a b : index_t) :
    (entryLe diff_l a b = true → a.ts ≤ b.ts) ∧ (¬ entryLe diff_l a b = true → b.ts ≤ a.ts) := by
  unfold entryLe
  by_cases c1 : a.ts > b.ts
  · rw [if_pos c1]
    exact ⟨fun h => absurd h (by simp), fun _ => Nat.le_of_lt c1⟩
  · rw [if_neg c1]
    by_cases c2 : a.ts < b.ts
    · rw [if_pos c2]
      exact ⟨fun _ => Nat.le_of_lt c2, fun h => absurd rfl h⟩
    · rw [if_neg c2]
      exact ⟨fun _ => by omega, fun _ => by omega⟩

theorem merge_sorted_ts (diff_l : Nat → Nat → Int) :
    ∀ (l1 l2 : List index_t), l1.Pairwise (fun a b => a.ts ≤ b.ts) →
      l2.Pairwise (fun a b => a.ts ≤ b.ts) →
      (List.merge l1 l2 (entryLe diff_l)).Pairwise (fun a b => a.ts ≤ b.ts) := by
  intro l1
  induction l1 with
  | nil => intro l2 _ h2; simpa using h2
  | cons a l1 ih1 =>
    intro l2
    induction l2 with
    | nil => intro h1 _; simpa using h1
    | cons b l2 ih2 =>
      intro h1 h2
      by_cases hab : entryLe diff_l a b = true
      · rw [List.cons_merge_cons_pos _ _ _ hab]
        refine List.pairwise_cons.2 ⟨?_, ih1 (b :: l2) h1.tail h2⟩
        intro z hz
        have hle := (entryLe_ts diff_l a b).1 hab
        rcases List.mem_merge.1 hz with hz | hz
        · exact List.rel_of_pairwise_cons h1 hz
        · rcases List.mem_cons.1 hz with e | e
          · rw [e]; exact hle
          · exact Nat.le_trans hle (List.rel_of_pairwise_cons h2 e)
      · rw [List.cons_merge_cons_neg _ _ _ hab]
        refine List.pairwise_cons.2 ⟨?_, ih2 h1 h2.tail⟩
        intro z hz
        have hle := (entryLe_ts diff_l a b).2 hab
        rcases List.mem_merge.1 hz with hz | hz
        · rcases List.mem_cons.1 hz with e | e
          · rw [e]; exact hle
          · exact Nat.le_trans hle (List.rel_of_pairwise_cons h1 e)
        · exact List.rel_of_pairwise_cons h2 hz

theorem mergeSortL_ts_sorted (diff_l : Nat → Nat → Int) (xs : List index_t) (hne : xs ≠ [])
    (hs : xs.Pairwise (fun a b => a.ts ≤ b.ts)) :
    (mergeSortL (entryLe diff_l) xs).Perm xs ∧
    (mergeSortL (entryLe diff_l) xs).Pairwise (fun a b => a.ts ≤ b.ts) := by
  have h := mergeSortL_rel
    (fun o s => s.Perm o ∧ (o.Pairwise (fun a b => a.ts ≤ b.ts) →
      s.Pairwise (fun a b => a.ts ≤ b.ts)))
    (entryLe diff_l)
    (fun a => ⟨List.Perm.refl _, fun h => h⟩)
    (fun o1 c1 o2 c2 r1 r2 =>
      ⟨(List.merge_perm_append (entryLe diff_l)).trans (r1.1.append r2.1), fun ho =>
        merge_sorted_ts diff_l c1 c2 (r1.2 (List.pairwise_append.1 ho).1)
          (r2.2 (List.pairwise_append.1 ho).2.1)⟩)
    xs hne
  exact ⟨h.1, h.2 hs⟩

theorem dedup_with_keys_dichotomy (diff_l : Nat → Nat → Int) (mem : Mem) (index_src : Nat)
    (count : Int) (index_dest index_tmp : Nat)
    (hsorted : (mem.slice index_src 0 count.toNat).Pairwise (fun a b => a.ts ≤ b.ts)) :
    (dedup_sorted_timestamp_index_with_keys diff_l mem index_src count index_dest index_tmp =
        some (-2, mem) ∧
      (mem.slice index_src 0 count.toNat).Pairwise (fun a b => a.ts ≠ b.ts)) ∨
    (¬ (mem.slice index_src 0 count.toNat).Pairwise (fun a b => a.ts ≠ b.ts) ∧
      ∃ a b, DupRange (fun k => (mem index_src k).ts) count.toNat a b ∧
        dedup_sorted_timestamp_index_with_keys diff_l mem index_src count index_dest index_tmp =
          dedup_range_with_keys diff_l mem index_src count.toNat index_dest index_tmp a b) := by
  by_cases hc : count < 2
  · left
    refine ⟨?_, ?_⟩
    · unfold dedup_sorted_timestamp_index_with_keys
      rw [if_pos hc]
    · rw [Mem.slice_pairwise_iff]
      intro j k hjk hk
      omega
  · have hs := (Mem.slice_pairwise_iff _ _ _ _ _).1 hsorted
    simp only [Nat.zero_add] at hs
    rcases dedup_sorted_timestamp_index_with_keys_cases diff_l mem index_src count index_dest
      index_tmp (by omega) (by
        intro k hk
        exact hs k (k + 1) (by omega) hk) with ⟨hinc, hres⟩ | ⟨a, b, hr, hres⟩
    · left
      refine ⟨hres, ?_⟩
      rw [Mem.slice_pairwise_iff]
      intro j k hjk hk
      have := strict_mono_of_adjacent (fun k => (mem index_src k).ts) count.toNat hinc j k hjk hk
      simp only [Nat.zero_add]
      simp only at this
      omega
    · right
      refine ⟨?_, a, b, hr, hres⟩
      obtain ⟨r1, r2, r3, _, _⟩ := hr
      simp only at r3
      intro h
      rw [Mem.slice_pairwise_iff] at h
      have := h a (a + 1) (by omega) (by omega)
      simp only [Nat.zero_add] at this
      exact this r3

theorem dedup_with_keys_output_sorted (diff_l : Nat → Nat → Int) (mem : Mem) (index_src : Nat)
    (count : Int) (index_dest index_tmp : Nat)
    (h1 : index_tmp ≠ index_src) (h2 : index_tmp ≠ index_dest)
    (hsorted : (mem.slice index_src 0 count.toNat).Pairwise (fun a b => a.ts ≤ b.ts))
    (n : Int) (mem' : Mem)
    (hres : dedup_sorted_timestamp_index_with_keys diff_l mem index_src count index_dest
      index_tmp = some (n, mem'))
    (hn : 0 ≤ n) :
    (mem'.slice index_dest 0 n.toNat).Pairwise (fun a b => a.ts ≤ b.ts) := by
  rcases dedup_with_keys_dichotomy diff_l mem index_src count index_dest index_tmp hsorted with
    ⟨e, _⟩ | ⟨_, a, b, hr, e⟩
  · rw [e] at hres
    have := congrArg (fun r => r.map Prod.fst) hres
    simp only [Option.map_some'] at this
    injection this with this
    omega
  · have hs := (Mem.slice_pairwise_iff _ _ _ _ _).1 hsorted
    simp only [Nat.zero_add] at hs
    have hle : ∀ j k, j ≤ k → k < count.toNat → (mem index_src j).ts ≤ (mem index_src k).ts := by
      intro j k hjk hk
      by_cases e : j = k
      · rw [e]
      · exact hs j k (by omega) hk
    obtain ⟨r1, r2, _, _, _⟩ := hr
    have hM : mem.slice index_src a (b - a) ≠ [] := by
      intro e
      have := congrArg List.length e
      rw [Mem.length_slice] at this
      simp at this
      omega
    have hMs : (mem.slice index_src a (b - a)).Pairwise (fun a b => a.ts ≤ b.ts) := by
      rw [Mem.slice_pairwise_iff]
      intro j k hjk hk
      exact hs (a + j) (a + k) (by omega) (by omega)
    obtain ⟨sp, ss⟩ := mergeSortL_ts_sorted diff_l _ hM hMs
    obtain ⟨mem1, e1, e2⟩ := dedup_range_with_keys_spec diff_l mem index_src count.toNat
      index_dest index_tmp a b h1 h2 r1 r2 ss
    rw [e, e1] at hres
    injection hres with hres
    injection hres with hn0 hm0
    subst hn0 hm0
    rw [Int.toNat_ofNat, e2]
    have hsub : ∀ y ∈ keyRuns diff_l (mergeSortL (entryLe diff_l)
        (mem.slice index_src a (b - a))), y ∈ mem.slice index_src a (b - a) := by
      intro y hy
      match hS : mergeSortL (entryLe diff_l) (mem.slice index_src a (b - a)) with
      | [] =>
        rw [hS] at hy
        simp [keyRuns] at hy
      | s0 :: srest =>
        rw [hS] at hy sp
        exact sp.subset ((lastOfKeyRuns_sublist diff_l srest s0 s0).subset hy)
    have hkr : (keyRuns diff_l (mergeSortL (entryLe diff_l)
        (mem.slice index_src a (b - a)))).Pairwise (fun a b => a.ts ≤ b.ts) := by
      match hS : mergeSortL (entryLe diff_l) (mem.slice index_src a (b - a)) with
      | [] => simp [keyRuns]
      | s0 :: srest =>
        rw [hS] at ss
        exact ss.sublist (lastOfKeyRuns_sublist diff_l srest s0 s0)
    rw [List.pairwise_append, List.pairwise_append]
    refine ⟨⟨?_, hkr, ?_⟩, ?_, ?_⟩
    · rw [Mem.slice_pairwise_iff]
      intro j k hjk hk
      exact hs (0 + j) (0 + k) (by omega) (by omega)
    · intro x hx y hy
      obtain ⟨j, hj, ex⟩ := (Mem.mem_slice _ _ _ _ _).1 hx
      obtain ⟨k, hk, ey⟩ := (Mem.mem_slice _ _ _ _ _).1 (hsub y hy)
      rw [ex, ey]
      exact hle _ _ (by omega) (by omega)
    · rw [Mem.slice_pairwise_iff]
      intro j k hjk hk
      exact hs (b + j) (b + k) (by omega) (by omega)
    · intro x hx y hy
      obtain ⟨k, hk, ey⟩ := (Mem.mem_slice _ _ _ _ _).1 hy
      rw [ey]
      rcases List.mem_append.1 hx with h | h
      · obtain ⟨j, hj, ex⟩ := (Mem.mem_slice _ _ _ _ _).1 h
        rw [ex]
        exact hle _ _ (by omega) (by omega)
      · obtain ⟨j, hj, ex⟩ := (Mem.mem_slice _ _ _ _ _).1 (hsub x h)
        rw [ex]
        exact hle _ _ (by omega) (by omega)

/-- Claim C8, amended (a second application of the key-aware single-stream dedup).  For a
timestamp-non-decreasing input, every comparator `diff_l` and a scratch buffer other than the
input and the output buffer: when the first call returns a count `n ≥ 0`, a second call with
the same comparator on the first `n` output entries (with any output and scratch buffer)
returns, and its value is `-2` if and only if no two of these `n` entries share a
timestamp. -/
theorem dedup_with_keys_second_call_no_dedup_iff (diff_l : Nat → Nat → Int) (mem : Mem)
    (index_src : Nat) (count : Int) (index_dest index_tmp : Nat)
    (h1 : index_tmp ≠ index_src) (h2 : index_tmp ≠ index_dest)
    (hsorted : (mem.slice index_src 0 count.toNat).Pairwise (fun a b => a.ts ≤ b.ts))
    (n : Int) (mem' : Mem)
    (hres : dedup_sorted_timestamp_index_with_keys diff_l mem index_src count index_dest
      index_tmp = some (n, mem'))
    (hn : 0 ≤ n) (index_dest2 index_tmp2 : Nat) :
    ∃ r, dedup_sorted_timestamp_index_with_keys diff_l mem' index_dest n index_dest2
        index_tmp2 = some r ∧
      (r.1 = -2 ↔ (mem'.slice index_dest 0 n.toNat).Pairwise (fun a b => a.ts ≠ b.ts)) := by
  have hout := dedup_with_keys_output_sorted diff_l mem index_src count index_dest index_tmp
    h1 h2 hsorted n mem' hres hn
  rcases dedup_with_keys_dichotomy diff_l mem' index_dest n index_dest2 index_tmp2 hout with
    ⟨e, hp⟩ | ⟨hnp, a, b, _, e⟩
  · exact ⟨(-2, mem'), e, ⟨fun _ => hp, fun _ => rfl⟩⟩
  · obtain ⟨r, hr1, hr2⟩ := dedup_range_with_keys_isSome diff_l mem' index_dest n.toNat
      index_dest2 index_tmp2 a b
    exact ⟨r, e.trans hr1, ⟨fun h => absurd h hr2, fun h => absurd h hnp⟩⟩

theorem dedup_with_keys_second_call_no_dedup_iff_witness :
    ((memOf [⟨1, 0⟩, ⟨1, 1⟩, ⟨2, 2⟩]).slice 0 0 (3 : Int).toNat).Pairwise
      (fun a b => a.ts ≤ b.ts) ∧
    ((dedup_sorted_timestamp_index_with_keys (fun _ _ => 0)
        (memOf [⟨1, 0⟩, ⟨1, 1⟩, ⟨2, 2⟩]) 0 3 1 2).map
      (fun r => (r.1, r.2.slice 1 0 2)) = some (2, [⟨1, 1⟩, ⟨2, 2⟩])) ∧
    (∃ r, dedup_sorted_timestamp_index_with_keys (fun _ _ => 0)
        ((dedup_sorted_timestamp_index_with_keys (fun _ _ => 0)
          (memOf [⟨1, 0⟩, ⟨1, 1⟩, ⟨2, 2⟩]) 0 3 1 2).getD (0, memOf [])).2 1
        ((dedup_sorted_timestamp_index_with_keys (fun _ _ => 0)
          (memOf [⟨1, 0⟩, ⟨1, 1⟩, ⟨2, 2⟩]) 0 3 1 2).getD (0, memOf [])).1 3 4 = some r ∧
      (r.1 = -2 ↔
        (((dedup_sorted_timestamp_index_with_keys (fun _ _ => 0)
          (memOf [⟨1, 0⟩, ⟨1, 1⟩, ⟨2, 2⟩]) 0 3 1 2).getD (0, memOf [])).2.slice 1 0
          ((dedup_sorted_timestamp_index_with_keys (fun _ _ => 0)
            (memOf [⟨1, 0⟩, ⟨1, 1⟩, ⟨2, 2⟩]) 0 3 1 2).getD (0, memOf [])).1.toNat).Pairwise
          (fun a b => a.ts ≠ b.ts))) ∧
    ((dedup_sorted_timestamp_index_with_keys (fun _ _ => 0)
        (memOf [⟨1, 0⟩, ⟨1, 1⟩, ⟨2, 2⟩]) 0 3 1 2).bind
      (fun r1 => (dedup_sorted_timestamp_index_with_keys (fun _ _ => 0) r1.2 1 r1.1 3 4).map
        Prod.fst) = some (-2)) :=
  ⟨by decide, by decide,
    dedup_with_keys_second_call_no_dedup_iff (fun _ _ => 0) (memOf [⟨1, 0⟩, ⟨1, 1⟩, ⟨2, 2⟩])
      0 3 1 2 (by decide) (by decide) (by decide) _ _ (option_eq_some_getD _ _ (by decide))
      (by decide) 3 4,
    by decide⟩

theorem sortedInv_append (src : Nat → Nat) (srcHi : Int) (index : Nat → index_t)
    (indexHi : Int) (sp ip sp1 ip1 T : Nat) (dest seg : List index_t)
    (hsp : sp ≤ sp1) (hip : ip ≤ ip1)
    (hq : SortedInv src srcHi index indexHi sp ip dest)
    (hseg : ∀ e ∈ seg, e.ts = T)
    (hold : ∀ e ∈ dest, e.ts ≤ T)
    (hT1 : ∀ p, sp1 ≤ p → (p : Int) ≤ srcHi → T ≤ src p)
    (hT2 : ∀ k, ip1 ≤ k → (k : Int) ≤ indexHi → T ≤ (index k).ts) :
    SortedInv src srcHi index indexHi sp1 ip1 (dest ++ seg) := by
  obtain ⟨q1, q2⟩ := hq
  constructor
  · rw [List.pairwise_append]
    refine ⟨q1, ?_, ?_⟩
    · rw [List.pairwise_iff_forall_sublist]
      intro a b hab
      have ha := hseg a (hab.subset (by simp))
      have hb := hseg b (hab.subset (by simp))
      omega
    · intro a ha b hb
      have := hold a ha
      have := hseg b hb
      omega
  · intro e he
    rcases List.mem_append.1 he with he | he
    · exact ⟨fun p hp1 hp2 => (q2 e he).1 p (by omega) hp2,
        fun k hk1 hk2 => (q2 e he).2 k (by omega) hk2⟩
    · rw [hseg e he]
      exact ⟨hT1, hT2⟩

theorem merge_keys_sorted_run (compare : Nat → Nat → Int) (src : Nat → Nat) (srcLo : Nat)
    (srcHi : Int) (index : Nat → index_t) (indexLo : Nat) (indexHi : Int)
    (hsrc : ∀ p q, srcLo ≤ p → p ≤ q → (q : Int) ≤ srcHi → src p ≤ src q)
    (hidx : ∀ j k, indexLo ≤ j → j ≤ k → (k : Int) ≤ indexHi → (index j).ts ≤ (index k).ts) :
    ∃ out, merge_dedup_long_index_int_keys compare src srcLo srcHi index indexLo indexHi =
        some ((out.length : Int), out) ∧ out.Pairwise (fun a b => a.ts ≤ b.ts) := by
  obtain ⟨sp, ip, dest, hrun, hq, hc, b1, b2, b3, b4, hg⟩ :=
    merge_skel_induct (band_with_keys compare src srcHi index indexHi) src srcLo srcHi index
      indexLo indexHi hsrc hidx
      (by
        intro sp ip dest h1 h2 hT
        obtain ⟨sp1, ip1, hb, hr⟩ :=
          band_with_keys_run compare src srcHi index indexHi sp ip dest h1 h2 hT
        exact ⟨sp1, ip1, _, hb, hr⟩)
      (SortedInv src srcHi index indexHi)
      (by
        intro sp ip dest h1 h2 h3 h4 _ hl hq
        apply sortedInv_append src srcHi index indexHi sp ip (sp + 1) ip (src sp) dest _
          (by omega) (Nat.le_refl _) hq
        · intro e he
          rw [List.mem_singleton] at he
          rw [he]
        · intro e he
          exact (hq.2 e he).1 sp (Nat.le_refl _) h3
        · intro p hp1 hp2
          exact hsrc sp p h1 (by omega) hp2
        · intro k hk1 hk2
          have := hidx ip k h2 hk1 hk2
          omega)
      (by
        intro sp ip dest h1 h2 h3 h4 _ hl hq
        apply sortedInv_append src srcHi index indexHi sp ip sp (ip + 1) (index ip).ts dest _
          (Nat.le_refl _) (by omega) hq
        · intro e he
          rw [List.mem_singleton] at he
          rw [he]
        · intro e he
          exact (hq.2 e he).2 ip (Nat.le_refl _) h4
        · intro p hp1 hp2
          have := hsrc sp p h1 hp1 hp2
          omega
        · intro k hk1 hk2
          exact hidx ip k h2 (by omega) hk2)
      (by
        intro sp ip dest sp1 ip1 dest1 h1 h2 h3 h4 _ hT hb hr hq
        obtain ⟨sp1', ip1', hb', _⟩ :=
          band_with_keys_run compare src srcHi index indexHi sp ip dest h3 h4 hT
        rw [hb] at hb'
        simp only [Option.some.injEq, Prod.mk.injEq] at hb'
        obtain ⟨e1, e2, e3⟩ := hb'
        rw [e3, ← e1, ← e2]
        have hts := bandSegment_ts compare src srcHi index indexHi sp sp1 ip ip1 hr
        obtain ⟨r1, _, r3, _, _, _, _, _⟩ := hr
        apply sortedInv_append src srcHi index indexHi sp ip sp1 ip1 (src sp) dest _
          (by omega) (by omega) hq
        · exact hts
        · intro e he
          exact (hq.2 e he).1 sp (Nat.le_refl _) h3
        · intro p hp1 hp2
          exact hsrc sp p h1 (by omega) hp2
        · intro k hk1 hk2
          have := hidx ip k h2 (by omega) hk2
          omega)
      ((srcHi + 1 - srcLo).toNat + (indexHi + 1 - indexLo).toNat) srcLo indexLo []
      (Nat.le_refl _) (Nat.le_refl _) (by omega) (by omega) (Nat.le_refl _)
      ⟨by intro p k h1 h2; omega, by intro k p h1 h2; omega⟩
      ⟨List.Pairwise.nil, by intro e he; simp at he⟩
  unfold merge_dedup_long_index_int_keys
  rw [merge_dedup_long_index_int_keys_loop_eq, hrun]
  simp only []
  obtain ⟨q1, q2⟩ := hq
  by_cases hi : (ip : Int) ≤ indexHi
  · rw [if_pos hi]
    refine ⟨_, rfl, ?_⟩
    rw [List.pairwise_append]
    refine ⟨q1, ?_, ?_⟩
    · rw [List.pairwise_map, List.pairwise_iff_getElem]
      intro j k hj hk hjk
      simp only [List.getElem_range]
      rw [List.length_range] at hk
      exact hidx (ip + j) (ip + k) (by omega) (by omega) (by omega)
    · intro a ha b hb
      rw [List.mem_map] at hb
      obtain ⟨k, hk, rfl⟩ := hb
      rw [List.mem_range] at hk
      exact (q2 a ha).2 (ip + k) (by omega) (by omega)
  · rw [if_neg hi, src_drain_loop_spec]
    refine ⟨_, rfl, ?_⟩
    rw [List.pairwise_append]
    refine ⟨q1, ?_, ?_⟩
    · rw [pairwise_map_range']
      intro p q hp hpq hq
      exact hsrc p q (by omega) (by omega) (by omega)
    · intro a ha b hb
      rw [List.mem_map] at hb
      obtain ⟨p, hp, rfl⟩ := hb
      rw [List.mem_range'_1] at hp
      exact (q2 a ha).1 p (by omega) (by omega)

/-- Claim C11 (merge-dedup output is timestamp-ordered).  For timestamp-non-decreasing
`src[srcLo .. srcHi]` and `index[indexLo .. indexHi]`, both merge entry points return the
number of entries written, and the written entries have non-decreasing timestamps: the no-key
`mergeDedupTimestampWithLongIndexAsc`, and the key-aware `merge_dedup_long_index_int_keys`
for every comparator `compare`. -/
theorem merge_dedup_output_sorted (compare : Nat → Nat → Int) (src : Nat → Nat) (srcLo : Nat)
    (srcHi : Int) (index : Nat → index_t) (indexLo : Nat) (indexHi : Int)
    (hsrc : ((rowsOf srcLo srcHi).map src).Pairwise (fun a b => a ≤ b))
    (hidx : ((rowsOf indexLo indexHi).map index).Pairwise (fun a b => a.ts ≤ b.ts)) :
    (∃ out, Java_io_questdb_std_Vect_mergeDedupTimestampWithLongIndexAsc src srcLo srcHi index
        indexLo indexHi = some ((out.length : Int), out) ∧
      out.Pairwise (fun a b => a.ts ≤ b.ts)) ∧
    (∃ out, merge_dedup_long_index_int_keys compare src srcLo srcHi index indexLo indexHi =
        some ((out.length : Int), out) ∧ out.Pairwise (fun a b => a.ts ≤ b.ts)) := by
  constructor
  · obtain ⟨out, h1, h2, _⟩ := mergeAsc_run src srcLo srcHi index indexLo indexHi hsrc hidx
    exact ⟨out, h1, h2⟩
  · exact merge_keys_sorted_run compare src srcLo srcHi index indexLo indexHi
      (sorted_rows_pointwise src srcLo srcHi hsrc)
      (sorted_entries_pointwise index indexLo indexHi hidx)

theorem merge_dedup_output_sorted_witness :
    ((rowsOf 0 2).map (tsArray [5, 5, 8])).Pairwise (fun a b => a ≤ b) ∧
    ((rowsOf 0 2).map (indexArray [⟨3, 0⟩, ⟨5, 1⟩, ⟨5, 2⟩])).Pairwise
      (fun a b => a.ts ≤ b.ts) ∧
    ((∃ out, Java_io_questdb_std_Vect_mergeDedupTimestampWithLongIndexAsc (tsArray [5, 5, 8]) 0 2
        (indexArray [⟨3, 0⟩, ⟨5, 1⟩, ⟨5, 2⟩]) 0 2 = some ((out.length : Int), out) ∧
      out.Pairwise (fun a b => a.ts ≤ b.ts)) ∧
    (∃ out, merge_dedup_long_index_int_keys (fun p r => (p : Int) - 2 * r) (tsArray [5, 5, 8])
        0 2 (indexArray [⟨3, 0⟩, ⟨5, 1⟩, ⟨5, 2⟩]) 0 2 = some ((out.length : Int), out) ∧
      out.Pairwise (fun a b => a.ts ≤ b.ts))) ∧
    merge_dedup_long_index_int_keys (fun p r => (p : Int) - 2 * r) (tsArray [5, 5, 8])
        0 2 (indexArray [⟨3, 0⟩, ⟨5, 1⟩, ⟨5, 2⟩]) 0 2 =
      some (6, [⟨3, 0⟩, ⟨5, tag63 0⟩, ⟨5, tag63 1⟩, ⟨5, 1⟩, ⟨5, 2⟩, ⟨8, tag63 2⟩]) :=
  ⟨by decide, by decide,
    merge_dedup_output_sorted (fun p r => (p : Int) - 2 * r) (tsArray [5, 5, 8]) 0 2
      (indexArray [⟨3, 0⟩, ⟨5, 1⟩, ⟨5, 2⟩]) 0 2 (by decide) (by decide),
    by decide⟩

theorem merge_keys_solo_run (compare : Nat → Nat → Int) (src : Nat → Nat) (srcLo : Nat)
    (srcHi : Int) (index : Nat → index_t) (indexLo : Nat) (indexHi : Int) (T : Nat)
    (hsrc : ∀ p q, srcLo ≤ p → p ≤ q → (q : Int) ≤ srcHi → src p ≤ src q)
    (hidx : ∀ j k, indexLo ≤ j → j ≤ k → (k : Int) ≤ indexHi → (index j).ts ≤ (index k).ts)
    (hT : ∀ p, srcLo ≤ p → (p : Int) ≤ srcHi → src p ≠ T) :
    ∃ out, merge_dedup_long_index_int_keys compare src srcLo srcHi index indexLo indexHi =
        some ((out.length : Int), out) ∧
      out.filter (fun e => e.ts = T) = bandAt index indexLo indexHi T := by
  obtain ⟨sp, ip, dest, hrun, hq, hc, b1, b2, b3, b4, hg⟩ :=
    merge_skel_induct (band_with_keys compare src srcHi index indexHi) src srcLo srcHi index
      indexLo indexHi hsrc hidx
      (by
        intro sp ip dest h1 h2 hT
        obtain ⟨sp1, ip1, hb, hr⟩ :=
          band_with_keys_run compare src srcHi index indexHi sp ip dest h1 h2 hT
        exact ⟨sp1, ip1, _, hb, hr⟩)
      (fun _ ip dest => SoloInv index indexLo T ip dest)
      (by
        intro sp ip dest h1 h2 h3 h4 _ hl hq
        unfold SoloInv at hq ⊢
        rw [filter_ts_snoc_ne _ _ _ (hT sp h1 h3)]
        exact hq)
      (by
        intro sp ip dest h1 h2 h3 h4 _ hl hq
        unfold SoloInv at hq ⊢
        rw [List.filter_append, hq, range'_snoc indexLo ip h2, List.map_append,
          List.filter_append]
        rfl)
      (by
        intro sp ip dest sp1 ip1 dest1 h1 h2 h3 h4 _ hTT hb hr hq
        obtain ⟨sp1', ip1', hb', _⟩ :=
          band_with_keys_run compare src srcHi index indexHi sp ip dest h3 h4 hTT
        rw [hb] at hb'
        simp only [Option.some.injEq, Prod.mk.injEq] at hb'
        obtain ⟨e1, e2, e3⟩ := hb'
        rw [e3, ← e1, ← e2]
        have hts := bandSegment_ts compare src srcHi index indexHi sp sp1 ip ip1 hr
        obtain ⟨_, _, r3, _, _, _, r7, _⟩ := hr
        unfold SoloInv at hq ⊢
        rw [filter_ts_append_ne _ _ _ (by
          intro e he
          rw [hts e he]
          exact hT sp h1 h3), hq,
          range'_split indexLo (ip1 - indexLo) ip h2 (by omega), List.map_append,
          filter_ts_append_ne _ _ _ (by
            intro e he
            rw [List.mem_map] at he
            obtain ⟨k, hk, rfl⟩ := he
            rw [List.mem_range'_1] at hk
            rw [r7 k hk.1 (by omega)]
            exact hT sp h1 h3)])
      ((srcHi + 1 - srcLo).toNat + (indexHi + 1 - indexLo).toNat) srcLo indexLo []
      (Nat.le_refl _) (Nat.le_refl _) (by omega) (by omega) (Nat.le_refl _)
      ⟨by intro p k h1 h2; omega, by intro k p h1 h2; omega⟩
      (by
        show SoloInv index indexLo T indexLo []
        unfold SoloInv
        simp)
  unfold merge_dedup_long_index_int_keys
  rw [merge_dedup_long_index_int_keys_loop_eq, hrun]
  simp only []
  have hq' : dest.filter (fun e => e.ts = T) =
      ((List.range' indexLo (ip - indexLo)).map index).filter (fun e => e.ts = T) := hq
  by_cases hi : (ip : Int) ≤ indexHi
  · rw [if_pos hi]
    refine ⟨_, rfl, ?_⟩
    unfold bandAt rowsOf
    rw [List.filter_append, hq',
      range'_split indexLo (indexHi + 1 - indexLo).toNat ip b2 (by omega), List.map_append,
      List.filter_append]
    have hlen : indexLo + (indexHi + 1 - (indexLo : Int)).toNat - ip =
        (indexHi - (ip : Int) + 1).toNat := by omega
    have hr : List.range' ip (indexHi - (ip : Int) + 1).toNat =
        (List.range (indexHi - (ip : Int) + 1).toNat).map (fun k => ip + k) :=
      List.range'_eq_map_range _ _
    rw [hlen, hr, List.map_map]
    rfl
  · rw [if_neg hi, src_drain_loop_spec]
    refine ⟨_, rfl, ?_⟩
    rw [filter_ts_append_ne _ _ _ (by
      intro e he
      rw [List.mem_map] at he
      obtain ⟨p, hp, rfl⟩ := he
      rw [List.mem_range'_1] at hp
      exact hT p (by omega) (by omega)), hq']
    unfold bandAt rowsOf
    congr 3
    omega

theorem pair_sublist (l : List index_t) :
    ∀ (j k : Nat), j < k → k < l.length → [l.getD j default, l.getD k default].Sublist l := by
  induction l with
  | nil => intro j k _ hk; simp at hk
  | cons a t ih =>
    intro j k hjk hk
    obtain ⟨k', rfl⟩ : ∃ k', k = k' + 1 := ⟨k - 1, by omega⟩
    rw [List.length_cons] at hk
    cases j with
    | zero =>
      rw [List.getD_cons_zero, List.getD_cons_succ]
      apply List.Sublist.cons₂
      rw [List.singleton_sublist, List.getD_eq_getElem _ _ (by omega)]
      exact List.getElem_mem _
    | succ j' =>
      rw [List.getD_cons_succ, List.getD_cons_succ]
      exact List.Sublist.cons a (ih j' k' (by omega) (by omega))

theorem resolvedBand_pair (m : Nat → Option Nat) (rowsT : List Nat) (bandT : List index_t)
    (T j k : Nat) (hjk : j < k) (hk : k < bandT.length)
    (hun : ∀ p ∈ rowsT, m p ≠ some k) :
    [bandT.getD j default, bandT.getD k default].Sublist (resolvedBand m rowsT bandT T) := by
  unfold resolvedBand
  have hkf : k ∈ (List.range bandT.length).filter (fun j => ∀ p ∈ rowsT, m p ≠ some j) := by
    rw [List.mem_filter]
    exact ⟨List.mem_range.2 hk, by simpa using hun⟩
  by_cases hj : ∃ p ∈ rowsT, m p = some j
  · obtain ⟨p, hp, hmp⟩ := hj
    have h1 : [bandT.getD j default].Sublist (rowsT.map (fun p => match m p with
        | some j => bandT.getD j default
        | none => (⟨T, tag63 p⟩ : index_t))) := by
      rw [List.singleton_sublist, List.mem_map]
      refine ⟨p, hp, ?_⟩
      simp only [hmp]
    have h2 : [bandT.getD k default].Sublist
        (((List.range bandT.length).filter (fun j => ∀ p ∈ rowsT, m p ≠ some j)).map
          (fun j => bandT.getD j default)) := by
      rw [List.singleton_sublist, List.mem_map]
      exact ⟨k, hkf, rfl⟩
    exact h1.append h2
  · have hjf : j ∈ (List.range bandT.length).filter (fun j => ∀ p ∈ rowsT, m p ≠ some j) := by
      rw [List.mem_filter]
      refine ⟨List.mem_range.2 (by omega), ?_⟩
      simp only [decide_eq_true_eq]
      intro p hp hmp
      exact hj ⟨p, hp, hmp⟩
    have hs : [j, k].Sublist
        ((List.range bandT.length).filter (fun j => ∀ p ∈ rowsT, m p ≠ some j)) := by
      have h0 : [j, k].Sublist (List.range bandT.length) := by
        have hp : List.Pairwise (fun a b => a < b) [j, k] := by simp [hjk]
        have hr : List.Pairwise (fun a b => a < b) (List.range bandT.length) :=
          List.pairwise_lt_range _
        apply List.sublist_of_subperm_of_sorted _ hp hr
        apply List.subperm_of_subset (List.Pairwise.imp (fun h => Nat.ne_of_lt h) hp)
        intro x hx
        simp only [List.mem_cons, List.mem_singleton, List.not_mem_nil, or_false] at hx
        rw [List.mem_range]
        omega
      have h1 := h0.filter (fun j => decide (∀ p ∈ rowsT, m p ≠ some j))
      have e : [j, k].filter (fun j => decide (∀ p ∈ rowsT, m p ≠ some j)) = [j, k] := by
        rw [List.filter_eq_self]
        intro x hx
        simp only [List.mem_cons, List.mem_singleton, List.not_mem_nil, or_false] at hx
        rcases hx with rfl | rfl
        · exact (List.mem_filter.1 hjf).2
        · exact (List.mem_filter.1 hkf).2
      rw [e] at h1
      exact h1
    have := hs.map (fun j => bandT.getD j default)
    exact this.trans (List.sublist_append_right _ _)

/-- Claim C12, amended (order of O3 entries of one timestamp in the key-aware merge-dedup).
For timestamp-non-decreasing inputs whose O3 bands are sorted by key and a comparator induced
by a total order on the keys: any two index entries that share a timestamp `T`, have
different keys, and of which the later one (in index order) has a key that no persisted row
of timestamp `T` has, both occur in the output, the earlier one before the later one. -/
theorem merge_dedup_long_index_int_keys_o3_order {K : Type} [LinearOrder K]
    (compare : Nat → Nat → Int) (keyP keyO : Nat → K) (hcmp : InducedBy compare keyP keyO)
    (src : Nat → Nat) (srcLo : Nat) (srcHi : Int) (index : Nat → index_t) (indexLo : Nat)
    (indexHi : Int)
    (hsrc : ((rowsOf srcLo srcHi).map src).Pairwise (fun a b => a ≤ b))
    (hidx : ((rowsOf indexLo indexHi).map index).Pairwise (fun a b => a.ts ≤ b.ts))
    (hkeys : ((rowsOf indexLo indexHi).map index).Pairwise
      (fun a b => a.ts = b.ts → keyO a.i ≤ keyO b.i))
    (T j k : Nat) (hjk : j < k) (hk : k < (bandAt index indexLo indexHi T).length)
    (_hne : keyO ((bandAt index indexLo indexHi T).getD j default).i ≠
      keyO ((bandAt index indexLo indexHi T).getD k default).i)
    (hun : ∀ p ∈ rowsAt src srcLo srcHi T,
      keyP p ≠ keyO ((bandAt index indexLo indexHi T).getD k default).i) :
    ∃ out, merge_dedup_long_index_int_keys compare src srcLo srcHi index indexLo indexHi =
        some ((out.length : Int), out) ∧
      [(bandAt index indexLo indexHi T).getD j default,
        (bandAt index indexLo indexHi T).getD k default].Sublist out := by
  by_cases hTs : T ∈ (rowsOf srcLo srcHi).map src
  · have hTi : T ∈ ((rowsOf indexLo indexHi).map index).map (fun e => e.ts) := by
      have hmem : (bandAt index indexLo indexHi T).getD k default ∈
          bandAt index indexLo indexHi T := by
        rw [List.getD_eq_getElem _ _ hk]
        exact List.getElem_mem _
      unfold bandAt at hmem
      rw [List.mem_filter] at hmem
      rw [List.mem_map]
      exact ⟨_, hmem.1, by simpa using hmem.2⟩
    obtain ⟨out, m, sp0, sp1, ip0, ip1, h1, _, h3, h4, _, _, h7⟩ :=
      merge_keys_band_resolved compare keyP keyO hcmp src srcLo srcHi index indexLo indexHi hsrc
        hidx hkeys T hTs hTi
    refine ⟨out, h1, ?_⟩
    refine List.Sublist.trans ?_ (List.filter_sublist (p := fun e => decide (e.ts = T)) out)
    rw [h7]
    apply resolvedBand_pair m _ _ T j k hjk hk
    intro p hp hmp
    obtain ⟨g1, g2⟩ := h4 p k hmp
    apply hun p hp
    rw [h3, getD_map_range' index ip0 (ip1 - ip0) k g1]
    exact (compare_eq_zero_iff compare keyP keyO hcmp _ _).1 g2
  · obtain ⟨out, h1, h2⟩ := merge_keys_solo_run compare src srcLo srcHi index indexLo indexHi T
      (sorted_rows_pointwise src srcLo srcHi hsrc)
      (sorted_entries_pointwise index indexLo indexHi hidx)
      (by
        intro p hp1 hp2 hp3
        apply hTs
        rw [List.mem_map]
        exact ⟨p, (mem_rowsOf _ _ _).2 ⟨hp1, hp2⟩, hp3⟩)
    refine ⟨out, h1, ?_⟩
    refine List.Sublist.trans ?_ (List.filter_sublist (p := fun e => decide (e.ts = T)) out)
    rw [h2]
    exact pair_sublist _ j k hjk hk

theorem merge_dedup_long_index_int_keys_o3_order_witness :
    InducedBy (fun p r => cmp3 (keyArray [7] p) (keyArray [7, 11] r))
      (keyArray [7]) (keyArray [7, 11]) ∧
    ((rowsOf 0 0).map (tsArray [5])).Pairwise (fun a b => a ≤ b) ∧
    ((rowsOf 0 1).map (indexArray [⟨5, 0⟩, ⟨5, 1⟩])).Pairwise (fun a b => a.ts ≤ b.ts) ∧
    ((rowsOf 0 1).map (indexArray [⟨5, 0⟩, ⟨5, 1⟩])).Pairwise
      (fun a b => a.ts = b.ts → keyArray [7, 11] a.i ≤ keyArray [7, 11] b.i) ∧
    (∃ out, merge_dedup_long_index_int_keys
        (fun p r => cmp3 (keyArray [7] p) (keyArray [7, 11] r)) (tsArray [5]) 0 0
        (indexArray [⟨5, 0⟩, ⟨5, 1⟩]) 0 1 = some ((out.length : Int), out) ∧
      [(bandAt (indexArray [⟨5, 0⟩, ⟨5, 1⟩]) 0 1 5).getD 0 default,
        (bandAt (indexArray [⟨5, 0⟩, ⟨5, 1⟩]) 0 1 5).getD 1 default].Sublist out) ∧
    merge_dedup_long_index_int_keys
        (fun p r => cmp3 (keyArray [7] p) (keyArray [7, 11] r)) (tsArray [5]) 0 0
        (indexArray [⟨5, 0⟩, ⟨5, 1⟩]) 0 1 = some (2, [⟨5, 0⟩, ⟨5, 1⟩]) :=
  ⟨inducedBy_cmp3 _ _, by decide, by decide, by decide,
    merge_dedup_long_index_int_keys_o3_order
      (fun p r => cmp3 (keyArray [7] p) (keyArray [7, 11] r)) (keyArray [7]) (keyArray [7, 11])
      (inducedBy_cmp3 _ _) (tsArray [5]) 0 0 (indexArray [⟨5, 0⟩, ⟨5, 1⟩]) 0 1
      (by decide) (by decide) (by decide) 5 0 1 (by decide) (by decide) (by decide)
      (by decide),
    by decide⟩

/-- Claim C12 as stated fails: with the persisted key `[9]` and the O3 keys `[7, 9]` at one
timestamp, the persisted row is resolved to the O3 entry of key 9, which is written first;
the unmatched O3 entry of key 7 follows it, so the two O3 entries occur in the output in the
reverse of their index order. -/
theorem o3_order_as_stated_fails :
    InducedBy (fun p r => cmp3 (keyArray [9] p) (keyArray [7, 9] r))
      (keyArray [9]) (keyArray [7, 9]) ∧
    ((rowsOf 0 0).map (tsArray [5])).Pairwise (fun a b => a ≤ b) ∧
    ((rowsOf 0 1).map (indexArray [⟨5, 0⟩, ⟨5, 1⟩])).Pairwise (fun a b => a.ts ≤ b.ts) ∧
    ((rowsOf 0 1).map (indexArray [⟨5, 0⟩, ⟨5, 1⟩])).Pairwise
      (fun a b => a.ts = b.ts → keyArray [7, 9] a.i ≤ keyArray [7, 9] b.i) ∧
    merge_dedup_long_index_int_keys
        (fun p r => cmp3 (keyArray [9] p) (keyArray [7, 9] r)) (tsArray [5]) 0 0
        (indexArray [⟨5, 0⟩, ⟨5, 1⟩]) 0 1 = some (2, [⟨5, 1⟩, ⟨5, 0⟩]) ∧
    ¬ O3OrderAsStated (fun p r => cmp3 (keyArray [9] p) (keyArray [7, 9] r)) (keyArray [7, 9])
      (tsArray [5]) 0 0 (indexArray [⟨5, 0⟩, ⟨5, 1⟩]) 0 1 := by
  refine ⟨inducedBy_cmp3 _ _, by decide, by decide, by decide, by decide, ?_⟩
  rintro ⟨out, h1, h2⟩
  have e : merge_dedup_long_index_int_keys
      (fun p r => cmp3 (keyArray [9] p) (keyArray [7, 9] r)) (tsArray [5]) 0 0
      (indexArray [⟨5, 0⟩, ⟨5, 1⟩]) 0 1 = some (2, [⟨5, 1⟩, ⟨5, 0⟩]) := by decide
  rw [e] at h1
  injection h1 with h1
  injection h1 with _ h1
  subst h1
  have := h2 5 0 1 (by decide) (by decide) (by decide) (by decide) (by decide)
  revert this
  decide

/-- Claim C13 (null semantics of the merge comparator).  In `compare_by_rowid` of
`mergeDedupTimestampWithLongIndexIntKeys`, at every element type, a persisted row index
`col_index` below `column_top` compares with the O3 row `index_index` as the null sentinel
of the column does: the result is the ordered three-way comparison of `get_null_value()` with
`get_o3_data()[index_index]`, and `get_column_data()` is not read. -/
theorem compare_by_rowid_merge_below_column_top {T : Type} (gt lt : T → T → Bool)
    (column : dedup_column_t T) (col_index index_index : Int)
    (h : col_index < column.column_top) :
    compare_by_rowid_merge gt lt column col_index index_index =
      threeWay gt lt column.get_null_value (column.get_o3_data index_index) := by
  have e : (if col_index ≥ column.column_top then column.get_column_data col_index
      else column.get_null_value) = column.get_null_value := if_neg (by omega)
  unfold compare_by_rowid_merge threeWay
  simp only [e]

theorem compare_by_rowid_merge_below_column_top_witness :
    ((3 : Int) < ((intColumn 4 5 [1, 2, 3, 4, 5, 6] [7, -2147483648]
      (-2147483648)).as_int 4).column_top ∧
      compare_by_rowid_merge int_gt int_lt
        ((intColumn 4 5 [1, 2, 3, 4, 5, 6] [7, -2147483648] (-2147483648)).as_int 4) 3 1 =
      threeWay int_gt int_lt
        ((intColumn 4 5 [1, 2, 3, 4, 5, 6] [7, -2147483648] (-2147483648)).as_int 4).get_null_value
        (((intColumn 4 5 [1, 2, 3, 4, 5, 6] [7, -2147483648]
          (-2147483648)).as_int 4).get_o3_data 1)) ∧
    (merge_compare_mono (intColumn 4 5 [1, 2, 3, 4, 5, 6] [7, -2147483648] (-2147483648))).map
      (fun compare_4 => (compare_4 3 1, compare_4 3 0)) = some (0, -1) :=
  ⟨⟨by decide,
    compare_by_rowid_merge_below_column_top int_gt int_lt
      ((intColumn 4 5 [1, 2, 3, 4, 5, 6] [7, -2147483648] (-2147483648)).as_int 4) 3 1
      (by decide)⟩,
    by decide⟩

theorem compare_by_rowid_sorted_persisted {T : Type} (gt lt : T → T → Bool)
    (column : dedup_column_t T) (l r : Int) (hl : l > -1) (hr : r > -1) :
    compare_by_rowid_sorted gt lt column l r =
      threeWay gt lt (column.get_column_data l) (column.get_column_data r) := by
  have e1 : (if l > -1 then column.get_column_data l else column.get_o3_data (clear63 l)) =
      column.get_column_data l := if_pos hl
  have e2 : (if r > -1 then column.get_column_data r else column.get_o3_data (clear63 r)) =
      column.get_column_data r := if_pos hr
  unfold compare_by_rowid_sorted threeWay
  simp only [e1, e2]

/-- Claim C14 fails on the code.  The comparator `compare_by_rowid` of
`dedupSortedTimestampIndex` never reads `column_top` or the null sentinel: for the 4-byte
column with `column_top = 5`, null sentinel `INT32_MIN` and `column_data = [1, 2]`, the
persisted rows 0 and 1 (high bit clear, both below `column_top`) compare as `-1`, and as `1`
when `column_data = [2, 1]`; the claim says 0.  The entry point therefore keeps both rows of
the stream `[{1,0},{1,1}]` and returns 2, where two null keys would leave one row. -/
theorem sorted_comparator_ignores_column_top :
    (toInt64 0 > -1 ∧ toInt64 1 > -1 ∧
      toInt64 0 < (intColumn 4 5 [1, 2] [] (-2147483648)).column_top ∧
      toInt64 1 < (intColumn 4 5 [1, 2] [] (-2147483648)).column_top) ∧
    (sorted_compare_mono (intColumn 4 5 [1, 2] [] (-2147483648))).map
      (fun compare_4 => compare_4 (toInt64 0) (toInt64 1)) = some (-1) ∧
    (sorted_compare_mono (intColumn 4 5 [2, 1] [] (-2147483648))).map
      (fun compare_4 => compare_4 (toInt64 0) (toInt64 1)) = some 1 ∧
    diff_l 2 (fun _ => intColumn 4 5 [1, 2] [] (-2147483648)) (toInt64 0) (toInt64 1) = -1 ∧
    (Java_io_questdb_std_Vect_dedupSortedTimestampIndex (memOf [⟨1, 0⟩, ⟨1, 1⟩]) 0 2 1 2 1
        (fun _ => intColumn 4 5 [1, 2] [] (-2147483648))).map
      (fun res => (res.1, res.2.slice 1 0 2)) = some (2, [⟨1, 0⟩, ⟨1, 1⟩]) := by
  decide

/-- Claim C15 fails on the code.  `operator>` of `int256` is `a.hi > b.hi || a.lo > b.lo`
(and `operator<` likewise), which is not the lexicographic order on `(hi, lo)`: for
`a = {lo = 5, hi = 0}` and `b = {lo = 0, hi = 1}` the comparison of `a` with `b` is `1`,
where the lexicographic order gives `-1`, and the comparison of `b` with `a` is `1` as well,
so `compare(a, b) = -compare(b, a)` fails.  Both comparators of the entry points inherit
this on 32-byte columns. -/
theorem int256_comparison_not_lexicographic :
    threeWay int256.gt int256.lt ⟨5, 0⟩ ⟨0, 1⟩ = 1 ∧
    lex256 ⟨5, 0⟩ ⟨0, 1⟩ = -1 ∧
    threeWay int256.gt int256.lt ⟨0, 1⟩ ⟨5, 0⟩ = 1 ∧
    lex256 ⟨0, 1⟩ ⟨5, 0⟩ = 1 ∧
    (sorted_compare_mono (wideColumn [⟨5, 0⟩, ⟨0, 1⟩] [])).map
      (fun compare_32 => (compare_32 0 1, compare_32 1 0)) = some (1, 1) ∧
    (merge_compare_mono (wideColumn [⟨5, 0⟩, ⟨0, 1⟩] [⟨0, 1⟩, ⟨5, 0⟩])).map
      (fun compare_32 => (compare_32 0 0, compare_32 1 1)) = some (1, 1) := by
  decide

theorem unsupported_width_single_key (col_key : dedup_column)
    (h : ¬ SupportedWidth col_key.value_size_bytes) :
    merge_compare_mono col_key = none ∧ sorted_compare_mono col_key = none := by
  unfold SupportedWidth at h
  unfold merge_compare_mono sorted_compare_mono
  constructor
  · rw [if_neg (fun e => h (by omega)), if_neg (fun e => h (by omega)),
      if_neg (fun e => h (by omega)), if_neg (fun e => h (by omega)),
      if_neg (fun e => h (by omega)), if_neg (fun e => h (by omega))]
  · rw [if_neg (fun e => h (by omega)), if_neg (fun e => h (by omega)),
      if_neg (fun e => h (by omega)), if_neg (fun e => h (by omega)),
      if_neg (fun e => h (by omega)), if_neg (fun e => h (by omega))]

theorem unsupported_width_single_key_error (src_keys : Nat → dedup_column)
    (h : ¬ SupportedWidth (src_keys 0).value_size_bytes)
    (src : Nat → Nat) (mergeDataLo : Nat) (mergeDataHi : Int) (index : Nat → index_t)
    (mergeOOOLo : Nat) (mergeOOOHi : Int) (mem : Mem) (pIndexIn : Nat) (count : Int)
    (pIndexOut pIndexTemp : Nat) :
    Java_io_questdb_std_Vect_mergeDedupTimestampWithLongIndexIntKeys src mergeDataLo mergeDataHi
        index mergeOOOLo mergeOOOHi 1 src_keys = some (-1, []) ∧
    Java_io_questdb_std_Vect_dedupSortedTimestampIndex mem pIndexIn count pIndexOut pIndexTemp 1
        src_keys = some (-1, mem) := by
  obtain ⟨h1, h2⟩ := unsupported_width_single_key (src_keys 0) h
  unfold Java_io_questdb_std_Vect_mergeDedupTimestampWithLongIndexIntKeys
    Java_io_questdb_std_Vect_dedupSortedTimestampIndex
  rw [h1, h2]
  exact ⟨rfl, rfl⟩

/-- Claim C16 fails on the code for `key_count ≥ 2`.  With two key columns of the unsupported
width 3, the multi-column comparators take the `default` branch and return 0 (the rows
compare equal), and the entry points run to the end: `dedupSortedTimestampIndex` returns 1
on the stream `[{1,0},{1,1}]` and `-2` on an empty stream, the merge entry point returns 1 for
`src = [5]`, `index = [{5,0}]`; neither returns `-1`.  The same holds when only the second
column has an unsupported width. -/
theorem unsupported_width_multi_key_no_error :
    ¬ SupportedWidth 3 ∧
    diff_l 2 (fun _ => intColumn 3 0 [7, 9] [] 0) (toInt64 0) (toInt64 1) = 0 ∧
    compareIndexes 2 (fun _ => intColumn 3 0 [7] [9] 0) 0 (toInt64 0) = 0 ∧
    (Java_io_questdb_std_Vect_dedupSortedTimestampIndex (memOf [⟨1, 0⟩, ⟨1, 1⟩]) 0 2 1 2 2
        (fun _ => intColumn 3 0 [7, 9] [] 0)).map
      (fun res => (res.1, res.2.slice 1 0 1)) = some (1, [⟨1, 1⟩]) ∧
    (Java_io_questdb_std_Vect_dedupSortedTimestampIndex (memOf []) 0 0 1 2 2
        (fun _ => intColumn 3 0 [7, 9] [] 0)).map Prod.fst = some (-2) ∧
    Java_io_questdb_std_Vect_mergeDedupTimestampWithLongIndexIntKeys (tsArray [5]) 0 0
        (indexArray [⟨5, 0⟩]) 0 0 2 (fun _ => intColumn 3 0 [7] [9] 0) = some (1, [⟨5, 0⟩]) ∧
    (Java_io_questdb_std_Vect_dedupSortedTimestampIndex (memOf [⟨1, 0⟩, ⟨1, 1⟩]) 0 2 1 2 2
        (fun c => if c = 0 then intColumn 4 0 [7, 7] [] 0 else intColumn 3 0 [1, 2] [] 0)).map
      (fun res => (res.1, res.2.slice 1 0 1)) = some (1, [⟨1, 1⟩]) := by
  refine ⟨?_, ?_⟩
  · unfold SupportedWidth
    omega
  · decide

theorem merge_column_diff_eq_mono (col_key : dedup_column) (l r : Int) :
    merge_column_diff col_key l r = (merge_compare_mono col_key).map (fun f => f l r) := by
  unfold merge_column_diff merge_compare_mono
  split_ifs <;> rfl

theorem sorted_column_diff_eq_mono (col_key : dedup_column) (l r : Int) :
    sorted_column_diff col_key l r = (sorted_compare_mono col_key).map (fun f => f l r) := by
  unfold sorted_column_diff sorted_compare_mono
  split_ifs <;> rfl

theorem supported_width_mono (col_key : dedup_column)
    (h : SupportedWidth col_key.value_size_bytes) :
    (∃ f, merge_compare_mono col_key = some f) ∧ (∃ f, sorted_compare_mono col_key = some f) := by
  unfold SupportedWidth at h
  unfold merge_compare_mono sorted_compare_mono
  constructor
  · split_ifs
    all_goals first | exact ⟨_, rfl⟩ | omega
  · split_ifs
    all_goals first | exact ⟨_, rfl⟩ | omega

theorem compareIndexes_loop_lex (src_keys : Nat → dedup_column) (l r : Int) :
    ∀ (n c : Nat), (∀ k, c ≤ k → k < c + n → SupportedWidth (src_keys k).value_size_bytes) →
      compareIndexes_loop src_keys l r n c =
        firstNonZero ((List.range' c n).map (fun k => merge_mono_value (src_keys k) l r)) := by
  intro n
  induction n with
  | zero => intro c _; rfl
  | succ n ih =>
    intro c hw
    obtain ⟨f, hf⟩ := (supported_width_mono (src_keys c) (hw c (Nat.le_refl _) (by omega))).1
    have hv : merge_mono_value (src_keys c) l r = f l r := by
      unfold merge_mono_value
      rw [hf]
    unfold compareIndexes_loop
    rw [merge_column_diff_eq_mono, hf, List.range'_succ, List.map_cons, firstNonZero, hv]
    simp only [Option.map_some']
    rw [ih (c + 1) (fun k h1 h2 => hw k (by omega) (by omega))]

theorem diff_l_loop_lex (src_keys : Nat → dedup_column) (l r : Int) :
    ∀ (n c : Nat), (∀ k, c ≤ k → k < c + n → SupportedWidth (src_keys k).value_size_bytes) →
      diff_l_loop src_keys l r n c =
        firstNonZero ((List.range' c n).map (fun k => sorted_mono_value (src_keys k) l r)) := by
  intro n
  induction n with
  | zero => intro c _; rfl
  | succ n ih =>
    intro c hw
    obtain ⟨f, hf⟩ := (supported_width_mono (src_keys c) (hw c (Nat.le_refl _) (by omega))).2
    have hv : sorted_mono_value (src_keys c) l r = f l r := by
      unfold sorted_mono_value
      rw [hf]
    unfold diff_l_loop
    rw [sorted_column_diff_eq_mono, hf, List.range'_succ, List.map_cons, firstNonZero, hv]
    simp only [Option.map_some']
    rw [ih (c + 1) (fun k h1 h2 => hw k (by omega) (by omega))]

/-- Claim C19 (the multi-column comparators are lexicographic).  For `N ≥ 1` key columns of
supported widths and all row identifiers `l`, `r`, the loop comparators `compareIndexes` (merge
entry point) and `diff_l` (`dedupSortedTimestampIndex`) return the first non-zero value among
the comparisons of the columns `0, ..., N - 1` by their mono-width comparators, and 0 when all
are 0.  For `N = 1` the loop comparator therefore returns what the specialised comparator of
the single column returns. -/
theorem multi_column_comparator_lexicographic (N : Nat) (hN : 1 ≤ N)
    (src_keys : Nat → dedup_column)
    (hw : ∀ c, c < N → SupportedWidth (src_keys c).value_size_bytes) (l r : Int) :
    compareIndexes N src_keys l r =
      firstNonZero ((List.range N).map (fun c => merge_mono_value (src_keys c) l r)) ∧
    diff_l N src_keys l r =
      firstNonZero ((List.range N).map (fun c => sorted_mono_value (src_keys c) l r)) ∧
    (N = 1 →
      (∃ compare_n, merge_compare_mono (src_keys 0) = some compare_n ∧
        compareIndexes 1 src_keys l r = compare_n l r) ∧
      (∃ compare_n, sorted_compare_mono (src_keys 0) = some compare_n ∧
        diff_l 1 src_keys l r = compare_n l r)) := by
  have h1 : compareIndexes N src_keys l r =
      firstNonZero ((List.range N).map (fun c => merge_mono_value (src_keys c) l r)) := by
    unfold compareIndexes
    rw [Int.toNat_ofNat, compareIndexes_loop_lex src_keys l r N 0
      (fun k _ h2 => hw k (by omega)), List.range_eq_range']
  have h2 : diff_l N src_keys l r =
      firstNonZero ((List.range N).map (fun c => sorted_mono_value (src_keys c) l r)) := by
    unfold diff_l
    rw [Int.toNat_ofNat, diff_l_loop_lex src_keys l r N 0
      (fun k _ h2 => hw k (by omega)), List.range_eq_range']
  refine ⟨h1, h2, ?_⟩
  intro hN1
  subst hN1
  obtain ⟨⟨f, hf⟩, ⟨g, hg⟩⟩ := supported_width_mono (src_keys 0) (hw 0 (by omega))
  refine ⟨⟨f, hf, ?_⟩, ⟨g, hg, ?_⟩⟩
  · rw [show ((1 : Nat) : Int) = 1 from rfl] at h1
    rw [h1]
    simp only [show List.range 1 = [0] from rfl, List.map_cons, List.map_nil, firstNonZero, merge_mono_value, hf]
    split_ifs with h
    · rfl
    · omega
  · rw [show ((1 : Nat) : Int) = 1 from rfl] at h2
    rw [h2]
    simp only [show List.range 1 = [0] from rfl, List.map_cons, List.map_nil, firstNonZero, sorted_mono_value, hg]
    split_ifs with h
    · rfl
    · omega

theorem multi_column_comparator_lexicographic_witness :
    (1 ≤ 2 ∧
      ∀ c, c < 2 → SupportedWidth ((fun c => if c = 0 then intColumn 4 0 [7, 7] [7, 8] 0
        else wideColumn [⟨1, 0⟩, ⟨3, 0⟩] [⟨1, 0⟩, ⟨3, 0⟩]) c).value_size_bytes) ∧
    (compareIndexes (2 : Nat) (fun c => if c = 0 then intColumn 4 0 [7, 7] [7, 8] 0
        else wideColumn [⟨1, 0⟩, ⟨3, 0⟩] [⟨1, 0⟩, ⟨3, 0⟩]) 1 0 =
      firstNonZero ((List.range 2).map (fun c => merge_mono_value
        ((fun c => if c = 0 then intColumn 4 0 [7, 7] [7, 8] 0
          else wideColumn [⟨1, 0⟩, ⟨3, 0⟩] [⟨1, 0⟩, ⟨3, 0⟩]) c) 1 0)) ∧
    diff_l (2 : Nat) (fun c => if c = 0 then intColumn 4 0 [7, 7] [7, 8] 0
        else wideColumn [⟨1, 0⟩, ⟨3, 0⟩] [⟨1, 0⟩, ⟨3, 0⟩]) 1 0 =
      firstNonZero ((List.range 2).map (fun c => sorted_mono_value
        ((fun c => if c = 0 then intColumn 4 0 [7, 7] [7, 8] 0
          else wideColumn [⟨1, 0⟩, ⟨3, 0⟩] [⟨1, 0⟩, ⟨3, 0⟩]) c) 1 0)) ∧
    ((2 : Nat) = 1 →
      (∃ compare_n, merge_compare_mono ((fun c => if c = 0 then intColumn 4 0 [7, 7] [7, 8] 0
          else wideColumn [⟨1, 0⟩, ⟨3, 0⟩] [⟨1, 0⟩, ⟨3, 0⟩]) 0) = some compare_n ∧
        compareIndexes 1 (fun c => if c = 0 then intColumn 4 0 [7, 7] [7, 8] 0
          else wideColumn [⟨1, 0⟩, ⟨3, 0⟩] [⟨1, 0⟩, ⟨3, 0⟩]) 1 0 = compare_n 1 0) ∧
      (∃ compare_n, sorted_compare_mono ((fun c => if c = 0 then intColumn 4 0 [7, 7] [7, 8] 0
          else wideColumn [⟨1, 0⟩, ⟨3, 0⟩] [⟨1, 0⟩, ⟨3, 0⟩]) 0) = some compare_n ∧
        diff_l 1 (fun c => if c = 0 then intColumn 4 0 [7, 7] [7, 8] 0
          else wideColumn [⟨1, 0⟩, ⟨3, 0⟩] [⟨1, 0⟩, ⟨3, 0⟩]) 1 0 = compare_n 1 0))) ∧
    (compareIndexes 2 (fun c => if c = 0 then intColumn 4 0 [7, 7] [7, 8] 0
        else wideColumn [⟨1, 0⟩, ⟨3, 0⟩] [⟨1, 0⟩, ⟨3, 0⟩]) 1 0 = 1 ∧
      diff_l 2 (fun c => if c = 0 then intColumn 4 0 [7, 7] [7, 8] 0
        else wideColumn [⟨1, 0⟩, ⟨3, 0⟩] [⟨1, 0⟩, ⟨3, 0⟩]) 1 0 = 1) :=
  ⟨⟨by decide, by
      intro c hc
      unfold SupportedWidth
      by_cases h : c = 0
      · simp [h, intColumn]
      · simp [h, wideColumn]⟩,
    multi_column_comparator_lexicographic 2 (by decide)
      (fun c => if c = 0 then intColumn 4 0 [7, 7] [7, 8] 0
        else wideColumn [⟨1, 0⟩, ⟨3, 0⟩] [⟨1, 0⟩, ⟨3, 0⟩])
      (by
        intro c hc
        unfold SupportedWidth
        by_cases h : c = 0
        · simp [h, intColumn]
        · simp [h, wideColumn]) 1 0,
    by decide⟩

/-- Claim C18 (the branch-free binary probe).  For a band `array[0 .. count)` of `count ≥ 1`
entries that is sorted by key as seen from the target `searchIndex`, i.e. the comparator is
positive on the prefix `[0, a)`, zero on the block `[a, b)` and negative on `[b, count)`, the
loop of `branch_free_search` terminates and the function returns a value `r` such that: when
some band entry compares equal, `0 ≤ r < count` and entry `r` compares equal; and `r = -1`
exactly when no band entry compares equal. -/
theorem branch_free_search_finds_match (compare : Nat → Nat → Int) (searchIndex : Nat)
    (array : Nat → index_t) (count a b : Nat) (hcount : 1 ≤ count) (_hab : a ≤ b)
    (_hb : b ≤ count)
    (h1 : ∀ j, j < a → 0 < compare searchIndex (array j).i)
    (h2 : ∀ j, a ≤ j → j < b → compare searchIndex (array j).i = 0)
    (h3 : ∀ j, b ≤ j → j < count → compare searchIndex (array j).i < 0) :
    ∃ r, branch_free_search compare searchIndex array count = some r ∧
      ((∃ j, j < count ∧ compare searchIndex (array j).i = 0) →
        0 ≤ r ∧ r < count ∧ compare searchIndex (array r.toNat).i = 0) ∧
      (r = -1 ↔ ∀ j, j < count → compare searchIndex (array j).i ≠ 0) := by
  have hs : SignSorted (fun j => compare searchIndex (array j).i) count := by
    intro j k hjk hk
    simp only
    constructor
    · intro hpos
      by_cases hka : k < a
      · exact h1 j (by omega)
      · by_cases hkb : k < b
        · have := h2 k (by omega) hkb
          omega
        · have := h3 k (by omega) hk
          omega
    · intro hneg
      by_cases hjb : b ≤ j
      · exact h3 k (by omega) hk
      · by_cases hja : a ≤ j
        · have := h2 j hja (by omega)
          omega
        · have := h1 j (by omega)
          omega
  obtain ⟨r, hr, hcase⟩ := branch_free_search_sound compare searchIndex array count hcount
  have hnone : r = -1 → ∀ j, j < count → compare searchIndex (array j).i ≠ 0 := by
    intro e
    rw [e] at hr
    exact branch_free_search_complete compare searchIndex array count hcount hs hr
  refine ⟨r, hr, ?_, ?_⟩
  · rintro ⟨j, hj, hz⟩
    rcases hcase with e | ⟨g1, g2, g3⟩
    · exact absurd hz (hnone e j hj)
    · exact ⟨g1, by omega, g3⟩
  · constructor
    · exact hnone
    · intro hall
      rcases hcase with e | ⟨g1, g2, g3⟩
      · exact e
      · exact absurd g3 (hall r.toNat g2)

theorem branch_free_search_finds_match_witness :
    (1 ≤ 5 ∧ 2 ≤ 3 ∧ 3 ≤ 5 ∧
      (∀ j, j < 2 → 0 < (fun p r => cmp3 (keyArray [9] p) (keyArray [3, 5, 9, 11, 12] r)) 0
        ((indexArray [⟨5, 0⟩, ⟨5, 1⟩, ⟨5, 2⟩, ⟨5, 3⟩, ⟨5, 4⟩]) j).i) ∧
      (∀ j, 2 ≤ j → j < 3 → (fun p r => cmp3 (keyArray [9] p) (keyArray [3, 5, 9, 11, 12] r)) 0
        ((indexArray [⟨5, 0⟩, ⟨5, 1⟩, ⟨5, 2⟩, ⟨5, 3⟩, ⟨5, 4⟩]) j).i = 0) ∧
      (∀ j, 3 ≤ j → j < 5 → (fun p r => cmp3 (keyArray [9] p) (keyArray [3, 5, 9, 11, 12] r)) 0
        ((indexArray [⟨5, 0⟩, ⟨5, 1⟩, ⟨5, 2⟩, ⟨5, 3⟩, ⟨5, 4⟩]) j).i < 0)) ∧
    (∃ r, branch_free_search (fun p r => cmp3 (keyArray [9] p) (keyArray [3, 5, 9, 11, 12] r)) 0
        (indexArray [⟨5, 0⟩, ⟨5, 1⟩, ⟨5, 2⟩, ⟨5, 3⟩, ⟨5, 4⟩]) 5 = some r ∧
      ((∃ j, j < 5 ∧ (fun p r => cmp3 (keyArray [9] p) (keyArray [3, 5, 9, 11, 12] r)) 0
          ((indexArray [⟨5, 0⟩, ⟨5, 1⟩, ⟨5, 2⟩, ⟨5, 3⟩, ⟨5, 4⟩]) j).i = 0) →
        0 ≤ r ∧ r < (5 : Nat) ∧
          (fun p r => cmp3 (keyArray [9] p) (keyArray [3, 5, 9, 11, 12] r)) 0
            ((indexArray [⟨5, 0⟩, ⟨5, 1⟩, ⟨5, 2⟩, ⟨5, 3⟩, ⟨5, 4⟩]) r.toNat).i = 0) ∧
      (r = -1 ↔ ∀ j, j < 5 →
        (fun p r => cmp3 (keyArray [9] p) (keyArray [3, 5, 9, 11, 12] r)) 0
          ((indexArray [⟨5, 0⟩, ⟨5, 1⟩, ⟨5, 2⟩, ⟨5, 3⟩, ⟨5, 4⟩]) j).i ≠ 0)) ∧
    branch_free_search (fun p r => cmp3 (keyArray [9] p) (keyArray [3, 5, 9, 11, 12] r)) 0
      (indexArray [⟨5, 0⟩, ⟨5, 1⟩, ⟨5, 2⟩, ⟨5, 3⟩, ⟨5, 4⟩]) 5 = some 2 ∧
    branch_free_search (fun p r => cmp3 (keyArray [10] p) (keyArray [3, 5, 9, 11, 12] r)) 0
      (indexArray [⟨5, 0⟩, ⟨5, 1⟩, ⟨5, 2⟩, ⟨5, 3⟩, ⟨5, 4⟩]) 5 = some (-1) :=
  ⟨⟨by decide, by decide, by decide, by decide, by decide, by decide⟩,
    branch_free_search_finds_match
      (fun p r => cmp3 (keyArray [9] p) (keyArray [3, 5, 9, 11, 12] r)) 0
      (indexArray [⟨5, 0⟩, ⟨5, 1⟩, ⟨5, 2⟩, ⟨5, 3⟩, ⟨5, 4⟩]) 5 2 3 (by decide) (by decide)
      (by decide) (by decide) (by decide) (by decide),
    by decide, by decide⟩

/-- Claim C20 (the key-aware single-stream dedup never reports an error on sorted input).
For every timestamp-non-decreasing input, every comparator `cmp` whatsoever and a scratch
buffer other than the input and the output buffer, `dedup_sorted_timestamp_index_with_keys`
returns, and its value is `-2` or a count `≥ 0`, never `-1`: `merge_sort` keeps the range
sorted by timestamp, so the linear pass never takes its error branch. -/
theorem dedup_with_keys_no_error_on_sorted (cmp : Nat → Nat → Int) (mem : Mem)
    (index_src : Nat) (count : Int) (index_dest index_tmp : Nat)
    (h1 : index_tmp ≠ index_src) (h2 : index_tmp ≠ index_dest)
    (hsorted : (mem.slice index_src 0 count.toNat).Pairwise (fun a b => a.ts ≤ b.ts)) :
    ∃ res, dedup_sorted_timestamp_index_with_keys cmp mem index_src count index_dest
        index_tmp = some res ∧ res.1 ≠ -1 ∧ (res.1 = -2 ∨ 0 ≤ res.1) := by
  rcases dedup_with_keys_dichotomy cmp mem index_src count index_dest index_tmp hsorted with
    ⟨e, _⟩ | ⟨_, a, b, hr, e⟩
  · refine ⟨(-2, mem), e, ?_, Or.inl rfl⟩
    simp only []
    omega
  · have hs := (Mem.slice_pairwise_iff _ _ _ _ _).1 hsorted
    simp only [Nat.zero_add] at hs
    obtain ⟨r1, r2, _, _, _⟩ := hr
    have hM : mem.slice index_src a (b - a) ≠ [] := by
      intro e
      have := congrArg List.length e
      rw [Mem.length_slice] at this
      simp at this
      omega
    have hMs : (mem.slice index_src a (b - a)).Pairwise (fun a b => a.ts ≤ b.ts) := by
      rw [Mem.slice_pairwise_iff]
      intro j k hjk hk
      exact hs (a + j) (a + k) (by omega) (by omega)
    obtain ⟨_, ss⟩ := mergeSortL_ts_sorted cmp _ hM hMs
    obtain ⟨mem1, e1, _⟩ := dedup_range_with_keys_spec cmp mem index_src count.toNat
      index_dest index_tmp a b h1 h2 r1 r2 ss
    refine ⟨_, e.trans e1, ?_, Or.inr ?_⟩
    · simp only
      omega
    · simp only
      omega

theorem dedup_with_keys_no_error_on_sorted_witness :
    ((memOf [⟨1, 0⟩, ⟨2, 1⟩, ⟨2, 2⟩, ⟨2, 3⟩, ⟨3, 4⟩]).slice 0 0 (5 : Int).toNat).Pairwise
      (fun a b => a.ts ≤ b.ts) ∧
    (∃ res, dedup_sorted_timestamp_index_with_keys (fun l r => (l : Int) * r - 2)
        (memOf [⟨1, 0⟩, ⟨2, 1⟩, ⟨2, 2⟩, ⟨2, 3⟩, ⟨3, 4⟩]) 0 5 1 2 = some res ∧ res.1 ≠ -1 ∧
      (res.1 = -2 ∨ 0 ≤ res.1)) ∧
    (dedup_sorted_timestamp_index_with_keys (fun l r => (l : Int) * r - 2)
        (memOf [⟨1, 0⟩, ⟨2, 1⟩, ⟨2, 2⟩, ⟨2, 3⟩, ⟨3, 4⟩]) 0 5 1 2).map
      (fun res => (res.1, res.2.slice 1 0 res.1.toNat)) =
        some (4, [⟨1, 0⟩, ⟨2, 3⟩, ⟨2, 2⟩, ⟨3, 4⟩]) :=
  ⟨by decide,
    dedup_with_keys_no_error_on_sorted (fun l r => (l : Int) * r - 2)
      (memOf [⟨1, 0⟩, ⟨2, 1⟩, ⟨2, 2⟩, ⟨2, 3⟩, ⟨3, 4⟩]) 0 5 1 2 (by decide) (by decide)
      (by decide),
    by decide⟩

theorem entryLe_eq_true_iff (cmp : Nat → Nat → Int) (a b : index_t) :
    entryLe cmp a b = true ↔ a.ts < b.ts ∨ (a.ts = b.ts ∧ cmp a.i b.i ≤ 0) := by
  unfold entryLe
  by_cases c1 : a.ts > b.ts
  · rw [if_pos c1]
    constructor
    · intro h; exact absurd h (by simp)
    · rintro (h | ⟨h, _⟩) <;> omega
  · rw [if_neg c1]
    by_cases c2 : a.ts < b.ts
    · rw [if_pos c2]
      exact ⟨fun _ => Or.inl c2, fun _ => rfl⟩
    · rw [if_neg c2]
      by_cases c3 : cmp a.i b.i > 0
      · rw [if_pos c3]
        constructor
        · intro h; exact absurd h (by simp)
        · rintro (h | ⟨_, h⟩) <;> omega
      · rw [if_neg c3]
        exact ⟨fun _ => Or.inr ⟨by omega, by omega⟩, fun _ => rfl⟩

theorem entryLe_trans (cmp : Nat → Nat → Int) (hcmp : TotalPreorder cmp) (a b c : index_t)
    (h1 : entryLe cmp a b = true) (h2 : entryLe cmp b c = true) : entryLe cmp a c = true := by
  rw [entryLe_eq_true_iff] at h1 h2 ⊢
  rcases h1 with h1 | ⟨h1, k1⟩
  · rcases h2 with h2 | ⟨h2, _⟩
    · exact Or.inl (by omega)
    · exact Or.inl (by omega)
  · rcases h2 with h2 | ⟨h2, k2⟩
    · exact Or.inl (by omega)
    · exact Or.inr ⟨by omega, hcmp.2 _ _ _ k1 k2⟩

theorem entryLe_total (cmp : Nat → Nat → Int) (hcmp : TotalPreorder cmp) (a b : index_t) :
    (entryLe cmp a b || entryLe cmp b a) = true := by
  rw [Bool.or_eq_true, entryLe_eq_true_iff, entryLe_eq_true_iff]
  by_cases c1 : a.ts < b.ts
  · exact Or.inl (Or.inl c1)
  · by_cases c2 : b.ts < a.ts
    · exact Or.inr (Or.inl c2)
    · by_cases c3 : cmp a.i b.i ≤ 0
      · exact Or.inl (Or.inr ⟨by omega, c3⟩)
      · have := (hcmp.1 a.i b.i).1 (by omega)
        exact Or.inr (Or.inr ⟨by omega, by omega⟩)

theorem entryLe_equiv_iff (cmp : Nat → Nat → Int) (hcmp : TotalPreorder cmp) (e x : index_t) :
    (entryLe cmp e x && entryLe cmp x e) = true ↔ x.ts = e.ts ∧ cmp e.i x.i = 0 := by
  rw [Bool.and_eq_true, entryLe_eq_true_iff, entryLe_eq_true_iff]
  constructor
  · rintro ⟨h1 | ⟨h1, k1⟩, h2 | ⟨h2, k2⟩⟩
    · omega
    · omega
    · omega
    · refine ⟨h2, ?_⟩
      by_contra hne
      have hneg : cmp e.i x.i < 0 := by omega
      have := (hcmp.1 x.i e.i).2 hneg
      omega
  · rintro ⟨h1, h2⟩
    refine ⟨Or.inr ⟨h1.symm, by omega⟩, Or.inr ⟨h1, ?_⟩⟩
    by_contra hpos
    have := (hcmp.1 x.i e.i).1 (by omega)
    omega

theorem merge_filter_equiv (le : index_t → index_t → Bool)
    (htrans : ∀ a b c, le a b = true → le b c = true → le a c = true)
    (htotal : ∀ a b, (le a b || le b a) = true) (e : index_t) :
    ∀ (l1 l2 : List index_t), l1.Pairwise (fun a b => le a b = true) →
      (List.merge l1 l2 le).filter (fun x => le e x && le x e) =
        l1.filter (fun x => le e x && le x e) ++ l2.filter (fun x => le e x && le x e) := by
  intro l1
  induction l1 with
  | nil => intro l2 _; simp
  | cons a l1 ih1 =>
    intro l2
    induction l2 with
    | nil => intro _; simp
    | cons b l2 ih2 =>
      intro hs
      by_cases hab : le a b = true
      · rw [List.cons_merge_cons_pos _ _ _ hab]
        have e1 : (a :: List.merge l1 (b :: l2) le).filter (fun x => le e x && le x e) =
            [a].filter (fun x => le e x && le x e) ++
              (List.merge l1 (b :: l2) le).filter (fun x => le e x && le x e) :=
          List.filter_append [a] _
        have e2 : (a :: l1).filter (fun x => le e x && le x e) =
            [a].filter (fun x => le e x && le x e) ++ l1.filter (fun x => le e x && le x e) :=
          List.filter_append [a] _
        rw [e1, e2, ih1 (b :: l2) hs.tail, List.append_assoc]
      · rw [List.cons_merge_cons_neg _ _ _ hab]
        have e1 : (b :: List.merge (a :: l1) l2 le).filter (fun x => le e x && le x e) =
            [b].filter (fun x => le e x && le x e) ++
              (List.merge (a :: l1) l2 le).filter (fun x => le e x && le x e) :=
          List.filter_append [b] _
        have e2 : (b :: l2).filter (fun x => le e x && le x e) =
            [b].filter (fun x => le e x && le x e) ++ l2.filter (fun x => le e x && le x e) :=
          List.filter_append [b] _
        rw [e1, e2, ih2 hs]
        by_cases hb : (le e b && le b e) = true
        · -- nothing of the left run is equivalent to `e`
          have hnil : (a :: l1).filter (fun x => le e x && le x e) = [] := by
            rw [List.filter_eq_nil_iff]
            intro x hx hxe
            have hax : le a x = true := by
              rcases List.mem_cons.1 hx with h | h
              · rw [h]
                have := htotal a a
                simpa using this
              · exact List.rel_of_pairwise_cons hs h
            rw [Bool.and_eq_true] at hxe hb
            exact hab (htrans a x b hax (htrans x e b hxe.2 hb.1))
          rw [hnil, List.nil_append, List.nil_append]
        · have hnb : [b].filter (fun x => le e x && le x e) = [] := by
            rw [List.filter_eq_nil_iff]
            intro x hx
            rw [List.mem_singleton] at hx
            rw [hx]
            exact hb
          rw [hnb, List.nil_append, List.nil_append]

theorem stableBy_merge (le : index_t → index_t → Bool)
    (htrans : ∀ a b c, le a b = true → le b c = true → le a c = true)
    (htotal : ∀ a b, (le a b || le b a) = true)
    (o1 c1 o2 c2 : List index_t) (h1 : StableBy le o1 c1) (h2 : StableBy le o2 c2) :
    StableBy le (o1 ++ o2) (List.merge c1 c2 le) := by
  obtain ⟨s1, p1, f1⟩ := h1
  obtain ⟨s2, p2, f2⟩ := h2
  refine ⟨?_, ?_, ?_⟩
  · exact List.sorted_merge htrans htotal c1 c2 s1 s2
  · exact (List.merge_perm_append le).trans (p1.append p2)
  · intro e
    rw [merge_filter_equiv le htrans htotal e c1 c2 s1, f1 e, f2 e, List.filter_append]

theorem mergeSortL_stableBy (cmp : Nat → Nat → Int) (hcmp : TotalPreorder cmp)
    (xs : List index_t) (hne : xs ≠ []) :
    StableBy (entryLe cmp) xs (mergeSortL (entryLe cmp) xs) :=
  mergeSortL_rel (StableBy (entryLe cmp)) (entryLe cmp)
    (fun _ => ⟨List.pairwise_singleton _ _, List.Perm.refl _, fun _ => rfl⟩)
    (stableBy_merge (entryLe cmp) (entryLe_trans cmp hcmp) (entryLe_total cmp hcmp)) xs hne

/-- Claim C17 (`merge_sort` is a stable sort).  For a comparator `cmp` that is a total
preorder on row identifiers, a range `[start, end_)` with `start < end_`, and scratch buffers
`index_dest1 ≠ index_dest2` of which the second is not the source, `merge_sort` returns one of
the two scratch buffers, and the range `[start, end_)` of that buffer is a permutation of the
range of the source, is non-decreasing under the combined order (timestamp first, then
`cmp`), and holds the entries that are equal under the combined order to any given entry in
their source order. -/
theorem merge_sort_stable (cmp : Nat → Nat → Int) (hcmp : TotalPreorder cmp) (mem : Mem)
    (index_src index_dest1 index_dest2 start end_ : Nat) (hd : index_dest1 ≠ index_dest2)
    (hs : index_src ≠ index_dest2) (hlt : start < end_) :
    ∃ mem' mr, merge_sort cmp mem index_src index_dest1 index_dest2 start end_ =
        some (mem', mr) ∧
      (mr = index_dest1 ∨ mr = index_dest2) ∧
      (mem'.slice mr start (end_ - start)).Perm (mem.slice index_src start (end_ - start)) ∧
      (mem'.slice mr start (end_ - start)).Pairwise
        (fun a b => a.ts < b.ts ∨ (a.ts = b.ts ∧ cmp a.i b.i ≤ 0)) ∧
      ∀ e : index_t,
        (mem'.slice mr start (end_ - start)).filter (fun x => x.ts = e.ts ∧ cmp e.i x.i = 0) =
          (mem.slice index_src start (end_ - start)).filter
            (fun x => x.ts = e.ts ∧ cmp e.i x.i = 0) := by
  obtain ⟨mem', mr, h1, h2, h3, _⟩ :=
    merge_sort_spec cmp mem index_src index_dest1 index_dest2 start end_ hd hs
  have hne : mem.slice index_src start (end_ - start) ≠ [] := by
    intro e
    have := congrArg List.length e
    rw [Mem.length_slice] at this
    simp at this
    omega
  obtain ⟨s1, s2, s3⟩ := mergeSortL_stableBy cmp hcmp _ hne
  refine ⟨mem', mr, h1, h2, ?_, ?_, ?_⟩
  · rw [h3]; exact s2
  · rw [h3]
    exact s1.imp (fun h => (entryLe_eq_true_iff cmp _ _).1 h)
  · intro e
    have hc : ∀ l : List index_t,
        l.filter (fun x => decide (x.ts = e.ts ∧ cmp e.i x.i = 0)) =
          l.filter (fun x => entryLe cmp e x && entryLe cmp x e) := by
      intro l
      apply List.filter_congr
      intro x _
      rw [Bool.eq_iff_iff, entryLe_equiv_iff cmp hcmp e x]
      simp
    rw [hc, hc, h3]
    exact s3 e

theorem totalPreorder_cmp3 (key : Nat → Int) :
    TotalPreorder (fun l r => cmp3 (key l) (key r)) := by
  constructor
  · intro a b
    show 0 < cmp3 (key a) (key b) ↔ cmp3 (key b) (key a) < 0
    unfold cmp3
    split_ifs <;> omega
  · intro a b c
    show cmp3 (key a) (key b) ≤ 0 → cmp3 (key b) (key c) ≤ 0 → cmp3 (key a) (key c) ≤ 0
    unfold cmp3
    split_ifs <;> omega

theorem merge_sort_stable_witness :
    TotalPreorder (fun l r => cmp3 (keyArray [3, 1, 3, 1, 2] l) (keyArray [3, 1, 3, 1, 2] r)) ∧
    (∃ mem' mr, merge_sort
        (fun l r => cmp3 (keyArray [3, 1, 3, 1, 2] l) (keyArray [3, 1, 3, 1, 2] r))
        (memOf [⟨5, 0⟩, ⟨5, 1⟩, ⟨5, 2⟩, ⟨5, 3⟩, ⟨5, 4⟩]) 0 1 2 0 5 = some (mem', mr) ∧
      (mr = 1 ∨ mr = 2) ∧
      (mem'.slice mr 0 (5 - 0)).Perm
        ((memOf [⟨5, 0⟩, ⟨5, 1⟩, ⟨5, 2⟩, ⟨5, 3⟩, ⟨5, 4⟩]).slice 0 0 (5 - 0)) ∧
      (mem'.slice mr 0 (5 - 0)).Pairwise (fun a b => a.ts < b.ts ∨ (a.ts = b.ts ∧
        (fun l r => cmp3 (keyArray [3, 1, 3, 1, 2] l) (keyArray [3, 1, 3, 1, 2] r)) a.i b.i ≤
          0)) ∧
      ∀ e : index_t,
        (mem'.slice mr 0 (5 - 0)).filter (fun x => x.ts = e.ts ∧
          (fun l r => cmp3 (keyArray [3, 1, 3, 1, 2] l) (keyArray [3, 1, 3, 1, 2] r)) e.i x.i =
            0) =
          ((memOf [⟨5, 0⟩, ⟨5, 1⟩, ⟨5, 2⟩, ⟨5, 3⟩, ⟨5, 4⟩]).slice 0 0 (5 - 0)).filter
            (fun x => x.ts = e.ts ∧
              (fun l r => cmp3 (keyArray [3, 1, 3, 1, 2] l) (keyArray [3, 1, 3, 1, 2] r)) e.i
                x.i = 0)) ∧
    (merge_sort (fun l r => cmp3 (keyArray [3, 1, 3, 1, 2] l) (keyArray [3, 1, 3, 1, 2] r))
        (memOf [⟨5, 0⟩, ⟨5, 1⟩, ⟨5, 2⟩, ⟨5, 3⟩, ⟨5, 4⟩]) 0 1 2 0 5).map
      (fun res => (res.2, res.1.slice res.2 0 5)) =
        some (2, [⟨5, 1⟩, ⟨5, 3⟩, ⟨5, 4⟩, ⟨5, 0⟩, ⟨5, 2⟩]) :=
  ⟨totalPreorder_cmp3 _,
    merge_sort_stable (fun l r => cmp3 (keyArray [3, 1, 3, 1, 2] l) (keyArray [3, 1, 3, 1, 2] r))
      (totalPreorder_cmp3 _) (memOf [⟨5, 0⟩, ⟨5, 1⟩, ⟨5, 2⟩, ⟨5, 3⟩, ⟨5, 4⟩]) 0 1 2 0 5
      (by decide) (by decide) (by decide),
    by decide⟩

/-- Claim C21 (length of the no-key merge-dedup output).  For timestamp-non-decreasing
`src[srcLo .. srcHi]` and `index[indexLo .. indexHi]`, `mergeDedupTimestampWithLongIndexAsc`
returns `|src|` plus the number of index entries whose timestamp occurs at no persisted row:
the written entries are, up to order, one entry per persisted row and the index entries whose
timestamp is absent from `src`. -/
theorem mergeDedupTimestampWithLongIndexAsc_length (src : Nat → Nat) (srcLo : Nat)
    (srcHi : Int) (index : Nat → index_t) (indexLo : Nat) (indexHi : Int)
    (hsrc : ((rowsOf srcLo srcHi).map src).Pairwise (fun a b => a ≤ b))
    (hidx : ((rowsOf indexLo indexHi).map index).Pairwise (fun a b => a.ts ≤ b.ts)) :
    ∃ out, Java_io_questdb_std_Vect_mergeDedupTimestampWithLongIndexAsc src srcLo srcHi index
        indexLo indexHi = some ((out.length : Int), out) ∧
      out.length = (srcHi + 1 - srcLo).toNat +
        (((rowsOf indexLo indexHi).map index).filter
          (fun e => e.ts ∉ (rowsOf srcLo srcHi).map src)).length ∧
      out.Perm ((rowsOf srcLo srcHi).map (expectedRow src ((rowsOf indexLo indexHi).map index)) ++
        ((rowsOf indexLo indexHi).map index).filter
          (fun e => e.ts ∉ (rowsOf srcLo srcHi).map src)) := by
  obtain ⟨out, h1, _, h3⟩ := mergeAsc_run src srcLo srcHi index indexLo indexHi hsrc hidx
  refine ⟨out, h1, ?_, h3⟩
  have hl := h3.length_eq
  unfold mergeExpected at hl
  rw [List.length_append, List.length_map] at hl
  rw [hl]
  congr 1
  unfold rowsOf
  rw [List.length_range']

theorem mergeDedupTimestampWithLongIndexAsc_length_witness :
    ((rowsOf 0 2).map (tsArray [10, 10, 30])).Pairwise (fun a b => a ≤ b) ∧
    ((rowsOf 0 2).map (indexArray [⟨10, 0⟩, ⟨10, 1⟩, ⟨25, 2⟩])).Pairwise
      (fun a b => a.ts ≤ b.ts) ∧
    (∃ out, Java_io_questdb_std_Vect_mergeDedupTimestampWithLongIndexAsc (tsArray [10, 10, 30])
        0 2 (indexArray [⟨10, 0⟩, ⟨10, 1⟩, ⟨25, 2⟩]) 0 2 = some ((out.length : Int), out) ∧
      out.length = ((2 : Int) + 1 - (0 : Nat)).toNat +
        (((rowsOf 0 2).map (indexArray [⟨10, 0⟩, ⟨10, 1⟩, ⟨25, 2⟩])).filter
          (fun e => e.ts ∉ (rowsOf 0 2).map (tsArray [10, 10, 30]))).length ∧
      out.Perm ((rowsOf 0 2).map (expectedRow (tsArray [10, 10, 30])
          ((rowsOf 0 2).map (indexArray [⟨10, 0⟩, ⟨10, 1⟩, ⟨25, 2⟩]))) ++
        ((rowsOf 0 2).map (indexArray [⟨10, 0⟩, ⟨10, 1⟩, ⟨25, 2⟩])).filter
          (fun e => e.ts ∉ (rowsOf 0 2).map (tsArray [10, 10, 30])))) ∧
    Java_io_questdb_std_Vect_mergeDedupTimestampWithLongIndexAsc (tsArray [10, 10, 30])
        0 2 (indexArray [⟨10, 0⟩, ⟨10, 1⟩, ⟨25, 2⟩]) 0 2 =
      some (4, [⟨10, 1⟩, ⟨10, 1⟩, ⟨25, 2⟩, ⟨30, tag63 2⟩]) :=
  ⟨by decide, by decide,
    mergeDedupTimestampWithLongIndexAsc_length (tsArray [10, 10, 30]) 0 2
      (indexArray [⟨10, 0⟩, ⟨10, 1⟩, ⟨25, 2⟩]) 0 2 (by decide) (by decide),
    by decide⟩

theorem dedup_sorted_timestamp_index_run (mem : Mem) (index_in index_out : Nat) (count : Int)
    (hsorted : (mem.slice index_in 0 count.toNat).Pairwise (fun a b => a.ts ≤ b.ts)) :
    (dedup_sorted_timestamp_index mem index_in count index_out).1 =
        ((lastOfRuns (mem.slice index_in 0 count.toNat)).length : Int) ∧
      (dedup_sorted_timestamp_index mem index_in count index_out).2.slice index_out 0
          (lastOfRuns (mem.slice index_in 0 count.toNat)).length =
        lastOfRuns (mem.slice index_in 0 count.toNat) := by
  unfold dedup_sorted_timestamp_index
  by_cases hc : count > 0
  · rw [if_pos hc]
    obtain ⟨n, hn⟩ : ∃ n, count.toNat = n + 1 := ⟨count.toNat - 1, by omega⟩
    rw [hn] at hsorted ⊢
    obtain ⟨mem', w, h1, h2, h3, h4, h5⟩ :=
      dedup_sorted_timestamp_index_loop_spec index_in index_out n 1 mem 0 (Nat.le_refl _)
        (by omega) (by
          intro k _ hk
          have := Mem.slice_pairwise mem index_in 0 (n + 1) _ hsorted k (k + 1) (by omega)
            (by omega)
          simpa using this)
    simp only [Nat.add_sub_cancel, Nat.sub_self, Nat.zero_add, Nat.add_sub_cancel_left]
      at h1 h2 h3 h4 h5
    simp only [Nat.add_sub_cancel]
    rw [h1]
    simp only []
    rw [h2]
    constructor
    · simp
    · rw [List.length_append, List.length_singleton, Mem.slice_snoc]
      congr 1
      · refine Eq.trans ?_ h3
        apply Mem.slice_congr
        intro k hk
        apply Mem.write_ne
        omega
      · rw [Nat.zero_add, Mem.write_eq, h5 index_in n (by omega)]
  · rw [if_neg hc]
    have : count.toNat = 0 := by omega
    rw [this]
    simp [Mem.slice_zero, lastOfRuns]

theorem lastOfKeyRuns_zero :
    ∀ (rest : List index_t) (h p : index_t), h.ts = p.ts →
      (p :: rest).Pairwise (fun a b => a.ts ≤ b.ts) →
      lastOfKeyRuns (fun _ _ => 0) h p rest = lastOfRuns (p :: rest) := by
  intro rest
  induction rest with
  | nil =>
    intro h p _ _
    rfl
  | cons x r ih =>
    intro h p hhp hs
    have hpx : p.ts ≤ x.ts := (List.pairwise_cons.1 hs).1 x (List.mem_cons_self _ _)
    have hs' := (List.pairwise_cons.1 hs).2
    unfold lastOfKeyRuns lastOfRuns
    by_cases c : x.ts > h.ts
    · rw [if_pos (Or.inl c), if_neg (by omega), ih x x rfl hs']
    · rw [if_neg (by
        rintro (c1 | c1)
        · exact c c1
        · exact c1 rfl), if_pos (by omega), ih h x (by omega) hs']

theorem inducedBy_zero : InducedBy (fun _ _ => 0) (fun _ => (0 : Nat)) (fun _ => (0 : Nat)) := by
  intro p r
  constructor <;> constructor <;> intro h <;> simp at h

theorem sortKey_const_le_iff (a b : index_t) :
    sortKey (fun _ => (0 : Nat)) a ≤ sortKey (fun _ => (0 : Nat)) b ↔ a.ts ≤ b.ts := by
  unfold sortKey
  rw [Prod.Lex.le_iff]
  simp only [le_refl, and_true]
  omega

/-- Claim C23 (with the comparator that always returns 0 the key-aware dedup is the no-key
dedup).  For every timestamp-non-decreasing input `index_src[0 .. count)` with a repeated
timestamp and a scratch buffer other than the input and the output buffer,
`dedup_sorted_timestamp_index_with_keys` with the comparator `fun _ _ => 0` returns the count
that `dedup_sorted_timestamp_index` returns on the same input, and the entries it writes to
its output buffer are the entries that `dedup_sorted_timestamp_index` writes to its own. -/
theorem dedup_with_keys_zero_comparator (mem : Mem) (index_src : Nat) (count : Int)
    (index_dest index_tmp index_out : Nat)
    (h1 : index_tmp ≠ index_src) (h2 : index_tmp ≠ index_dest)
    (hsorted : (mem.slice index_src 0 count.toNat).Pairwise (fun a b => a.ts ≤ b.ts))
    (hrep : ∃ j k, j < k ∧ k < count.toNat ∧ (mem index_src j).ts = (mem index_src k).ts) :
    ∃ (n : Nat) (mem' : Mem),
      dedup_sorted_timestamp_index_with_keys (fun _ _ => 0) mem index_src count index_dest
        index_tmp = some ((n : Int), mem') ∧
      (dedup_sorted_timestamp_index mem index_src count index_out).1 = (n : Int) ∧
      mem'.slice index_dest 0 n =
        (dedup_sorted_timestamp_index mem index_src count index_out).2.slice index_out 0 n := by
  obtain ⟨g1, g2⟩ := dedup_sorted_timestamp_index_run mem index_src index_out count hsorted
  rcases dedup_with_keys_run (fun _ _ => 0) (fun _ => (0 : Nat)) mem index_src count index_dest
    index_tmp inducedBy_zero h1 h2 hsorted with ⟨_, hp⟩ | ⟨_, n, mem', e1, e2, e3⟩
  · obtain ⟨j, k, hjk, hk, e⟩ := hrep
    have := Mem.slice_pairwise _ _ _ _ _ hp j k hjk hk
    simp only [Nat.zero_add] at this
    exact absurd e this
  · -- the no-key survivors are strictly sorted and hold the last entry of every timestamp
    have hnk : (lastOfRuns (mem.slice index_src 0 count.toNat)).Pairwise
          (fun a b => sortKey (fun _ => (0 : Nat)) a < sortKey (fun _ => (0 : Nat)) b) ∧
        ∀ v, (lastOfRuns (mem.slice index_src 0 count.toNat)).filter
            (fun x => sortKey (fun _ => (0 : Nat)) x = v) =
          ((mem.slice index_src 0 count.toNat).filter
            (fun x => sortKey (fun _ => (0 : Nat)) x = v)).getLast?.toList := by
      have hκ : (mem.slice index_src 0 count.toNat).Pairwise
          (fun a b => sortKey (fun _ => (0 : Nat)) a ≤ sortKey (fun _ => (0 : Nat)) b) :=
        hsorted.imp (fun h => (sortKey_const_le_iff _ _).2 h)
      match hx : mem.slice index_src 0 count.toNat with
      | [] =>
        constructor
        · simp [lastOfRuns]
        · intro v
          simp [lastOfRuns]
      | x0 :: rest =>
        rw [hx] at hκ hsorted
        rw [← lastOfKeyRuns_zero rest x0 x0 rfl hsorted]
        exact ⟨lastOfKeyRuns_strict _ _ inducedBy_zero rest x0 x0 rfl hκ,
          fun v => lastOfKeyRuns_filter _ _ inducedBy_zero v rest x0 x0 rfl hκ⟩
    have heq : mem'.slice index_dest 0 n = lastOfRuns (mem.slice index_src 0 count.toNat) := by
      apply strict_eq_of_filter_eq (fun _ => (0 : Nat)) _ _ e2 hnk.1
      intro v
      rw [e3 v, ← hnk.2 v, getLast_toList_of_length_le_one _
        (filter_class_length_le_one _ _ hnk.1 v)]
    have hlen := congrArg List.length heq
    rw [Mem.length_slice] at hlen
    refine ⟨n, mem', e1, ?_, ?_⟩
    · rw [g1, hlen]
    · rw [heq, hlen]
      exact g2.symm

theorem dedup_with_keys_zero_comparator_witness :
    ((memOf [⟨1, 0⟩, ⟨1, 1⟩, ⟨1, 2⟩, ⟨2, 3⟩, ⟨2, 4⟩]).slice 0 0 (5 : Int).toNat).Pairwise
      (fun a b => a.ts ≤ b.ts) ∧
    (∃ (n : Nat) (mem' : Mem),
      dedup_sorted_timestamp_index_with_keys (fun _ _ => 0)
        (memOf [⟨1, 0⟩, ⟨1, 1⟩, ⟨1, 2⟩, ⟨2, 3⟩, ⟨2, 4⟩]) 0 5 1 2 = some ((n : Int), mem') ∧
      (dedup_sorted_timestamp_index (memOf [⟨1, 0⟩, ⟨1, 1⟩, ⟨1, 2⟩, ⟨2, 3⟩, ⟨2, 4⟩]) 0 5 3).1 =
        (n : Int) ∧
      mem'.slice 1 0 n =
        (dedup_sorted_timestamp_index (memOf [⟨1, 0⟩, ⟨1, 1⟩, ⟨1, 2⟩, ⟨2, 3⟩, ⟨2, 4⟩]) 0 5
          3).2.slice 3 0 n) ∧
    (dedup_sorted_timestamp_index_with_keys (fun _ _ => 0)
        (memOf [⟨1, 0⟩, ⟨1, 1⟩, ⟨1, 2⟩, ⟨2, 3⟩, ⟨2, 4⟩]) 0 5 1 2).map
      (fun res => (res.1, res.2.slice 1 0 2)) = some (2, [⟨1, 2⟩, ⟨2, 4⟩]) ∧
    ((dedup_sorted_timestamp_index (memOf [⟨1, 0⟩, ⟨1, 1⟩, ⟨1, 2⟩, ⟨2, 3⟩, ⟨2, 4⟩]) 0 5 3).1,
      (dedup_sorted_timestamp_index (memOf [⟨1, 0⟩, ⟨1, 1⟩, ⟨1, 2⟩, ⟨2, 3⟩, ⟨2, 4⟩]) 0 5
        3).2.slice 3 0 2) = (2, [⟨1, 2⟩, ⟨2, 4⟩]) :=
  ⟨by decide,
    dedup_with_keys_zero_comparator (memOf [⟨1, 0⟩, ⟨1, 1⟩, ⟨1, 2⟩, ⟨2, 3⟩, ⟨2, 4⟩]) 0 5 1 2 3
      (by decide) (by decide) (by decide) ⟨0, 1, by decide, by decide, by decide⟩,
    by decide, by decide⟩

theorem conflict_src_loop_checked_eq (compare : Nat → Nat → Int) (src : Nat → Nat)
    (index : Nat → index_t) (ip len T : Nat) (hlen : 1 ≤ len) :
    ∀ (n sp : Nat) (dest : List index_t) (used : List Bool), used.length = len →
      conflict_src_loop_checked compare src index ip len T n sp dest used =
        conflict_src_loop compare src index ip len T n sp dest used := by
  intro n
  induction n with
  | zero => intro sp dest used _; rfl
  | succ n ih =>
    intro sp dest used hu
    unfold conflict_src_loop_checked conflict_src_loop
    by_cases hT : src sp = T
    · rw [if_pos hT, if_pos hT]
      obtain ⟨r, hr1, hr2⟩ := branch_free_search_sound compare sp (fun k => index (ip + k)) len
        hlen
      rw [hr1]
      simp only []
      by_cases hr : r > -1
      · rw [if_pos hr, if_pos hr]
        have hrlt : r.toNat < used.length := by
          rcases hr2 with hr2 | hr2
          · omega
          · rw [hu]; exact hr2.2.1
        rw [if_pos hrlt]
        exact ih _ _ _ (by rw [List.length_set]; exact hu)
      · rw [if_neg hr, if_neg hr]
        exact ih _ _ _ hu
    · rw [if_neg hT, if_neg hT]

theorem conflict_unmatched_loop_checked_eq (index : Nat → index_t) (ip : Nat)
    (used : List Bool) :
    ∀ (n i_pos : Nat) (dest : List index_t), ip ≤ i_pos → i_pos + n ≤ ip + used.length →
      conflict_unmatched_loop_checked index ip used n i_pos dest =
        some (conflict_unmatched_loop index ip used n i_pos dest) := by
  intro n
  induction n with
  | zero => intro i_pos dest _ _; rfl
  | succ n ih =>
    intro i_pos dest h1 h2
    unfold conflict_unmatched_loop_checked conflict_unmatched_loop
    rw [if_pos (by omega)]
    by_cases h : ¬ used.getD (i_pos - ip) false = true
    · rw [if_pos h, if_pos h]
      exact ih _ _ (by omega) (by omega)
    · rw [if_neg h, if_neg h]
      exact ih _ _ (by omega) (by omega)

theorem band_with_keys_checked_eq (compare : Nat → Nat → Int) (src : Nat → Nat)
    (src_hi_incl : Int) (index : Nat → index_t) (index_hi_incl : Int) (sp ip : Nat)
    (dest : List index_t) (h2 : (ip : Int) ≤ index_hi_incl) (hT : src sp = (index ip).ts) :
    band_with_keys_checked compare src src_hi_incl index index_hi_incl sp ip dest =
      band_with_keys compare src src_hi_incl index index_hi_incl sp ip dest := by
  obtain ⟨n, hn⟩ : ∃ n, (index_hi_incl + 1 - ip).toNat = n + 1 :=
    ⟨(index_hi_incl + 1 - ip).toNat - 1, by omega⟩
  have e5 : ip < conflict_end_loop index (src sp) (n + 1) ip := by
    unfold conflict_end_loop
    rw [if_pos hT.symm]
    exact Nat.lt_of_lt_of_le (Nat.lt_succ_self _)
      (conflict_end_loop_spec index (src sp) n (ip + 1)).1
  unfold band_with_keys_checked band_with_keys
  simp only [hn]
  generalize conflict_end_loop index (src sp) (n + 1) ip = ip1 at e5
  rw [conflict_src_loop_checked_eq compare src index ip (ip1 - ip) (src sp) (by omega) _ _ _ _
    (List.length_replicate _ _)]
  obtain ⟨sp1, used1, r1, _, _, _, _, r6, _⟩ := conflict_src_loop_spec compare src index ip
    (ip1 - ip) (src sp) (by omega) (src_hi_incl + 1 - sp).toNat sp dest
    (List.replicate (ip1 - ip) false) (List.length_replicate _ _)
  rw [r1]
  simp only []
  rw [conflict_unmatched_loop_checked_eq index ip used1 _ _ _ (Nat.le_refl _) (by omega)]

theorem merge_skel_congr
    (f g : Nat → Nat → List index_t → Option (Nat × Nat × List index_t))
    (src : Nat → Nat) (src_hi_incl : Int) (index : Nat → index_t) (index_hi_incl : Int)
    (hfg : ∀ (sp ip : Nat) (dest : List index_t), (sp : Int) ≤ src_hi_incl →
      (ip : Int) ≤ index_hi_incl → src sp = (index ip).ts → f sp ip dest = g sp ip dest) :
    ∀ (fuel sp ip : Nat) (dest : List index_t),
      merge_skel f src src_hi_incl index index_hi_incl fuel sp ip dest =
        merge_skel g src src_hi_incl index index_hi_incl fuel sp ip dest := by
  intro fuel
  induction fuel with
  | zero => intro sp ip dest; rfl
  | succ fuel ih =>
    intro sp ip dest
    unfold merge_skel
    by_cases hg : (sp : Int) ≤ src_hi_incl ∧ (ip : Int) ≤ index_hi_incl
    · rw [if_pos hg, if_pos hg]
      by_cases hl : src sp < (index ip).ts
      · rw [if_pos hl, if_pos hl]
        exact ih _ _ _
      · rw [if_neg hl, if_neg hl]
        by_cases hgr : src sp > (index ip).ts
        · rw [if_pos hgr, if_pos hgr]
          exact ih _ _ _
        · rw [if_neg hgr, if_neg hgr, hfg sp ip dest hg.1 hg.2 (by omega)]
          cases g sp ip dest with
          | none => rfl
          | some v => exact ih _ _ _
    · rw [if_neg hg, if_neg hg]

theorem bandSegment_length_bounds (compare : Nat → Nat → Int) (src : Nat → Nat)
    (index : Nat → index_t) (sp sp1 ip ip1 : Nat) :
    sp1 - sp ≤ (bandSegment compare src index sp sp1 ip ip1).length ∧
      (bandSegment compare src index sp sp1 ip ip1).length ≤ (sp1 - sp) + (ip1 - ip) := by
  unfold bandSegment
  rw [List.length_append, List.length_map, List.length_map, List.length_range']
  have h := List.length_filter_le (fun k => !(List.range' sp (sp1 - sp)).any
    (fun p => matchOf compare index ip (ip1 - ip) p == some (k - ip))) (List.range' ip (ip1 - ip))
  rw [List.length_range'] at h
  omega

theorem merge_keys_count_run (compare : Nat → Nat → Int) (src : Nat → Nat) (src_lo : Nat)
    (src_hi_incl : Int) (index : Nat → index_t) (index_lo : Nat) (index_hi_incl : Int) :
    ∀ (fuel sp ip : Nat) (dest : List index_t), src_lo ≤ sp → index_lo ≤ ip →
      (sp : Int) ≤ max (src_lo : Int) (src_hi_incl + 1) →
      (ip : Int) ≤ max (index_lo : Int) (index_hi_incl + 1) →
      (src_hi_incl + 1 - sp).toNat + (index_hi_incl + 1 - ip).toNat ≤ fuel →
      sp - src_lo ≤ dest.length → dest.length ≤ (sp - src_lo) + (ip - index_lo) →
      ∃ sp' ip' dest', merge_skel (band_with_keys compare src src_hi_incl index index_hi_incl)
          src src_hi_incl index index_hi_incl fuel sp ip dest = some (sp', ip', dest') ∧
        sp' - src_lo ≤ dest'.length ∧ dest'.length ≤ (sp' - src_lo) + (ip' - index_lo) ∧
        src_lo ≤ sp' ∧ index_lo ≤ ip' ∧ (sp' : Int) ≤ max (src_lo : Int) (src_hi_incl + 1) ∧
        (ip' : Int) ≤ max (index_lo : Int) (index_hi_incl + 1) ∧
        ¬ ((sp' : Int) ≤ src_hi_incl ∧ (ip' : Int) ≤ index_hi_incl) := by
  intro fuel
  induction fuel with
  | zero =>
    intro sp ip dest h1 h2 h3 h4 hf hq1 hq2
    have hg : ¬ ((sp : Int) ≤ src_hi_incl ∧ (ip : Int) ≤ index_hi_incl) := by
      intro hg; omega
    unfold merge_skel
    rw [if_neg hg]
    exact ⟨sp, ip, dest, rfl, hq1, hq2, h1, h2, h3, h4, hg⟩
  | succ fuel ih =>
    intro sp ip dest h1 h2 h3 h4 hf hq1 hq2
    unfold merge_skel
    by_cases hg : (sp : Int) ≤ src_hi_incl ∧ (ip : Int) ≤ index_hi_incl
    · rw [if_pos hg]
      by_cases hl : src sp < (index ip).ts
      · rw [if_pos hl]
        exact ih _ _ _ (by omega) h2 (by omega) h4 (by omega)
          (by rw [List.length_append, List.length_singleton]; omega)
          (by rw [List.length_append, List.length_singleton]; omega)
      · rw [if_neg hl]
        by_cases hgr : src sp > (index ip).ts
        · rw [if_pos hgr]
          exact ih _ _ _ h1 (by omega) h3 (by omega) (by omega)
            (by rw [List.length_append, List.length_singleton]; omega)
            (by rw [List.length_append, List.length_singleton]; omega)
        · rw [if_neg hgr]
          obtain ⟨sp1, ip1, hb1, hb2⟩ := band_with_keys_run compare src src_hi_incl index
            index_hi_incl sp ip dest hg.1 hg.2 (by omega)
          obtain ⟨b1, b2, b3, b4, _, _, _, _⟩ := hb2
          have hlen := bandSegment_length_bounds compare src index sp sp1 ip ip1
          rw [hb1]
          simp only []
          exact ih _ _ _ (by omega) (by omega) (by omega) (by omega) (by omega)
            (by rw [List.length_append]; omega) (by rw [List.length_append]; omega)
    · rw [if_neg hg]
      exact ⟨sp, ip, dest, rfl, hq1, hq2, h1, h2, h3, h4, hg⟩

theorem merge_keys_checked_eq (compare : Nat → Nat → Int) (src : Nat → Nat) (src_lo : Nat)
    (src_hi_incl : Int) (index : Nat → index_t) (index_lo : Nat) (index_hi_incl : Int) :
    merge_dedup_long_index_int_keys_checked compare src src_lo src_hi_incl index index_lo
        index_hi_incl =
      merge_dedup_long_index_int_keys compare src src_lo src_hi_incl index index_lo
        index_hi_incl := by
  unfold merge_dedup_long_index_int_keys_checked merge_dedup_long_index_int_keys
  rw [merge_dedup_long_index_int_keys_loop_eq,
    merge_skel_congr (band_with_keys_checked compare src src_hi_incl index index_hi_incl)
      (band_with_keys compare src src_hi_incl index index_hi_incl) src src_hi_incl index
      index_hi_incl
      (fun sp ip dest _ h2 hT => band_with_keys_checked_eq compare src src_hi_incl index
        index_hi_incl sp ip dest h2 hT)]

theorem conflict_src_loop_checked_detects :
    conflict_src_loop_checked (fun _ _ => 0) (fun _ => 7) (fun k => ⟨7, k⟩) 0 1 7 1 0 [] [] =
      none := by
  decide

theorem conflict_unmatched_loop_checked_detects :
    conflict_unmatched_loop_checked (fun k => ⟨7, k⟩) 0 [true] 2 0 [] = none := by
  decide

theorem merge_keys_bounds_unsorted_example :
    merge_dedup_long_index_int_keys (fun p i => if p < i then 1 else -1)
        (fun p => [5, 3, 5, 5].getD p 0) 0 3
        (fun k => [(⟨5, 2⟩ : index_t), ⟨5, 0⟩, ⟨3, 1⟩, ⟨9, 4⟩].getD k ⟨0, 0⟩) 0 3 =
      some (8, [⟨5, tag63 0⟩, ⟨5, 2⟩, ⟨5, 0⟩, ⟨3, tag63 1⟩, ⟨3, 1⟩, ⟨5, tag63 2⟩, ⟨5, tag63 3⟩,
        ⟨9, 4⟩]) ∧
    merge_dedup_long_index_int_keys_checked (fun p i => if p < i then 1 else -1)
        (fun p => [5, 3, 5, 5].getD p 0) 0 3
        (fun k => [(⟨5, 2⟩ : index_t), ⟨5, 0⟩, ⟨3, 1⟩, ⟨9, 4⟩].getD k ⟨0, 0⟩) 0 3 =
      some (8, [⟨5, tag63 0⟩, ⟨5, 2⟩, ⟨5, 0⟩, ⟨3, tag63 1⟩, ⟨3, 1⟩, ⟨5, tag63 2⟩, ⟨5, tag63 3⟩,
        ⟨9, 4⟩]) := by
  decide

/-- Claim C22 (destination bound of the key-aware merge-dedup): for every input, sorted or
not, every comparator and every pair of ranges, `merge_dedup_long_index_int_keys` returns a
count `n` together with exactly the `n` entries it wrote, `n` lies between the number of
persisted rows and that number plus the number of index entries, and the run in which every
access to the per-band bitmap is checked against the band length gives the same result, so
no access falls outside the bitmap. -/
theorem merge_dedup_long_index_int_keys_bounds (compare : Nat → Nat → Int) (src : Nat → Nat)
    (src_lo : Nat) (src_hi_incl : Int) (index : Nat → index_t) (index_lo : Nat)
    (index_hi_incl : Int) :
    ∃ out : List index_t,
      merge_dedup_long_index_int_keys compare src src_lo src_hi_incl index index_lo
          index_hi_incl = some ((out.length : Int), out) ∧
      (src_hi_incl + 1 - src_lo).toNat ≤ out.length ∧
      out.length ≤ (src_hi_incl + 1 - src_lo).toNat + (index_hi_incl + 1 - index_lo).toNat ∧
      merge_dedup_long_index_int_keys_checked compare src src_lo src_hi_incl index index_lo
          index_hi_incl = some ((out.length : Int), out) := by
  obtain ⟨sp, ip, dest, hrun, q1, q2, b1, b2, b3, b4, hstop⟩ :=
    merge_keys_count_run compare src src_lo src_hi_incl index index_lo index_hi_incl
      ((src_hi_incl + 1 - src_lo).toNat + (index_hi_incl + 1 - index_lo).toNat) src_lo index_lo
      [] (Nat.le_refl _) (Nat.le_refl _) (le_max_left _ _) (le_max_left _ _) (Nat.le_refl _)
      (by simp) (by simp)
  have key : ∃ out : List index_t,
      merge_dedup_long_index_int_keys compare src src_lo src_hi_incl index index_lo
          index_hi_incl = some ((out.length : Int), out) ∧
      (src_hi_incl + 1 - src_lo).toNat ≤ out.length ∧
      out.length ≤ (src_hi_incl + 1 - src_lo).toNat + (index_hi_incl + 1 - index_lo).toNat := by
    unfold merge_dedup_long_index_int_keys
    rw [merge_dedup_long_index_int_keys_loop_eq, hrun]
    simp only []
    by_cases hi : (ip : Int) ≤ index_hi_incl
    · rw [if_pos hi]
      refine ⟨_, rfl, ?_, ?_⟩
      · rw [List.length_append, List.length_map, List.length_range]
        omega
      · rw [List.length_append, List.length_map, List.length_range]
        omega
    · rw [if_neg hi]
      refine ⟨_, rfl, ?_, ?_⟩
      · rw [src_drain_loop_spec, List.length_append, List.length_map, List.length_range']
        omega
      · rw [src_drain_loop_spec, List.length_append, List.length_map, List.length_range']
        omega
  obtain ⟨out, h1, h2, h3⟩ := key
  exact ⟨out, h1, h2, h3, by rw [merge_keys_checked_eq]; exact h1⟩

end Dedup
